import Mathlib

/-!
The transaction pool and the version-3 transactions of goloop.

A shallow embedding of `service/transactionpool.go` and
`service/transaction/transaction_v3.go`.

* Byte strings are lists of byte values; Go `int64` arithmetic that can be fed
  arbitrary user values is wrapped with `wrapInt64`.
* Pool entries (`*txElement`) are heap objects shared between the list and the
  slices `Candidate` builds, so the pool carries an explicit heap `mem` indexed
  by pointers; the ordered list is the list of pointers in insertion order.
* Calls to the monitor, the waiter manager and the capacity monitor are
  recorded in an event trace.
* Library code (JSON, codec, SHA3, ECDSA recovery) and constants declared in
  files outside this development are fields of `Primitives`.
-/

namespace Goloop

/-! ## Primitive data -/

/-- Byte strings: every element stands for one byte. -/
abbrev Bytes := List Nat

/-- ASCII text as bytes. -/
def ascii (s : String) : Bytes := s.toList.map Char.toNat

/-- Two-complement wrap of an integer into the range of Go `int64`. -/
def wrapInt64 (x : Int) : Int := (x + 2 ^ 63) % 2 ^ 64 - 2 ^ 63

/-- Modelled from the spec: `common.Address`, a 20-byte body tagged as a
contract or an externally owned account (the type is declared outside the
files at hand). -/
structure Address where
  contract : Bool
  body : Bytes
deriving DecidableEq, Repr

/-- The account id used to look up the account state: `Address.ID()`. -/
def Address.ID (a : Address) : Bytes := a.body

/-- Error values returned by the transaction and pool code.  Each constructor
stands for one error site of the source. -/
inductive TxError where
  /-- `state.TimeOutError.Errorf("Timeout(...)")` -/
  | Timeout
  /-- `state.TimeOutError.Errorf("FutureTxTime(...)")` -/
  | FutureTxTime
  /-- `InvalidTxValue.Errorf("InvalidTxValue(%s)")` -/
  | InvalidTxValue
  /-- `InvalidTxValue.Wrapf(err, "InvalidData(%x)")` -/
  | InvalidData
  /-- `InvalidTxValue.Errorf("InvalidDataSize(%d)")` -/
  | InvalidDataSize
  /-- `InvalidTxValue.Errorf("TxData for call is NIL")` and the deploy twin -/
  | TxDataNil
  /-- the error of `ParseCallData` -/
  | InvalidCallData
  /-- `InvalidTxValue.Errorf("InvalidDeployData(%s)")` -/
  | InvalidDeployData
  /-- `InvalidSignatureError.Wrap(err, "FAIL to recover public key")` -/
  | FailToRecoverPublicKey
  /-- `ErrInvalidSignature` -/
  | ErrInvalidSignature
  /-- `scoreresult.ErrInvalidParameter` -/
  | ErrInvalidParameter
  /-- `scoreresult.WithStatus(err, module.StatusIllegalFormat)` -/
  | IllegalFormat
  /-- `state.NotEnoughStepError` -/
  | NotEnoughStep
  /-- `scoreresult.Errorf(module.StatusOutOfBalance, ...)` -/
  | OutOfBalance
  /-- `ExpiredTransactionError.Errorf("ExpiredTransaction(diff=%s)")` -/
  | ExpiredTransaction (diff : Int)
  /-- the future-timestamp error of the timestamp range -/
  | FutureTransaction
  /-- `errors.InvalidStateError.New("Already processed")` -/
  | AlreadyProcessed
  /-- the duplicate error of the ordered list -/
  | DuplicateTransaction
  /-- `ErrTransactionPoolOverFlow` -/
  | ErrTransactionPoolOverFlow
  /-- `ErrInvalidFormat` -/
  | ErrInvalidFormat
  /-- `InvalidVersion.Errorf("NotTxVersion3(%d)")` -/
  | InvalidVersion
  /-- `scoreresult.WithStatus(err, module.StatusIllegalFormat)` around a cause
  of this type -/
  | IllegalFormatOf (cause : TxError)
deriving DecidableEq, Repr

/-- `ExpiredTransactionError.Equals(err)`. -/
def ExpiredTransactionError.Equals : TxError → Bool
  | .ExpiredTransaction _ => true
  | _ => false

/-- `transaction.NotEnoughBalanceError.Equals(err)`.  The error class is
declared outside the files at hand; following the specification, the
out-of-balance result of `PreValidate` is the one error of this class. -/
def NotEnoughBalanceError.Equals : TxError → Bool
  | .OutOfBalance => true
  | _ => false

/-- A parsed JSON value as `json.Unmarshal` into `interface{}` yields it; a
number is kept as the `int64` it converts to, which is all the code reads. -/
inductive JSONValue where
  | null
  | bool (b : Bool)
  | number (asInt64 : Int)
  | string (s : Bytes)
  | array (xs : List JSONValue)
  | object (kvs : List (Bytes × JSONValue))

/-- The fields of `transactionV3Data`; a `nil` pointer or slice is `none`. -/
structure transactionV3Data where
  Version : Nat
  From : Address
  To : Address
  Value : Option Int
  StepLimit : Int
  TimeStamp : Int
  NID : Option Int
  Nonce : Option Int
  Signature : Bytes
  DataType : Option String
  Data : Option Bytes
deriving DecidableEq, Repr

/-- The result of decoding call data (`DataCallJSON`). -/
structure DataCallJSON where
  Method : String
  Params : Option Bytes
deriving DecidableEq, Repr

/-- The local `dataDeployJSON` of `Verify`. -/
structure dataDeployJSON where
  ContentType : String
  Content : Option Bytes
  Params : Option Bytes
deriving DecidableEq, Repr

/-- Library functions and constants the transaction code uses but does not
define. -/
structure Primitives where
  /-- `ConfigOnCheckingTimestamp` -/
  ConfigOnCheckingTimestamp : Bool
  /-- `ConfigTXTimestampBackwardMargin` -/
  ConfigTXTimestampBackwardMargin : Int
  /-- `ConfigTXTimestampForwardLimit` -/
  ConfigTXTimestampForwardLimit : Int
  /-- `ConfigTXTimestampForwardMargin` -/
  ConfigTXTimestampForwardMargin : Int
  /-- `ConfigMaxTxBytesInABlock` -/
  ConfigMaxTxBytesInABlock : Int
  /-- `module.Revision3` -/
  Revision3 : Int
  /-- `crypto.SHA3Sum256` -/
  SHA3Sum256 : Bytes → Bytes
  /-- `codec.MarshalToBytes` on the transaction data -/
  MarshalToBytes : transactionV3Data → Bytes
  /-- `Signature.RecoverPublicKey(hash)`; `none` is a recovery error -/
  RecoverPublicKey : Bytes → Bytes → Option Bytes
  /-- `common.NewAccountAddressFromPublicKey` -/
  NewAccountAddressFromPublicKey : Bytes → Address
  /-- `json.Compact`; `none` is an error -/
  jsonCompact : Bytes → Option Bytes
  /-- `json.Unmarshal` into `interface{}`; `none` is an error -/
  jsonUnmarshal : Bytes → Option JSONValue
  /-- `serializeValue`; `none` is an error -/
  serializeValue : JSONValue → Option Bytes
  /-- `json.Unmarshal` into `DataCallJSON`; `none` is an error -/
  unmarshalCall : Bytes → Option DataCallJSON
  /-- `json.Unmarshal` into `dataDeployJSON`; `none` is an error -/
  unmarshalDeploy : Bytes → Option dataDeployJSON
  /-- `common.Int64ToBytes` -/
  Int64ToBytes : Int → Bytes
  /-- `codec.UnmarshalFromBytes` into the transaction data; `none` is an error -/
  UnmarshalFromBytes : Bytes → Option transactionV3Data

/-! ## Scalar text encodings -/

/-- One lowercase hexadecimal digit. -/
def hexDigit (n : Nat) : Char :=
  if n < 10 then Char.ofNat (48 + n) else Char.ofNat (87 + n)

/-- Minimal lowercase hexadecimal digits of a natural number. -/
def hexDigits (n : Nat) : List Char := (Nat.toDigits 16 n)

/-- Modelled from the spec: `HexInt.String()`, `HexInt64.String()` and
`HexUint16.String()`: `0x` and the minimal lowercase hex of the absolute
value, preceded by `-` when negative. -/
def hexString (x : Int) : Bytes :=
  (if x < 0 then ascii "-" else []) ++ ascii "0x" ++ (hexDigits x.natAbs).map Char.toNat

/-- Modelled from the spec: `Address.String()`, the canonical hex string with
the `hx` (account) or `cx` (contract) lead. -/
def Address.String (a : Address) : Bytes :=
  ascii (if a.contract then "cx" else "hx") ++
    (a.body.flatMap fun b => [hexDigit (b / 16 % 16), hexDigit (b % 16)]).map Char.toNat

/-! ## transactionV3 -/

/-- The byte string `calcHash` accumulates in `sha` before hashing; `none` when
the data cannot be parsed or serialized. -/
def transactionV3Data.hashInput (P : Primitives) (tx : transactionV3Data) : Option Bytes :=
  let head := ascii "icx_sendTransaction"
  let data : Option Bytes :=
    match tx.Data with
    | none => some []
    | some d =>
      if d.length > 0 then
        match P.jsonUnmarshal d with
        | none => none
        | some obj =>
          match P.serializeValue obj with
          | none => none
          | some bs => some (ascii ".data." ++ bs)
      else some (ascii ".data.")
  match data with
  | none => none
  | some dataSeg =>
    some (head ++ dataSeg
      ++ (match tx.DataType with
          | some dt => ascii ".dataType." ++ ascii dt
          | none => [])
      ++ ascii ".from." ++ tx.From.String
      ++ (match tx.NID with
          | some nid => ascii ".nid." ++ hexString nid
          | none => [])
      ++ (match tx.Nonce with
          | some nonce => ascii ".nonce." ++ hexString nonce
          | none => [])
      ++ ascii ".stepLimit." ++ hexString tx.StepLimit
      ++ ascii ".timestamp." ++ hexString tx.TimeStamp
      ++ ascii ".to." ++ tx.To.String
      ++ (match tx.Value with
          | some v => ascii ".value." ++ hexString v
          | none => [])
      ++ ascii ".version." ++ hexString tx.Version)

/-- `transactionV3Data.calcHash`. -/
def transactionV3Data.calcHash (P : Primitives) (tx : transactionV3Data) : Option Bytes :=
  (tx.hashInput P).map P.SHA3Sum256

/-- The struct `transactionV3`: the data and the two memo fields. -/
structure transactionV3 where
  data : transactionV3Data
  txHash : Option Bytes
  bytes : Option Bytes
deriving DecidableEq, Repr

namespace transactionV3

/-- `Timestamp()`. -/
def Timestamp (tx : transactionV3) : Int := tx.data.TimeStamp

/-- `TxHash()`: the memo if set, else the hash, the empty string on failure. -/
def TxHash (P : Primitives) (tx : transactionV3) : Bytes :=
  match tx.txHash with
  | some h => h
  | none =>
    match tx.data.calcHash P with
    | none => []
    | some h => h

/-- `From()`. -/
def From (tx : transactionV3) : Address := tx.data.From

/-- `ID()`. -/
def ID (P : Primitives) (tx : transactionV3) : Bytes := tx.TxHash P

/-- `Bytes()`: the memo if set, else the codec output. -/
def Bytes (P : Primitives) (tx : transactionV3) : Goloop.Bytes :=
  match tx.bytes with
  | some bs => bs
  | none => P.MarshalToBytes tx.data

/-- `verifySignature()`. -/
def verifySignature (P : Primitives) (tx : transactionV3) : Option TxError :=
  match P.RecoverPublicKey tx.data.Signature (tx.TxHash P) with
  | none => some .FailToRecoverPublicKey
  | some pk =>
    if P.NewAccountAddressFromPublicKey pk = tx.From then none
    else some .ErrInvalidSignature

end transactionV3

/-- `TxHash()` with its write to the memo field: the transaction after the
call and the value returned.  The memo is `nil` (`none`) until the first call;
a failure of `calcHash` stores the empty string, which is not `nil`. -/
def transactionV3.TxHashMemo (P : Primitives) (tx : transactionV3) :
    transactionV3 × Goloop.Bytes :=
  match tx.txHash with
  | some h => (tx, h)
  | none =>
    match tx.data.calcHash P with
    | none => ({ tx with txHash := some [] }, [])
    | some h => ({ tx with txHash := some h }, h)

/-- `ID()` with the write to the memo field. -/
def transactionV3.IDMemo (P : Primitives) (tx : transactionV3) :
    transactionV3 × Goloop.Bytes :=
  tx.TxHashMemo P

/-- `txMaxDataSize`. -/
def txMaxDataSize : Nat := 512 * 1024

/-- `configCheckDataOnPreValidate`. -/
def configCheckDataOnPreValidate : Bool := false

/-- `DataTypeCall`. -/
def DataTypeCall : String := "call"

/-- `DataTypeDeploy`. -/
def DataTypeDeploy : String := "deploy"

/-- `countBytesOfData`. -/
def countBytesOfData (P : Primitives) (data : Option Bytes) : Except TxError Nat :=
  match data with
  | none => .ok 0
  | some d =>
    match P.jsonCompact d with
    | none => .error .ErrInvalidParameter
    | some b => .ok b.length

/-- `ParseCallData`: decoding must succeed with a non-empty method. -/
def ParseCallData (P : Primitives) (data : Bytes) : Except TxError DataCallJSON :=
  match P.unmarshalCall data with
  | none => .error .InvalidCallData
  | some jso => if jso.Method = "" then .error .InvalidCallData else .ok jso

/-- The timestamp guard at the head of `Verify`. -/
def verifyTimestamp (P : Primitives) (timeStamp ts : Int) : Option TxError :=
  if P.ConfigOnCheckingTimestamp then
    if ts ≠ 0 then
      let tsDiff := wrapInt64 (timeStamp - ts)
      if tsDiff ≤ wrapInt64 (-P.ConfigTXTimestampBackwardMargin) ∨
          tsDiff > P.ConfigTXTimestampForwardLimit then
        some .Timeout
      else if tsDiff > P.ConfigTXTimestampForwardMargin then
        some .FutureTxTime
      else none
    else none
  else none

/-- `transactionV3.Verify(ts)`; `none` is the `nil` error. -/
def transactionV3.Verify (P : Primitives) (tx : transactionV3) (ts : Int) : Option TxError :=
  match verifyTimestamp P tx.data.TimeStamp ts with
  | some e => some e
  | none =>
    -- value >= 0
    if tx.data.Value.any (· < 0) then some .InvalidTxValue
    else
      -- character level size of data element <= 512KB
      match countBytesOfData P tx.data.Data with
      | .error _ => some .InvalidData
      | .ok n =>
        if n > txMaxDataSize then some .InvalidDataSize
        else
          let sig := tx.verifySignature P
          match tx.data.DataType with
          | none => sig
          | some dt =>
            if dt = DataTypeCall then
              match tx.data.Data with
              | none => some .TxDataNil
              | some d =>
                -- `_, err := ParseCallData(tx.Data); return err`
                match ParseCallData P d with
                | .error e => some e
                | .ok _ => none
            else if dt = DataTypeDeploy then
              match tx.data.Data with
              | none => some .TxDataNil
              | some d =>
                match P.unmarshalDeploy d with
                | none => some .InvalidDeployData
                | some jso =>
                  if jso.ContentType = "" ∨ jso.Content = none then some .InvalidDeployData
                  else if tx.data.Value.any (· ≠ 0) then some .InvalidTxValue
                  else sig
            else sig

/-- Modelled from the spec: `module.TransactionVersion3`, the one supported
version. -/
def TransactionVersion3 : Nat := 3

/-- `transactionV3.Version()`: the constant, whatever the version field holds. -/
def transactionV3.Version (_tx : transactionV3) : Nat := TransactionVersion3

/-- `transactionV3.SetBytes(bs)`: the transaction after the call and the error
(`none` is `nil`).  A failed decoding is taken to leave the data as it was. -/
def transactionV3.SetBytes (P : Primitives) (tx : transactionV3) (bs : Goloop.Bytes) :
    transactionV3 × Option TxError :=
  match P.UnmarshalFromBytes bs with
  | none => (tx, some .ErrInvalidFormat)
  | some d =>
    if d.Version ≠ TransactionVersion3 then ({ tx with data := d }, some .InvalidVersion)
    else ({ tx with data := d, bytes := some bs }, none)

/-- The zero value `new(transactionV3)`. -/
def transactionV3.zero : transactionV3 :=
  ⟨⟨0, ⟨false, []⟩, ⟨false, []⟩, none, 0, 0, none, none, [], none, none⟩, none, none⟩

/-- `newTransactionV3FromBytes(bs)`. -/
def newTransactionV3FromBytes (P : Primitives) (bs : Bytes) : Except TxError transactionV3 :=
  match transactionV3.zero.SetBytes P bs with
  | (_, some err) => .error (.IllegalFormatOf err)
  | (tx, none) => .ok tx

/-- `newTransactionV3FromJSONObject(jso)`: the data of the JSON object is
copied as it is; the call cannot fail. -/
def newTransactionV3FromJSONObject (jso : transactionV3Data) : Except TxError transactionV3 :=
  .ok { transactionV3.zero with data := jso }

/-! ## World context and pre-validation -/

/-- `state.StepType`, the two kinds `PreValidate` asks for. -/
inductive StepType where
  | StepTypeDefault
  | StepTypeInput
deriving DecidableEq, Repr

/-- `module.TransactionGroup`. -/
inductive TransactionGroup where
  | TransactionGroupPatch
  | TransactionGroupNormal
deriving DecidableEq, Repr

/-- The part of `state.WorldContext` the pool and `PreValidate` read and
write: block data, step costs and the balance overlay of the account states.
`GetBalance` returns a fresh number, `SetBalance` stores one. -/
structure WorldContext where
  BlockTimeStamp : Int
  Revision : Int
  StepsFor : StepType → Int → Int
  StepPrice : Int
  balance : Bytes → Int
  /-- `TransactionTimestampThreshold(wc, group)` -/
  TimestampThreshold : TransactionGroup → Int

/-- `AccountState.SetBalance` on the account with the given id. -/
def WorldContext.SetBalance (wc : WorldContext) (id : Bytes) (v : Int) : WorldContext :=
  { wc with balance := fun k => if k = id then v else wc.balance k }

/-- Whether every byte is a lowercase hexadecimal digit, the loop test of
`countBytesOfDataValue`. -/
def allLowerHex (bs : Bytes) : Bool :=
  bs.all fun b => !((b < 48 || b > 57) && (b < 97 || b > 102))

mutual
/-- `countBytesOfDataValue`. -/
def countBytesOfDataValue (P : Primitives) : JSONValue → Nat
  | .string o =>
    let o := if o.length > 2 ∧ o.take 2 = ascii "0x" then o.drop 2 else o
    if allLowerHex o then (o.length + 1) / 2 else o.length
  | .array xs => countBytesOfDataValues P xs
  | .object kvs => countBytesOfDataFields P kvs
  | .bool _ => 1
  | .number n => (P.Int64ToBytes n).length
  | .null => 0
/-- The sum of `countBytesOfDataValue` over the items of an array. -/
def countBytesOfDataValues (P : Primitives) : List JSONValue → Nat
  | [] => 0
  | v :: vs => countBytesOfDataValue P v + countBytesOfDataValues P vs
/-- The sum of `countBytesOfDataValue` over the values of an object. -/
def countBytesOfDataFields (P : Primitives) : List (Bytes × JSONValue) → Nat
  | [] => 0
  | (_, v) :: kvs => countBytesOfDataValue P v + countBytesOfDataFields P kvs
end

/-- `measureBytesOfData`. -/
def measureBytesOfData (P : Primitives) (rev : Int) (data : Option Bytes) :
    Except TxError Nat :=
  match data with
  | none => .ok 0
  | some d =>
    if rev ≥ P.Revision3 then countBytesOfData P (some d)
    else
      match P.jsonUnmarshal d with
      | none => .error .IllegalFormat
      | some idata => .ok (countBytesOfDataValue P idata)

/-- The timestamp guard at the head of `PreValidate`. -/
def preValidateTimestamp (P : Primitives) (timeStamp blockTs : Int) : Option TxError :=
  if P.ConfigOnCheckingTimestamp then
    let tsDiff := wrapInt64 (timeStamp - blockTs)
    if tsDiff ≤ wrapInt64 (-P.ConfigTXTimestampBackwardMargin) ∨
        tsDiff > P.ConfigTXTimestampForwardLimit then
      some .Timeout
    else if tsDiff > P.ConfigTXTimestampForwardMargin then
      some .FutureTxTime
    else none
  else none

/-- The amount `trans` that `PreValidate` charges: `stepLimit * stepPrice`
plus the value when present. -/
def transactionV3.trans (tx : transactionV3) (stepPrice : Int) : Int :=
  tx.data.StepLimit * stepPrice + tx.data.Value.getD 0

/-- `transactionV3.PreValidate(wc, update)`: the error (`none` is `nil`) and
the world context after the call.  The data-type checkups are guarded by
`configCheckDataOnPreValidate`, which is the constant `false`. -/
def transactionV3.PreValidate (P : Primitives) (tx : transactionV3) (wc : WorldContext)
    (update : Bool) : Option TxError × WorldContext :=
  -- outdated or invalid timestamp?
  match preValidateTimestamp P tx.data.TimeStamp wc.BlockTimeStamp with
  | some e => (some e, wc)
  | none =>
    -- stepLimit >= default step + input steps
    match measureBytesOfData P wc.Revision tx.data.Data with
    | .error e => (some e, wc)
    | .ok cnt =>
      let minStep := wrapInt64 (wc.StepsFor .StepTypeDefault 1 + wc.StepsFor .StepTypeInput cnt)
      if tx.data.StepLimit < minStep then (some .NotEnoughStep, wc)
      else
        -- balance >= (fee + value)
        let trans := tx.trans wc.StepPrice
        let balance1 := wc.balance tx.From.ID
        if balance1 < trans then (some .OutOfBalance, wc)
        else if update then
          -- for cumulative balance check
          let balance2 := wc.balance tx.data.To.ID + tx.data.Value.getD 0
          let balance1 := balance1 - trans
          (none, (wc.SetBalance tx.From.ID balance1).SetBalance tx.data.To.ID balance2)
        else (none, wc)

/-! ## The ordered list of the pool -/

/-- Pointers to heap objects. -/
abbrev Ptr := Nat

/-- Modelled from the spec: `TxBloom`, a bit set over `width` bits, kept as
the list of the indices that are set. -/
structure TxBloom where
  width : Nat
  bits : List Nat
deriving DecidableEq, Repr

/-- Modelled from the spec: the four bit indices of an id, the first eight
bytes read as four little-endian 16-bit numbers modulo the bit width. -/
def TxBloom.indices (width : Nat) (id : Bytes) : List Nat :=
  (List.range 4).map fun j => (id.getD (2 * j) 0 + 256 * id.getD (2 * j + 1) 0) % width

/-- Modelled from the spec: `TxBloom.Add(id)`. -/
def TxBloom.Add (b : TxBloom) (id : Bytes) : TxBloom :=
  { b with bits := TxBloom.indices b.width id ++ b.bits }

/-- Modelled from the spec: `TxBloom.Contains(id)`. -/
def TxBloom.Contains (b : TxBloom) (id : Bytes) : Bool :=
  (TxBloom.indices b.width id).all fun i => b.bits.contains i

/-- Modelled from the spec: `TxBloom.ContainsAllOf(other)`, every set bit of
`other` is set in `b`. -/
def TxBloom.ContainsAllOf (b other : TxBloom) : Bool :=
  other.bits.all fun i => b.bits.contains i

/-- Modelled from the spec: `txBloomElement`, one segment of the bloom chain
with the number of ids added to it. -/
structure txBloomElement where
  bloom : TxBloom
  count : Nat
deriving DecidableEq, Repr

/-- The pool entry `txElement`: the transaction, the insertion time `ts`
(0 when not submitted directly), the sticky error and the bloom segment. -/
structure txElement where
  value : transactionV3
  ts : Int
  err : Option TxError
  bloom : Ptr
deriving DecidableEq, Repr

/-- The zero value of `txElement`, the content of unallocated heap cells. -/
def txElement.zero : txElement :=
  ⟨⟨⟨0, ⟨false, []⟩, ⟨false, []⟩, none, 0, 0, none, none, [], none, none⟩, none, none⟩,
    0, none, 0⟩

/-- The heap of pool entries. -/
abbrev Heap := Ptr → txElement

/-- The assignment `e.err = err`. -/
def setErr (mem : Heap) (e : Ptr) (err : TxError) : Heap :=
  fun p => if p = e then { mem e with err := some err } else mem p

/-- The guarded assignment `if e.err == nil { e.err = err }`. -/
def setErrIfNil (mem : Heap) (e : Ptr) (err : TxError) : Heap :=
  match (mem e).err with
  | none => setErr mem e err
  | some _ => mem

/-- Modelled from the spec: `transactionList`, the insertion-ordered list of
entries.  `nodes` is the linked list from front to back; the id index is read
off the nodes (the two have the same members); `blooms` is the chain of bloom
segments, the last one current; a segment is sealed once `target` ids were
added to it. -/
structure transactionList where
  nodes : List Ptr
  mem : Heap
  next : Ptr
  blooms : List txBloomElement
  target : Nat
  width : Nat

namespace transactionList

/-- Modelled from the spec: `newTransactionList()`, with the bloom parameters
made explicit. -/
def new (target width : Nat) : transactionList :=
  { nodes := [], mem := fun _ => txElement.zero, next := 0, blooms := [], target := target,
    width := width }

/-- Modelled from the spec: `Len()`. -/
def Len (l : transactionList) : Int := l.nodes.length

/-- Modelled from the spec: `HasTx(id)`, the lookup in the id index. -/
def HasTx (P : Primitives) (l : transactionList) (id : Bytes) : Bool :=
  l.nodes.any fun p => (l.mem p).value.ID P = id

/-- Modelled from the spec: the bloom chain after attaching `id`: the current
segment takes it unless it is full or missing, in which case a new segment is
started. -/
def attach (l : transactionList) (id : Bytes) : List txBloomElement :=
  match l.blooms.getLast? with
  | some cur =>
    if cur.count < l.target then
      l.blooms.dropLast ++ [⟨cur.bloom.Add id, cur.count + 1⟩]
    else l.blooms ++ [⟨(TxBloom.mk l.width []).Add id, 1⟩]
  | none => [⟨(TxBloom.mk l.width []).Add id, 1⟩]

/-- Modelled from the spec: `Add(tx, direct)`: a duplicate id is refused,
otherwise a new node is appended with `ts = now` if direct and `0` if not, and
attached to the current bloom segment. -/
def Add (P : Primitives) (now : Int) (l : transactionList) (tx : transactionV3)
    (direct : Bool) : transactionList × Option TxError :=
  if l.HasTx P (tx.ID P) then (l, some .DuplicateTransaction)
  else
    let blooms := l.attach (tx.ID P)
    let e : txElement := ⟨tx, if direct then now else 0, none, blooms.length - 1⟩
    ({ l with
        nodes := l.nodes ++ [l.next],
        mem := fun p => if p = l.next then e else l.mem p,
        next := l.next + 1,
        blooms := blooms }, none)

/-- Modelled from the spec: `Remove(node)`: unlinks the node and tells whether
it was linked. -/
def Remove (l : transactionList) (e : Ptr) : transactionList × Bool :=
  ({ l with nodes := l.nodes.filter fun p => p ≠ e }, l.nodes.contains e)

/-- Modelled from the spec: `RemoveTx(tx)`: looks the id up in the id index and
removes the node found; yields whether a node was removed and its insertion
time. -/
def RemoveTx (P : Primitives) (l : transactionList) (tx : transactionV3) :
    transactionList × Bool × Int :=
  match l.nodes.find? fun p => decide ((l.mem p).value.ID P = tx.ID P) with
  | some e => ((l.Remove e).1, (l.Remove e).2, (l.mem e).ts)
  | none => (l, false, 0)

/-- The bloom filter of the segment a pointer refers to, `e.bloom.bloom`. -/
def segmentBloom (l : transactionList) (seg : Ptr) : TxBloom :=
  ((l.blooms.get? seg).map fun b => b.bloom).getD ⟨l.width, []⟩

/-- Allocation discipline of the heap: every linked node was allocated, that
is, lies below the next free pointer. -/
def WF (l : transactionList) : Prop := ∀ p ∈ l.nodes, p < l.next

end transactionList

/-! ## The pool -/

/-- `configDefaultTxSliceCapacity`. -/
def configDefaultTxSliceCapacity : Int := 1024

/-- `configMaxTxCount`. -/
def configMaxTxCount : Int := 1500

/-- Calls made to `Monitor`, `TxWaiterManager` and `PoolCapacityMonitor`. -/
inductive Event where
  | OnDropTx (n : Nat) (user : Bool)
  | OnAddTx (n : Nat) (user : Bool)
  | OnRemoveTx (n : Nat) (user : Bool)
  | OnCommit (id : Bytes) (ts : Int) (d : Int)
  | OnTxDrop (id : Bytes) (err : TxError)
  | OnPoolCapacityUpdated (group : TransactionGroup) (size used : Int)
deriving DecidableEq, Repr

/-- The interface `db.Bucket` as the pool uses it: `Get` returns the stored
value (`none` is `nil`) or fails. -/
structure Bucket where
  Get : Bytes → Except Unit (Option Bytes)

/-- The test `v, err := txdb.Get(id); err == nil && v != nil`. -/
def Bucket.Has (b : Bucket) (id : Bytes) : Bool :=
  match b.Get id with
  | .ok (some _) => true
  | _ => false

/-- The struct `TransactionPool` with the trace of the calls to its observers. -/
structure TransactionPool where
  group : TransactionGroup
  size : Int
  txdb : Bucket
  list : transactionList
  events : List Event

/-- Modelled from the spec: `TxTimestampRange`, built from the world context
and a group. -/
structure TxTimestampRange where
  blockTs : Int
  threshold : Int
  forwardMargin : Int
deriving DecidableEq, Repr

/-- Modelled from the spec: `NewTxTimestampRangeFor(wc, group)`. -/
def NewTxTimestampRangeFor (P : Primitives) (wc : WorldContext) (group : TransactionGroup) :
    TxTimestampRange :=
  ⟨wc.BlockTimeStamp, wc.TimestampThreshold group, P.ConfigTXTimestampForwardMargin⟩

/-- Modelled from the spec: `CheckTx(tx)`: expired below `blockTs - threshold`,
future above `blockTs + forwardMargin`, else `nil`. -/
def TxTimestampRange.CheckTx (r : TxTimestampRange) (tx : transactionV3) : Option TxError :=
  if tx.Timestamp < r.blockTs - r.threshold then
    some (.ExpiredTransaction (r.blockTs - r.threshold - tx.Timestamp))
  else if tx.Timestamp > r.blockTs + r.forwardMargin then some .FutureTransaction
  else none

namespace TransactionPool

/-- `NewTransactionPool`, with the parameters of the list made explicit. -/
def NewTransactionPool (group : TransactionGroup) (size : Int) (txdb : Bucket)
    (target width : Nat) : TransactionPool :=
  { group := group, size := size, txdb := txdb, list := transactionList.new target width,
    events := [] }

/-- `Size()`. -/
def Size (tp : TransactionPool) : Int := tp.size

/-- `Used()`. -/
def Used (tp : TransactionPool) : Int := tp.list.Len

/-- The entries of the pool from front to back. -/
def entries (tp : TransactionPool) : List txElement := tp.list.nodes.map tp.list.mem

/-- The loop of `RemoveOldTXs` over the nodes from the front. -/
def removeOldLoop (P : Primitives) (bts : Int) : List Ptr → TransactionPool → TransactionPool
  | [], tp => tp
  | iter :: rest, tp =>
    let tx := (tp.list.mem iter).value
    if tx.Timestamp ≤ bts then
      let removed := (tp.list.Remove iter).1
      let direct := decide ((tp.list.mem iter).ts ≠ 0)
      let expired := TxError.ExpiredTransaction (wrapInt64 (bts - tx.Timestamp))
      let mem := setErrIfNil removed.mem iter expired
      let err := ((tp.list.mem iter).err).getD expired
      removeOldLoop P bts rest
        { tp with
          list := { removed with mem := mem },
          events := tp.events ++
            [.OnTxDrop (tx.ID P) err, .OnDropTx (tx.Bytes P).length direct] }
    else removeOldLoop P bts rest tp

/-- `RemoveOldTXs(bts)`. -/
def RemoveOldTXs (P : Primitives) (tp : TransactionPool) (bts : Int) : TransactionPool :=
  let tp := removeOldLoop P bts tp.list.nodes tp
  { tp with events := tp.events ++ [.OnPoolCapacityUpdated tp.group tp.size tp.list.Len] }

/-- `Add(tx, direct)`; a `nil` transaction is `none`, `now` is the clock the
list reads for a direct submission. -/
def Add (P : Primitives) (now : Int) (tp : TransactionPool) (tx : Option transactionV3)
    (direct : Bool) : TransactionPool × Option TxError :=
  match tx with
  | none => (tp, none)
  | some tx =>
    if tp.list.Len ≥ tp.size then (tp, some .ErrTransactionPoolOverFlow)
    else
      match tp.list.Add P now tx direct with
      | (l, none) =>
        ({ tp with
            list := l,
            events := tp.events ++
              [.OnAddTx (tx.Bytes P).length direct,
               .OnPoolCapacityUpdated tp.group tp.size l.Len] }, none)
      | (l, some err) => ({ tp with list := l }, some err)

/-- `removeTransactions(txs)`; `none` is the panic "No reason to drop the tx". -/
def removeTransactions (P : Primitives) : List Ptr → TransactionPool → Option TransactionPool
  | [], tp => some tp
  | e :: es, tp =>
    if (tp.list.Remove e).2 then
      let tx := (tp.list.mem e).value
      let direct := decide ((tp.list.mem e).ts ≠ 0)
      match (tp.list.mem e).err with
      | none => none
      | some err =>
        removeTransactions P es
          { tp with
            list := (tp.list.Remove e).1,
            events := tp.events ++
              [.OnTxDrop (tx.ID P) err, .OnDropTx (tx.Bytes P).length direct] }
    else removeTransactions P es tp

/-- The variables of the selection loop of `Candidate`: the heap, the slices
`txs` and `expired`, and `txSize`. -/
structure Selection where
  mem : Heap
  txs : List Ptr
  expired : List Ptr
  txSize : Int

/-- The selection loop of `Candidate`, run under the lock from the front of
the list with the limits already defaulted. -/
def selectLoop (P : Primitives) (tsr : TxTimestampRange) (maxBytes maxCount : Int) :
    List Ptr → Selection → Selection
  | [], st => st
  | e :: rest, st =>
    if st.txSize < maxBytes ∧ (st.txs.length : Int) < maxCount then
      let tx := (st.mem e).value
      match tsr.CheckTx tx with
      | some err =>
        if ExpiredTransactionError.Equals err then
          selectLoop P tsr maxBytes maxCount rest
            { st with mem := setErrIfNil st.mem e err, expired := st.expired ++ [e] }
        else selectLoop P tsr maxBytes maxCount rest st
      | none =>
        let bs := tx.Bytes P
        if st.txSize + bs.length > maxBytes then st
        else
          selectLoop P tsr maxBytes maxCount rest
            { st with txSize := st.txSize + bs.length, txs := st.txs ++ [e] }
    else st

/-- The variables of the validation loop of `Candidate`: the slice `txs`
(compacted in place), `invalidNum`, `validTxs[:valNum]`, `txSize`, the heap
and the world context. -/
structure Validation where
  txs : List Ptr
  invalidNum : Nat
  validTxs : List transactionV3
  txSize : Int
  mem : Heap
  wc : WorldContext

/-- One iteration of the validation loop for the element `e`. -/
def validateStep (P : Primitives) (txdb : Bucket) (e : Ptr) (st : Validation) : Validation :=
  let tx := (st.mem e).value
  if txdb.Has (tx.ID P) then
    { st with
      mem := setErr st.mem e .AlreadyProcessed,
      txs := st.txs.set st.invalidNum e,
      invalidNum := st.invalidNum + 1 }
  else
    match tx.PreValidate P st.wc true with
    | (some err, wc) =>
      -- If returned error is critical(not usable in the future)
      -- then it should removed from the pool
      -- Otherwise, it remains in the pool
      let mem := setErrIfNil st.mem e err
      if !NotEnoughBalanceError.Equals err then
        { st with
          mem := mem, wc := wc,
          txs := st.txs.set st.invalidNum e,
          invalidNum := st.invalidNum + 1 }
      else { st with mem := mem, wc := wc }
    | (none, wc) =>
      { st with
        wc := wc,
        validTxs := st.validTxs ++ [tx],
        txSize := st.txSize + (tx.Bytes P).length }

/-- The validation loop `for _, e := range txs`: `n` iterations are left and
`i` is the index read next. -/
def validateLoop (P : Primitives) (txdb : Bucket) : Nat → Nat → Validation → Validation
  | 0, _, st => st
  | n + 1, i, st =>
    match st.txs[i]? with
    | none => st
    | some e => validateLoop P txdb n (i + 1) (validateStep P txdb e st)

/-- What `Candidate` yields: the returned transactions and size, the pool and
the world context after the call, and the slice handed to the spawned
`removeTransactions` (empty when none is spawned). -/
structure CandidateResult where
  txs : List transactionV3
  size : Int
  pool : TransactionPool
  wc : WorldContext
  remove : List Ptr

/-- The effective byte limit of `Candidate`. -/
def effMaxBytes (P : Primitives) (maxBytes : Int) : Int :=
  if maxBytes ≤ 0 then P.ConfigMaxTxBytesInABlock else maxBytes

/-- The effective count limit of `Candidate`. -/
def effMaxCount (maxCount : Int) : Int :=
  if maxCount ≤ 0 then configMaxTxCount else maxCount

/-- The selection phase of `Candidate` on a pool. -/
def selectPhase (P : Primitives) (tp : TransactionPool) (wc : WorldContext)
    (maxBytes maxCount : Int) : Selection :=
  selectLoop P (NewTxTimestampRangeFor P wc tp.group) (effMaxBytes P maxBytes)
    (effMaxCount maxCount) tp.list.nodes ⟨tp.list.mem, [], [], 0⟩

/-- The validation phase of `Candidate` on the outcome of the selection. -/
def validatePhase (P : Primitives) (tp : TransactionPool) (wc : WorldContext)
    (sel : Selection) : Validation :=
  validateLoop P tp.txdb sel.txs.length 0 ⟨sel.txs, 0, [], 0, sel.mem, wc⟩

/-- `Candidate(wc, maxBytes, maxCount)`. -/
def Candidate (P : Primitives) (tp : TransactionPool) (wc : WorldContext)
    (maxBytes maxCount : Int) : CandidateResult :=
  if tp.list.Len = 0 then ⟨[], 0, tp, wc, []⟩
  else
    let sel := selectPhase P tp wc maxBytes maxCount
    -- make list of valid transactions
    let val := validatePhase P tp wc sel
    let txs := if sel.expired.length > 0 then val.txs.take val.invalidNum ++ sel.expired
      else val.txs
    let invalidNum := if sel.expired.length > 0 then val.invalidNum + sel.expired.length
      else val.invalidNum
    { txs := val.validTxs,
      size := val.txSize,
      pool := { tp with list := { tp.list with mem := val.mem } },
      wc := val.wc,
      remove := if invalidNum > 0 then txs.take invalidNum else [] }

end TransactionPool

/-! ## Further operations of the pool -/

/-- The interface `module.TransactionList` as `RemoveList` uses it: what the
iterator yields position by position (`none` is a `Get` that fails) and the
hash of the list. -/
structure moduleTransactionList where
  items : List (Option transactionV3)
  Hash : Bytes

namespace TransactionPool

/-- `CheckTxs(wc)`. -/
def CheckTxs (tp : TransactionPool) (wc : WorldContext) : Bool :=
  if tp.list.Len = 0 then false
  else
    let t := wrapInt64 (wc.BlockTimeStamp - wc.TimestampThreshold tp.group)
    tp.list.nodes.any fun e => decide ((tp.list.mem e).value.Timestamp > t)

/-- The variables of the loop of `RemoveList`: the pool, `duration` and
`count`. -/
structure Removal where
  pool : TransactionPool
  duration : Int
  count : Int

/-- `t.Sub(u)` of the library `time` for clock readings in nanoseconds: the
difference as a `time.Duration`, an `int64`, which is the largest or the
smallest duration when the difference does not fit. -/
def timeSub (t u : Int) : Int :=
  if t - u < -2 ^ 63 then -2 ^ 63
  else if 2 ^ 63 - 1 < t - u then 2 ^ 63 - 1
  else t - u

/-- The loop of `RemoveList` over what the iterator yields; `now` is the clock
reading in nanoseconds, `now.Sub(time.Unix(0, ts))` is `timeSub now ts`, and
`duration +=` wraps as an `int64`. -/
def removeListLoop (P : Primitives) (now : Int) : List (Option transactionV3) → Removal → Removal
  | [], st => st
  | none :: rest, st => removeListLoop P now rest st
  | some t :: rest, st =>
    match st.pool.list.RemoveTx P t with
    | (l, true, ts) =>
      removeListLoop P now rest
        { pool := { st.pool with
                    list := l,
                    events := st.pool.events ++ [.OnRemoveTx (t.Bytes P).length (decide (ts ≠ 0))] },
          duration := if ts ≠ 0 then wrapInt64 (st.duration + timeSub now ts) else st.duration,
          count := if ts ≠ 0 then st.count + 1 else st.count }
    | (_, false, _) => removeListLoop P now rest st

/-- `RemoveList(txs)`; the quotient of durations truncates toward zero. -/
def RemoveList (P : Primitives) (now : Int) (tp : TransactionPool)
    (txs : moduleTransactionList) : TransactionPool :=
  if tp.list.Len = 0 then tp
  else
    let st := removeListLoop P now txs.items ⟨tp, 0, 0⟩
    if st.count > 0 then
      { st.pool with
        events := st.pool.events ++
          [.OnPoolCapacityUpdated st.pool.group st.pool.size st.pool.list.Len,
           .OnCommit txs.Hash now (Int.tdiv st.duration st.count)] }
    else st.pool

/-- The variables of the loop of `FilterTransactions`. -/
structure Filtering where
  mem : Heap
  txs : List transactionV3
  invalids : List Ptr
  working : Option Ptr
  skip : Option Ptr

/-- The part of the loop body of `FilterTransactions` after the segment
test. -/
def filterEntry (P : Primitives) (txdb : Bucket) (bloom : TxBloom) (e : Ptr)
    (st : Filtering) : Filtering :=
  let tx := (st.mem e).value
  let id := tx.ID P
  if !bloom.Contains id then
    if txdb.Has id then
      { st with mem := setErr st.mem e .AlreadyProcessed, invalids := st.invalids ++ [e] }
    else { st with txs := st.txs ++ [tx] }
  else st

/-- The loop of `FilterTransactions` over the nodes from the front. -/
def filterLoop (P : Primitives) (txdb : Bucket) (l : transactionList) (bloom : TxBloom)
    (max : Int) : List Ptr → Filtering → Filtering
  | [], st => st
  | e :: rest, st =>
    if (st.txs.length : Int) < max then
      let seg := (st.mem e).bloom
      if st.working ≠ some seg then
        if some seg = st.skip then filterLoop P txdb l bloom max rest st
        else if bloom.ContainsAllOf (l.segmentBloom seg) then
          filterLoop P txdb l bloom max rest { st with skip := some seg }
        else
          filterLoop P txdb l bloom max rest
            (filterEntry P txdb bloom e { st with working := some seg })
      else filterLoop P txdb l bloom max rest (filterEntry P txdb bloom e st)
    else st

/-- What `FilterTransactions` yields: the returned transactions, the pool after
the call and the slice handed to the spawned `removeTransactions`. -/
structure FilterResult where
  txs : List transactionV3
  pool : TransactionPool
  remove : List Ptr

/-- `FilterTransactions(bloom, max)`; `none` is the panic of `make` on a
negative capacity. -/
def FilterTransactions (P : Primitives) (tp : TransactionPool) (bloom : TxBloom)
    (max : Int) : Option FilterResult :=
  if max < 0 then none
  else
    let st := filterLoop P tp.txdb tp.list bloom max tp.list.nodes
      ⟨tp.list.mem, [], [], none, none⟩
    some { txs := st.txs,
           pool := { tp with list := { tp.list with mem := st.mem } },
           remove := st.invalids }

end TransactionPool

/-! ## Proof views of the loops of `Candidate` -/

namespace TransactionPool

/-- The variables of the validation loop seen without the slice bookkeeping:
`invalid` is the compacted head `txs[0:invalidNum]`. -/
structure Validated where
  invalid : List Ptr
  validTxs : List transactionV3
  txSize : Int
  mem : Heap
  wc : WorldContext

/-- The view of a state of the validation loop. -/
def Validation.view (st : Validation) : Validated :=
  ⟨st.txs.take st.invalidNum, st.validTxs, st.txSize, st.mem, st.wc⟩

/-- One iteration of the validation loop on the view. -/
def validateElem (P : Primitives) (txdb : Bucket) (e : Ptr) (a : Validated) : Validated :=
  let tx := (a.mem e).value
  if txdb.Has (tx.ID P) then
    { a with mem := setErr a.mem e .AlreadyProcessed, invalid := a.invalid ++ [e] }
  else
    match tx.PreValidate P a.wc true with
    | (some err, wc) =>
      if !NotEnoughBalanceError.Equals err then
        { a with mem := setErrIfNil a.mem e err, wc := wc, invalid := a.invalid ++ [e] }
      else { a with mem := setErrIfNil a.mem e err, wc := wc }
    | (none, wc) =>
      { a with
        wc := wc,
        validTxs := a.validTxs ++ [tx],
        txSize := a.txSize + (tx.Bytes P).length }

/-- The validation loop on the view, over the elements still to be read. -/
def validateAll (P : Primitives) (txdb : Bucket) : List Ptr → Validated → Validated
  | [], a => a
  | e :: es, a => validateAll P txdb es (validateElem P txdb e a)

/-- The view at the start of the validation phase. -/
def validateInit (sel : Selection) (wc : WorldContext) : Validated :=
  ⟨[], [], 0, sel.mem, wc⟩

/-- The total encoded size of the transactions of a list of entries. -/
def bytesSum (P : Primitives) (mem : Heap) (l : List Ptr) : Int :=
  (l.map fun e => (((mem e).value.Bytes P).length : Int)).sum

/-- The selection the claim describes: from a list of admissible entries the
longest head that stays within the count limit and the byte limit, with
`used` bytes and `cnt` entries already taken. -/
def takeFitting (size : Ptr → Nat) (maxBytes maxCount : Int) :
    List Ptr → Int → Nat → List Ptr
  | [], _, _ => []
  | e :: es, used, cnt =>
    if (cnt : Int) < maxCount ∧ used + size e ≤ maxBytes then
      e :: takeFitting size maxBytes maxCount es (used + size e) (cnt + 1)
    else []

/-- The entries of a pool that pass the timestamp range check. -/
def admissible (tsr : TxTimestampRange) (mem : Heap) (l : List Ptr) : List Ptr :=
  l.filter fun e => (tsr.CheckTx (mem e).value).isNone

/-- The amount charged to the account `S` by the transactions of a list that
`S` sent: the sum of `stepLimit * stepPrice + value`. -/
def chargedTo (S : Bytes) (stepPrice : Int) (txs : List transactionV3) : Int :=
  ((txs.filter fun tx => decide (tx.From.ID = S)).map fun tx => tx.trans stepPrice).sum

/-- The pool invariant kept by the duplicate check of `Add`: the linked
entries have pairwise different ids. -/
def UniqueIds (P : Primitives) (l : transactionList) : Prop :=
  l.nodes.Pairwise fun p q => (l.mem p).value.ID P ≠ (l.mem q).value.ID P

end TransactionPool

/-! ## The canonical hash input as the specification words it -/

/-- One segment `.<field>.<value>`. -/
def segment (field : String) (value : Bytes) : Bytes :=
  ascii "." ++ ascii field ++ ascii "." ++ value

/-- The segment of an optional field: emitted when the field is present. -/
def optionalSegment (field : String) (value : Option Bytes) : Bytes :=
  match value with
  | some v => segment field v
  | none => []

/-- The text of the data field in its segment: empty for empty data, else the
serialization of the parsed value; `none` when parsing or serializing fails. -/
def dataValue (P : Primitives) (d : Bytes) : Option Bytes :=
  if d.length > 0 then (P.jsonUnmarshal d).bind P.serializeValue else some []

/-- The hash input in the words of the specification: the lead
`icx_sendTransaction` and the segments in the fixed order data, dataType,
from, nid, nonce, stepLimit, timestamp, to, value, version, those of the
optional fields only when present; `data` is the text of the data segment when
the data field is present. -/
def canonicalInput (data : Option Bytes) (tx : transactionV3Data) : Bytes :=
  ascii "icx_sendTransaction"
    ++ optionalSegment "data" data
    ++ optionalSegment "dataType" (tx.DataType.map ascii)
    ++ segment "from" tx.From.String
    ++ optionalSegment "nid" (tx.NID.map hexString)
    ++ optionalSegment "nonce" (tx.Nonce.map hexString)
    ++ segment "stepLimit" (hexString tx.StepLimit)
    ++ segment "timestamp" (hexString tx.TimeStamp)
    ++ segment "to" tx.To.String
    ++ optionalSegment "value" (tx.Value.map hexString)
    ++ segment "version" (hexString tx.Version)

/-! ## Proof views of `RemoveList` -/

/-- The ids of the transactions the iterator of a finalized list yields. -/
def moduleTransactionList.ids (P : Primitives) (txs : moduleTransactionList) : List Bytes :=
  txs.items.filterMap fun o => o.map fun t => t.ID P

namespace TransactionPool

/-- The entries of a pool that were submitted directly and whose id is among
`ids`. -/
def directListed (P : Primitives) (tp : TransactionPool) (ids : List Bytes) : List txElement :=
  tp.entries.filter fun e => ids.contains (e.value.ID P) && decide (e.ts ≠ 0)

/-- The calls to `Monitor.OnCommit` in a trace. -/
def commits (evs : List Event) : List Event :=
  evs.filter fun ev =>
    match ev with
    | .OnCommit _ _ _ => true
    | _ => false

end TransactionPool

/-! ## The forward cache -/

/-- `MaxTrials`. -/
def MaxTrials : Nat := 5

/-- `CacheConfig`. -/
structure CacheConfig where
  MaxWorkers : Int
  MaxBlocks : Int
  MaxTPS : Int
deriving DecidableEq, Repr

/-- `defaultCacheConfig`; `MaxTPS` has the zero value. -/
def defaultCacheConfig : CacheConfig :=
  { MaxBlocks := 32, MaxWorkers := 8, MaxTPS := 0 }

/-- The interface `blockv0.Block` as the cache reads it: `Height()` and the
ids of `NormalTransactions()`. -/
structure Block where
  Height : Int
  NormalTransactions : List Bytes
deriving DecidableEq, Repr

/-- The interface `module.Receipt`; the cache only passes receipts on. -/
structure Receipt where
  data : Bytes
deriving DecidableEq, Repr

/-- An error value returned by the store. -/
structure StoreError where
  code : Nat
deriving DecidableEq, Repr

/-- `blockTask`; the channel is known by its pointer. -/
structure blockTask where
  height : Int
  chn : Ptr
deriving DecidableEq, Repr

/-- `receiptTask`; the channel is known by its pointer. -/
structure receiptTask where
  id : Bytes
  chn : Ptr
deriving DecidableEq, Repr

/-- The interface `task` with its two implementations. -/
inductive task where
  | block (t : blockTask)
  | receipt (t : receiptTask)
deriving DecidableEq, Repr

/-- The read `v, ok := m[k]` of a Go map kept as the list of its entries. -/
def mapGet {κ β : Type} [DecidableEq κ] (m : List (κ × β)) (k : κ) : Option β :=
  (m.find? fun kv => decide (kv.1 = k)).map Prod.snd

/-- The statement `delete(m, k)`. -/
def mapDelete {κ β : Type} [DecidableEq κ] (m : List (κ × β)) (k : κ) : List (κ × β) :=
  m.filter fun kv => decide (kv.1 ≠ k)

/-- The assignment `m[k] = v`. -/
def mapSet {κ β : Type} [DecidableEq κ] (m : List (κ × β)) (k : κ) (v : β) : List (κ × β) :=
  mapDelete m k ++ [(k, v)]

/-- The struct `ForwardCache`: the worker counter, the configuration, the
queue `tasks` from front to back and the two maps, with the number of channels
made so far (the pointer of the next one) and the number of `workLoop`
goroutines started so far. -/
structure ForwardCache where
  workers : Int
  config : CacheConfig
  tasks : List task
  blockInfo : List (Int × blockTask)
  receiptInfo : List (Bytes × receiptTask)
  chans : Ptr
  spawned : Nat
deriving DecidableEq, Repr

/-- `NewForwardCache(store, logger, config)`; a `nil` configuration is
`none`. -/
def NewForwardCache (config : Option CacheConfig) : ForwardCache :=
  { workers := 0, config := config.getD defaultCacheConfig, tasks := [], blockInfo := [],
    receiptInfo := [], chans := 0, spawned := 0 }

namespace ForwardCache

/-- The closure `fetchTask` of `workLoop`: with an empty queue the worker
counter is decremented and `nil` returned, otherwise the front task is
removed and returned. -/
def fetchTask (cs : ForwardCache) : ForwardCache × Option task :=
  match cs.tasks with
  | [] => ({ cs with workers := cs.workers - 1 }, none)
  | e :: rest => ({ cs with tasks := rest }, some e)

/-- `getBlockTask(height)`. -/
def getBlockTask (cs : ForwardCache) (height : Int) : ForwardCache × Option blockTask :=
  match mapGet cs.blockInfo height with
  | some t => ({ cs with blockInfo := mapDelete cs.blockInfo height }, some t)
  | none => (cs, none)

/-- `getReceiptTask(id)`. -/
def getReceiptTask (cs : ForwardCache) (id : Bytes) : ForwardCache × Option receiptTask :=
  match mapGet cs.receiptInfo id with
  | some rt => ({ cs with receiptInfo := mapDelete cs.receiptInfo id }, some rt)
  | none => (cs, none)

/-- `addWorkerInLock()`. -/
def addWorkerInLock (cs : ForwardCache) : ForwardCache :=
  if cs.workers < cs.config.MaxWorkers then
    { cs with workers := cs.workers + 1, spawned := cs.spawned + 1 }
  else cs

/-- `scheduleReceiptInLock(id)`. -/
def scheduleReceiptInLock (cs : ForwardCache) (id : Bytes) : ForwardCache :=
  match mapGet cs.receiptInfo id with
  | none =>
    let t : receiptTask := { id := id, chn := cs.chans }
    addWorkerInLock
      { cs with
        chans := cs.chans + 1,
        tasks := cs.tasks ++ [.receipt t],
        receiptInfo := mapSet cs.receiptInfo id t }
  | some _ => cs

/-- `scheduleBlockInLock(height)`. -/
def scheduleBlockInLock (cs : ForwardCache) (height : Int) : ForwardCache :=
  match mapGet cs.blockInfo height with
  | none =>
    let t : blockTask := { height := height, chn := cs.chans }
    addWorkerInLock
      { cs with
        chans := cs.chans + 1,
        tasks := cs.tasks ++ [.block t],
        blockInfo := mapSet cs.blockInfo height t }
  | some _ => cs

/-- The loop `for _, tx := range txs` of `scheduleFollowings`. -/
def scheduleReceipts : List Bytes → ForwardCache → ForwardCache
  | [], cs => cs
  | id :: rest, cs => scheduleReceipts rest (cs.scheduleReceiptInLock id)

/-- The loop `for h := ...; len(cs.blockInfo) < cs.config.MaxBlocks; h += 1`
of `scheduleFollowings`, with `h` an `int64`; `none` when the iterations
allowed by `fuel` do not reach the end of the loop. -/
def heightLoop : Nat → Int → ForwardCache → Option ForwardCache
  | 0, _, cs =>
    if (cs.blockInfo.length : Int) < cs.config.MaxBlocks then none else some cs
  | fuel + 1, h, cs =>
    if (cs.blockInfo.length : Int) < cs.config.MaxBlocks then
      heightLoop fuel (wrapInt64 (h + 1)) (cs.scheduleBlockInLock h)
    else some cs

/-- `scheduleFollowings(b)`. -/
def scheduleFollowings (fuel : Nat) (cs : ForwardCache) (b : Block) : Option ForwardCache :=
  heightLoop fuel (wrapInt64 (b.Height + 1)) (scheduleReceipts b.NormalTransactions cs)

end ForwardCache

/-- What a call of the cache hands back to its caller: the result, the number
of calls made to the store on the thread of the caller, and the cache afterwards. -/
structure Fetched (α : Type) where
  result : Except StoreError α
  calls : Nat
  cache : ForwardCache

namespace ForwardCache

/-- The loop of `doGetBlockByHeight`: `store k` is the outcome of the call
number `k` (from 0) that this invocation makes to `Store.GetBlockByHeight`,
`trial` and `calls` are the counters at the head of the loop.  The waits on
the regulator and before a retry pass time only. -/
def doGetBlockLoop (sfuel : Nat) (store : Nat → Except StoreError Block) :
    Nat → Nat → Nat → ForwardCache → Option (Fetched Block)
  | 0, _, _, _ => none
  | fuel + 1, trial, calls, cs =>
    match store calls with
    | .ok block =>
      (cs.scheduleFollowings sfuel block).map fun cs => ⟨.ok block, calls + 1, cs⟩
    | .error err =>
      if trial + 1 ≥ MaxTrials then some ⟨.error err, calls + 1, cs⟩
      else doGetBlockLoop sfuel store fuel (trial + 1) (calls + 1) cs

/-- `doGetBlockByHeight(height)`; `fuel` bounds the iterations of each loop. -/
def doGetBlockByHeight (fuel : Nat) (store : Nat → Except StoreError Block)
    (_height : Int) (cs : ForwardCache) : Option (Fetched Block) :=
  doGetBlockLoop fuel store fuel 0 0 cs

/-- The loop of `doGetReceipt`. -/
def doGetReceiptLoop (store : Nat → Except StoreError Receipt) :
    Nat → Nat → Nat → ForwardCache → Option (Fetched Receipt)
  | 0, _, _, _ => none
  | fuel + 1, trial, calls, cs =>
    match store calls with
    | .ok rct => some ⟨.ok rct, calls + 1, cs⟩
    | .error err =>
      if trial + 1 ≥ MaxTrials then some ⟨.error err, calls + 1, cs⟩
      else doGetReceiptLoop store fuel (trial + 1) (calls + 1) cs

/-- `doGetReceipt(id)`. -/
def doGetReceipt (fuel : Nat) (store : Nat → Except StoreError Receipt)
    (_id : Bytes) (cs : ForwardCache) : Option (Fetched Receipt) :=
  doGetReceiptLoop store fuel 0 0 cs

/-- `GetBlockByHeight(height)`: `recv` is what the channel of a detached task
delivers.  The only senders are the `Do` methods, which send an error or a
block, so the branch `default` of the type switch is not taken. -/
def GetBlockByHeight (fuel : Nat) (store : Nat → Except StoreError Block)
    (recv : blockTask → Except StoreError Block) (height : Int) (cs : ForwardCache) :
    Option (Fetched Block) :=
  match cs.getBlockTask height with
  | (cs, some bt) =>
    match recv bt with
    | .ok obj => (cs.scheduleFollowings fuel obj).map fun cs => ⟨.ok obj, 0, cs⟩
    | .error obj => some ⟨.error obj, 0, cs⟩
  | (cs, none) => cs.doGetBlockByHeight fuel store height

/-- `GetReceipt(id)`. -/
def GetReceipt (fuel : Nat) (store : Nat → Except StoreError Receipt)
    (recv : receiptTask → Except StoreError Receipt) (id : Bytes) (cs : ForwardCache) :
    Option (Fetched Receipt) :=
  match cs.getReceiptTask id with
  | (cs, some rt) =>
    match recv rt with
    | .ok obj => some ⟨.ok obj, 0, cs⟩
    | .error obj => some ⟨.error obj, 0, cs⟩
  | (cs, none) => cs.doGetReceipt fuel store id

end ForwardCache

/-- `blockTask.Do(cs)`: the value sent on the channel of the task and the
cache afterwards. -/
def blockTask.Do (fuel : Nat) (store : Nat → Except StoreError Block) (t : blockTask)
    (cs : ForwardCache) : Option (Except StoreError Block × ForwardCache) :=
  (cs.doGetBlockByHeight fuel store t.height).map fun r => (r.result, r.cache)

/-- `receiptTask.Do(cs)`. -/
def receiptTask.Do (fuel : Nat) (store : Nat → Except StoreError Receipt) (t : receiptTask)
    (cs : ForwardCache) : Option (Except StoreError Receipt × ForwardCache) :=
  (cs.doGetReceipt fuel store t.id).map fun r => (r.result, r.cache)

/-- The cache together with the threads that use it: the `workLoop`
goroutines that are about to call `fetchTask` (`idle`), the tasks whose `Do`
is running on a worker, the heights and ids that consumers fetch on their own
thread after a miss, the tasks that consumers have detached and wait for, and
the values sent on channels and not yet received. -/
structure CacheSystem where
  cache : ForwardCache
  idle : Nat
  running : List task
  directBlocks : List Int
  directReceipts : List Bytes
  awaitedBlocks : List blockTask
  awaitedReceipts : List receiptTask
  sentBlocks : List (blockTask × Except StoreError Block)
  sentReceipts : List (receiptTask × Except StoreError Receipt)

/-- The steps of the threads; each is one critical section of the cache, with
the thread-local work around it.  A step that runs a loop carries the
outcomes of its store calls and the fuel. -/
inductive CacheAction where
  | getBlockTask (height : Int)
  | directBlock (height : Int) (store : Nat → Except StoreError Block) (fuel : Nat)
  | receiveBlock (bt : blockTask) (fuel : Nat)
  | getReceiptTask (id : Bytes)
  | directReceipt (id : Bytes) (store : Nat → Except StoreError Receipt) (fuel : Nat)
  | receiveReceipt (rt : receiptTask)
  | fetchTask
  | blockDone (t : blockTask) (store : Nat → Except StoreError Block) (fuel : Nat)
  | receiptDone (t : receiptTask) (store : Nat → Except StoreError Receipt) (fuel : Nat)

namespace CacheSystem

/-- The system of a new cache: no thread has touched it. -/
def init (config : Option CacheConfig) : CacheSystem :=
  { cache := NewForwardCache config, idle := 0, running := [], directBlocks := [],
    directReceipts := [], awaitedBlocks := [], awaitedReceipts := [], sentBlocks := [],
    sentReceipts := [] }

/-- The cache is replaced by the outcome of a critical section; every
`go cs.workLoop()` executed in it starts a worker. -/
def withCache (s : CacheSystem) (cs : ForwardCache) : CacheSystem :=
  { s with cache := cs, idle := s.idle + (cs.spawned - s.cache.spawned) }

/-- One step of a thread; `none` when the thread is not at that point or the
fuel of the step does not suffice.
* `getBlockTask`: a consumer enters `GetBlockByHeight` and runs `getBlockTask`;
  on a hit it waits for the task, on a miss it goes on to fetch directly.
* `directBlock`: the `doGetBlockByHeight` of a consumer after a miss.
* `receiveBlock`: a consumer receives from the channel of the task it waits
  for and, for a block, runs `scheduleFollowings`.
* `fetchTask`: a worker at the head of `workLoop` runs `fetchTask`; it exits on
  `nil` and starts `Do` of the task otherwise.
* `blockDone`, `receiptDone`: the `Do` of a running task ends with the send on
  its channel. -/
def step (s : CacheSystem) : CacheAction → Option CacheSystem
  | .getBlockTask height =>
    match s.cache.getBlockTask height with
    | (cs, some bt) => some { s with cache := cs, awaitedBlocks := bt :: s.awaitedBlocks }
    | (cs, none) => some { s with cache := cs, directBlocks := height :: s.directBlocks }
  | .directBlock height store fuel =>
    if height ∈ s.directBlocks then
      (s.cache.doGetBlockByHeight fuel store height).map fun r =>
        { s.withCache r.cache with directBlocks := s.directBlocks.erase height }
    else none
  | .receiveBlock bt fuel =>
    if bt ∈ s.awaitedBlocks then
      match mapGet s.sentBlocks bt with
      | some (.ok obj) =>
        (s.cache.scheduleFollowings fuel obj).map fun cs =>
          { s.withCache cs with
            awaitedBlocks := s.awaitedBlocks.erase bt,
            sentBlocks := mapDelete s.sentBlocks bt }
      | some (.error _) =>
        some { s with
               awaitedBlocks := s.awaitedBlocks.erase bt,
               sentBlocks := mapDelete s.sentBlocks bt }
      | none => none
    else none
  | .getReceiptTask id =>
    match s.cache.getReceiptTask id with
    | (cs, some rt) => some { s with cache := cs, awaitedReceipts := rt :: s.awaitedReceipts }
    | (cs, none) => some { s with cache := cs, directReceipts := id :: s.directReceipts }
  | .directReceipt id store fuel =>
    if id ∈ s.directReceipts then
      (s.cache.doGetReceipt fuel store id).map fun r =>
        { s.withCache r.cache with directReceipts := s.directReceipts.erase id }
    else none
  | .receiveReceipt rt =>
    if rt ∈ s.awaitedReceipts then
      match mapGet s.sentReceipts rt with
      | some _ =>
        some { s with
               awaitedReceipts := s.awaitedReceipts.erase rt,
               sentReceipts := mapDelete s.sentReceipts rt }
      | none => none
    else none
  | .fetchTask =>
    match s.idle with
    | 0 => none
    | idle + 1 =>
      match s.cache.fetchTask with
      | (cs, none) => some { s with cache := cs, idle := idle }
      | (cs, some t) => some { s with cache := cs, idle := idle, running := t :: s.running }
  | .blockDone t store fuel =>
    if task.block t ∈ s.running then
      (t.Do fuel store s.cache).map fun r =>
        { s.withCache r.2 with
          idle := (s.withCache r.2).idle + 1,
          running := s.running.erase (.block t),
          sentBlocks := s.sentBlocks ++ [(t, r.1)] }
    else none
  | .receiptDone t store fuel =>
    if task.receipt t ∈ s.running then
      (t.Do fuel store s.cache).map fun r =>
        { s.withCache r.2 with
          idle := (s.withCache r.2).idle + 1,
          running := s.running.erase (.receipt t),
          sentReceipts := s.sentReceipts ++ [(t, r.1)] }
    else none

/-- The state after a sequence of steps, if each of them can be taken. -/
def run : List CacheAction → CacheSystem → Option CacheSystem
  | [], s => some s
  | a :: rest, s => (s.step a).bind (run rest)

/-- The fetches of block `height` that are queued or in flight: the tasks for
it in the queue and on workers, and the direct fetches of consumers. -/
def blockFetches (s : CacheSystem) (height : Int) : Nat :=
  ((s.cache.tasks ++ s.running).filter fun t =>
      match t with
      | .block bt => decide (bt.height = height)
      | .receipt _ => false).length
    + s.directBlocks.count height

/-- The fetches of receipt `id` that are queued or in flight. -/
def receiptFetches (s : CacheSystem) (id : Bytes) : Nat :=
  ((s.cache.tasks ++ s.running).filter fun t =>
      match t with
      | .block _ => false
      | .receipt rt => decide (rt.id = id)).length
    + s.directReceipts.count id

/-- The queued or running tasks that fetch block `height` and are registered
in `blockInfo`, that is, not yet detached by a consumer. -/
def registeredBlockFetches (s : CacheSystem) (height : Int) : List task :=
  (s.cache.tasks ++ s.running).filter fun t =>
    match t with
    | .block bt => decide (bt.height = height ∧ mapGet s.cache.blockInfo height = some bt)
    | .receipt _ => false

/-- The queued or running tasks that fetch receipt `id` and are registered in
`receiptInfo`. -/
def registeredReceiptFetches (s : CacheSystem) (id : Bytes) : List task :=
  (s.cache.tasks ++ s.running).filter fun t =>
    match t with
    | .block _ => false
    | .receipt rt => decide (rt.id = id ∧ mapGet s.cache.receiptInfo id = some rt)

end CacheSystem

/-! ## Proof views of the forward cache -/

namespace ForwardCache

/-- The keys of `blockInfo`. -/
def heights (cs : ForwardCache) : List Int := cs.blockInfo.map Prod.fst

/-- The keys of `receiptInfo`. -/
def receiptIds (cs : ForwardCache) : List Bytes := cs.receiptInfo.map Prod.fst

/-- A bound on the iterations the height loop makes from height `h`: the
entries missing to `MaxBlocks` and the keys of `blockInfo` from `h` upward. -/
def heightBudget (cs : ForwardCache) (h : Int) : Nat :=
  (cs.config.MaxBlocks - cs.blockInfo.length).toNat
    + (cs.blockInfo.filter fun kv => decide (h ≤ kv.1)).length

/-- A bound on the iterations the height loop still makes at height `h` after
`i` iterations, wrap-around of `h` included: the entries missing to
`MaxBlocks` and the keys of `blockInfo` that the loop has not stepped past,
which are the keys less than `2 ^ 64 - i` steps ahead of `h` on the circle of
`int64` values. -/
def wrapBudget (cs : ForwardCache) (h : Int) (i : Nat) : Nat :=
  (cs.config.MaxBlocks - cs.blockInfo.length).toNat
    + (cs.blockInfo.filter fun kv =>
        decide ((kv.1 - h) % 2 ^ 64 + (i : Int) < 2 ^ 64)).length

end ForwardCache

/-- The channel of a task. -/
def task.chn : task → Ptr
  | .block t => t.chn
  | .receipt t => t.chn

namespace ForwardCache

/-- The relation between a cache and a later state of it in which workers
were only added: the configuration is the same, and the worker counter has
grown by the number of goroutines started, without passing `MaxWorkers` if it
was not above it. -/
def Grows (cs cs' : ForwardCache) : Prop :=
  cs'.config = cs.config
    ∧ cs.spawned ≤ cs'.spawned
    ∧ cs'.workers = cs.workers + ((cs'.spawned - cs.spawned : Nat) : Int)
    ∧ (cs.workers ≤ cs.config.MaxWorkers → cs'.workers ≤ cs.config.MaxWorkers)

/-- The allocation discipline of channels, for a cache and the tasks that
workers are running: the queued and the running tasks have pairwise different
channels, all made before. -/
def FreshChannels (cs : ForwardCache) (running : List task) : Prop :=
  ((cs.tasks ++ running).map task.chn).Nodup
    ∧ ∀ t ∈ cs.tasks ++ running, t.chn < cs.chans

end ForwardCache

namespace CacheSystem

/-- The worker counter counts the live workers, those about to fetch a task
and those running one, and is at most `MaxWorkers`. -/
def Accounted (s : CacheSystem) : Prop :=
  s.cache.workers = ((s.idle + s.running.length : Nat) : Int)
    ∧ s.cache.workers ≤ s.cache.config.MaxWorkers

end CacheSystem

/-! ## The slices of `Candidate`, the plain scan and the calls of the pool -/

namespace TransactionPool

/-- The slice of invalid elements as the claim words it: the selected
elements found in `txdb` or whose `PreValidate` fails with an error other than
`NotEnoughBalance`, in selection order; each element is validated in the world
context left by the validation of those before it. -/
def rejected (P : Primitives) (txdb : Bucket) (mem : Heap) : List Ptr → WorldContext → List Ptr
  | [], _ => []
  | e :: es, wc =>
    if txdb.Has ((mem e).value.ID P) then e :: rejected P txdb mem es wc
    else
      match (mem e).value.PreValidate P wc true with
      | (some err, wc') =>
        if NotEnoughBalanceError.Equals err then rejected P txdb mem es wc'
        else e :: rejected P txdb mem es wc'
      | (none, wc') => rejected P txdb mem es wc'

/-- The selected elements whose transaction is returned as valid: those not
found in `txdb` whose `PreValidate` succeeds. -/
def accepted (P : Primitives) (txdb : Bucket) (mem : Heap) : List Ptr → WorldContext → List Ptr
  | [], _ => []
  | e :: es, wc =>
    if txdb.Has ((mem e).value.ID P) then accepted P txdb mem es wc
    else
      match (mem e).value.PreValidate P wc true with
      | (some _, wc') => accepted P txdb mem es wc'
      | (none, wc') => e :: accepted P txdb mem es wc'

/-- The scan of `FilterTransactions` as the claim words it, without the
segment test: every entry is examined until `max` transactions are
collected. -/
def plainLoop (P : Primitives) (txdb : Bucket) (bloom : TxBloom) (max : Int) :
    List Ptr → Filtering → Filtering
  | [], st => st
  | e :: rest, st =>
    if (st.txs.length : Int) < max then
      plainLoop P txdb bloom max rest (filterEntry P txdb bloom e st)
    else st

/-- The result of `FilterTransactions` as the claim words it: the first `max`
transactions, in list order, whose id is neither in the peer bloom nor in
`txdb`. -/
def firstMissing (P : Primitives) (tp : TransactionPool) (bloom : TxBloom) (max : Int) :
    List transactionV3 :=
  ((tp.list.nodes.map fun e => (tp.list.mem e).value).filter fun tx =>
    !bloom.Contains (tx.ID P) && !tp.txdb.Has (tx.ID P)).take max.toNat

/-- The invariant of the bloom chain: the bloom of the segment of every entry
contains the id of the entry. -/
def BloomInvariant (P : Primitives) (l : transactionList) : Prop :=
  ∀ e ∈ l.nodes, (l.segmentBloom (l.mem e).bloom).Contains ((l.mem e).value.ID P) = true

end TransactionPool

/-- The calls that change a pool; the remover that `Candidate` and
`FilterTransactions` start is a call of its own, made when it gets the
lock. -/
inductive PoolCall where
  | Add (now : Int) (tx : Option transactionV3) (direct : Bool)
  | RemoveOldTXs (bts : Int)
  | RemoveList (now : Int) (txs : moduleTransactionList)
  | Candidate (wc : WorldContext) (maxBytes maxCount : Int)
  | FilterTransactions (bloom : TxBloom) (max : Int)
  | removeTransactions (txs : List Ptr)

namespace TransactionPool

/-- The pool after one call; `none` when the call panics. -/
def call (P : Primitives) (tp : TransactionPool) : PoolCall → Option TransactionPool
  | .Add now tx direct => some (tp.Add P now tx direct).1
  | .RemoveOldTXs bts => some (tp.RemoveOldTXs P bts)
  | .RemoveList now txs => some (tp.RemoveList P now txs)
  | .Candidate wc maxBytes maxCount => some (tp.Candidate P wc maxBytes maxCount).pool
  | .FilterTransactions bloom max => (tp.FilterTransactions P bloom max).map fun r => r.pool
  | .removeTransactions txs => removeTransactions P txs tp

/-- The pool after a sequence of calls, if none of them panics. -/
def calls (P : Primitives) : List PoolCall → TransactionPool → Option TransactionPool
  | [], tp => some tp
  | c :: rest, tp => (tp.call P c).bind (calls P rest)

/-- What every call keeps: the capacity, the allocation pointer (which only
grows), the errors recorded in allocated entries, and, `Add` apart, the
entries in the list, of which there are never more than before. -/
def Keeps (tp tp' : TransactionPool) : Prop :=
  tp'.size = tp.size
    ∧ tp.list.next ≤ tp'.list.next
    ∧ (∀ q, q < tp.list.next → (tp.list.mem q).err ≠ none → (tp'.list.mem q).err ≠ none)
    ∧ (tp'.list.nodes.length ≤ tp.list.nodes.length
        ∨ (tp.list.Len < tp.size ∧ tp'.list.nodes.length = tp.list.nodes.length + 1))

end TransactionPool

/-! ## Proof views of the hash memo -/

/-- The data of a transaction is present, not empty, and cannot be parsed or,
once parsed, cannot be serialized. -/
def transactionV3Data.Unhashable (P : Primitives) (d : transactionV3Data) : Prop :=
  ∃ bs, d.Data = some bs ∧ bs.length > 0
    ∧ (P.jsonUnmarshal bs = none
        ∨ ∃ obj, P.jsonUnmarshal bs = some obj ∧ P.serializeValue obj = none)

/-! ## Sample data -/

/-- Stand-ins for the library primitives, used to run the definitions on
concrete inputs: five-minute margins in microseconds, the identity for the
hash and the codec, key recovery that reads the key off the signature. -/
def samplePrimitives : Primitives where
  ConfigOnCheckingTimestamp := true
  ConfigTXTimestampBackwardMargin := 300000000
  ConfigTXTimestampForwardLimit := 600000000
  ConfigTXTimestampForwardMargin := 300000000
  ConfigMaxTxBytesInABlock := 1048576
  Revision3 := 3
  SHA3Sum256 := fun bs => bs
  MarshalToBytes := fun tx => hexString tx.TimeStamp
  RecoverPublicKey := fun sig _ => if sig.length = 65 ∧ sig.head? ≠ some 0 then some sig else none
  NewAccountAddressFromPublicKey := fun pk => ⟨false, pk.take 20⟩
  jsonCompact := fun bs => some bs
  jsonUnmarshal := fun bs => some (.string bs)
  serializeValue := fun _ => some []
  unmarshalCall := fun bs => if bs = [] then none else some ⟨"transfer", none⟩
  unmarshalDeploy := fun _ => none
  Int64ToBytes := fun _ => [0]
  UnmarshalFromBytes := fun bs =>
    match bs with
    | v :: t :: _ =>
      some { Version := v, From := ⟨false, [7]⟩, To := ⟨false, [9]⟩, Value := none,
             StepLimit := 0, TimeStamp := t, NID := none, Nonce := none, Signature := [],
             DataType := none, Data := none }
    | _ => none

/-- A transfer of `value` from account `sender` to account `9` with the given
timestamp and step limit, whose id and encoding are memoized as `id` and
`size` zero bytes. -/
def sampleTx (id : Nat) (sender : Nat) (timestamp stepLimit value : Int) (size : Nat) :
    transactionV3 :=
  { data :=
      { Version := 3, From := ⟨false, [sender]⟩, To := ⟨false, [9]⟩, Value := some value,
        StepLimit := stepLimit, TimeStamp := timestamp, NID := none, Nonce := none,
        Signature := [], DataType := none, Data := none },
    txHash := some [id],
    bytes := some (List.replicate size 0) }

/-- A bucket that holds the given ids. -/
def sampleBucket (ids : List Bytes) : Bucket :=
  ⟨fun id => .ok (if ids.contains id then some [1] else none)⟩

/-- The pool of the given capacity after adding the transactions in order,
directly, at clock readings 1, 2, ... -/
def samplePool (size : Int) (finalized : List Bytes) (txs : List transactionV3) :
    TransactionPool :=
  (txs.foldl (fun (acc : TransactionPool × Int) tx =>
      ((acc.1.Add samplePrimitives acc.2 (some tx) true).1, acc.2 + 1))
    (TransactionPool.NewTransactionPool .TransactionGroupNormal size (sampleBucket finalized)
      16 4096, 1)).1

/-- A world context at block time `blockTs` with step price 1, free steps,
a one-minute expiry threshold and the given balances. -/
def sampleWorld (blockTs : Int) (balances : List (Bytes × Int)) : WorldContext where
  BlockTimeStamp := blockTs
  Revision := 3
  StepsFor := fun _ _ => 0
  StepPrice := 1
  balance := fun id => ((balances.find? fun kv => kv.1 = id).map Prod.snd).getD 0
  TimestampThreshold := fun _ => 60000000

/-- A pool holding one transfer of 100 from account 7, which has no balance
in `sampleWorld 100 []`. -/
def poorPool : TransactionPool := samplePool 10 [] [sampleTx 1 7 100 0 100 10]

/-- The pool `poorPool` after one `Candidate` call, at the time the id of its
transaction has been written to the bucket of finalized transactions. -/
def finalizedPool : TransactionPool :=
  { (TransactionPool.Candidate samplePrimitives poorPool (sampleWorld 100 []) 0 0).pool with
    txdb := sampleBucket [[1]] }

/-- A pool of capacity 5000 holding 1501 transactions of one byte, from 1501
different senders, each with value 0 and step limit 0. -/
def crowdedPool : TransactionPool :=
  { group := .TransactionGroupNormal, size := 5000, txdb := sampleBucket [],
    list :=
      { nodes := List.range 1501,
        mem := fun p => ⟨sampleTx p p 100 0 0 1, 1, none, 0⟩,
        next := 1501, blooms := [], target := 16, width := 4096 },
    events := [] }

/-- A call transaction from account 7 whose data is the JSON object with the
one member `"method":"transfer"` and whose signature is 65 zero bytes, from
which no public key can be recovered. -/
def unsignedCall : transactionV3 :=
  { data :=
      { Version := 3, From := ⟨false, [7]⟩, To := ⟨true, [9]⟩, Value := none,
        StepLimit := 100000, TimeStamp := 100, NID := none, Nonce := none,
        Signature := List.replicate 65 0, DataType := some "call",
        Data := some ([123] ++ ascii "\"method\":\"transfer\"" ++ [125]) },
    txHash := none,
    bytes := none }

/-- A pool of four transactions: the first added directly at clock 10, the
second re-added (not direct), the third and fourth added directly at clocks
30 and 40. -/
def mixedPool : TransactionPool :=
  ((((TransactionPool.NewTransactionPool .TransactionGroupNormal 10 (sampleBucket []) 16 4096).Add
      samplePrimitives 10 (some (sampleTx 1 7 100 0 0 10)) true).1.Add
      samplePrimitives 20 (some (sampleTx 2 7 100 0 0 10)) false).1.Add
      samplePrimitives 30 (some (sampleTx 3 7 100 0 0 10)) true).1.Add
      samplePrimitives 40 (some (sampleTx 4 7 100 0 0 10)) true |>.1

/-- The finalized list of the first three transactions of `mixedPool`. -/
def finalizedThree : moduleTransactionList :=
  ⟨[some (sampleTx 1 7 100 0 0 10), some (sampleTx 2 7 100 0 0 10),
    some (sampleTx 3 7 100 0 0 10)], [42]⟩

/-- Six transactions of ten bytes from six senders. -/
def sixTxs : List transactionV3 :=
  [sampleTx 1 1 100 0 0 10, sampleTx 2 2 100 0 0 10, sampleTx 3 3 100 0 0 10,
    sampleTx 4 4 100 0 0 10, sampleTx 5 5 100 0 0 10, sampleTx 6 6 100 0 0 10]

/-- A pool that holds `sixTxs`, added directly at the clock readings 1 to 6,
in nanoseconds. -/
def agedPool : TransactionPool := samplePool 10 [] sixTxs

/-- The finalized list of `sixTxs`. -/
def finalizedSix : moduleTransactionList := ⟨sixTxs.map some, [42]⟩

/-- The bloom filter of a peer that already holds the transaction with id
`[1]`. -/
def peerBloom : TxBloom := (TxBloom.mk 4096 []).Add [1]

/-- The transaction of scenario S1: version 3, from `hxaa..aa`, to `hxbb..bb`,
value 16, step limit 100000, timestamp 1504, no nid, nonce, data or data
type. -/
def s1Data : transactionV3Data :=
  { Version := 3, From := ⟨false, List.replicate 20 170⟩, To := ⟨false, List.replicate 20 187⟩,
    Value := some 16, StepLimit := 100000, TimeStamp := 1504, NID := none, Nonce := none,
    Signature := [], DataType := none, Data := none }

/-- The data of a JSON transaction object with version 2, signed (under
`samplePrimitives`) by its sender. -/
def version2Data : transactionV3Data :=
  { Version := 2, From := ⟨false, List.replicate 20 7⟩, To := ⟨false, [9]⟩, Value := none,
    StepLimit := 100000, TimeStamp := 100, NID := none, Nonce := none,
    Signature := List.replicate 65 7, DataType := none, Data := none }

/-- A deploy transaction from account 7 with the given value; under
`samplePrimitives` its data does not decode to deploy data. -/
def sampleDeploy (value : Option Int) : transactionV3 :=
  { data :=
      { Version := 3, From := ⟨false, [7]⟩, To := ⟨true, [0]⟩, Value := value,
        StepLimit := 100000, TimeStamp := 100, NID := none, Nonce := none,
        Signature := [], DataType := some "deploy", Data := some [123, 125] },
    txHash := none,
    bytes := none }

/-- A block of height 100 with two normal transactions. -/
def block100 : Block := ⟨100, [[1], [2]]⟩

/-- A store that fails on its first `fails` calls, each time with an error of
its own, and returns `v` from then on. -/
def flakyStore {α : Type} (fails : Nat) (v : α) : Nat → Except StoreError α :=
  fun k => if k < fails then .error ⟨k⟩ else .ok v

/-- A run of the default cache: a consumer asks for block 100, misses and
fetches it, which schedules the following heights; a worker takes the task of
block 101; the consumer asks for block 102 and detaches its task, which is
still queued; the worker gets block 101 and runs `scheduleFollowings` on it. -/
def duplicateFetchTrace : List CacheAction :=
  [.getBlockTask 100, .directBlock 100 (flakyStore 0 ⟨100, []⟩) 32, .fetchTask,
   .getBlockTask 102, .blockDone ⟨101, 0⟩ (flakyStore 0 ⟨101, []⟩) 32]

/-- A run of a cache with two workers and a depth of three blocks: a consumer
misses block 7 and fetches it at the third call of the store, which schedules
the receipt of its transaction and the blocks 8, 9 and 10 and starts two
workers; they take the receipt task and the task of block 8; the receipt task
ends, its worker takes the task of block 9, and a consumer detaches the task
of block 9. -/
def twoWorkerTrace : List CacheAction :=
  [.getBlockTask 7, .directBlock 7 (flakyStore 2 ⟨7, [[1]]⟩) 8, .fetchTask, .fetchTask,
   .receiptDone ⟨[1], 0⟩ (flakyStore 0 ⟨[5]⟩) 8, .fetchTask, .getBlockTask 9]

/-- A pool whose bloom segments hold one id each, with the transactions of
ids 1 to 4; the transaction of id 4 is in the bucket of finalized
transactions. -/
def segmentedPool : TransactionPool :=
  ((((TransactionPool.NewTransactionPool .TransactionGroupNormal 10 (sampleBucket [[4]]) 1 4096).Add
      samplePrimitives 10 (some (sampleTx 1 7 100 0 0 10)) true).1.Add
      samplePrimitives 20 (some (sampleTx 2 7 100 0 0 10)) true).1.Add
      samplePrimitives 30 (some (sampleTx 3 7 100 0 0 10)) true).1.Add
      samplePrimitives 40 (some (sampleTx 4 7 100 0 0 10)) true |>.1

/-- The bloom filter of a peer that holds the transactions of ids 1 and 3. -/
def peerBloom13 : TxBloom := ((TxBloom.mk 4096 []).Add [1]).Add [3]

/-- A pool of four transactions for a block time of 70 s: the first is
expired, the second is in the bucket of finalized transactions, the third
sends 100 from an account without balance, the fourth is valid. -/
def slicePool : TransactionPool :=
  samplePool 10 [[2]] [sampleTx 1 7 100 0 0 10, sampleTx 2 7 70000000 0 0 10,
    sampleTx 3 8 70000000 0 100 10, sampleTx 4 7 70000000 0 0 10]

/-- Calls on a pool of size 2 whose bucket holds the id 2: three additions, of
which the third finds the pool full; a `Candidate` at block time 70 s that
finds the first entry expired and the second in the bucket; the remover for
both; another addition; `FilterTransactions`, `RemoveOldTXs` with an early
bound and `RemoveList` of a transaction that is not in the pool. -/
def sampleCalls : List PoolCall :=
  [.Add 10 (some (sampleTx 1 7 100 0 0 10)) true,
   .Add 20 (some (sampleTx 2 7 70000000 0 0 10)) true,
   .Add 30 (some (sampleTx 3 7 70000000 0 0 10)) true,
   .Candidate (sampleWorld 70000000 []) 0 0,
   .removeTransactions [1, 0],
   .Add 40 (some (sampleTx 4 7 70000000 0 0 10)) false,
   .FilterTransactions peerBloom 10,
   .RemoveOldTXs 50,
   .RemoveList 60 ⟨[some (sampleTx 9 7 100 0 0 10)], [42]⟩]

/-- The stand-ins of `samplePrimitives` with a JSON decoder that accepts only
texts that start with an opening brace. -/
def strictPrimitives : Primitives :=
  { samplePrimitives with
    jsonUnmarshal := fun bs => if bs.head? = some 123 then some (.string bs) else none }

/-- A transaction that has not been hashed, from account `sender`, whose data
is the text `oops`, which is not JSON. -/
def brokenTx (sender : Nat) (timestamp : Int) : transactionV3 :=
  { data :=
      { Version := 3, From := ⟨false, [sender]⟩, To := ⟨false, [9]⟩, Value := none,
        StepLimit := 100000, TimeStamp := timestamp, NID := none, Nonce := none,
        Signature := [], DataType := some "message", Data := some (ascii "oops") },
    txHash := none,
    bytes := none }

/-- A block at the largest height of `int64`, with no transaction. -/
def topBlock : Block := ⟨9223372036854775807, []⟩

/-- A cache with `MaxBlocks = 2` whose one scheduled height is the smallest
`int64`, as after `scheduleFollowings` of `topBlock` on the fresh cache and a
consumer that took the second height. -/
def wrapCache : ForwardCache :=
  (NewForwardCache (some ⟨8, 2, 0⟩)).scheduleBlockInLock (-9223372036854775808)

/-- A cache with `MaxBlocks = 5` in which the heights 102 and 104 are
scheduled. -/
def gapCache : ForwardCache :=
  ((NewForwardCache (some ⟨8, 5, 0⟩)).scheduleBlockInLock 102).scheduleBlockInLock 104

/-! ## Theorems -/

namespace TransactionPool

/-- C2: when the list already holds at least `size` entries, `Add` of a
non-nil transaction returns `ErrTransactionPoolOverFlow` and leaves the whole
pool state, hence the list with its members and their order, as it was. -/
theorem Add_overflow_unchanged (P : Primitives) (now : Int) (tp : TransactionPool)
    (tx : transactionV3) (direct : Bool) (h : tp.size ≤ tp.list.Len) :
    tp.Add P now (some tx) direct = (tp, some .ErrTransactionPoolOverFlow) := by
  simp [Add, h]

/-- Witness of C2 on a pool of capacity one that holds one transaction. -/
theorem Add_overflow_unchanged_witness :
    (samplePool 1 [] [sampleTx 1 7 100 0 0 10]).size
        ≤ (samplePool 1 [] [sampleTx 1 7 100 0 0 10]).list.Len ∧
      (samplePool 1 [] [sampleTx 1 7 100 0 0 10]).Add samplePrimitives 5
          (some (sampleTx 2 7 200 0 0 10)) true
        = (samplePool 1 [] [sampleTx 1 7 100 0 0 10], some .ErrTransactionPoolOverFlow) :=
  ⟨by decide, Add_overflow_unchanged _ _ _ _ _ (by decide)⟩

/-! ### Heap updates -/

theorem setErr_value (mem : Heap) (e : Ptr) (err : TxError) (q : Ptr) :
    (setErr mem e err q).value = (mem q).value := by
  unfold setErr; split <;> simp_all

theorem setErr_ts (mem : Heap) (e : Ptr) (err : TxError) (q : Ptr) :
    (setErr mem e err q).ts = (mem q).ts := by
  unfold setErr; split <;> simp_all

theorem setErr_of_ne (mem : Heap) (e : Ptr) (err : TxError) (q : Ptr) (h : q ≠ e) :
    setErr mem e err q = mem q := by
  simp [setErr, h]

theorem setErr_err_self (mem : Heap) (e : Ptr) (err : TxError) :
    (setErr mem e err e).err = some err := by
  simp [setErr]

theorem setErrIfNil_none (mem : Heap) (e : Ptr) (err : TxError) (h : (mem e).err = none) :
    setErrIfNil mem e err = setErr mem e err := by
  simp [setErrIfNil, h]

theorem setErrIfNil_some (mem : Heap) (e : Ptr) (err x : TxError) (h : (mem e).err = some x) :
    setErrIfNil mem e err = mem := by
  simp [setErrIfNil, h]

theorem setErrIfNil_value (mem : Heap) (e : Ptr) (err : TxError) (q : Ptr) :
    (setErrIfNil mem e err q).value = (mem q).value := by
  cases h : (mem e).err with
  | none => rw [setErrIfNil_none _ _ _ h, setErr_value]
  | some x => rw [setErrIfNil_some _ _ _ x h]

theorem setErrIfNil_ts (mem : Heap) (e : Ptr) (err : TxError) (q : Ptr) :
    (setErrIfNil mem e err q).ts = (mem q).ts := by
  cases h : (mem e).err with
  | none => rw [setErrIfNil_none _ _ _ h, setErr_ts]
  | some x => rw [setErrIfNil_some _ _ _ x h]

theorem setErrIfNil_of_ne (mem : Heap) (e : Ptr) (err : TxError) (q : Ptr) (h : q ≠ e) :
    setErrIfNil mem e err q = mem q := by
  cases h' : (mem e).err with
  | none => rw [setErrIfNil_none _ _ _ h', setErr_of_ne _ _ _ _ h]
  | some x => rw [setErrIfNil_some _ _ _ x h']

theorem setErrIfNil_err_self (mem : Heap) (e : Ptr) (err : TxError) :
    (setErrIfNil mem e err e).err = some ((mem e).err.getD err) := by
  cases h : (mem e).err with
  | none => rw [setErrIfNil_none _ _ _ h, setErr_err_self]; rfl
  | some x => rw [setErrIfNil_some _ _ _ x h, h]; rfl

/-- The guarded assignment never replaces an error that is already set. -/
theorem setErrIfNil_sticky (mem : Heap) (e : Ptr) (err : TxError) (q : Ptr)
    (h : (mem q).err ≠ none) : (setErrIfNil mem e err q).err = (mem q).err := by
  by_cases hq : q = e
  · subst hq
    rw [setErrIfNil_err_self]
    cases hm : (mem q).err with
    | none => exact absurd hm h
    | some x => rfl
  · rw [setErrIfNil_of_ne _ _ _ _ hq]

/-! ### RemoveOldTXs -/

/-- What the loop of `RemoveOldTXs` over the nodes `l` does to a pool: the
nodes of `l` with a timestamp at or below `bts` are unlinked, no transaction
changes, and entries with a later timestamp are not written. -/
theorem removeOldLoop_spec (P : Primitives) (bts : Int) :
    ∀ (l : List Ptr) (tp : TransactionPool),
      (removeOldLoop P bts l tp).list.nodes =
          tp.list.nodes.filter
            (fun q => !(decide (q ∈ l) && decide ((tp.list.mem q).value.Timestamp ≤ bts)))
        ∧ (∀ q, ((removeOldLoop P bts l tp).list.mem q).value = (tp.list.mem q).value)
        ∧ (∀ q, bts < (tp.list.mem q).value.Timestamp →
            (removeOldLoop P bts l tp).list.mem q = tp.list.mem q) := by
  intro l
  induction l with
  | nil => intro tp; simp [removeOldLoop]
  | cons iter rest ih =>
    intro tp
    by_cases h : (tp.list.mem iter).value.Timestamp ≤ bts
    · simp only [removeOldLoop, h, if_true]
      obtain ⟨h1, h2, h3⟩ := ih
        { tp with
          list :=
            { (tp.list.Remove iter).1 with
              mem := setErrIfNil (tp.list.Remove iter).1.mem iter
                (.ExpiredTransaction (wrapInt64 (bts - (tp.list.mem iter).value.Timestamp))) },
          events := tp.events ++
            [.OnTxDrop ((tp.list.mem iter).value.ID P)
                (((tp.list.mem iter).err).getD
                  (.ExpiredTransaction (wrapInt64 (bts - (tp.list.mem iter).value.Timestamp)))),
             .OnDropTx ((tp.list.mem iter).value.Bytes P).length
                (decide ((tp.list.mem iter).ts ≠ 0))] }
      refine ⟨?_, ?_, ?_⟩
      · rw [h1]
        simp only [transactionList.Remove, List.filter_filter, setErrIfNil_value]
        apply List.filter_congr
        intro q _
        by_cases hq : q = iter
        · subst hq; simp [h]
        · simp [hq]
      · intro q
        rw [h2]
        simp [transactionList.Remove, setErrIfNil_value]
      · intro q hq
        have hne : q ≠ iter := by
          intro heq; subst heq; omega
        rw [h3 q (by simpa [transactionList.Remove, setErrIfNil_value] using hq)]
        simp [transactionList.Remove, setErrIfNil_of_ne _ _ _ _ hne]
    · simp only [removeOldLoop, h, if_false]
      obtain ⟨h1, h2, h3⟩ := ih tp
      refine ⟨?_, h2, h3⟩
      rw [h1]
      apply List.filter_congr
      intro q _
      by_cases hq : q = iter
      · subst hq; simp [h]
      · simp [hq]

/-- C4: after `RemoveOldTXs(bts)` the pool holds exactly the entries whose
transaction timestamp was greater than `bts`, unchanged and in their original
order, so no entry with a timestamp at or below `bts` remains; with
timestamps 100, 200 and 300 and `bts = 200` only the entry of 300 is left. -/
theorem RemoveOldTXs_keeps_newer (P : Primitives) (tp : TransactionPool) (bts : Int) :
    (tp.RemoveOldTXs P bts).list.nodes =
        tp.list.nodes.filter (fun q => decide (bts < (tp.list.mem q).value.Timestamp))
      ∧ (tp.RemoveOldTXs P bts).entries =
        tp.entries.filter (fun e => decide (bts < e.value.Timestamp))
      ∧ (∀ e ∈ (tp.RemoveOldTXs P bts).entries, ¬ e.value.Timestamp ≤ bts)
      ∧ ((samplePool 10 [] [sampleTx 1 7 100 0 0 10, sampleTx 2 7 200 0 0 10,
            sampleTx 3 7 300 0 0 10]).RemoveOldTXs samplePrimitives 200).entries.map
          (fun e => e.value.Timestamp) = [300] := by
  obtain ⟨h1, _, h3⟩ := removeOldLoop_spec P bts tp.list.nodes tp
  have hn : (tp.RemoveOldTXs P bts).list.nodes =
      tp.list.nodes.filter (fun q => decide (bts < (tp.list.mem q).value.Timestamp)) := by
    simp only [RemoveOldTXs]
    rw [h1]
    apply List.filter_congr
    intro q hq
    simp only [hq, decide_True, Bool.true_and, ← not_lt, decide_not, Bool.not_not]
  have he : (tp.RemoveOldTXs P bts).entries =
      tp.entries.filter (fun e => decide (bts < e.value.Timestamp)) := by
    unfold entries
    rw [hn, List.filter_map]
    apply List.map_congr_left
    intro q hq
    have hlt : bts < (tp.list.mem q).value.Timestamp := by
      simpa using (List.mem_filter.mp hq).2
    simpa [RemoveOldTXs] using h3 q hlt
  refine ⟨hn, he, ?_, by decide⟩
  intro e hmem
  rw [he] at hmem
  have := (List.mem_filter.mp hmem).2
  simp at this
  omega


/-! ### Add -/

theorem WF_new (target width : Nat) : (transactionList.new target width).WF := by
  intro p hp
  simp [transactionList.new] at hp

theorem WF_Add (P : Primitives) (now : Int) (l : transactionList) (tx : transactionV3)
    (direct : Bool) (h : l.WF) : (l.Add P now tx direct).1.WF := by
  unfold transactionList.Add
  split
  · exact h
  · intro p hp
    simp only [List.mem_append, List.mem_singleton] at hp
    rcases hp with hp | hp
    · exact Nat.lt_succ_of_lt (h p hp)
    · subst hp; exact Nat.lt_succ_self _

theorem WF_Remove (l : transactionList) (e : Ptr) (h : l.WF) : (l.Remove e).1.WF := by
  intro p hp
  exact h p (List.mem_of_mem_filter hp)

/-- A successful `Add` of the list: the id was not in the list, the new node
is appended and holds the transaction, and the old entries are untouched. -/
theorem list_Add_ok (P : Primitives) (now : Int) (l : transactionList) (tx : transactionV3)
    (direct : Bool) (hwf : l.WF) (h : (l.Add P now tx direct).2 = none) :
    l.HasTx P (tx.ID P) = false
      ∧ (l.Add P now tx direct).1.nodes = l.nodes ++ [l.next]
      ∧ ((l.Add P now tx direct).1.mem l.next).value = tx
      ∧ ∀ p ∈ l.nodes, (l.Add P now tx direct).1.mem p = l.mem p := by
  unfold transactionList.Add at h ⊢
  by_cases hh : l.HasTx P (tx.ID P) = true
  · simp [hh] at h
  · simp only [hh, if_false]
    refine ⟨by simp [hh], rfl, by simp, ?_⟩
    intro p hp
    have hne : p ≠ l.next := Nat.ne_of_lt (hwf p hp)
    simp [hne]

/-- The duplicate check of `Add` keeps the ids of the linked entries pairwise
different. -/
theorem UniqueIds_Add (P : Primitives) (now : Int) (l : transactionList) (tx : transactionV3)
    (direct : Bool) (hwf : l.WF) (h : UniqueIds P l) :
    UniqueIds P (l.Add P now tx direct).1 := by
  by_cases hh : l.HasTx P (tx.ID P) = true
  · have hdup : l.Add P now tx direct = (l, some .DuplicateTransaction) := by
      simp [transactionList.Add, hh]
    rw [hdup]; exact h
  · have hnone : (l.Add P now tx direct).2 = none := by
      simp [transactionList.Add, hh]
    obtain ⟨hnot, hnodes, hval, hold⟩ := list_Add_ok P now l tx direct hwf hnone
    unfold UniqueIds at h ⊢
    rw [hnodes, List.pairwise_append]
    refine ⟨?_, by simp, ?_⟩
    · exact h.imp_of_mem (fun ha hb hab => by rw [hold _ ha, hold _ hb]; exact hab)
    · intro a ha b hb
      simp only [List.mem_singleton] at hb
      subst hb
      rw [hold a ha, hval]
      simp only [transactionList.HasTx, List.any_eq_false, decide_eq_true_eq] at hnot
      exact hnot a ha

/-- C3 (amended): when a first `Add(t)` succeeds, the next `Add(t)` returns
`DuplicateTransaction` if the pool is still below its capacity and
`ErrTransactionPoolOverFlow` if the first call filled it; either way the list
is left as the first call made it and holds exactly one entry with the id of
`t`. -/
theorem Add_twice (P : Primitives) (now now2 : Int) (tp : TransactionPool) (t : transactionV3)
    (direct direct2 : Bool) (hwf : tp.list.WF)
    (h : (tp.Add P now (some t) direct).2 = none) :
    ((tp.Add P now (some t) direct).1.Add P now2 (some t) direct2).2 =
        some (if (tp.Add P now (some t) direct).1.Used < (tp.Add P now (some t) direct).1.Size
          then TxError.DuplicateTransaction else TxError.ErrTransactionPoolOverFlow)
      ∧ ((tp.Add P now (some t) direct).1.Add P now2 (some t) direct2).1.entries =
          (tp.Add P now (some t) direct).1.entries
      ∧ (((tp.Add P now (some t) direct).1.Add P now2 (some t) direct2).1.entries.filter
          (fun e => decide (e.value.ID P = t.ID P))).length = 1 := by
  have hroom : ¬ tp.list.Len ≥ tp.size := by
    intro hge
    simp [Add, hge] at h
  have hl : (tp.list.Add P now t direct).2 = none := by
    cases hadd : tp.list.Add P now t direct with
    | mk l err =>
      cases err with
      | none => rfl
      | some e => simp [Add, hroom, hadd] at h
  obtain ⟨hnot, hnodes, hval, hold⟩ := list_Add_ok P now tp.list t direct hwf hl
  have h1 : (tp.Add P now (some t) direct).1.list = (tp.list.Add P now t direct).1 := by
    cases hadd : tp.list.Add P now t direct with
    | mk l err =>
      cases err with
      | none => simp [Add, hroom, hadd]
      | some e => rw [hadd] at hl; simp at hl
  have hsize : (tp.Add P now (some t) direct).1.size = tp.size := by
    cases hadd : tp.list.Add P now t direct with
    | mk l err =>
      cases err with
      | none => simp [Add, hroom, hadd]
      | some e => rw [hadd] at hl; simp at hl
  generalize htp1 : (tp.Add P now (some t) direct).1 = tp1 at h1 hsize ⊢
  have hhas : tp1.list.HasTx P (t.ID P) = true := by
    rw [h1]
    simp only [transactionList.HasTx, List.any_eq_true, decide_eq_true_eq]
    exact ⟨tp.list.next, by rw [hnodes]; simp, by rw [hval]⟩
  have hcount : (tp1.entries.filter (fun e => decide (e.value.ID P = t.ID P))).length = 1 := by
    unfold entries
    rw [h1, hnodes, List.map_append, List.filter_append]
    have hnil : (List.map (tp.list.Add P now t direct).1.mem tp.list.nodes).filter
        (fun e => decide (e.value.ID P = t.ID P)) = [] := by
      rw [List.filter_eq_nil_iff]
      intro e he
      obtain ⟨p, hp, rfl⟩ := List.mem_map.mp he
      rw [hold p hp]
      simp only [transactionList.HasTx, List.any_eq_false, decide_eq_true_eq] at hnot
      simpa using hnot p hp
    rw [hnil]
    simp [hval]
  by_cases hfull : tp1.list.Len ≥ tp1.size
  · have hres : tp1.Add P now2 (some t) direct2 = (tp1, some .ErrTransactionPoolOverFlow) := by
      simp [Add, hfull]
    rw [hres]
    refine ⟨?_, rfl, hcount⟩
    have : ¬ tp1.Used < tp1.Size := by
      simp only [Used, Size]; omega
    simp [this]
  · have hdup : tp1.list.Add P now2 t direct2 = (tp1.list, some .DuplicateTransaction) := by
      simp [transactionList.Add, hhas]
    have hres : tp1.Add P now2 (some t) direct2 =
        ({ tp1 with list := tp1.list }, some .DuplicateTransaction) := by
      simp [Add, hfull, hdup]
    rw [hres]
    refine ⟨?_, rfl, hcount⟩
    have : tp1.Used < tp1.Size := by
      simp only [Used, Size]; omega
    simp [this]

/-- Witness of C3 (amended) on an empty pool of capacity two. -/
theorem Add_twice_witness :
    (((samplePool 2 [] []).Add samplePrimitives 1 (some (sampleTx 1 7 100 0 0 10)) true).1.Add
        samplePrimitives 2 (some (sampleTx 1 7 100 0 0 10)) true).2 =
      some (if ((samplePool 2 [] []).Add samplePrimitives 1
            (some (sampleTx 1 7 100 0 0 10)) true).1.Used
          < ((samplePool 2 [] []).Add samplePrimitives 1
            (some (sampleTx 1 7 100 0 0 10)) true).1.Size
        then TxError.DuplicateTransaction else TxError.ErrTransactionPoolOverFlow) :=
  (Add_twice samplePrimitives 1 2 (samplePool 2 [] []) (sampleTx 1 7 100 0 0 10) true true
    (by unfold transactionList.WF; decide) (by decide)).1

/-- C3 as stated fails: on an empty pool of capacity one the first `Add(t)`
succeeds and fills the pool, and the second `Add(t)` returns
`ErrTransactionPoolOverFlow`, not `DuplicateTransaction`. -/
theorem Add_twice_counterexample :
    ((samplePool 1 [] []).Add samplePrimitives 1 (some (sampleTx 1 7 100 0 0 10)) true).2 = none
      ∧ (((samplePool 1 [] []).Add samplePrimitives 1
            (some (sampleTx 1 7 100 0 0 10)) true).1.Add
          samplePrimitives 2 (some (sampleTx 1 7 100 0 0 10)) true).2
        = some .ErrTransactionPoolOverFlow
      ∧ (((samplePool 1 [] []).Add samplePrimitives 1
            (some (sampleTx 1 7 100 0 0 10)) true).1.Add
          samplePrimitives 2 (some (sampleTx 1 7 100 0 0 10)) true).2
        ≠ some .DuplicateTransaction := by
  decide

/-! ### The validation loop and its view -/

theorem take_set_same {α : Type} (l : List α) (n : Nat) (e : α) :
    (l.set n e).take n = l.take n := by
  induction l generalizing n with
  | nil => simp
  | cons x xs ih =>
    cases n with
    | zero => simp
    | succ k => simp [ih]

theorem view_validateStep (P : Primitives) (txdb : Bucket) (e : Ptr) (st : Validation)
    (h : st.invalidNum < st.txs.length) :
    (validateStep P txdb e st).view = validateElem P txdb e st.view := by
  have htake : (st.txs.set st.invalidNum e).take (st.invalidNum + 1)
      = st.txs.take st.invalidNum ++ [e] := by
    rw [List.take_succ, take_set_same]
    simp [h]
  unfold validateStep validateElem Validation.view
  dsimp only
  split
  · simp [htake]
  · split
    · split <;> simp [htake]
    · simp

/-- The bookkeeping of one step: the slice keeps its length, `invalidNum`
grows by at most one, and cells past the write index are not written. -/
theorem validateStep_frame (P : Primitives) (txdb : Bucket) (e : Ptr) (st : Validation)
    (i : Nat) (h : st.invalidNum ≤ i) :
    (validateStep P txdb e st).txs.length = st.txs.length
      ∧ (validateStep P txdb e st).invalidNum ≤ i + 1
      ∧ (validateStep P txdb e st).txs.drop (i + 1) = st.txs.drop (i + 1) := by
  have hd : (st.txs.set st.invalidNum e).drop (i + 1) = st.txs.drop (i + 1) :=
    List.drop_set_of_lt e st.txs (by omega)
  unfold validateStep
  dsimp only
  split
  · exact ⟨by simp, by simp; omega, hd⟩
  · split
    · split
      · exact ⟨by simp, by simp; omega, hd⟩
      · exact ⟨rfl, by simp; omega, rfl⟩
    · exact ⟨rfl, by simp; omega, rfl⟩

/-- The validation loop over the slice computes, on the view, the validation
of the elements it reads, in order; the in-place writes never reach a cell
that is still to be read. -/
theorem view_validateLoop (P : Primitives) (txdb : Bucket) :
    ∀ (n i : Nat) (st : Validation), st.invalidNum ≤ i → i + n ≤ st.txs.length →
      (validateLoop P txdb n i st).view
          = validateAll P txdb ((st.txs.drop i).take n) st.view
        ∧ (validateLoop P txdb n i st).invalidNum ≤ (validateLoop P txdb n i st).txs.length := by
  intro n
  induction n with
  | zero =>
    intro i st h1 h2
    simp only [validateLoop, List.take_zero, validateAll, true_and]
    omega
  | succ k ih =>
    intro i st h1 h2
    have hi : i < st.txs.length := by omega
    have hget : st.txs[i]? = some st.txs[i] := List.getElem?_eq_getElem hi
    obtain ⟨f1, f2, f3⟩ := validateStep_frame P txdb st.txs[i] st i h1
    obtain ⟨g1, g2⟩ := ih (i + 1) (validateStep P txdb st.txs[i] st) f2 (by omega)
    simp only [validateLoop, hget]
    refine ⟨?_, g2⟩
    rw [g1, f3, view_validateStep P txdb _ st (by omega)]
    rw [List.drop_eq_getElem_cons hi, List.take_succ_cons, validateAll]

/-! ### The selection loop -/

theorem bytesSum_congr (P : Primitives) (m1 m2 : Heap) (l : List Ptr)
    (h : ∀ q, (m1 q).value = (m2 q).value) : bytesSum P m1 l = bytesSum P m2 l := by
  simp [bytesSum, h]

theorem bytesSum_append (P : Primitives) (mem : Heap) (l1 l2 : List Ptr) :
    bytesSum P mem (l1 ++ l2) = bytesSum P mem l1 + bytesSum P mem l2 := by
  simp [bytesSum]

theorem bytesSum_nonneg (P : Primitives) (mem : Heap) (l : List Ptr) :
    0 ≤ bytesSum P mem l := by
  unfold bytesSum
  apply List.sum_nonneg
  intro x hx
  obtain ⟨e, _, rfl⟩ := List.mem_map.mp hx
  exact Int.ofNat_nonneg _

/-- What the selection loop does: it changes no transaction, appends to `txs`
entries of the list that pass the timestamp check, adds their sizes to
`txSize`, stays within both limits, appends to `expired` entries that fail the
check and have an error recorded, and never replaces a recorded error. -/
theorem selectLoop_spec (P : Primitives) (tsr : TxTimestampRange) (maxBytes maxCount : Int) :
    ∀ (l : List Ptr) (st : Selection),
      (∀ q, ((selectLoop P tsr maxBytes maxCount l st).mem q).value = (st.mem q).value)
      ∧ (∀ q, ((selectLoop P tsr maxBytes maxCount l st).mem q).ts = (st.mem q).ts)
      ∧ (∃ added, (selectLoop P tsr maxBytes maxCount l st).txs = st.txs ++ added
          ∧ (selectLoop P tsr maxBytes maxCount l st).txSize
              = st.txSize + bytesSum P st.mem added
          ∧ added.Sublist l
          ∧ ∀ e ∈ added, tsr.CheckTx (st.mem e).value = none)
      ∧ (st.txSize ≤ maxBytes →
          (selectLoop P tsr maxBytes maxCount l st).txSize ≤ maxBytes)
      ∧ ((st.txs.length : Int) ≤ maxCount →
          ((selectLoop P tsr maxBytes maxCount l st).txs.length : Int) ≤ maxCount)
      ∧ (∃ exp, (selectLoop P tsr maxBytes maxCount l st).expired = st.expired ++ exp
          ∧ exp.Sublist l
          ∧ (∀ e ∈ exp, tsr.CheckTx (st.mem e).value ≠ none)
          ∧ ∀ e ∈ exp, ((selectLoop P tsr maxBytes maxCount l st).mem e).err ≠ none)
      ∧ (∀ q, (st.mem q).err ≠ none →
          ((selectLoop P tsr maxBytes maxCount l st).mem q).err = (st.mem q).err) := by
  intro l
  induction l with
  | nil =>
    intro st
    refine ⟨fun _ => rfl, fun _ => rfl, ⟨[], by simp [selectLoop, bytesSum]⟩, fun h => h,
      fun h => h, ⟨[], by simp [selectLoop]⟩, fun _ _ => rfl⟩
  | cons e rest ih =>
    intro st
    unfold selectLoop
    by_cases hc : st.txSize < maxBytes ∧ (st.txs.length : Int) < maxCount
    · simp only [hc, and_self, if_true]
      cases hchk : tsr.CheckTx (st.mem e).value with
      | some err =>
        dsimp only
        by_cases hexp : ExpiredTransactionError.Equals err = true
        · simp only [hexp, if_true]
          obtain ⟨a1, a2, ⟨added, a3, a4, a5, a6⟩, a7, a8, ⟨exp, a9, a10, a11, a12⟩, a13⟩ :=
            ih { st with mem := setErrIfNil st.mem e err, expired := st.expired ++ [e] }
          refine ⟨?_, ?_, ⟨added, a3, ?_, a5.cons _, ?_⟩, a7, a8,
            ⟨e :: exp, by simp [a9], a10.cons₂ _, ?_, ?_⟩, ?_⟩
          · intro q; rw [a1]; exact setErrIfNil_value _ _ _ _
          · intro q; rw [a2]; exact setErrIfNil_ts _ _ _ _
          · rw [a4]
            simp only
            rw [bytesSum_congr P _ st.mem added (fun q => setErrIfNil_value _ _ _ _)]
          · intro x hx
            have := a6 x hx
            simpa [setErrIfNil_value] using this
          · intro x hx
            rcases List.mem_cons.mp hx with rfl | hx
            · simp [hchk]
            · have := a11 x hx
              simpa [setErrIfNil_value] using this
          · intro x hx
            rcases List.mem_cons.mp hx with rfl | hx
            · rw [a13 x (by simp [setErrIfNil_err_self])]
              simp [setErrIfNil_err_self]
            · exact a12 x hx
          · intro q hq
            rw [a13 q (by simpa [setErrIfNil_sticky _ _ _ _ hq] using hq)]
            exact setErrIfNil_sticky _ _ _ _ hq
        · simp only [hexp]
          obtain ⟨a1, a2, ⟨added, a3, a4, a5, a6⟩, a7, a8, ⟨exp, a9, a10, a11, a12⟩, a13⟩ :=
            ih st
          exact ⟨a1, a2, ⟨added, a3, a4, a5.cons _, a6⟩, a7, a8,
            ⟨exp, a9, a10.cons _, a11, a12⟩, a13⟩
      | none =>
        dsimp only
        by_cases hfit : st.txSize + (((st.mem e).value.Bytes P).length : Int) > maxBytes
        · rw [if_pos hfit]
          exact ⟨fun _ => rfl, fun _ => rfl, ⟨[], by simp [bytesSum]⟩, fun h => h, fun h => h,
            ⟨[], by simp⟩, fun _ _ => rfl⟩
        · simp only [hfit, if_false]
          obtain ⟨a1, a2, ⟨added, a3, a4, a5, a6⟩, a7, a8, ⟨exp, a9, a10, a11, a12⟩, a13⟩ :=
            ih { st with
                 txSize := st.txSize + (((st.mem e).value.Bytes P).length : Int),
                 txs := st.txs ++ [e] }
          refine ⟨a1, a2, ⟨e :: added, by simp [a3], ?_, a5.cons₂ _, ?_⟩, ?_, ?_,
            ⟨exp, a9, a10.cons _, a11, a12⟩, a13⟩
          · rw [a4]
            simp only [bytesSum, List.map_cons, List.sum_cons]
            ring
          · intro x hx
            rcases List.mem_cons.mp hx with rfl | hx
            · exact hchk
            · exact a6 x hx
          · intro _
            exact a7 (by simp only; omega)
          · intro _
            exact a8 (by simp only [List.length_append, List.length_singleton]; push_cast; omega)
    · rw [if_neg hc]
      exact ⟨fun _ => rfl, fun _ => rfl, ⟨[], by simp [bytesSum]⟩, fun h => h, fun h => h,
        ⟨[], by simp⟩, fun _ _ => rfl⟩

/-! ### The validation loop on the view -/

/-- The three ways one validation step can go. -/
theorem validateElem_cases (P : Primitives) (txdb : Bucket) (e : Ptr) (a : Validated) :
    (txdb.Has ((a.mem e).value.ID P) = true
        ∧ validateElem P txdb e a =
          { a with mem := setErr a.mem e .AlreadyProcessed, invalid := a.invalid ++ [e] })
      ∨ (∃ err wc, ((a.mem e).value.PreValidate P a.wc true) = (some err, wc)
          ∧ txdb.Has ((a.mem e).value.ID P) = false
          ∧ ((NotEnoughBalanceError.Equals err = false
                ∧ validateElem P txdb e a = { a with mem := setErrIfNil a.mem e err, wc := wc,
                                                     invalid := a.invalid ++ [e] })
              ∨ (NotEnoughBalanceError.Equals err = true
                ∧ validateElem P txdb e a = { a with mem := setErrIfNil a.mem e err, wc := wc })))
      ∨ (∃ wc, ((a.mem e).value.PreValidate P a.wc true) = (none, wc)
          ∧ txdb.Has ((a.mem e).value.ID P) = false
          ∧ validateElem P txdb e a =
            { a with wc := wc, validTxs := a.validTxs ++ [(a.mem e).value],
                     txSize := a.txSize + (((a.mem e).value.Bytes P).length : Int) }) := by
  unfold validateElem
  dsimp only
  by_cases hdb : txdb.Has ((a.mem e).value.ID P) = true
  · left; exact ⟨hdb, by simp [hdb]⟩
  · right
    have hdb' : txdb.Has ((a.mem e).value.ID P) = false := by simpa using hdb
    rcases hpv : (a.mem e).value.PreValidate P a.wc true with ⟨res, wc⟩
    cases res with
    | some err =>
      left
      refine ⟨err, wc, rfl, hdb', ?_⟩
      by_cases hb : NotEnoughBalanceError.Equals err = true
      · right; exact ⟨hb, by simp [hdb', hb]⟩
      · left
        have hb' : NotEnoughBalanceError.Equals err = false := by simpa using hb
        exact ⟨hb', by simp [hdb', hb']⟩
    | none =>
      right
      exact ⟨wc, rfl, hdb', by simp [hdb']⟩

/-- What the validation of a list of elements does: no transaction changes,
`validTxs` grows by transactions of the list and `txSize` by their sizes,
`invalid` grows by elements of the list whose error is set, recorded errors
stay recorded, and elements outside the list are not written. -/
theorem validateAll_spec (P : Primitives) (txdb : Bucket) :
    ∀ (l : List Ptr) (a : Validated),
      (∀ q, ((validateAll P txdb l a).mem q).value = (a.mem q).value)
      ∧ (∀ q, ((validateAll P txdb l a).mem q).ts = (a.mem q).ts)
      ∧ (∃ vs, (validateAll P txdb l a).validTxs = a.validTxs ++ vs.map (fun e => (a.mem e).value)
          ∧ vs.Sublist l
          ∧ (validateAll P txdb l a).txSize = a.txSize + bytesSum P a.mem vs)
      ∧ (∃ inv, (validateAll P txdb l a).invalid = a.invalid ++ inv
          ∧ inv.Sublist l
          ∧ ∀ e ∈ inv, ((validateAll P txdb l a).mem e).err ≠ none)
      ∧ (∀ q, (a.mem q).err ≠ none → ((validateAll P txdb l a).mem q).err ≠ none)
      ∧ (∀ q, q ∉ l → (validateAll P txdb l a).mem q = a.mem q) := by
  intro l
  induction l with
  | nil =>
    intro a
    exact ⟨fun _ => rfl, fun _ => rfl, ⟨[], by simp [validateAll, bytesSum]⟩,
      ⟨[], by simp [validateAll]⟩, fun _ h => h, fun _ _ => rfl⟩
  | cons e rest ih =>
    intro a
    obtain ⟨b1, b2, ⟨vs, b3, b4, b5⟩, ⟨inv, b6, b7, b8⟩, b9, b10⟩ := ih (validateElem P txdb e a)
    simp only [validateAll]
    -- facts about the single step
    have hval : ∀ q, ((validateElem P txdb e a).mem q).value = (a.mem q).value := by
      intro q
      rcases validateElem_cases P txdb e a with ⟨_, h⟩ | ⟨err, wc, _, _, ⟨_, h⟩ | ⟨_, h⟩⟩ | ⟨wc, _, _, h⟩
        <;> rw [h] <;> simp [setErr_value, setErrIfNil_value]
    have hts : ∀ q, ((validateElem P txdb e a).mem q).ts = (a.mem q).ts := by
      intro q
      rcases validateElem_cases P txdb e a with ⟨_, h⟩ | ⟨err, wc, _, _, ⟨_, h⟩ | ⟨_, h⟩⟩ | ⟨wc, _, _, h⟩
        <;> rw [h] <;> simp [setErr_ts, setErrIfNil_ts]
    have hmono : ∀ q, (a.mem q).err ≠ none → ((validateElem P txdb e a).mem q).err ≠ none := by
      intro q hq
      rcases validateElem_cases P txdb e a with ⟨_, h⟩ | ⟨err, wc, _, _, ⟨_, h⟩ | ⟨_, h⟩⟩ | ⟨wc, _, _, h⟩
      · rw [h]
        by_cases hqe : q = e
        · subst hqe; simp [setErr_err_self]
        · simpa [setErr_of_ne _ _ _ _ hqe] using hq
      · rw [h]; simpa [setErrIfNil_sticky _ _ _ _ hq] using hq
      · rw [h]; simpa [setErrIfNil_sticky _ _ _ _ hq] using hq
      · rw [h]; exact hq
    have hframe : ∀ q, q ≠ e → (validateElem P txdb e a).mem q = a.mem q := by
      intro q hq
      rcases validateElem_cases P txdb e a with ⟨_, h⟩ | ⟨err, wc, _, _, ⟨_, h⟩ | ⟨_, h⟩⟩ | ⟨wc, _, _, h⟩
        <;> rw [h] <;> simp [setErr_of_ne _ _ _ _ hq, setErrIfNil_of_ne _ _ _ _ hq]
    have hcongr : ∀ l', bytesSum P (validateElem P txdb e a).mem l' = bytesSum P a.mem l' :=
      fun l' => bytesSum_congr P _ _ l' hval
    refine ⟨fun q => by rw [b1, hval], fun q => by rw [b2, hts], ?_, ?_,
      fun q hq => b9 q (hmono q hq), ?_⟩
    · -- valid transactions
      rcases validateElem_cases P txdb e a with ⟨_, h⟩ | ⟨err, wc, _, _, ⟨_, h⟩ | ⟨_, h⟩⟩ | ⟨wc, _, _, h⟩
      · refine ⟨vs, ?_, b4.cons _, ?_⟩
        · rw [b3]; simp only [hval]; rw [h]
        · rw [b5, hcongr]; rw [h]
      · refine ⟨vs, ?_, b4.cons _, ?_⟩
        · rw [b3]; simp only [hval]; rw [h]
        · rw [b5, hcongr]; rw [h]
      · refine ⟨vs, ?_, b4.cons _, ?_⟩
        · rw [b3]; simp only [hval]; rw [h]
        · rw [b5, hcongr]; rw [h]
      · refine ⟨e :: vs, ?_, b4.cons₂ _, ?_⟩
        · rw [b3]; simp only [hval]; rw [h]; simp
        · rw [b5, hcongr]; rw [h]
          simp only [bytesSum, List.map_cons, List.sum_cons]
          ring
    · -- invalid elements
      rcases validateElem_cases P txdb e a with ⟨_, h⟩ | ⟨err, wc, _, _, ⟨_, h⟩ | ⟨_, h⟩⟩ | ⟨wc, _, _, h⟩
      · refine ⟨e :: inv, by rw [b6, h]; simp, b7.cons₂ _, ?_⟩
        intro x hx
        rcases List.mem_cons.mp hx with rfl | hx
        · apply b9
          rw [h]; simp [setErr_err_self]
        · exact b8 x hx
      · refine ⟨e :: inv, by rw [b6, h]; simp, b7.cons₂ _, ?_⟩
        intro x hx
        rcases List.mem_cons.mp hx with rfl | hx
        · apply b9
          rw [h]; simp [setErrIfNil_err_self]
        · exact b8 x hx
      · exact ⟨inv, by rw [b6, h], b7.cons _, b8⟩
      · exact ⟨inv, by rw [b6, h], b7.cons _, b8⟩
    · intro q hq
      have hq1 : q ≠ e := fun h => hq (h ▸ List.mem_cons_self _ _)
      have hq2 : q ∉ rest := fun h => hq (List.mem_cons_of_mem _ h)
      rw [b10 q hq2, hframe q hq1]

/-! ### Candidate -/

/-- The validation phase computes the validation of the selected elements. -/
theorem view_validatePhase (P : Primitives) (tp : TransactionPool) (wc : WorldContext)
    (sel : Selection) :
    (validatePhase P tp wc sel).view = validateAll P tp.txdb sel.txs (validateInit sel wc)
      ∧ (validatePhase P tp wc sel).invalidNum ≤ (validatePhase P tp wc sel).txs.length := by
  have h := view_validateLoop P tp.txdb sel.txs.length 0 ⟨sel.txs, 0, [], 0, sel.mem, wc⟩
    (Nat.le_refl 0) (by simp)
  simpa [validatePhase, Validation.view, validateInit] using h

/-- On a non-empty pool `Candidate` returns the valid transactions and their
size, writes only the heap, and hands over the invalid elements followed by
the expired ones. -/
theorem Candidate_view (P : Primitives) (tp : TransactionPool) (wc : WorldContext)
    (maxBytes maxCount : Int) (h : tp.list.Len ≠ 0) :
    (Candidate P tp wc maxBytes maxCount).txs
        = (validateAll P tp.txdb (selectPhase P tp wc maxBytes maxCount).txs
            (validateInit (selectPhase P tp wc maxBytes maxCount) wc)).validTxs
      ∧ (Candidate P tp wc maxBytes maxCount).size
        = (validateAll P tp.txdb (selectPhase P tp wc maxBytes maxCount).txs
            (validateInit (selectPhase P tp wc maxBytes maxCount) wc)).txSize
      ∧ (Candidate P tp wc maxBytes maxCount).wc
        = (validateAll P tp.txdb (selectPhase P tp wc maxBytes maxCount).txs
            (validateInit (selectPhase P tp wc maxBytes maxCount) wc)).wc
      ∧ (Candidate P tp wc maxBytes maxCount).pool.list.mem
        = (validateAll P tp.txdb (selectPhase P tp wc maxBytes maxCount).txs
            (validateInit (selectPhase P tp wc maxBytes maxCount) wc)).mem
      ∧ (Candidate P tp wc maxBytes maxCount).pool.list.nodes = tp.list.nodes
      ∧ (Candidate P tp wc maxBytes maxCount).remove
        = (validateAll P tp.txdb (selectPhase P tp wc maxBytes maxCount).txs
            (validateInit (selectPhase P tp wc maxBytes maxCount) wc)).invalid
          ++ (selectPhase P tp wc maxBytes maxCount).expired := by
  obtain ⟨hv, hle⟩ := view_validatePhase P tp wc (selectPhase P tp wc maxBytes maxCount)
  rw [← hv]
  simp only [Candidate, h, if_false, Validation.view]
  refine ⟨trivial, trivial, trivial, trivial, trivial, ?_⟩
  generalize validatePhase P tp wc (selectPhase P tp wc maxBytes maxCount) = val at hle ⊢
  generalize (selectPhase P tp wc maxBytes maxCount).expired = expired
  have hlen : (val.txs.take val.invalidNum).length = val.invalidNum := by
    simp [List.length_take, hle]
  by_cases he : expired.length > 0
  · have hpos : val.invalidNum + expired.length > 0 := by omega
    simp only [he, if_true, hpos]
    rw [List.take_append_eq_append_take, hlen]
    simp [List.take_take]
  · have hnil : expired = [] := List.length_eq_zero.mp (by omega)
    subst hnil
    simp only [List.length_nil, gt_iff_lt, lt_self_iff_false, if_false, List.append_nil]
    by_cases hz : 0 < val.invalidNum
    · simp [hz]
    · have : val.invalidNum = 0 := by omega
      simp [this]

/-- C7: for positive limits `Candidate` returns at most `maxCount`
transactions and reports a total size of at most `maxBytes`. -/
theorem Candidate_within_limits (P : Primitives) (tp : TransactionPool) (wc : WorldContext)
    (maxBytes maxCount : Int) (hb : 0 < maxBytes) (hc : 0 < maxCount) :
    (Candidate P tp wc maxBytes maxCount).size ≤ maxBytes
      ∧ ((Candidate P tp wc maxBytes maxCount).txs.length : Int) ≤ maxCount := by
  by_cases h : tp.list.Len = 0
  · simp only [Candidate, h, if_true, List.length_nil]
    exact ⟨le_of_lt hb, by simpa using le_of_lt hc⟩
  · obtain ⟨c1, c2, -, -, -, -⟩ := Candidate_view P tp wc maxBytes maxCount h
    rw [c1, c2]
    have hmb : effMaxBytes P maxBytes = maxBytes := by
      simp [effMaxBytes, not_le.mpr hb]
    have hmc : effMaxCount maxCount = maxCount := by
      simp [effMaxCount, not_le.mpr hc]
    obtain ⟨s1, -, ⟨added, s3, s4, -, -⟩, s5, s6, -, -⟩ :=
      selectLoop_spec P (NewTxTimestampRangeFor P wc tp.group) maxBytes maxCount
        tp.list.nodes ⟨tp.list.mem, [], [], 0⟩
    have hsel : selectPhase P tp wc maxBytes maxCount
        = selectLoop P (NewTxTimestampRangeFor P wc tp.group) maxBytes maxCount
            tp.list.nodes ⟨tp.list.mem, [], [], 0⟩ := by
      simp [selectPhase, hmb, hmc]
    rw [hsel]
    generalize selectLoop P (NewTxTimestampRangeFor P wc tp.group) maxBytes maxCount
        tp.list.nodes ⟨tp.list.mem, [], [], 0⟩ = sel at s1 s3 s4 s5 s6
    obtain ⟨-, -, ⟨vs, v1, v2, v3⟩, -, -, -⟩ :=
      validateAll_spec P tp.txdb sel.txs (validateInit sel wc)
    have hsize : sel.txSize = bytesSum P sel.mem sel.txs := by
      rw [s4, s3]
      simp only [List.nil_append, zero_add]
      exact (bytesSum_congr P _ _ _ s1).symm
    have hsub : bytesSum P sel.mem vs ≤ bytesSum P sel.mem sel.txs := by
      unfold bytesSum
      apply List.Sublist.sum_le_sum (v2.map _)
      intro x hx
      obtain ⟨e, _, rfl⟩ := List.mem_map.mp hx
      exact Int.ofNat_nonneg _
    constructor
    · rw [v3]
      simp only [validateInit, zero_add]
      have := s5 (le_of_lt hb)
      omega
    · rw [v1]
      simp only [validateInit, List.nil_append, List.length_map]
      have h1 := s6 (by simpa using le_of_lt hc)
      have h2 := v2.length_le
      omega

/-- Witness of C7: a pool of five transactions of 400 bytes and the limits
1000 bytes and 10 transactions. -/
theorem Candidate_within_limits_witness :
    (Candidate samplePrimitives
        (samplePool 10 [] [sampleTx 1 1 100 0 0 400, sampleTx 2 2 100 0 0 400,
          sampleTx 3 3 100 0 0 400, sampleTx 4 4 100 0 0 400, sampleTx 5 5 100 0 0 400])
        (sampleWorld 100 []) 1000 10).size ≤ 1000
      ∧ ((Candidate samplePrimitives
        (samplePool 10 [] [sampleTx 1 1 100 0 0 400, sampleTx 2 2 100 0 0 400,
          sampleTx 3 3 100 0 0 400, sampleTx 4 4 100 0 0 400, sampleTx 5 5 100 0 0 400])
        (sampleWorld 100 []) 1000 10).txs.length : Int) ≤ 10 :=
  Candidate_within_limits _ _ _ 1000 10 (by decide) (by decide)

/-! ### The selection as the claim describes it -/

theorem takeFitting_stop (size : Ptr → Nat) (maxBytes maxCount : Int) (l : List Ptr)
    (used : Int) (cnt : Nat) (hpos : ∀ e ∈ l, 0 < size e)
    (h : ¬ (used < maxBytes ∧ (cnt : Int) < maxCount)) :
    takeFitting size maxBytes maxCount l used cnt = [] := by
  cases l with
  | nil => rfl
  | cons x xs =>
    have hx : (0 : Int) < size x := by exact_mod_cast hpos x (List.mem_cons_self _ _)
    have hcond : ¬ ((cnt : Int) < maxCount ∧ used + size x ≤ maxBytes) := by
      intro hh
      apply h
      exact ⟨by omega, hh.1⟩
    simp [takeFitting, hcond]

/-- The selection loop takes, from the entries that pass the timestamp check,
the longest head that fits both limits. -/
theorem selectLoop_refines (P : Primitives) (tsr : TxTimestampRange) (maxBytes maxCount : Int)
    (mem0 : Heap) :
    ∀ (l : List Ptr) (st : Selection),
      (∀ q, (st.mem q).value = (mem0 q).value) →
      (∀ e ∈ l, 0 < ((mem0 e).value.Bytes P).length) →
      (selectLoop P tsr maxBytes maxCount l st).txs
        = st.txs ++ takeFitting (fun e => ((mem0 e).value.Bytes P).length) maxBytes maxCount
            (admissible tsr mem0 l) st.txSize st.txs.length := by
  intro l
  induction l with
  | nil => intro st _ _; simp [selectLoop, admissible, takeFitting]
  | cons e rest ih =>
    intro st hv hpos
    have hrest : ∀ x ∈ rest, 0 < ((mem0 x).value.Bytes P).length :=
      fun x hx => hpos x (List.mem_cons_of_mem _ hx)
    unfold selectLoop
    by_cases hc : st.txSize < maxBytes ∧ (st.txs.length : Int) < maxCount
    · simp only [hc, and_self, if_true]
      cases hchk : tsr.CheckTx (st.mem e).value with
      | some err =>
        have hadm : admissible tsr mem0 (e :: rest) = admissible tsr mem0 rest := by
          rw [hv e] at hchk
          simp [admissible, List.filter_cons, hchk]
        rw [hadm]
        dsimp only
        by_cases hexp : ExpiredTransactionError.Equals err = true
        · simp only [hexp, if_true]
          exact ih _ (fun q => by simp only [setErrIfNil_value]; exact hv q) hrest
        · simp only [hexp]
          exact ih st hv hrest
      | none =>
        have hadm : admissible tsr mem0 (e :: rest) = e :: admissible tsr mem0 rest := by
          rw [hv e] at hchk
          simp [admissible, List.filter_cons, hchk]
        rw [hadm]
        dsimp only
        rw [hv e]
        by_cases hfit : st.txSize + (((mem0 e).value.Bytes P).length : Int) > maxBytes
        · rw [if_pos hfit]
          have hcond : ¬ ((st.txs.length : Int) < maxCount
              ∧ st.txSize + (((mem0 e).value.Bytes P).length : Int) ≤ maxBytes) := by
            intro hh; omega
          simp [takeFitting, hcond]
        · rw [if_neg hfit]
          have hcond : (st.txs.length : Int) < maxCount
              ∧ st.txSize + (((mem0 e).value.Bytes P).length : Int) ≤ maxBytes :=
            ⟨hc.2, by omega⟩
          refine (ih { st with
              txSize := st.txSize + (((mem0 e).value.Bytes P).length : Int),
              txs := st.txs ++ [e] } hv hrest).trans ?_
          simp [takeFitting, hcond]
    · rw [if_neg hc]
      rw [takeFitting_stop _ _ _ _ _ _ ?_ hc]
      · simp
      · intro x hx
        exact hpos x (List.mem_of_mem_filter hx)

/-- C8: the selection phase of `Candidate` takes the entries that pass the
timestamp range check, in list order, up to the first one that would exceed
the count limit or push the cumulative size above the byte limit, and stops
there; on five valid transactions of 400 bytes with the limits 1000 bytes and
10 transactions, `Candidate` returns the first two and the size 800. -/
theorem Candidate_selection (P : Primitives) (tp : TransactionPool) (wc : WorldContext)
    (maxBytes maxCount : Int)
    (hpos : ∀ e ∈ tp.list.nodes, 0 < ((tp.list.mem e).value.Bytes P).length) :
    (selectPhase P tp wc maxBytes maxCount).txs
        = takeFitting (fun e => ((tp.list.mem e).value.Bytes P).length)
            (effMaxBytes P maxBytes) (effMaxCount maxCount)
            (admissible (NewTxTimestampRangeFor P wc tp.group) tp.list.mem tp.list.nodes) 0 0
      ∧ (Candidate samplePrimitives
          (samplePool 10 [] [sampleTx 1 1 100 0 0 400, sampleTx 2 2 100 0 0 400,
            sampleTx 3 3 100 0 0 400, sampleTx 4 4 100 0 0 400, sampleTx 5 5 100 0 0 400])
          (sampleWorld 100 []) 1000 10).txs.map (fun tx => tx.ID samplePrimitives)
          = [[1], [2]]
      ∧ (Candidate samplePrimitives
          (samplePool 10 [] [sampleTx 1 1 100 0 0 400, sampleTx 2 2 100 0 0 400,
            sampleTx 3 3 100 0 0 400, sampleTx 4 4 100 0 0 400, sampleTx 5 5 100 0 0 400])
          (sampleWorld 100 []) 1000 10).size = 800 := by
  refine ⟨?_, by decide!, by decide!⟩
  have h := selectLoop_refines P (NewTxTimestampRangeFor P wc tp.group)
    (effMaxBytes P maxBytes) (effMaxCount maxCount) tp.list.mem tp.list.nodes
    ⟨tp.list.mem, [], [], 0⟩ (fun _ => rfl) hpos
  simpa [selectPhase] using h

/-- Witness of C8 on the pool of five transactions of 400 bytes. -/
theorem Candidate_selection_witness :
    (selectPhase samplePrimitives
        (samplePool 10 [] [sampleTx 1 1 100 0 0 400, sampleTx 2 2 100 0 0 400,
          sampleTx 3 3 100 0 0 400, sampleTx 4 4 100 0 0 400, sampleTx 5 5 100 0 0 400])
        (sampleWorld 100 []) 1000 10).txs
      = takeFitting
          (fun e => (((samplePool 10 [] [sampleTx 1 1 100 0 0 400, sampleTx 2 2 100 0 0 400,
            sampleTx 3 3 100 0 0 400, sampleTx 4 4 100 0 0 400,
            sampleTx 5 5 100 0 0 400]).list.mem e).value.Bytes samplePrimitives).length)
          (effMaxBytes samplePrimitives 1000) (effMaxCount 10)
          (admissible (NewTxTimestampRangeFor samplePrimitives (sampleWorld 100 [])
              (samplePool 10 [] [sampleTx 1 1 100 0 0 400, sampleTx 2 2 100 0 0 400,
                sampleTx 3 3 100 0 0 400, sampleTx 4 4 100 0 0 400,
                sampleTx 5 5 100 0 0 400]).group)
            (samplePool 10 [] [sampleTx 1 1 100 0 0 400, sampleTx 2 2 100 0 0 400,
              sampleTx 3 3 100 0 0 400, sampleTx 4 4 100 0 0 400,
              sampleTx 5 5 100 0 0 400]).list.mem
            (samplePool 10 [] [sampleTx 1 1 100 0 0 400, sampleTx 2 2 100 0 0 400,
              sampleTx 3 3 100 0 0 400, sampleTx 4 4 100 0 0 400,
              sampleTx 5 5 100 0 0 400]).list.nodes) 0 0 :=
  (Candidate_selection samplePrimitives _ (sampleWorld 100 []) 1000 10 (by decide!)).1

/-! ### Frames and the remover -/

/-- The selection loop does not write entries that pass the timestamp check. -/
theorem selectLoop_frame (P : Primitives) (tsr : TxTimestampRange) (maxBytes maxCount : Int) :
    ∀ (l : List Ptr) (st : Selection) (q : Ptr), tsr.CheckTx (st.mem q).value = none →
      (selectLoop P tsr maxBytes maxCount l st).mem q = st.mem q := by
  intro l
  induction l with
  | nil => intro st q _; rfl
  | cons e rest ih =>
    intro st q hq
    unfold selectLoop
    by_cases hc : st.txSize < maxBytes ∧ (st.txs.length : Int) < maxCount
    · simp only [hc, and_self, if_true]
      cases hchk : tsr.CheckTx (st.mem e).value with
      | some err =>
        dsimp only
        by_cases hexp : ExpiredTransactionError.Equals err = true
        · simp only [hexp, if_true]
          have hne : q ≠ e := by
            intro h; subst h; rw [hq] at hchk; cases hchk
          rw [ih _ q (by simpa [setErrIfNil_value] using hq)]
          exact setErrIfNil_of_ne _ _ _ _ hne
        · simp only [hexp]
          exact ih st q hq
      | none =>
        dsimp only
        split
        · rfl
        · exact ih _ q hq
    · rw [if_neg hc]

theorem validateAll_append (P : Primitives) (txdb : Bucket) (l1 l2 : List Ptr) (a : Validated) :
    validateAll P txdb (l1 ++ l2) a = validateAll P txdb l2 (validateAll P txdb l1 a) := by
  induction l1 generalizing a with
  | nil => rfl
  | cons e es ih =>
    rw [List.cons_append]
    simp only [validateAll]
    exact ih _

/-- The remover does not panic on elements whose error is set, and unlinks
exactly the elements it is given. -/
theorem removeTransactions_spec (P : Primitives) :
    ∀ (l : List Ptr) (tp : TransactionPool),
      (∀ e ∈ l, e ∈ tp.list.nodes → (tp.list.mem e).err ≠ none) →
      ∃ tp', removeTransactions P l tp = some tp'
        ∧ tp'.list.nodes = tp.list.nodes.filter (fun q => decide (q ∉ l))
        ∧ tp'.list.mem = tp.list.mem
        ∧ tp'.size = tp.size := by
  intro l
  induction l with
  | nil => intro tp _; exact ⟨tp, rfl, by simp, rfl, rfl⟩
  | cons e es ih =>
    intro tp h
    unfold removeTransactions
    by_cases hin : e ∈ tp.list.nodes
    · have hrem : (tp.list.Remove e).2 = true := by simp [transactionList.Remove, hin]
      simp only [hrem, if_true]
      cases herr : (tp.list.mem e).err with
      | none => exact absurd herr (h e (List.mem_cons_self _ _) hin)
      | some err =>
        dsimp only
        obtain ⟨tp', r1, r2, r3, r4⟩ := ih
          { tp with
            list := (tp.list.Remove e).1,
            events := tp.events ++
              [.OnTxDrop ((tp.list.mem e).value.ID P) err,
               .OnDropTx ((tp.list.mem e).value.Bytes P).length
                 (decide ((tp.list.mem e).ts ≠ 0))] }
          (fun x hx hxn => h x (List.mem_cons_of_mem _ hx)
            (by
              have hxn' : x ∈ tp.list.nodes.filter fun p => decide (p ≠ e) := hxn
              exact List.mem_of_mem_filter hxn'))
        refine ⟨tp', r1, ?_, r3, r4⟩
        rw [r2]
        simp only [transactionList.Remove, List.filter_filter]
        apply List.filter_congr
        intro q _
        by_cases hq : q = e
        · subst hq; simp
        · simp [hq]
    · have hrem : (tp.list.Remove e).2 = false := by simp [transactionList.Remove, hin]
      simp only [hrem]
      obtain ⟨tp', r1, r2, r3, r4⟩ := ih tp
        (fun x hx hxn => h x (List.mem_cons_of_mem _ hx) hxn)
      refine ⟨tp', r1, ?_, r3, r4⟩
      rw [r2]
      apply List.filter_congr
      intro q hqn
      have hq : q ≠ e := fun hh => hin (hh ▸ hqn)
      simp [hq]

/-- The outcome of the selection phase on a pool. -/
theorem selectPhase_spec (P : Primitives) (tp : TransactionPool) (wc : WorldContext)
    (maxBytes maxCount : Int) :
    (∀ q, ((selectPhase P tp wc maxBytes maxCount).mem q).value = (tp.list.mem q).value)
      ∧ (selectPhase P tp wc maxBytes maxCount).txs.Sublist tp.list.nodes
      ∧ (∀ e ∈ (selectPhase P tp wc maxBytes maxCount).txs,
          (NewTxTimestampRangeFor P wc tp.group).CheckTx (tp.list.mem e).value = none)
      ∧ (∀ e ∈ (selectPhase P tp wc maxBytes maxCount).txs,
          (selectPhase P tp wc maxBytes maxCount).mem e = tp.list.mem e)
      ∧ (selectPhase P tp wc maxBytes maxCount).expired.Sublist tp.list.nodes
      ∧ (∀ e ∈ (selectPhase P tp wc maxBytes maxCount).expired,
          (NewTxTimestampRangeFor P wc tp.group).CheckTx (tp.list.mem e).value ≠ none)
      ∧ (∀ e ∈ (selectPhase P tp wc maxBytes maxCount).expired,
          ((selectPhase P tp wc maxBytes maxCount).mem e).err ≠ none)
      ∧ (∀ q, (tp.list.mem q).err ≠ none →
          ((selectPhase P tp wc maxBytes maxCount).mem q).err = (tp.list.mem q).err) := by
  obtain ⟨s1, -, ⟨added, s3, -, s5, s6⟩, -, -, ⟨exp, s9, s10, s11, s12⟩, s13⟩ :=
    selectLoop_spec P (NewTxTimestampRangeFor P wc tp.group) (effMaxBytes P maxBytes)
      (effMaxCount maxCount) tp.list.nodes ⟨tp.list.mem, [], [], 0⟩
  have sframe := selectLoop_frame P (NewTxTimestampRangeFor P wc tp.group)
    (effMaxBytes P maxBytes) (effMaxCount maxCount) tp.list.nodes ⟨tp.list.mem, [], [], 0⟩
  simp only [List.nil_append] at s3 s9
  unfold selectPhase
  refine ⟨s1, by rw [s3]; exact s5, ?_, ?_, by rw [s9]; exact s10, ?_, ?_, s13⟩
  · intro x hx; rw [s3] at hx; exact s6 x hx
  · intro x hx; rw [s3] at hx; exact sframe x (s6 x hx)
  · intro x hx; rw [s9] at hx; exact s11 x hx
  · intro x hx; rw [s9] at hx; exact s12 x hx

theorem UniqueIds.nodup {P : Primitives} {l : transactionList} (h : UniqueIds P l) :
    l.nodes.Nodup := by
  unfold UniqueIds at h
  exact h.imp (fun hne heq => hne (by rw [heq]))

theorem UniqueIds.ne_value {P : Primitives} {l : transactionList} (h : UniqueIds P l)
    {p q : Ptr} (hp : p ∈ l.nodes) (hq : q ∈ l.nodes) (hpq : p ≠ q) :
    (l.mem p).value ≠ (l.mem q).value := by
  unfold UniqueIds at h
  have := h.forall (fun a b hab => Ne.symm hab) hp hq hpq
  intro heq
  exact this (by rw [heq])

/-- C6 (amended): when `PreValidate` of a selected entry fails with
`NotEnoughBalance`, the error is recorded in the `err` field of the entry if
that field was nil and the field is left as it was otherwise; the transaction
is not returned, the entry is not handed to the remover, and after the remover
has run the entry is still in the pool.  The world context the entry is
validated in is the one left by the validation of the entries selected before
it. -/
theorem Candidate_transient (P : Primitives) (tp : TransactionPool) (wc : WorldContext)
    (maxBytes maxCount : Int) (pre post : List Ptr) (e : Ptr) (err : TxError)
    (hu : UniqueIds P tp.list)
    (hsel : (selectPhase P tp wc maxBytes maxCount).txs = pre ++ e :: post)
    (hdb : tp.txdb.Has ((tp.list.mem e).value.ID P) = false)
    (hpre : ((tp.list.mem e).value.PreValidate P
        (validateLoop P tp.txdb pre.length 0
          ⟨(selectPhase P tp wc maxBytes maxCount).txs, 0, [], 0,
            (selectPhase P tp wc maxBytes maxCount).mem, wc⟩).wc true).1 = some err)
    (hbal : NotEnoughBalanceError.Equals err = true) :
    ((Candidate P tp wc maxBytes maxCount).pool.list.mem e).err
        = some ((tp.list.mem e).err.getD err)
      ∧ (tp.list.mem e).value ∉ (Candidate P tp wc maxBytes maxCount).txs
      ∧ e ∉ (Candidate P tp wc maxBytes maxCount).remove
      ∧ ∃ tp', removeTransactions P (Candidate P tp wc maxBytes maxCount).remove
            (Candidate P tp wc maxBytes maxCount).pool = some tp'
          ∧ e ∈ tp'.list.nodes := by
  obtain ⟨s1, s2, s3, s4, s5, s6, s7, s8⟩ := selectPhase_spec P tp wc maxBytes maxCount
  -- the state the entry is validated in
  have hloop := view_validateLoop P tp.txdb pre.length 0
    ⟨(selectPhase P tp wc maxBytes maxCount).txs, 0, [], 0,
      (selectPhase P tp wc maxBytes maxCount).mem, wc⟩ (Nat.le_refl 0)
    (by simp [hsel])
  have hwc : (validateLoop P tp.txdb pre.length 0
      ⟨(selectPhase P tp wc maxBytes maxCount).txs, 0, [], 0,
        (selectPhase P tp wc maxBytes maxCount).mem, wc⟩).wc
      = (validateAll P tp.txdb pre
          (validateInit (selectPhase P tp wc maxBytes maxCount) wc)).wc := by
    have := congrArg Validated.wc hloop.1
    simpa [Validation.view, validateInit, hsel] using this
  rw [hwc] at hpre
  have hne : tp.list.Len ≠ 0 := by
    intro h0
    have hnil : tp.list.nodes = [] := by
      simpa [transactionList.Len] using h0
    rw [hnil] at s2
    rw [List.sublist_nil.mp s2] at hsel
    simp at hsel
  obtain ⟨c1, -, -, c4, c5, c6⟩ := Candidate_view P tp wc maxBytes maxCount hne
  -- membership and distinctness
  have hnodup : (pre ++ e :: post).Nodup := by
    rw [← hsel]; exact hu.nodup.sublist s2
  have he_pre : e ∉ pre := by
    intro h
    have := (List.nodup_append.mp hnodup).2.2
    exact this h (List.mem_cons_self _ _)
  have he_post : e ∉ post := by
    have := (List.nodup_append.mp hnodup).2.1
    exact (List.nodup_cons.mp this).1
  have he_sel : e ∈ (selectPhase P tp wc maxBytes maxCount).txs := by
    rw [hsel]; simp
  have hmem_nodes : ∀ x ∈ pre ++ e :: post, x ∈ tp.list.nodes := by
    intro x hx; rw [← hsel] at hx; exact s2.subset hx
  generalize hS : selectPhase P tp wc maxBytes maxCount = sel at *
  -- validation of the entries before, of the entry, and of the entries after
  obtain ⟨p1, -, ⟨vs1, p3, p4, -⟩, ⟨inv1, p6, p7, -⟩, -, p10⟩ :=
    validateAll_spec P tp.txdb pre (validateInit sel wc)
  have hmem1 : (validateAll P tp.txdb pre (validateInit sel wc)).mem e = tp.list.mem e := by
    rw [p10 e he_pre]; exact s4 e he_sel
  have hstep : validateElem P tp.txdb e (validateAll P tp.txdb pre (validateInit sel wc))
      = { validateAll P tp.txdb pre (validateInit sel wc) with
          mem := setErrIfNil (validateAll P tp.txdb pre (validateInit sel wc)).mem e err,
          wc := ((tp.list.mem e).value.PreValidate P
            (validateAll P tp.txdb pre (validateInit sel wc)).wc true).2 } := by
    rcases validateElem_cases P tp.txdb e (validateAll P tp.txdb pre (validateInit sel wc))
      with ⟨h, _⟩ | ⟨err', wc', h1, _, ⟨h2, _⟩ | ⟨_, h3⟩⟩ | ⟨wc', h1, _, _⟩
    · exfalso
      rw [hmem1, hdb] at h; cases h
    · exfalso
      rw [hmem1] at h1; rw [h1] at hpre
      simp only [Option.some.injEq] at hpre
      subst hpre
      rw [h2] at hbal; cases hbal
    · rw [hmem1] at h1
      rw [h1] at hpre
      simp only [Option.some.injEq] at hpre
      subst hpre
      rw [h3, h1]
    · exfalso
      rw [hmem1] at h1; rw [h1] at hpre; cases hpre
  have hall : validateAll P tp.txdb sel.txs (validateInit sel wc)
      = validateAll P tp.txdb post
          (validateElem P tp.txdb e (validateAll P tp.txdb pre (validateInit sel wc))) := by
    rw [hsel, validateAll_append]; rfl
  obtain ⟨q1, -, ⟨vs2, q3, q4, -⟩, ⟨inv2, q6, q7, -⟩, -, q10⟩ :=
    validateAll_spec P tp.txdb post
      (validateElem P tp.txdb e (validateAll P tp.txdb pre (validateInit sel wc)))
  obtain ⟨-, -, -, ⟨inv, r6, -, r8⟩, r9, -⟩ :=
    validateAll_spec P tp.txdb sel.txs (validateInit sel wc)
  -- the value of every entry is the one of the pool
  have hvalA : ∀ x, ((validateInit sel wc).mem x).value = (tp.list.mem x).value := s1
  have hvalB : ∀ x, ((validateElem P tp.txdb e
      (validateAll P tp.txdb pre (validateInit sel wc))).mem x).value
        = (tp.list.mem x).value := by
    intro x; rw [hstep]; simp only [setErrIfNil_value]; rw [p1]; exact s1 x
  refine ⟨?_, ?_, ?_, ?_⟩
  · rw [c4, hall, q10 e he_post, hstep]
    simp only [setErrIfNil_err_self, hmem1]
  · rw [c1, hall, q3, hstep]
    simp only []
    rw [p3]
    simp only [validateInit, List.nil_append, List.mem_append, List.mem_map, not_or, not_exists,
      not_and]
    constructor
    · intro x hx heq
      have hxn : x ∈ tp.list.nodes := hmem_nodes x (by simp [p4.subset hx])
      have hen : e ∈ tp.list.nodes := hmem_nodes e (by simp)
      have hxe : x ≠ e := fun h => he_pre (h ▸ p4.subset hx)
      exact hu.ne_value hxn hen hxe (by rw [← s1 x]; exact heq)
    · intro x hx heq
      have hxn : x ∈ tp.list.nodes := hmem_nodes x (by simp [q4.subset hx])
      have hen : e ∈ tp.list.nodes := hmem_nodes e (by simp)
      have hxe : x ≠ e := fun h => he_post (h ▸ q4.subset hx)
      have hv := hvalB x
      rw [hstep] at hv
      exact hu.ne_value hxn hen hxe (by rw [← hv]; exact heq)
  · rw [c6, hall, q6, hstep]
    simp only []
    rw [p6]
    simp only [validateInit, List.nil_append, List.mem_append, not_or]
    refine ⟨⟨fun h => he_pre (p7.subset h), fun h => he_post (q7.subset h)⟩, ?_⟩
    intro h
    exact s6 e h (s3 e he_sel)
  · have hrm := removeTransactions_spec P (Candidate P tp wc maxBytes maxCount).remove
      (Candidate P tp wc maxBytes maxCount).pool (by
        intro x hx _
        rw [c6] at hx
        rw [c4]
        rcases List.mem_append.mp hx with hx | hx
        · rw [r6] at hx
          exact r8 x (by simpa [validateInit] using hx)
        · exact r9 x (s7 x hx))
    obtain ⟨tp', t1, t2, -, -⟩ := hrm
    refine ⟨tp', t1, ?_⟩
    rw [t2, c5]
    apply List.mem_filter.mpr
    refine ⟨hmem_nodes e (by simp), ?_⟩
    simp only [decide_not, Bool.not_eq_true', decide_eq_false_iff_not]
    rw [c6, hall, q6, hstep]
    simp only []
    rw [p6]
    simp only [validateInit, List.nil_append, List.mem_append, not_or]
    refine ⟨⟨fun h => he_pre (p7.subset h), fun h => he_post (q7.subset h)⟩, ?_⟩
    intro h
    exact s6 e h (s3 e he_sel)

/-- Witness of C6 (amended): the single entry of `poorPool`, whose sender
cannot pay. -/
theorem Candidate_transient_witness :
    ((Candidate samplePrimitives poorPool (sampleWorld 100 []) 0 0).pool.list.mem 0).err
        = some ((poorPool.list.mem 0).err.getD .OutOfBalance)
      ∧ (poorPool.list.mem 0).value
          ∉ (Candidate samplePrimitives poorPool (sampleWorld 100 []) 0 0).txs
      ∧ 0 ∉ (Candidate samplePrimitives poorPool (sampleWorld 100 []) 0 0).remove
      ∧ ∃ tp', removeTransactions samplePrimitives
            (Candidate samplePrimitives poorPool (sampleWorld 100 []) 0 0).remove
            (Candidate samplePrimitives poorPool (sampleWorld 100 []) 0 0).pool = some tp'
          ∧ 0 ∈ tp'.list.nodes :=
  Candidate_transient samplePrimitives poorPool (sampleWorld 100 []) 0 0 [] [] 0 .OutOfBalance
    (by unfold UniqueIds; decide) (by decide) (by decide) (by decide) (by decide)

/-- C6 as stated fails: the entry of `poorPool` has no error recorded, its
`PreValidate` fails with the out-of-balance error, and after `Candidate` the
`err` field of the entry holds that error instead of being left nil. -/
theorem Candidate_transient_counterexample :
    (poorPool.list.mem 0).err = none
      ∧ ((poorPool.list.mem 0).value.PreValidate samplePrimitives (sampleWorld 100 []) true).1
          = some .OutOfBalance
      ∧ NotEnoughBalanceError.Equals .OutOfBalance = true
      ∧ (selectPhase samplePrimitives poorPool (sampleWorld 100 []) 0 0).txs = [0]
      ∧ ((Candidate samplePrimitives poorPool (sampleWorld 100 []) 0 0).pool.list.mem 0).err
          = some .OutOfBalance
      ∧ ((Candidate samplePrimitives poorPool (sampleWorld 100 []) 0 0).pool.list.mem 0).err
          ≠ (poorPool.list.mem 0).err := by
  decide

/-- C5 fails on the code: the entry of `finalizedPool` carries the error
recorded by an earlier `Candidate` call (out of balance); its id is now in the
bucket of finalized transactions, and the validation phase of `Candidate`
overwrites the recorded error with `AlreadyProcessed`. -/
theorem Candidate_overwrites_err :
    (finalizedPool.list.mem 0).err = some .OutOfBalance
      ∧ (selectPhase samplePrimitives finalizedPool (sampleWorld 100 []) 0 0).txs = [0]
      ∧ ((Candidate samplePrimitives finalizedPool (sampleWorld 100 []) 0 0).pool.list.mem 0).err
          = some .AlreadyProcessed := by
  decide

/-! ### Cumulative balance -/

/-- A failed `PreValidate` leaves the world context as it was. -/
theorem PreValidate_error (P : Primitives) (tx : transactionV3) (wc : WorldContext)
    (update : Bool) (err : TxError) (h : (tx.PreValidate P wc update).1 = some err) :
    (tx.PreValidate P wc update).2 = wc := by
  unfold transactionV3.PreValidate at h ⊢
  cases hts : preValidateTimestamp P tx.data.TimeStamp wc.BlockTimeStamp with
  | some e => simp only [hts]
  | none =>
    cases hm : measureBytesOfData P wc.Revision tx.data.Data with
    | error e => simp only [hts, hm]
    | ok cnt =>
      simp only [hts, hm] at h ⊢
      by_cases hstep : tx.data.StepLimit
          < wrapInt64 (wc.StepsFor .StepTypeDefault 1 + wc.StepsFor .StepTypeInput cnt)
      · simp only [hstep, if_true]
      · by_cases hbal : wc.balance tx.From.ID < tx.trans wc.StepPrice
        · simp only [hstep, if_false, hbal, if_true]
        · simp only [hstep, if_false, hbal] at h ⊢
          cases update <;> simp at h ⊢

/-- A successful `PreValidate` with `update` found the sender able to pay
`trans`, debited it from the sender and credited the value to the
recipient. -/
theorem PreValidate_ok (P : Primitives) (tx : transactionV3) (wc : WorldContext)
    (h : (tx.PreValidate P wc true).1 = none) :
    tx.trans wc.StepPrice ≤ wc.balance tx.From.ID
      ∧ (tx.PreValidate P wc true).2
        = (wc.SetBalance tx.From.ID (wc.balance tx.From.ID - tx.trans wc.StepPrice)).SetBalance
            tx.data.To.ID (wc.balance tx.data.To.ID + tx.data.Value.getD 0) := by
  unfold transactionV3.PreValidate at h ⊢
  cases hts : preValidateTimestamp P tx.data.TimeStamp wc.BlockTimeStamp with
  | some e => simp [hts] at h
  | none =>
    cases hm : measureBytesOfData P wc.Revision tx.data.Data with
    | error e => simp [hts, hm] at h
    | ok cnt =>
      simp only [hts, hm] at h ⊢
      by_cases hstep : tx.data.StepLimit
          < wrapInt64 (wc.StepsFor .StepTypeDefault 1 + wc.StepsFor .StepTypeInput cnt)
      · simp [hstep] at h
      · by_cases hbal : wc.balance tx.From.ID < tx.trans wc.StepPrice
        · simp [hstep, hbal] at h
        · simp only [hstep, if_false, hbal, if_true]
          exact ⟨not_lt.mp hbal, trivial⟩

/-- The checks of `PreValidate` other than the balance check read only the
block data and the step costs: in a world context that differs in the
balances alone, a transaction that passed them and can no longer pay fails
with the out-of-balance error. -/
theorem PreValidate_out_of_balance (P : Primitives) (tx : transactionV3)
    (wc wc2 : WorldContext) (h : (tx.PreValidate P wc true).1 = none)
    (h1 : wc2.BlockTimeStamp = wc.BlockTimeStamp) (h2 : wc2.Revision = wc.Revision)
    (h3 : wc2.StepsFor = wc.StepsFor) (h4 : wc2.StepPrice = wc.StepPrice)
    (hb : wc2.balance tx.From.ID < tx.trans wc.StepPrice) :
    tx.PreValidate P wc2 true = (some .OutOfBalance, wc2) := by
  unfold transactionV3.PreValidate at h ⊢
  rw [h1, h2, h3, h4]
  cases hts : preValidateTimestamp P tx.data.TimeStamp wc.BlockTimeStamp with
  | some e => simp [hts] at h
  | none =>
    cases hm : measureBytesOfData P wc.Revision tx.data.Data with
    | error e => simp [hts, hm] at h
    | ok cnt =>
      simp only [hts, hm] at h ⊢
      by_cases hstep : tx.data.StepLimit
          < wrapInt64 (wc.StepsFor .StepTypeDefault 1 + wc.StepsFor .StepTypeInput cnt)
      · simp [hstep] at h
      · simp only [hstep, if_false, hb, if_true]

theorem validateElem_value (P : Primitives) (txdb : Bucket) (e : Ptr) (a : Validated)
    (q : Ptr) : ((validateElem P txdb e a).mem q).value = (a.mem q).value := by
  rcases validateElem_cases P txdb e a with
    ⟨_, h⟩ | ⟨err, wc, _, _, ⟨_, h⟩ | ⟨_, h⟩⟩ | ⟨wc, _, _, h⟩
    <;> rw [h] <;> simp [setErr_value, setErrIfNil_value]

theorem chargedTo_append (S : Bytes) (price : Int) (l : List transactionV3)
    (tx : transactionV3) :
    chargedTo S price (l ++ [tx])
      = chargedTo S price l + (if tx.From.ID = S then tx.trans price else 0) := by
  unfold chargedTo
  by_cases h : tx.From.ID = S
  · simp [List.filter_append, h]
  · simp [List.filter_append, h]

/-- One validation step keeps the step price; when the entry does not pay to
`S`, it keeps the balance of `S` non-negative and keeps the sum of that
balance and the amount charged to `S` by the valid transactions. -/
theorem validateElem_balance (P : Primitives) (txdb : Bucket) (S : Bytes) (e : Ptr)
    (a : Validated) (hto : (a.mem e).value.data.To.ID ≠ S) (hB : 0 ≤ a.wc.balance S) :
    (validateElem P txdb e a).wc.StepPrice = a.wc.StepPrice
      ∧ 0 ≤ (validateElem P txdb e a).wc.balance S
      ∧ chargedTo S a.wc.StepPrice (validateElem P txdb e a).validTxs
          + (validateElem P txdb e a).wc.balance S
        = chargedTo S a.wc.StepPrice a.validTxs + a.wc.balance S := by
  rcases validateElem_cases P txdb e a with
    ⟨_, h⟩ | ⟨err, wc, hp, _, ⟨_, h⟩ | ⟨_, h⟩⟩ | ⟨wc, hp, _, h⟩
  · rw [h]; exact ⟨rfl, hB, rfl⟩
  · have hw : wc = a.wc := by
      have := PreValidate_error P (a.mem e).value a.wc true err (by rw [hp])
      rw [hp] at this; exact this
    rw [h, hw]; exact ⟨rfl, hB, rfl⟩
  · have hw : wc = a.wc := by
      have := PreValidate_error P (a.mem e).value a.wc true err (by rw [hp])
      rw [hp] at this; exact this
    rw [h, hw]; exact ⟨rfl, hB, rfl⟩
  · obtain ⟨hle, hw⟩ := PreValidate_ok P (a.mem e).value a.wc (by rw [hp])
    rw [hp] at hw
    simp only at hw
    rw [h, hw]
    simp only [chargedTo_append]
    have hS : S ≠ (a.mem e).value.data.To.ID := fun hh => hto hh.symm
    by_cases hfrom : (a.mem e).value.From.ID = S
    · have hfrom' : S = (a.mem e).value.From.ID := hfrom.symm
      simp only [WorldContext.SetBalance, hS, if_false, hfrom, if_true]
      rw [hfrom] at hle
      refine ⟨trivial, by omega, by omega⟩
    · have hfrom' : S ≠ (a.mem e).value.From.ID := fun hh => hfrom hh.symm
      simp only [WorldContext.SetBalance, hS, if_false, hfrom, hfrom']
      refine ⟨trivial, hB, by omega⟩

/-- The validation of a list of entries none of which pays to `S` never charges
`S` more than its balance: the balance stays non-negative and the sum of the
balance and the charged amount stays the same. -/
theorem validateAll_balance (P : Primitives) (txdb : Bucket) (S : Bytes) :
    ∀ (l : List Ptr) (a : Validated),
      (∀ e ∈ l, (a.mem e).value.data.To.ID ≠ S) → 0 ≤ a.wc.balance S →
      (validateAll P txdb l a).wc.StepPrice = a.wc.StepPrice
        ∧ 0 ≤ (validateAll P txdb l a).wc.balance S
        ∧ chargedTo S a.wc.StepPrice (validateAll P txdb l a).validTxs
            + (validateAll P txdb l a).wc.balance S
          = chargedTo S a.wc.StepPrice a.validTxs + a.wc.balance S := by
  intro l
  induction l with
  | nil => intro a _ hB; exact ⟨rfl, hB, rfl⟩
  | cons e rest ih =>
    intro a hto hB
    obtain ⟨e1, e2, e3⟩ := validateElem_balance P txdb S e a
      (hto e (List.mem_cons_self _ _)) hB
    obtain ⟨i1, i2, i3⟩ := ih (validateElem P txdb e a)
      (fun x hx => by
        rw [validateElem_value]; exact hto x (List.mem_cons_of_mem _ hx)) e2
    simp only [validateAll]
    rw [e1] at i1 i3
    exact ⟨i1, i2, by rw [i3, e3]⟩

theorem selected_nonempty (P : Primitives) (tp : TransactionPool) (wc : WorldContext)
    (maxBytes maxCount : Int) (h : (selectPhase P tp wc maxBytes maxCount).txs ≠ []) :
    tp.list.Len ≠ 0 := by
  intro h0
  have hnil : tp.list.nodes = [] := by
    simpa [transactionList.Len] using h0
  have hsub := (selectPhase_spec P tp wc maxBytes maxCount).2.1
  rw [hnil] at hsub
  exact h (List.sublist_nil.mp hsub)

/-- C10: when the balance `B` of an account `S` is non-negative and no
selected transaction pays to `S`, the transactions of `S` returned by one
`Candidate` call charge `S` at most `B` in total (`stepLimit * stepPrice +
value` each); in particular, when the selection consists of two transactions
of `S` that each pass `PreValidate` on their own but together cost more than
`B`, `Candidate` returns the first and not the second. -/
theorem Candidate_cumulative_balance (P : Primitives) (tp : TransactionPool)
    (wc : WorldContext) (maxBytes maxCount : Int) (S : Bytes)
    (hB : 0 ≤ wc.balance S)
    (hto : ∀ e ∈ (selectPhase P tp wc maxBytes maxCount).txs,
      (tp.list.mem e).value.data.To.ID ≠ S) :
    chargedTo S wc.StepPrice (Candidate P tp wc maxBytes maxCount).txs ≤ wc.balance S
      ∧ ∀ p1 p2 : Ptr, (selectPhase P tp wc maxBytes maxCount).txs = [p1, p2] →
          (tp.list.mem p1).value.From.ID = S → (tp.list.mem p2).value.From.ID = S →
          tp.txdb.Has ((tp.list.mem p1).value.ID P) = false →
          tp.txdb.Has ((tp.list.mem p2).value.ID P) = false →
          ((tp.list.mem p1).value.PreValidate P wc true).1 = none →
          ((tp.list.mem p2).value.PreValidate P wc true).1 = none →
          wc.balance S < (tp.list.mem p1).value.trans wc.StepPrice
            + (tp.list.mem p2).value.trans wc.StepPrice →
          (Candidate P tp wc maxBytes maxCount).txs = [(tp.list.mem p1).value] := by
  obtain ⟨s1, -, -, s4, -, -, -, -⟩ := selectPhase_spec P tp wc maxBytes maxCount
  constructor
  · by_cases h : tp.list.Len = 0
    · simp only [Candidate, h, if_true]
      simpa [chargedTo] using hB
    · obtain ⟨c1, -, -, -, -, -⟩ := Candidate_view P tp wc maxBytes maxCount h
      rw [c1]
      obtain ⟨-, b2, b3⟩ := validateAll_balance P tp.txdb S
        (selectPhase P tp wc maxBytes maxCount).txs
        (validateInit (selectPhase P tp wc maxBytes maxCount) wc)
        (fun e he => by
          simp only [validateInit]; rw [s1]; exact hto e he)
        (by simpa [validateInit] using hB)
      simp only [validateInit, chargedTo, List.filter_nil, List.map_nil, List.sum_nil,
        zero_add] at b2 b3 ⊢
      omega
  · intro p1 p2 hsel hf1 hf2 hd1 hd2 hv1 hv2 hsum
    have hne : tp.list.Len ≠ 0 :=
      selected_nonempty P tp wc maxBytes maxCount (by rw [hsel]; simp)
    obtain ⟨c1, -, -, -, -, -⟩ := Candidate_view P tp wc maxBytes maxCount hne
    have hm1 := s4 p1 (by rw [hsel]; simp)
    have hm2 := s4 p2 (by rw [hsel]; simp)
    have ht1 := hto p1 (by rw [hsel]; simp)
    rw [c1, hsel]
    generalize selectPhase P tp wc maxBytes maxCount = sel at hm1 hm2
    obtain ⟨hle1, hw1⟩ := PreValidate_ok P (tp.list.mem p1).value wc hv1
    have hpair1 : (tp.list.mem p1).value.PreValidate P wc true
        = (none, (wc.SetBalance (tp.list.mem p1).value.From.ID
            (wc.balance (tp.list.mem p1).value.From.ID
              - (tp.list.mem p1).value.trans wc.StepPrice)).SetBalance
            (tp.list.mem p1).value.data.To.ID
            (wc.balance (tp.list.mem p1).value.data.To.ID
              + (tp.list.mem p1).value.data.Value.getD 0)) :=
      Prod.ext hv1 hw1
    have hpair2 := PreValidate_out_of_balance P (tp.list.mem p2).value wc
      ((wc.SetBalance (tp.list.mem p1).value.From.ID
            (wc.balance (tp.list.mem p1).value.From.ID
              - (tp.list.mem p1).value.trans wc.StepPrice)).SetBalance
            (tp.list.mem p1).value.data.To.ID
            (wc.balance (tp.list.mem p1).value.data.To.ID
              + (tp.list.mem p1).value.data.Value.getD 0))
      hv2 rfl rfl rfl rfl
      (by
        have hS : S ≠ (tp.list.mem p1).value.data.To.ID := fun hh => ht1 hh.symm
        rw [hf1] at hle1
        rw [hf2, hf1]
        simp only [WorldContext.SetBalance, hS, if_false, if_true]
        omega)
    generalize (wc.SetBalance (tp.list.mem p1).value.From.ID
            (wc.balance (tp.list.mem p1).value.From.ID
              - (tp.list.mem p1).value.trans wc.StepPrice)).SetBalance
            (tp.list.mem p1).value.data.To.ID
            (wc.balance (tp.list.mem p1).value.data.To.ID
              + (tp.list.mem p1).value.data.Value.getD 0) = wc1 at hpair1 hpair2
    have hstep1 : validateElem P tp.txdb p1 (validateInit sel wc)
        = ⟨[], [(tp.list.mem p1).value],
            (((tp.list.mem p1).value.Bytes P).length : Int), sel.mem, wc1⟩ := by
      unfold validateElem
      simp only [validateInit, hm1, hd1, hpair1]
      simp
    have hstep2 : validateElem P tp.txdb p2
        ⟨[], [(tp.list.mem p1).value],
            (((tp.list.mem p1).value.Bytes P).length : Int), sel.mem, wc1⟩
        = ⟨[], [(tp.list.mem p1).value],
            (((tp.list.mem p1).value.Bytes P).length : Int),
            setErrIfNil sel.mem p2 .OutOfBalance, wc1⟩ := by
      unfold validateElem
      simp only [hm2, hd2, hpair2, NotEnoughBalanceError.Equals]
      simp
    simp only [validateAll, hstep1, hstep2]

/-- Witness of C10: account 7 holds 150 and sends two transfers of 100 to
account 9; the first is returned and the second is not. -/
theorem Candidate_cumulative_balance_witness :
    chargedTo [7] (sampleWorld 100 [([7], 150)]).StepPrice
        (Candidate samplePrimitives
          (samplePool 10 [] [sampleTx 1 7 100 0 100 10, sampleTx 2 7 100 0 100 10])
          (sampleWorld 100 [([7], 150)]) 0 0).txs
      ≤ (sampleWorld 100 [([7], 150)]).balance [7]
      ∧ (Candidate samplePrimitives
          (samplePool 10 [] [sampleTx 1 7 100 0 100 10, sampleTx 2 7 100 0 100 10])
          (sampleWorld 100 [([7], 150)]) 0 0).txs
        = [((samplePool 10 [] [sampleTx 1 7 100 0 100 10,
            sampleTx 2 7 100 0 100 10]).list.mem 0).value] :=
  ⟨(Candidate_cumulative_balance samplePrimitives
      (samplePool 10 [] [sampleTx 1 7 100 0 100 10, sampleTx 2 7 100 0 100 10])
      (sampleWorld 100 [([7], 150)]) 0 0 [7] (by decide) (by decide)).1,
    (Candidate_cumulative_balance samplePrimitives
      (samplePool 10 [] [sampleTx 1 7 100 0 100 10, sampleTx 2 7 100 0 100 10])
      (sampleWorld 100 [([7], 150)]) 0 0 [7] (by decide) (by decide)).2 0 1
      (by decide) (by decide) (by decide) (by decide) (by decide) (by decide) (by decide)
      (by decide)⟩

/-- Whatever the limits, `Candidate` returns at most the effective count
limit, which is `configMaxTxCount` for a limit that is not positive. -/
theorem Candidate_count_cap (P : Primitives) (tp : TransactionPool) (wc : WorldContext)
    (maxBytes maxCount : Int) :
    ((Candidate P tp wc maxBytes maxCount).txs.length : Int) ≤ effMaxCount maxCount := by
  have hpos : (0 : Int) ≤ effMaxCount maxCount := by
    unfold effMaxCount configMaxTxCount
    split <;> omega
  by_cases h : tp.list.Len = 0
  · simp only [Candidate, h, if_true, List.length_nil]
    exact_mod_cast hpos
  · obtain ⟨c1, -, -, -, -, -⟩ := Candidate_view P tp wc maxBytes maxCount h
    rw [c1]
    obtain ⟨-, -, -, -, s6, -, -⟩ :=
      selectLoop_spec P (NewTxTimestampRangeFor P wc tp.group) (effMaxBytes P maxBytes)
        (effMaxCount maxCount) tp.list.nodes ⟨tp.list.mem, [], [], 0⟩
    have hs : ((selectPhase P tp wc maxBytes maxCount).txs.length : Int)
        ≤ effMaxCount maxCount := s6 (by simpa using hpos)
    obtain ⟨-, -, ⟨vs, v1, v2, -⟩, -, -, -⟩ :=
      validateAll_spec P tp.txdb (selectPhase P tp wc maxBytes maxCount).txs
        (validateInit (selectPhase P tp wc maxBytes maxCount) wc)
    rw [v1]
    simp only [validateInit, List.nil_append, List.length_map]
    have := v2.length_le
    omega

/-- C9 fails on the code: `crowdedPool` holds 1501 entries, each of which
passes the timestamp range check, is not in the bucket of finalized
transactions and passes `PreValidate`, yet `Candidate` with the count limit
`-1` returns at most 1500 of them. -/
theorem Candidate_negative_count_capped :
    crowdedPool.list.nodes.length = 1501
      ∧ (∀ p ∈ crowdedPool.list.nodes,
          (NewTxTimestampRangeFor samplePrimitives (sampleWorld 100 [])
              crowdedPool.group).CheckTx (crowdedPool.list.mem p).value = none
            ∧ crowdedPool.txdb.Has ((crowdedPool.list.mem p).value.ID samplePrimitives) = false
            ∧ ((crowdedPool.list.mem p).value.PreValidate samplePrimitives
                (sampleWorld 100 []) true).1 = none)
      ∧ ((Candidate samplePrimitives crowdedPool (sampleWorld 100 []) 0 (-1)).txs.length : Int)
          ≤ 1500 := by
  refine ⟨by simp [crowdedPool], ?_, ?_⟩
  · intro p _
    exact ⟨rfl, rfl, rfl⟩
  · exact Candidate_count_cap samplePrimitives crowdedPool (sampleWorld 100 []) 0 (-1)

end TransactionPool

/-! ### Verify -/

/-- A call transaction that passes the timestamp, value and size checks and
whose data decodes with a non-empty method is accepted by `Verify` whatever
its signature: the call branch returns the (nil) error of `ParseCallData`. -/
theorem Verify_call_skips_signature (P : Primitives) (tx : transactionV3) (ts : Int)
    (d : Bytes) (n : Nat) (jso : DataCallJSON)
    (hdt : tx.data.DataType = some DataTypeCall) (hd : tx.data.Data = some d)
    (hts : verifyTimestamp P tx.data.TimeStamp ts = none)
    (hval : tx.data.Value.any (fun v => decide (v < 0)) = false)
    (hcount : countBytesOfData P tx.data.Data = .ok n) (hsize : n ≤ txMaxDataSize)
    (hparse : ParseCallData P d = .ok jso) :
    tx.Verify P ts = none := by
  unfold transactionV3.Verify
  rw [hd] at hcount
  simp [hts, hval, hcount, not_lt.mpr hsize, hdt, hd, hparse]

/-- C1 fails on the code: `unsignedCall` passes every other check of `Verify`,
no public key can be recovered from its signature, and `Verify` returns nil;
the same transaction without a data type is rejected by the signature
check. -/
theorem Verify_call_unsigned :
    verifyTimestamp samplePrimitives unsignedCall.data.TimeStamp 100 = none
      ∧ countBytesOfData samplePrimitives unsignedCall.data.Data = .ok 21
      ∧ samplePrimitives.RecoverPublicKey unsignedCall.data.Signature
          (unsignedCall.TxHash samplePrimitives) = none
      ∧ unsignedCall.verifySignature samplePrimitives = some .FailToRecoverPublicKey
      ∧ unsignedCall.Verify samplePrimitives 100 = none
      ∧ ({ unsignedCall with data := { unsignedCall.data with DataType := none } }
          : transactionV3).Verify samplePrimitives 100 = some .FailToRecoverPublicKey := by
  refine ⟨by decide, rfl, by decide, by decide, ?_, by decide⟩
  exact Verify_call_skips_signature samplePrimitives unsignedCall 100
    ([123] ++ ascii "\"method\":\"transfer\"" ++ [125]) 21 ⟨"transfer", none⟩
    rfl rfl (by decide) (by decide) rfl (by decide) rfl

/-! ### CheckTxs -/

/-- A number in the range of `int64` is its own wrap. -/
theorem wrapInt64_of_range (x : Int) (h1 : -2 ^ 63 ≤ x) (h2 : x < 2 ^ 63) :
    wrapInt64 x = x := by
  unfold wrapInt64
  omega

namespace TransactionPool

/-- C11: `CheckTxs(wc)` returns true exactly when some entry of the pool has a
timestamp greater than `wc.BlockTimeStamp() - threshold(wc, group)` (the
`int64` difference, which is the mathematical one whenever that lies in the
`int64` range), and it returns false on the empty pool. -/
theorem CheckTxs_iff (tp : TransactionPool) (wc : WorldContext) :
    (tp.CheckTxs wc = true ↔
        ∃ e ∈ tp.entries,
          e.value.Timestamp > wrapInt64 (wc.BlockTimeStamp - wc.TimestampThreshold tp.group))
      ∧ (tp.entries = [] → tp.CheckTxs wc = false)
      ∧ (-2 ^ 63 ≤ wc.BlockTimeStamp - wc.TimestampThreshold tp.group →
          wc.BlockTimeStamp - wc.TimestampThreshold tp.group < 2 ^ 63 →
          (tp.CheckTxs wc = true ↔
            ∃ e ∈ tp.entries,
              e.value.Timestamp > wc.BlockTimeStamp - wc.TimestampThreshold tp.group)) := by
  have hmain : tp.CheckTxs wc = true ↔
      ∃ e ∈ tp.entries,
        e.value.Timestamp > wrapInt64 (wc.BlockTimeStamp - wc.TimestampThreshold tp.group) := by
    unfold CheckTxs entries
    by_cases h : tp.list.Len = 0
    · have hnil : tp.list.nodes = [] := by simpa [transactionList.Len] using h
      simp [h, hnil]
    · simp [h]
  refine ⟨hmain, ?_, ?_⟩
  · intro he
    cases hc : tp.CheckTxs wc with
    | false => rfl
    | true =>
      obtain ⟨e, hmem, _⟩ := hmain.mp hc
      rw [he] at hmem
      cases hmem
  · intro h1 h2
    rw [hmain, wrapInt64_of_range _ h1 h2]

/-! ### RemoveList -/

theorem UniqueIds_filter (P : Primitives) (l : transactionList) (p : Ptr → Bool)
    (h : UniqueIds P l) : UniqueIds P { l with nodes := l.nodes.filter p } := by
  unfold UniqueIds at h ⊢
  exact h.filter p

/-- Under the invariant of the id index, unlinking a node is the same as
dropping the entries with its id. -/
theorem filter_ne_eq_filter_id (P : Primitives) (l : transactionList) (e : Ptr)
    (hu : UniqueIds P l) (he : e ∈ l.nodes) :
    l.nodes.filter (fun p => decide (p ≠ e))
      = l.nodes.filter (fun p => !decide ((l.mem p).value.ID P = (l.mem e).value.ID P)) := by
  apply List.filter_congr
  intro q hq
  by_cases hqe : q = e
  · subst hqe; simp
  · have hv := hu.ne_value hq he hqe
    have hid : (l.mem q).value.ID P ≠ (l.mem e).value.ID P := by
      unfold UniqueIds at hu
      exact hu.forall (fun a b hab => Ne.symm hab) hq he hqe
    simp [hqe, hid]

/-- What `RemoveTx` does under the invariant of the id index: with no entry of
that id nothing changes; otherwise the entries of that id are dropped and the
insertion time of the entry found is reported. -/
theorem RemoveTx_spec (P : Primitives) (l : transactionList) (t : transactionV3)
    (hu : UniqueIds P l) :
    ((∀ q ∈ l.nodes, (l.mem q).value.ID P ≠ t.ID P) ∧ l.RemoveTx P t = (l, false, 0))
      ∨ ∃ e ∈ l.nodes, (l.mem e).value.ID P = t.ID P
          ∧ l.RemoveTx P t =
            ({ l with
                nodes := l.nodes.filter (fun p => !decide ((l.mem p).value.ID P = t.ID P)) },
              true, (l.mem e).ts) := by
  unfold transactionList.RemoveTx
  cases hf : l.nodes.find? (fun p => decide ((l.mem p).value.ID P = t.ID P)) with
  | none =>
    left
    refine ⟨?_, rfl⟩
    intro q hq
    have := List.find?_eq_none.mp hf q hq
    simpa using this
  | some e =>
    right
    have he : e ∈ l.nodes := List.mem_of_find?_eq_some hf
    have hid : (l.mem e).value.ID P = t.ID P := by
      simpa using List.find?_some hf
    refine ⟨e, he, hid, ?_⟩
    simp only [transactionList.Remove]
    rw [filter_ne_eq_filter_id P l e hu he, hid]
    simp [he]

theorem filter_split_perm {α : Type} (l : List α) (p q : α → Bool) :
    (l.filter p).Perm ((l.filter q).filter p ++ (l.filter fun x => !q x).filter p) := by
  have h := (List.filter_append_perm q l).filter p
  rw [List.filter_append] at h
  exact h.symm

/-- In a list whose members have pairwise different keys, the members with the
key of a given member are that member alone. -/
theorem filter_key_singleton {β : Type} [DecidableEq β] (f : Ptr → β) :
    ∀ (l : List Ptr) (e : Ptr), l.Pairwise (fun a b => f a ≠ f b) → e ∈ l →
      l.filter (fun q => decide (f q = f e)) = [e] := by
  intro l
  induction l with
  | nil => intro e _ he; cases he
  | cons x xs ih =>
    intro e hp he
    obtain ⟨hx, hxs⟩ := List.pairwise_cons.mp hp
    rcases List.mem_cons.mp he with rfl | he'
    · have hnil : xs.filter (fun q => decide (f q = f e)) = [] := by
        rw [List.filter_eq_nil_iff]
        intro y hy
        simpa using fun h => hx y hy h.symm
      simp [List.filter_cons, hnil]
    · have hne : f x ≠ f e := hx e he'
      simp [List.filter_cons, hne, ih e hxs he']

/-- The wrap of a sum does not depend on wrapping a summand first. -/
theorem wrapInt64_add_wrap (a b : Int) : wrapInt64 (wrapInt64 a + b) = wrapInt64 (a + b) := by
  unfold wrapInt64
  omega

/-- A wrap is in the range of `int64`. -/
theorem wrapInt64_bounds (x : Int) : -2 ^ 63 ≤ wrapInt64 x ∧ wrapInt64 x < 2 ^ 63 := by
  unfold wrapInt64
  omega

/-- A difference in the range of `int64` is not saturated. -/
theorem timeSub_of_range (t u : Int) (h1 : -2 ^ 63 ≤ t - u) (h2 : t - u < 2 ^ 63) :
    timeSub t u = t - u := by
  unfold timeSub
  rw [if_neg (by omega), if_neg (by omega)]

/-- The variable `duration` of the loop of `RemoveList` stays an `int64`. -/
theorem removeListLoop_duration_range (P : Primitives) (now : Int) :
    ∀ (items : List (Option transactionV3)) (st : Removal),
      (-2 ^ 63 ≤ st.duration ∧ st.duration < 2 ^ 63) →
      -2 ^ 63 ≤ (removeListLoop P now items st).duration
        ∧ (removeListLoop P now items st).duration < 2 ^ 63 := by
  intro items
  induction items with
  | nil =>
    intro st h
    exact h
  | cons item rest ih =>
    intro st h
    cases item with
    | none => exact ih st h
    | some t =>
      unfold removeListLoop
      split
      · apply ih
        dsimp only
        split
        · exact wrapInt64_bounds _
        · exact h
      · exact ih st h

/-- What the loop of `RemoveList` does under the invariant of the id index: the
entries whose id the iterator yields are dropped, the heap is not written,
`count` grows by the number of dropped direct entries and `duration`, as an
`int64`, by their latencies, and the monitor is told of removals only. -/
theorem removeListLoop_spec (P : Primitives) (now : Int) :
    ∀ (items : List (Option transactionV3)) (st : Removal), UniqueIds P st.pool.list →
      (removeListLoop P now items st).pool.list.nodes
          = st.pool.list.nodes.filter (fun q =>
              !(items.filterMap fun o => o.map fun t => t.ID P).contains
                ((st.pool.list.mem q).value.ID P))
        ∧ (removeListLoop P now items st).pool.list.mem = st.pool.list.mem
        ∧ (removeListLoop P now items st).count
          = st.count + ((st.pool.list.nodes.filter (fun q =>
              (items.filterMap fun o => o.map fun t => t.ID P).contains
                ((st.pool.list.mem q).value.ID P)
              && decide ((st.pool.list.mem q).ts ≠ 0))).length : Int)
        ∧ wrapInt64 (removeListLoop P now items st).duration
          = wrapInt64 (st.duration + ((st.pool.list.nodes.filter (fun q =>
              (items.filterMap fun o => o.map fun t => t.ID P).contains
                ((st.pool.list.mem q).value.ID P)
              && decide ((st.pool.list.mem q).ts ≠ 0))).map
                (fun q => timeSub now (st.pool.list.mem q).ts)).sum)
        ∧ (∃ added, (removeListLoop P now items st).pool.events = st.pool.events ++ added
            ∧ commits added = [])
        ∧ (removeListLoop P now items st).pool.size = st.pool.size
        ∧ (removeListLoop P now items st).pool.group = st.pool.group := by
  intro items
  induction items with
  | nil =>
    intro st _
    simp [removeListLoop, commits]
  | cons item rest ih =>
    intro st hu
    cases item with
    | none =>
      simpa [removeListLoop] using ih st hu
    | some t =>
      rcases RemoveTx_spec P st.pool.list t hu with ⟨hnone, heq⟩ | ⟨e, he, hid, heq⟩
      · obtain ⟨i1, i2, i3, i4, i5, i6, i7⟩ := ih st hu
        have hcongr : ∀ q ∈ st.pool.list.nodes,
            ((some t :: rest).filterMap fun o => o.map fun t => t.ID P).contains
                ((st.pool.list.mem q).value.ID P)
              = (rest.filterMap fun o => o.map fun t => t.ID P).contains
                ((st.pool.list.mem q).value.ID P) := by
          intro q hq
          have := hnone q hq
          simp [List.filterMap_cons, this]
        have hf1 : st.pool.list.nodes.filter (fun q =>
              !((some t :: rest).filterMap fun o => o.map fun t => t.ID P).contains
                ((st.pool.list.mem q).value.ID P))
            = st.pool.list.nodes.filter (fun q =>
              !(rest.filterMap fun o => o.map fun t => t.ID P).contains
                ((st.pool.list.mem q).value.ID P)) :=
          List.filter_congr (fun q hq => by rw [hcongr q hq])
        have hf2 : st.pool.list.nodes.filter (fun q =>
              ((some t :: rest).filterMap fun o => o.map fun t => t.ID P).contains
                ((st.pool.list.mem q).value.ID P)
              && decide ((st.pool.list.mem q).ts ≠ 0))
            = st.pool.list.nodes.filter (fun q =>
              (rest.filterMap fun o => o.map fun t => t.ID P).contains
                ((st.pool.list.mem q).value.ID P)
              && decide ((st.pool.list.mem q).ts ≠ 0)) :=
          List.filter_congr (fun q hq => by rw [hcongr q hq])
        simp only [removeListLoop, heq]
        rw [hf1, hf2]
        exact ⟨i1, i2, i3, i4, i5, i6, i7⟩
      · have hu' := UniqueIds_filter P st.pool.list
          (fun p => !decide ((st.pool.list.mem p).value.ID P = t.ID P)) hu
        obtain ⟨i1, i2, i3, i4, ⟨added, i5, i5'⟩, i6, i7⟩ := ih
          { pool := { st.pool with
                      list := { st.pool.list with
                        nodes := st.pool.list.nodes.filter
                          (fun p => !decide ((st.pool.list.mem p).value.ID P = t.ID P)) },
                      events := st.pool.events ++
                        [.OnRemoveTx (t.Bytes P).length
                          (decide ((st.pool.list.mem e).ts ≠ 0))] },
            duration := if (st.pool.list.mem e).ts ≠ 0
              then wrapInt64 (st.duration + timeSub now (st.pool.list.mem e).ts)
              else st.duration,
            count := if (st.pool.list.mem e).ts ≠ 0 then st.count + 1 else st.count } hu'
        simp only [removeListLoop, heq]
        -- the entries with the id of `t` are `e` alone
        have hsingle : st.pool.list.nodes.filter
            (fun q => decide ((st.pool.list.mem q).value.ID P = t.ID P)) = [e] := by
          have := filter_key_singleton (fun q => (st.pool.list.mem q).value.ID P)
            st.pool.list.nodes e hu he
          simpa only [hid] using this
        -- the direct entries to drop, split by the id of `t`
        have hperm := filter_split_perm st.pool.list.nodes
          (fun q =>
            ((some t :: rest).filterMap fun o => o.map fun t => t.ID P).contains
              ((st.pool.list.mem q).value.ID P)
            && decide ((st.pool.list.mem q).ts ≠ 0))
          (fun q => decide ((st.pool.list.mem q).value.ID P = t.ID P))
        have hrest : (st.pool.list.nodes.filter
              (fun q => !decide ((st.pool.list.mem q).value.ID P = t.ID P))).filter
              (fun q =>
                ((some t :: rest).filterMap fun o => o.map fun t => t.ID P).contains
                  ((st.pool.list.mem q).value.ID P)
                && decide ((st.pool.list.mem q).ts ≠ 0))
            = (st.pool.list.nodes.filter
              (fun q => !decide ((st.pool.list.mem q).value.ID P = t.ID P))).filter
              (fun q =>
                (rest.filterMap fun o => o.map fun t => t.ID P).contains
                  ((st.pool.list.mem q).value.ID P)
                && decide ((st.pool.list.mem q).ts ≠ 0)) := by
          apply List.filter_congr
          intro q hq
          have hne : (st.pool.list.mem q).value.ID P ≠ t.ID P := by
            simpa using (List.mem_filter.mp hq).2
          simp [List.filterMap_cons, hne]
        rw [hsingle, hrest] at hperm
        refine ⟨i1.trans ?_, i2, i3.trans ?_, i4.trans ?_,
          ⟨[.OnRemoveTx (t.Bytes P).length (decide ((st.pool.list.mem e).ts ≠ 0))] ++ added,
            i5.trans ?_, by simpa [commits, List.filter_cons] using i5'⟩, i6, i7⟩
        · simp only [List.filter_filter]
          apply List.filter_congr
          intro q _
          by_cases hq : (st.pool.list.mem q).value.ID P = t.ID P
          · simp [List.filterMap_cons, hq]
          · simp [List.filterMap_cons, hq]
        · rw [hperm.length_eq]
          by_cases hts : (st.pool.list.mem e).ts = 0
          · simp [List.filter_cons, hts]
          · simp [List.filter_cons, hts, List.filterMap_cons, hid]
            ring
        · rw [(hperm.map _).sum_eq]
          by_cases hts : (st.pool.list.mem e).ts = 0
          · simp [List.filter_cons, hts]
          · simp [List.filter_cons, hts, List.filterMap_cons, hid, wrapInt64_add_wrap, add_assoc]
        · simp

/-- The direct entries with a listed id, read off the nodes. -/
theorem directListed_eq (P : Primitives) (tp : TransactionPool) (ids : List Bytes) :
    tp.directListed P ids
      = (tp.list.nodes.filter (fun q =>
          ids.contains ((tp.list.mem q).value.ID P) && decide ((tp.list.mem q).ts ≠ 0))).map
          tp.list.mem := by
  unfold directListed entries
  rw [List.filter_map]
  rfl

/-- C12: after `RemoveList(txs)` the pool holds exactly the previous entries
whose id is not the id of a transaction the iterator of `txs` yields,
unchanged and in their original order; on `mixedPool` and the list of its
first three transactions only the fourth entry is left. -/
theorem RemoveList_removes_listed (P : Primitives) (now : Int) (tp : TransactionPool)
    (txs : moduleTransactionList) (hu : UniqueIds P tp.list) :
    (tp.RemoveList P now txs).entries
        = tp.entries.filter (fun e => !(txs.ids P).contains (e.value.ID P))
      ∧ ((mixedPool.RemoveList samplePrimitives 100 finalizedThree).entries.map
          fun e => e.value.ID samplePrimitives) = [[4]] := by
  refine ⟨?_, by decide⟩
  by_cases h : tp.list.Len = 0
  · have hnil : tp.list.nodes = [] := by simpa [transactionList.Len] using h
    simp [RemoveList, h, entries, hnil]
  · obtain ⟨l1, l2, -, -, -, -, -⟩ := removeListLoop_spec P now txs.items ⟨tp, 0, 0⟩ hu
    have hlist : (tp.RemoveList P now txs).list
        = (removeListLoop P now txs.items ⟨tp, 0, 0⟩).pool.list := by
      simp only [RemoveList, h, if_false]
      split <;> rfl
    unfold entries
    rw [hlist, l1, l2, List.filter_map]
    rfl

/-- C13: `RemoveList` calls `Monitor.OnCommit` at most once, and exactly once
when some removed entry was submitted directly.  The latency it reports is the
`int64` wrap of the sum of the saturated `now - insertionTs` over the removed
direct entries, divided by their number, so the divisor is not zero and
entries that were not direct count for nothing; when every `now - insertionTs`
of a removed direct entry and their sum are in the range of `int64`, it is the
sum of `now - insertionTs` over the removed direct entries divided by their
number. -/
theorem RemoveList_commit (P : Primitives) (now : Int) (tp : TransactionPool)
    (txs : moduleTransactionList) (hu : UniqueIds P tp.list) :
    ∃ added, (tp.RemoveList P now txs).events = tp.events ++ added
      ∧ commits added =
          (if tp.directListed P (txs.ids P) = [] then []
           else [.OnCommit txs.Hash now
              (Int.tdiv
                (wrapInt64 ((tp.directListed P (txs.ids P)).map fun e => timeSub now e.ts).sum)
                ((tp.directListed P (txs.ids P)).length : Int))])
      ∧ (tp.directListed P (txs.ids P) ≠ [] →
          ((tp.directListed P (txs.ids P)).length : Int) ≠ 0)
      ∧ ((∀ e ∈ tp.directListed P (txs.ids P), -2 ^ 63 ≤ now - e.ts ∧ now - e.ts < 2 ^ 63) →
          -2 ^ 63 ≤ ((tp.directListed P (txs.ids P)).map fun e => now - e.ts).sum →
          ((tp.directListed P (txs.ids P)).map fun e => now - e.ts).sum < 2 ^ 63 →
          commits added =
            (if tp.directListed P (txs.ids P) = [] then []
             else [.OnCommit txs.Hash now
                (Int.tdiv ((tp.directListed P (txs.ids P)).map fun e => now - e.ts).sum
                  ((tp.directListed P (txs.ids P)).length : Int))])) := by
  have hlen : tp.directListed P (txs.ids P) ≠ [] →
      ((tp.directListed P (txs.ids P)).length : Int) ≠ 0 := by
    intro hne hz
    exact hne (List.length_eq_zero.mp (by exact_mod_cast hz))
  have hplain : (∀ e ∈ tp.directListed P (txs.ids P),
        -2 ^ 63 ≤ now - e.ts ∧ now - e.ts < 2 ^ 63) →
      -2 ^ 63 ≤ ((tp.directListed P (txs.ids P)).map fun e => now - e.ts).sum →
      ((tp.directListed P (txs.ids P)).map fun e => now - e.ts).sum < 2 ^ 63 →
      wrapInt64 ((tp.directListed P (txs.ids P)).map fun e => timeSub now e.ts).sum
        = ((tp.directListed P (txs.ids P)).map fun e => now - e.ts).sum := by
    intro hr h1 h2
    have hmap : ((tp.directListed P (txs.ids P)).map fun e => timeSub now e.ts)
        = (tp.directListed P (txs.ids P)).map fun e => now - e.ts :=
      List.map_congr_left fun e he => timeSub_of_range now e.ts (hr e he).1 (hr e he).2
    rw [hmap]
    exact wrapInt64_of_range _ h1 h2
  have hmain : ∃ added, (tp.RemoveList P now txs).events = tp.events ++ added
      ∧ commits added =
          (if tp.directListed P (txs.ids P) = [] then []
           else [.OnCommit txs.Hash now
              (Int.tdiv
                (wrapInt64 ((tp.directListed P (txs.ids P)).map fun e => timeSub now e.ts).sum)
                ((tp.directListed P (txs.ids P)).length : Int))]) := by
    by_cases h : tp.list.Len = 0
    · have hnil : tp.list.nodes = [] := by simpa [transactionList.Len] using h
      refine ⟨[], by simp [RemoveList, h], ?_⟩
      simp [commits, directListed, entries, hnil]
    · obtain ⟨-, -, l3, l4, ⟨added, l5, l5'⟩, -, -⟩ :=
        removeListLoop_spec P now txs.items ⟨tp, 0, 0⟩ hu
      obtain ⟨g1, g2⟩ := removeListLoop_duration_range P now txs.items ⟨tp, 0, 0⟩
        (by constructor <;> norm_num)
      have hd := directListed_eq P tp (txs.ids P)
      unfold moduleTransactionList.ids at hd ⊢
      simp only [zero_add] at l3 l4 l5
      rw [wrapInt64_of_range _ g1 g2] at l4
      have hcount : (removeListLoop P now txs.items ⟨tp, 0, 0⟩).count
          = ((tp.directListed P (txs.items.filterMap fun o => o.map fun t => t.ID P)).length
              : Int) := by
        rw [l3, hd, List.length_map]
      have hdur : (removeListLoop P now txs.items ⟨tp, 0, 0⟩).duration
          = wrapInt64 ((tp.directListed P
              (txs.items.filterMap fun o => o.map fun t => t.ID P)).map
              fun e => timeSub now e.ts).sum := by
        rw [l4, hd, List.map_map]
        rfl
      by_cases hc : (removeListLoop P now txs.items ⟨tp, 0, 0⟩).count > 0
      · have hne : tp.directListed P (txs.items.filterMap fun o => o.map fun t => t.ID P)
            ≠ [] := by
          intro hnil
          rw [hcount, hnil] at hc
          simp at hc
        refine ⟨added ++
            [.OnPoolCapacityUpdated (removeListLoop P now txs.items ⟨tp, 0, 0⟩).pool.group
                (removeListLoop P now txs.items ⟨tp, 0, 0⟩).pool.size
                (removeListLoop P now txs.items ⟨tp, 0, 0⟩).pool.list.Len,
             .OnCommit txs.Hash now
                (Int.tdiv (removeListLoop P now txs.items ⟨tp, 0, 0⟩).duration
                  (removeListLoop P now txs.items ⟨tp, 0, 0⟩).count)], ?_, ?_⟩
        · simp only [RemoveList, h, if_false, hc, if_true]
          rw [l5, List.append_assoc]
        · rw [if_neg hne, ← hcount, ← hdur]
          unfold commits at l5' ⊢
          rw [List.filter_append, l5']
          simp [List.filter_cons]
      · have hnil : tp.directListed P (txs.items.filterMap fun o => o.map fun t => t.ID P)
            = [] := by
          rw [hcount] at hc
          apply List.length_eq_zero.mp
          have : ¬ (0 : Int) < ((tp.directListed P
              (txs.items.filterMap fun o => o.map fun t => t.ID P)).length : Int) := hc
          omega
        refine ⟨added, ?_, ?_⟩
        · simp only [RemoveList, h, if_false, hc]
          exact l5
        · rw [if_pos hnil]; exact l5'
  obtain ⟨added, m1, m2⟩ := hmain
  refine ⟨added, m1, m2, hlen, ?_⟩
  intro hr h1 h2
  rw [m2, hplain hr h1 h2]

/-- Witness of C12 on `mixedPool` and the list of its first three
transactions. -/
theorem RemoveList_removes_listed_witness :
    (mixedPool.RemoveList samplePrimitives 100 finalizedThree).entries
      = mixedPool.entries.filter
          (fun e => !(finalizedThree.ids samplePrimitives).contains
            (e.value.ID samplePrimitives)) :=
  (RemoveList_removes_listed samplePrimitives 100 mixedPool finalizedThree
    (by unfold UniqueIds; decide)).1

/-- Witness of C13 on `mixedPool`: the first and third entries are direct
(inserted at 10 and 30), the second is not; at clock 100 the one `OnCommit`
reports (90 + 70) / 2 = 80. -/
theorem RemoveList_commit_witness :
    UniqueIds samplePrimitives mixedPool.list
      ∧ ((mixedPool.directListed samplePrimitives (finalizedThree.ids samplePrimitives)).map
          fun e => 100 - e.ts) = [90, 70]
      ∧ commits (mixedPool.RemoveList samplePrimitives 100 finalizedThree).events
          = [.OnCommit [42] 100 80]
      ∧ ∃ added, (mixedPool.RemoveList samplePrimitives 100 finalizedThree).events
          = mixedPool.events ++ added
        ∧ commits added =
            (if mixedPool.directListed samplePrimitives (finalizedThree.ids samplePrimitives)
                = []
             then []
             else [.OnCommit finalizedThree.Hash 100
                (Int.tdiv ((mixedPool.directListed samplePrimitives
                    (finalizedThree.ids samplePrimitives)).map fun e => 100 - e.ts).sum
                  ((mixedPool.directListed samplePrimitives
                    (finalizedThree.ids samplePrimitives)).length : Int))]) := by
  refine ⟨by unfold UniqueIds; decide, by decide, by decide, ?_⟩
  obtain ⟨added, a1, -, -, a4⟩ := RemoveList_commit samplePrimitives 100 mixedPool
    finalizedThree (by unfold UniqueIds; decide)
  exact ⟨added, a1, a4 (by decide) (by decide) (by decide)⟩

/-- Counterexample to C13 without the range of the sum: `agedPool` holds six
direct entries inserted at 1 to 6 nanoseconds; at the clock reading
1800000000000000000 the sum of `now - insertionTs`, 10799999999999999979,
is past the largest `int64`, `duration` wraps to -7646744073709551637, and the
reported latency is negative, not the sum divided by six. -/
theorem RemoveList_commit_counterexample :
    ((agedPool.directListed samplePrimitives (finalizedSix.ids samplePrimitives)).map
          fun e => e.ts) = [1, 2, 3, 4, 5, 6]
      ∧ Int.tdiv ((agedPool.directListed samplePrimitives
            (finalizedSix.ids samplePrimitives)).map
            fun e => 1800000000000000000 - e.ts).sum
          ((agedPool.directListed samplePrimitives
            (finalizedSix.ids samplePrimitives)).length : Int) = 1799999999999999996
      ∧ commits (agedPool.RemoveList samplePrimitives 1800000000000000000 finalizedSix).events
          = [.OnCommit [42] 1800000000000000000 (-1274457345618258606)] := by
  refine ⟨by decide, by decide, by decide!⟩

/-! ### FilterTransactions -/

theorem filterEntry_txs (P : Primitives) (txdb : Bucket) (bloom : TxBloom) (e : Ptr)
    (st : Filtering) (h : ∀ tx ∈ st.txs, bloom.Contains (tx.ID P) = false) :
    ∀ tx ∈ (filterEntry P txdb bloom e st).txs, bloom.Contains (tx.ID P) = false := by
  unfold filterEntry
  dsimp only
  by_cases hb : bloom.Contains ((st.mem e).value.ID P) = true
  · simpa [hb] using h
  · have hb' : bloom.Contains ((st.mem e).value.ID P) = false := by simpa using hb
    by_cases hdb : txdb.Has ((st.mem e).value.ID P) = true
    · simpa [hb', hdb] using h
    · simp only [hb', Bool.not_false, if_true, hdb]
      intro tx htx
      rcases List.mem_append.mp htx with htx | htx
      · exact h tx htx
      · rw [List.mem_singleton.mp htx]; exact hb'

theorem filterLoop_txs (P : Primitives) (txdb : Bucket) (l : transactionList)
    (bloom : TxBloom) (max : Int) :
    ∀ (nodes : List Ptr) (st : Filtering),
      (∀ tx ∈ st.txs, bloom.Contains (tx.ID P) = false) →
      ∀ tx ∈ (filterLoop P txdb l bloom max nodes st).txs,
        bloom.Contains (tx.ID P) = false := by
  intro nodes
  induction nodes with
  | nil => intro st h; exact h
  | cons e rest ih =>
    intro st h
    unfold filterLoop
    dsimp only
    repeat' split
    · exact ih st h
    · exact ih _ h
    · exact ih _ (filterEntry_txs P txdb bloom e _ h)
    · exact ih _ (filterEntry_txs P txdb bloom e st h)
    · exact h

/-- C14: for `max >= 0`, `FilterTransactions(bloom, max)` returns, and the
peer bloom contains the id of none of the returned transactions. -/
theorem FilterTransactions_not_in_bloom (P : Primitives) (tp : TransactionPool)
    (bloom : TxBloom) (max : Int) (hmax : 0 ≤ max) :
    ∃ r, tp.FilterTransactions P bloom max = some r
      ∧ ∀ tx ∈ r.txs, bloom.Contains (tx.ID P) = false := by
  unfold FilterTransactions
  rw [if_neg (not_lt.mpr hmax)]
  refine ⟨_, rfl, ?_⟩
  exact filterLoop_txs P tp.txdb tp.list bloom max tp.list.nodes _ (by simp)

/-- Witness of C14: `mixedPool` filtered against the bloom of a peer that
holds the first transaction; the other three are returned. -/
theorem FilterTransactions_not_in_bloom_witness :
    (∃ r, mixedPool.FilterTransactions samplePrimitives peerBloom 10 = some r
      ∧ ∀ tx ∈ r.txs, peerBloom.Contains (tx.ID samplePrimitives) = false)
      ∧ (mixedPool.FilterTransactions samplePrimitives peerBloom 10).map
          (fun r => r.txs.map fun tx => tx.ID samplePrimitives) = some [[2], [3], [4]] :=
  ⟨FilterTransactions_not_in_bloom samplePrimitives mixedPool peerBloom 10 (by decide),
    by decide⟩

end TransactionPool

/-! ### calcHash -/

/-- The ten segment leads, as `calcHash` writes them. -/
theorem segment_leads (v : Bytes) :
    segment "data" v = ascii ".data." ++ v
      ∧ segment "dataType" v = ascii ".dataType." ++ v
      ∧ segment "from" v = ascii ".from." ++ v
      ∧ segment "nid" v = ascii ".nid." ++ v
      ∧ segment "nonce" v = ascii ".nonce." ++ v
      ∧ segment "stepLimit" v = ascii ".stepLimit." ++ v
      ∧ segment "timestamp" v = ascii ".timestamp." ++ v
      ∧ segment "to" v = ascii ".to." ++ v
      ∧ segment "value" v = ascii ".value." ++ v
      ∧ segment "version" v = ascii ".version." ++ v :=
  ⟨rfl, rfl, rfl, rfl, rfl, rfl, rfl, rfl, rfl, rfl⟩

/-- The hash input is the canonical input for the same text of the data
segment. -/
theorem hashInput_canonical (P : Primitives) (tx : transactionV3Data) :
    tx.hashInput P
      = (match tx.Data with
          | none => some (canonicalInput none tx)
          | some d => (dataValue P d).map fun v => canonicalInput (some v) tx) := by
  have h1 := fun v => (segment_leads v).1
  have h2 := fun v => (segment_leads v).2.1
  have h3 := fun v => (segment_leads v).2.2.1
  have h4 := fun v => (segment_leads v).2.2.2.1
  have h5 := fun v => (segment_leads v).2.2.2.2.1
  have h6 := fun v => (segment_leads v).2.2.2.2.2.1
  have h7 := fun v => (segment_leads v).2.2.2.2.2.2.1
  have h8 := fun v => (segment_leads v).2.2.2.2.2.2.2.1
  have h9 := fun v => (segment_leads v).2.2.2.2.2.2.2.2.1
  have h10 := fun v => (segment_leads v).2.2.2.2.2.2.2.2.2
  have hcan : ∀ (data : Option Bytes) (seg : Bytes), optionalSegment "data" data = seg →
      canonicalInput data tx
        = ascii "icx_sendTransaction" ++ seg
          ++ (match tx.DataType with
              | some dt => ascii ".dataType." ++ ascii dt
              | none => [])
          ++ ascii ".from." ++ tx.From.String
          ++ (match tx.NID with
              | some nid => ascii ".nid." ++ hexString nid
              | none => [])
          ++ (match tx.Nonce with
              | some nonce => ascii ".nonce." ++ hexString nonce
              | none => [])
          ++ ascii ".stepLimit." ++ hexString tx.StepLimit
          ++ ascii ".timestamp." ++ hexString tx.TimeStamp
          ++ ascii ".to." ++ tx.To.String
          ++ (match tx.Value with
              | some v => ascii ".value." ++ hexString v
              | none => [])
          ++ ascii ".version." ++ hexString tx.Version := by
    intro data seg hseg
    unfold canonicalInput
    rw [hseg]
    cases tx.DataType <;> cases tx.NID <;> cases tx.Nonce <;> cases tx.Value <;>
      simp only [optionalSegment, Option.map, h2, h3, h4, h5, h6, h7, h8, h9, h10,
        List.append_assoc, List.append_nil, List.nil_append]
  unfold transactionV3Data.hashInput
  cases hd : tx.Data with
  | none =>
    simp only []
    rw [hcan none [] rfl]
  | some d =>
    simp only [dataValue]
    by_cases hlen : d.length > 0
    · simp only [hlen, if_true]
      cases P.jsonUnmarshal d with
      | none => rfl
      | some obj =>
        cases hsv : P.serializeValue obj with
        | none => simp [hsv]
        | some bs =>
          simp only [Option.some_bind, hsv, Option.map_some']
          rw [hcan (some bs) (ascii ".data." ++ bs) (h1 bs)]
    · simp only [hlen, if_false, Option.map_some']
      rw [hcan (some []) (ascii ".data.") (by rw [optionalSegment, h1, List.append_nil])]

/-- C15: whenever `calcHash` reaches the hash function, the byte string it
feeds to it is the lead `icx_sendTransaction` followed by the segments
`.<field>.<value>` in the order data, dataType, from, nid, nonce, stepLimit,
timestamp, to, value, version, the segment of an optional field being present
exactly when the field is, the other five always; for the transaction of S1
it is the string of S1. -/
theorem calcHash_input (P : Primitives) (tx : transactionV3Data) :
    tx.calcHash P = (tx.hashInput P).map P.SHA3Sum256
      ∧ (tx.Data = none → tx.hashInput P = some (canonicalInput none tx))
      ∧ (∀ d, tx.Data = some d →
          tx.hashInput P = (dataValue P d).map fun v => canonicalInput (some v) tx)
      ∧ s1Data.hashInput P = some (ascii
          ("icx_sendTransaction.from.hxaaaaaaaaaaaaaaaaaaaaaaaaaaaaaaaaaaaaaaaa"
            ++ ".stepLimit.0x186a0.timestamp.0x5e0"
            ++ ".to.hxbbbbbbbbbbbbbbbbbbbbbbbbbbbbbbbbbbbbbbbb.value.0x10.version.0x3")) := by
  have h := hashInput_canonical P tx
  refine ⟨rfl, ?_, ?_, rfl⟩
  · intro hd; rw [h, hd]
  · intro d hd; rw [h, hd]

/-! ### The checks of Verify -/

theorem ParseCallData_error (P : Primitives) (d : Bytes) (e : TxError)
    (h : ParseCallData P d = .error e) : e = .InvalidCallData := by
  unfold ParseCallData at h
  split at h
  · cases h; rfl
  · split at h
    · cases h; rfl
    · cases h

/-- Past the timestamp guard, `Verify` yields `nil` or an error of one of the
later checks. -/
theorem Verify_after_timestamp (P : Primitives) (tx : transactionV3) (ts : Int)
    (h : verifyTimestamp P tx.data.TimeStamp ts = none) :
    tx.Verify P ts ≠ some .Timeout ∧ tx.Verify P ts ≠ some .FutureTxTime := by
  unfold transactionV3.Verify
  simp only [h]
  unfold transactionV3.verifySignature
  constructor <;> (repeat' split) <;>
    first
      | (simp_all; done)
      | (rename_i hp; have := ParseCallData_error P _ _ hp; simp_all)

/-- An error of the timestamp guard is the result of `Verify`. -/
theorem Verify_of_timestamp_error (P : Primitives) (tx : transactionV3) (ts : Int)
    (e : TxError) (h : verifyTimestamp P tx.data.TimeStamp ts = some e) :
    tx.Verify P ts = some e := by
  unfold transactionV3.Verify
  simp only [h]

/-- The timestamp guard of `Verify` when the `int64` difference does not
overflow. -/
theorem verifyTimestamp_window (P : Primitives) (T ts : Int)
    (hchk : P.ConfigOnCheckingTimestamp = true) (hts : ts ≠ 0)
    (h1 : -2 ^ 63 ≤ T - ts) (h2 : T - ts < 2 ^ 63)
    (h3 : -2 ^ 63 ≤ -P.ConfigTXTimestampBackwardMargin)
    (h4 : -P.ConfigTXTimestampBackwardMargin < 2 ^ 63) :
    verifyTimestamp P T ts
      = if T ≤ ts - P.ConfigTXTimestampBackwardMargin ∨ ts + P.ConfigTXTimestampForwardLimit < T
        then some .Timeout
        else if ts + P.ConfigTXTimestampForwardMargin < T then some .FutureTxTime
        else none := by
  unfold verifyTimestamp
  simp only [hchk, if_true, hts, ne_eq, not_false_eq_true]
  rw [wrapInt64_of_range _ h1 h2, wrapInt64_of_range _ h3 h4]
  by_cases ha : T ≤ ts - P.ConfigTXTimestampBackwardMargin ∨
      ts + P.ConfigTXTimestampForwardLimit < T
  · have ha' : T - ts ≤ -P.ConfigTXTimestampBackwardMargin ∨
        T - ts > P.ConfigTXTimestampForwardLimit := by
      rcases ha with ha | ha
      · left; omega
      · right; omega
    rw [if_pos ha, if_pos ha']
  · have ha' : ¬ (T - ts ≤ -P.ConfigTXTimestampBackwardMargin ∨
        T - ts > P.ConfigTXTimestampForwardLimit) := by
      intro hh
      apply ha
      rcases hh with hh | hh
      · left; omega
      · right; omega
    rw [if_neg ha, if_neg ha']
    by_cases hb : ts + P.ConfigTXTimestampForwardMargin < T
    · rw [if_pos hb, if_pos (by omega)]
    · rw [if_neg hb, if_neg (by omega)]

/-- C16 (amended): with timestamp checking enabled, a non-zero baseline `ts`
and no `int64` overflow in `timestamp - ts`, `Verify(ts)` rejects on timestamp
grounds exactly when the timestamp is at or below `ts - BackwardMargin`, above
`ts + ForwardLimit` or above `ts + ForwardMargin`; a timestamp strictly above
`ts - BackwardMargin`, at most `ts + ForwardLimit` and at most
`ts + ForwardMargin` passes the timestamp check, and the lower end
`ts - BackwardMargin` itself is rejected. -/
theorem Verify_timestamp_window (P : Primitives) (tx : transactionV3) (ts : Int)
    (hchk : P.ConfigOnCheckingTimestamp = true) (hts : ts ≠ 0)
    (h1 : -2 ^ 63 ≤ tx.data.TimeStamp - ts) (h2 : tx.data.TimeStamp - ts < 2 ^ 63)
    (h3 : -2 ^ 63 ≤ -P.ConfigTXTimestampBackwardMargin)
    (h4 : -P.ConfigTXTimestampBackwardMargin < 2 ^ 63) :
    ((tx.Verify P ts = some .Timeout ∨ tx.Verify P ts = some .FutureTxTime) ↔
        (tx.data.TimeStamp ≤ ts - P.ConfigTXTimestampBackwardMargin
          ∨ ts + P.ConfigTXTimestampForwardLimit < tx.data.TimeStamp
          ∨ ts + P.ConfigTXTimestampForwardMargin < tx.data.TimeStamp))
      ∧ (ts - P.ConfigTXTimestampBackwardMargin < tx.data.TimeStamp →
          tx.data.TimeStamp ≤ ts + P.ConfigTXTimestampForwardLimit →
          tx.data.TimeStamp ≤ ts + P.ConfigTXTimestampForwardMargin →
          verifyTimestamp P tx.data.TimeStamp ts = none)
      ∧ (tx.data.TimeStamp = ts - P.ConfigTXTimestampBackwardMargin →
          tx.Verify P ts = some .Timeout) := by
  have hw := verifyTimestamp_window P tx.data.TimeStamp ts hchk hts h1 h2 h3 h4
  refine ⟨⟨?_, ?_⟩, ?_, ?_⟩
  · intro hrej
    by_contra hcon
    simp only [not_or, not_le, not_lt] at hcon
    obtain ⟨c1, c2, c3⟩ := hcon
    have hnone : verifyTimestamp P tx.data.TimeStamp ts = none := by
      rw [hw, if_neg (by intro hh; rcases hh with hh | hh <;> omega), if_neg (by omega)]
    obtain ⟨n1, n2⟩ := Verify_after_timestamp P tx ts hnone
    rcases hrej with hrej | hrej
    · exact n1 hrej
    · exact n2 hrej
  · intro hcond
    by_cases ha : tx.data.TimeStamp ≤ ts - P.ConfigTXTimestampBackwardMargin ∨
        ts + P.ConfigTXTimestampForwardLimit < tx.data.TimeStamp
    · left
      exact Verify_of_timestamp_error P tx ts _ (by rw [hw, if_pos ha])
    · right
      have hb : ts + P.ConfigTXTimestampForwardMargin < tx.data.TimeStamp := by
        rcases hcond with hc | hc | hc
        · exact absurd (Or.inl hc) ha
        · exact absurd (Or.inr hc) ha
        · exact hc
      exact Verify_of_timestamp_error P tx ts _ (by rw [hw, if_neg ha, if_pos hb])
  · intro c1 c2 c3
    rw [hw, if_neg (by intro hh; rcases hh with hh | hh <;> omega), if_neg (by omega)]
  · intro heq
    exact Verify_of_timestamp_error P tx ts _
      (by rw [hw, if_pos (Or.inl (le_of_eq heq))])

/-- Witness of C16 (amended): baseline 1000000000 and a transaction stamped
1000000000 under the five-minute margins. -/
theorem Verify_timestamp_window_witness :
    verifyTimestamp samplePrimitives (sampleTx 1 7 1000000000 0 0 10).data.TimeStamp
      1000000000 = none :=
  (Verify_timestamp_window samplePrimitives (sampleTx 1 7 1000000000 0 0 10) 1000000000
    (by decide) (by decide) (by decide) (by decide) (by decide) (by decide)).2.1
    (by decide) (by decide) (by decide)

/-- C16 as stated fails: with baseline 1000000000 and the backward margin
300000000, the timestamp 700000000 is the lower end of the closed interval and
is not above `ts + ForwardMargin`, yet `Verify` rejects it with the timeout
error. -/
theorem Verify_timestamp_window_counterexample :
    samplePrimitives.ConfigOnCheckingTimestamp = true
      ∧ (1000000000 : Int) - samplePrimitives.ConfigTXTimestampBackwardMargin
          ≤ (sampleTx 1 7 700000000 0 0 10).data.TimeStamp
      ∧ (sampleTx 1 7 700000000 0 0 10).data.TimeStamp
          ≤ 1000000000 + samplePrimitives.ConfigTXTimestampForwardLimit
      ∧ (sampleTx 1 7 700000000 0 0 10).data.TimeStamp
          ≤ 1000000000 + samplePrimitives.ConfigTXTimestampForwardMargin
      ∧ (sampleTx 1 7 700000000 0 0 10).Verify samplePrimitives 1000000000 = some .Timeout := by
  decide

/-- C17 (amended): `Verify` has no version check.  Its result depends on the
version field only through the hash the signature is verified against: two
transactions that differ in the version field alone and have the same hash
get the same result; and `newTransactionV3FromJSONObject` never fails and
keeps the version of the JSON object. -/
theorem Verify_ignores_version (P : Primitives) (tx : transactionV3) (ts : Int) (v : Nat)
    (h : ({ tx with data := { tx.data with Version := v } } : transactionV3).TxHash P
      = tx.TxHash P) :
    ({ tx with data := { tx.data with Version := v } } : transactionV3).Verify P ts
        = tx.Verify P ts
      ∧ ∀ jso : transactionV3Data,
          newTransactionV3FromJSONObject jso = .ok ⟨jso, none, none⟩ := by
  refine ⟨?_, fun _ => rfl⟩
  unfold transactionV3.Verify transactionV3.verifySignature
  rw [h]
  rfl

/-- Witness of C17 (amended): a transaction with a memoized hash and its copy
with version 2. -/
theorem Verify_ignores_version_witness :
    ({ sampleTx 1 7 100 0 0 10 with
        data := { (sampleTx 1 7 100 0 0 10).data with Version := 2 } }
      : transactionV3).Verify samplePrimitives 0
      = (sampleTx 1 7 100 0 0 10).Verify samplePrimitives 0 :=
  (Verify_ignores_version samplePrimitives (sampleTx 1 7 100 0 0 10) 0 2 (by decide)).1

/-- C17 as stated fails: the transaction built from a JSON object with
version 2 has a version other than 3 and `Verify` returns nil for it. -/
theorem Verify_version_counterexample :
    newTransactionV3FromJSONObject version2Data = .ok ⟨version2Data, none, none⟩
      ∧ (⟨version2Data, none, none⟩ : transactionV3).data.Version ≠ TransactionVersion3
      ∧ (⟨version2Data, none, none⟩ : transactionV3).Verify samplePrimitives 0 = none := by
  refine ⟨rfl, by decide, by decide⟩

/-! ### SetBytes -/

/-- C18: for bytes that decode to transaction data, `SetBytes` and
`newTransactionV3FromBytes` succeed exactly when the decoded version is 3; any
other version yields the `InvalidVersion` error (wrapped with the
illegal-format status by `newTransactionV3FromBytes`), bytes that do not
decode yield `ErrInvalidFormat`, and after a success `Bytes()` returns the
bytes given. -/
theorem SetBytes_version (P : Primitives) (tx : transactionV3) (bs : Bytes) :
    (∀ d, P.UnmarshalFromBytes bs = some d →
        ((tx.SetBytes P bs).2 = none ↔ d.Version = 3)
        ∧ ((∃ t, newTransactionV3FromBytes P bs = .ok t) ↔ d.Version = 3)
        ∧ (d.Version ≠ 3 →
            (tx.SetBytes P bs).2 = some .InvalidVersion
            ∧ newTransactionV3FromBytes P bs = .error (.IllegalFormatOf .InvalidVersion))
        ∧ (d.Version = 3 →
            (tx.SetBytes P bs).1.Bytes P = bs
            ∧ (tx.SetBytes P bs).1.data = d
            ∧ ∃ t, newTransactionV3FromBytes P bs = .ok t ∧ t.Bytes P = bs ∧ t.data = d))
      ∧ (P.UnmarshalFromBytes bs = none →
          (tx.SetBytes P bs).2 = some .ErrInvalidFormat
          ∧ newTransactionV3FromBytes P bs = .error (.IllegalFormatOf .ErrInvalidFormat))
      ∧ (transactionV3.zero.SetBytes samplePrimitives [3, 100]).2 = none
      ∧ (transactionV3.zero.SetBytes samplePrimitives [2, 100]).2 = some .InvalidVersion
      ∧ (transactionV3.zero.SetBytes samplePrimitives [3]).2 = some .ErrInvalidFormat := by
  refine ⟨?_, ?_, by decide, by decide, by decide⟩
  · intro d hd
    by_cases hv : d.Version = 3
    · have h1 : tx.SetBytes P bs = ({ tx with data := d, bytes := some bs }, none) := by
        simp [transactionV3.SetBytes, hd, hv, TransactionVersion3]
      have h0 : transactionV3.zero.SetBytes P bs
          = ({ transactionV3.zero with data := d, bytes := some bs }, none) := by
        simp [transactionV3.SetBytes, hd, hv, TransactionVersion3]
      have h2 : newTransactionV3FromBytes P bs
          = .ok { transactionV3.zero with data := d, bytes := some bs } := by
        simp [newTransactionV3FromBytes, h0]
      refine ⟨by simp [h1, hv], by simp [h2, hv], fun hne => absurd hv hne, fun _ => ?_⟩
      rw [h1, h2]
      exact ⟨rfl, rfl, _, rfl, rfl, rfl⟩
    · have h1 : tx.SetBytes P bs = ({ tx with data := d }, some .InvalidVersion) := by
        simp [transactionV3.SetBytes, hd, hv, TransactionVersion3]
      have h0 : transactionV3.zero.SetBytes P bs
          = ({ transactionV3.zero with data := d }, some .InvalidVersion) := by
        simp [transactionV3.SetBytes, hd, hv, TransactionVersion3]
      have h2 : newTransactionV3FromBytes P bs
          = .error (.IllegalFormatOf .InvalidVersion) := by
        simp [newTransactionV3FromBytes, h0]
      refine ⟨by simp [h1, hv], by simp [h2, hv], fun _ => ⟨by rw [h1], h2⟩,
        fun h => absurd h hv⟩
  · intro hd
    have h1 : ∀ t : transactionV3, t.SetBytes P bs = (t, some .ErrInvalidFormat) := by
      intro t; simp [transactionV3.SetBytes, hd]
    exact ⟨by rw [h1], by simp [newTransactionV3FromBytes, h1]⟩

/-! ### The size and value checks of Verify -/

/-- Past the timestamp and sign checks, the data-size errors of `Verify` come
from the size check alone. -/
theorem Verify_size_cases (P : Primitives) (tx : transactionV3) (ts : Int)
    (hts : verifyTimestamp P tx.data.TimeStamp ts = none)
    (hval : tx.data.Value.any (fun v => decide (v < 0)) = false) :
    (∀ e, countBytesOfData P tx.data.Data = .error e → tx.Verify P ts = some .InvalidData)
      ∧ (∀ n, countBytesOfData P tx.data.Data = .ok n → n > txMaxDataSize →
          tx.Verify P ts = some .InvalidDataSize)
      ∧ (∀ n, countBytesOfData P tx.data.Data = .ok n → n ≤ txMaxDataSize →
          tx.Verify P ts ≠ some .InvalidData ∧ tx.Verify P ts ≠ some .InvalidDataSize) := by
  refine ⟨?_, ?_, ?_⟩
  · intro e he
    unfold transactionV3.Verify
    simp [hts, hval, he]
  · intro n hn hgt
    unfold transactionV3.Verify
    simp [hts, hval, hn, hgt]
  · intro n hn hle
    unfold transactionV3.Verify
    simp only [hts, hval, hn, not_lt.mpr hle]
    unfold transactionV3.verifySignature
    constructor <;> (repeat' split) <;>
      first
        | (simp_all; done)
        | (rename_i hp; have := ParseCallData_error P _ _ hp; simp_all)

/-- C19: for a transaction that reaches the size check, `Verify` rejects on
data-size grounds exactly when `countBytesOfData` fails or counts more than
512 * 1024 bytes; a count of exactly 524288 is not rejected on these grounds,
and absent data counts as 0. -/
theorem Verify_data_size (P : Primitives) (tx : transactionV3) (ts : Int)
    (hts : verifyTimestamp P tx.data.TimeStamp ts = none)
    (hval : tx.data.Value.any (fun v => decide (v < 0)) = false) :
    ((tx.Verify P ts = some .InvalidData ∨ tx.Verify P ts = some .InvalidDataSize) ↔
        ((∃ e, countBytesOfData P tx.data.Data = .error e)
          ∨ ∃ n, countBytesOfData P tx.data.Data = .ok n ∧ n > 512 * 1024))
      ∧ (countBytesOfData P tx.data.Data = .ok 524288 →
          tx.Verify P ts ≠ some .InvalidData ∧ tx.Verify P ts ≠ some .InvalidDataSize)
      ∧ countBytesOfData P none = .ok 0 := by
  obtain ⟨c1, c2, c3⟩ := Verify_size_cases P tx ts hts hval
  refine ⟨⟨?_, ?_⟩, ?_, rfl⟩
  · intro hrej
    cases hc : countBytesOfData P tx.data.Data with
    | error e => exact Or.inl ⟨e, rfl⟩
    | ok n =>
      right
      refine ⟨n, rfl, ?_⟩
      by_contra hle
      obtain ⟨n1, n2⟩ := c3 n hc (by unfold txMaxDataSize; omega)
      rcases hrej with hrej | hrej
      · exact n1 hrej
      · exact n2 hrej
  · rintro (⟨e, he⟩ | ⟨n, hn, hgt⟩)
    · exact Or.inl (c1 e he)
    · exact Or.inr (c2 n hn (by unfold txMaxDataSize; omega))
  · intro h
    exact c3 524288 h (by unfold txMaxDataSize; omega)

/-- Witness of C19: a transaction without data, checked without a baseline. -/
theorem Verify_data_size_witness :
    ((sampleTx 1 7 100 0 0 10).Verify samplePrimitives 0 = some .InvalidData
        ∨ (sampleTx 1 7 100 0 0 10).Verify samplePrimitives 0 = some .InvalidDataSize) ↔
      ((∃ e, countBytesOfData samplePrimitives (sampleTx 1 7 100 0 0 10).data.Data = .error e)
        ∨ ∃ n, countBytesOfData samplePrimitives (sampleTx 1 7 100 0 0 10).data.Data = .ok n
            ∧ n > 512 * 1024) :=
  (Verify_data_size samplePrimitives (sampleTx 1 7 100 0 0 10) 0 (by decide) (by decide)).1

/-- The timestamp guard fails with one of its two errors only. -/
theorem verifyTimestamp_error (P : Primitives) (T ts : Int) (e : TxError)
    (h : verifyTimestamp P T ts = some e) : e = .Timeout ∨ e = .FutureTxTime := by
  unfold verifyTimestamp at h
  by_cases hc : P.ConfigOnCheckingTimestamp = true
  · by_cases hz : ts = 0
    · simp [hc, hz] at h
    · simp only [hc, if_true, ne_eq, hz, not_false_eq_true] at h
      by_cases ha : wrapInt64 (T - ts) ≤ wrapInt64 (-P.ConfigTXTimestampBackwardMargin) ∨
          wrapInt64 (T - ts) > P.ConfigTXTimestampForwardLimit
      · rw [if_pos ha] at h
        left; exact (Option.some.inj h).symm
      · rw [if_neg ha] at h
        by_cases hb : wrapInt64 (T - ts) > P.ConfigTXTimestampForwardMargin
        · rw [if_pos hb] at h
          right; exact (Option.some.inj h).symm
        · rw [if_neg hb] at h
          cases h
  · simp [hc] at h

/-- C20: `Verify` rejects every transaction whose value is present and
negative, and every deploy transaction whose data is missing, does not decode,
has an empty `contentType` or no `content`, or whose value is present and not
zero; an absent value never makes `Verify` fail with the value error. -/
theorem Verify_value_and_deploy (P : Primitives) (tx : transactionV3) (ts : Int) :
    (∀ v, tx.data.Value = some v → v < 0 → tx.Verify P ts ≠ none)
      ∧ (tx.data.DataType = some DataTypeDeploy →
          (tx.data.Data = none
            ∨ (∃ d, tx.data.Data = some d ∧ P.unmarshalDeploy d = none)
            ∨ (∃ d jso, tx.data.Data = some d ∧ P.unmarshalDeploy d = some jso
                ∧ (jso.ContentType = "" ∨ jso.Content = none))
            ∨ ∃ v, tx.data.Value = some v ∧ v ≠ 0) →
          tx.Verify P ts ≠ none)
      ∧ (tx.data.Value = none → tx.Verify P ts ≠ some .InvalidTxValue) := by
  have hne : DataTypeDeploy ≠ DataTypeCall := by decide
  refine ⟨?_, ?_, ?_⟩
  · intro v hv hneg
    unfold transactionV3.Verify
    cases verifyTimestamp P tx.data.TimeStamp ts with
    | some e => simp
    | none => simp [hv, hneg]
  · intro hdt hbad
    unfold transactionV3.Verify
    cases verifyTimestamp P tx.data.TimeStamp ts with
    | some e => simp
    | none =>
      simp only []
      by_cases hval : tx.data.Value.any (fun v => decide (v < 0)) = true
      · simp [hval]
      · simp only [hval]
        cases hc : countBytesOfData P tx.data.Data with
        | error e => simp
        | ok n =>
          simp only []
          by_cases hn : n > txMaxDataSize
          · simp [hn]
          · simp only [hn, hdt, hne, if_false, if_true]
            rcases hbad with hd | ⟨d, hd, hu⟩ | ⟨d, jso, hd, hu, hj⟩ | ⟨v, hv, hv0⟩
            · simp [hd]
            · simp [hd, hu]
            · simp only [hd, hu]
              rw [if_pos hj]
              simp
            · cases hd : tx.data.Data with
              | none => simp
              | some d =>
                simp only []
                cases hu : P.unmarshalDeploy d with
                | none => simp
                | some jso =>
                  simp only []
                  by_cases hj : jso.ContentType = "" ∨ jso.Content = none
                  · rw [if_pos hj]; simp
                  · rw [if_neg hj]
                    simp [hv, hv0]
  · intro hv
    cases hts : verifyTimestamp P tx.data.TimeStamp ts with
    | some e =>
      rw [Verify_of_timestamp_error P tx ts e hts]
      rcases verifyTimestamp_error P _ _ e hts with rfl | rfl <;> simp
    | none =>
      unfold transactionV3.Verify
      simp only [hts, hv]
      unfold transactionV3.verifySignature
      (repeat' split) <;>
        first
          | (simp_all; done)
          | (rename_i hp; have := ParseCallData_error P _ _ hp; simp_all)

/-- Witness of C20: a deploy transaction with the value -1, one with
undecodable data and no value, and one with the value 5 are all rejected. -/
theorem Verify_value_and_deploy_witness :
    (sampleDeploy (some (-1))).Verify samplePrimitives 0 ≠ none
      ∧ (sampleDeploy none).Verify samplePrimitives 0 ≠ none
      ∧ (sampleDeploy (some 5)).Verify samplePrimitives 0 ≠ none
      ∧ (sampleDeploy none).Verify samplePrimitives 0 ≠ some .InvalidTxValue :=
  ⟨(Verify_value_and_deploy samplePrimitives (sampleDeploy (some (-1))) 0).1 (-1) rfl
      (by decide),
    (Verify_value_and_deploy samplePrimitives (sampleDeploy none) 0).2.1 rfl
      (Or.inr (Or.inl ⟨[123, 125], rfl, rfl⟩)),
    (Verify_value_and_deploy samplePrimitives (sampleDeploy (some 5)) 0).2.1 rfl
      (Or.inr (Or.inr (Or.inr ⟨5, rfl, by decide⟩))),
    (Verify_value_and_deploy samplePrimitives (sampleDeploy none) 0).2.2 rfl⟩

/-! ### The maps and the schedule helpers of the forward cache -/
theorem mapGet_eq_none {κ β : Type} [DecidableEq κ] (m : List (κ × β)) (k : κ) :
    mapGet m k = none ↔ k ∉ m.map Prod.fst := by
  unfold mapGet
  induction m with
  | nil => simp
  | cons x xs ih =>
    by_cases h : x.1 = k
    · simp [List.find?_cons, h]
    · simp only [List.find?_cons, h, decide_False, List.map_cons, List.mem_cons, not_or]
      rw [ih]
      exact ⟨fun h2 => ⟨fun h3 => h h3.symm, h2⟩, fun h2 => h2.2⟩

theorem mapGet_mem {κ β : Type} [DecidableEq κ] (m : List (κ × β)) (k : κ) (v : β)
    (h : mapGet m k = some v) : (k, v) ∈ m := by
  unfold mapGet at h
  cases hf : m.find? (fun kv => decide (kv.1 = k)) with
  | none => rw [hf] at h; cases h
  | some kv =>
    rw [hf] at h
    have h1 := List.find?_some hf
    have h2 := List.mem_of_find?_eq_some hf
    simp only [Option.map_some', Option.some.injEq] at h
    simp only [decide_eq_true_eq] at h1
    rcases kv with ⟨a, b⟩
    simp only at h h1
    subst h; subst h1
    exact h2

theorem mapDelete_of_absent {κ β : Type} [DecidableEq κ] (m : List (κ × β)) (k : κ)
    (h : mapGet m k = none) : mapDelete m k = m := by
  rw [mapGet_eq_none] at h
  unfold mapDelete
  rw [List.filter_eq_self]
  intro kv hkv
  simp only [ne_eq, decide_not, Bool.not_eq_true', decide_eq_false_iff_not]
  intro heq
  exact h (List.mem_map.mpr ⟨kv, hkv, heq⟩)

theorem mapSet_of_absent {κ β : Type} [DecidableEq κ] (m : List (κ × β)) (k : κ) (v : β)
    (h : mapGet m k = none) : mapSet m k v = m ++ [(k, v)] := by
  unfold mapSet
  rw [mapDelete_of_absent m k h]

theorem mapGet_append_self {κ β : Type} [DecidableEq κ] (m : List (κ × β)) (k : κ) (v : β)
    (h : mapGet m k = none) : mapGet (m ++ [(k, v)]) k = some v := by
  unfold mapGet at h ⊢
  rw [List.find?_append]
  cases hf : m.find? (fun kv => decide (kv.1 = k)) with
  | none => simp
  | some kv => rw [hf] at h; cases h

namespace ForwardCache

theorem addWorkerInLock_fields (cs : ForwardCache) :
    cs.addWorkerInLock.config = cs.config
      ∧ cs.addWorkerInLock.tasks = cs.tasks
      ∧ cs.addWorkerInLock.blockInfo = cs.blockInfo
      ∧ cs.addWorkerInLock.receiptInfo = cs.receiptInfo
      ∧ cs.addWorkerInLock.chans = cs.chans := by
  unfold addWorkerInLock
  split <;> exact ⟨rfl, rfl, rfl, rfl, rfl⟩

/-- A schedule helper whose key is present changes nothing. -/
theorem scheduleBlockInLock_present (cs : ForwardCache) (h : Int) (t : blockTask)
    (hp : mapGet cs.blockInfo h = some t) : cs.scheduleBlockInLock h = cs := by
  unfold scheduleBlockInLock
  rw [hp]

theorem scheduleReceiptInLock_present (cs : ForwardCache) (id : Bytes) (t : receiptTask)
    (hp : mapGet cs.receiptInfo id = some t) : cs.scheduleReceiptInLock id = cs := by
  unfold scheduleReceiptInLock
  rw [hp]

/-- A schedule helper whose key is absent makes a task on a new channel,
queues it at the back, registers it and adds a worker. -/
theorem scheduleBlockInLock_absent (cs : ForwardCache) (h : Int)
    (hp : mapGet cs.blockInfo h = none) :
    cs.scheduleBlockInLock h
      = addWorkerInLock
          { cs with
            chans := cs.chans + 1,
            tasks := cs.tasks ++ [.block ⟨h, cs.chans⟩],
            blockInfo := cs.blockInfo ++ [(h, ⟨h, cs.chans⟩)] } := by
  unfold scheduleBlockInLock
  rw [hp]
  simp only [mapSet_of_absent _ _ _ hp]

theorem scheduleReceiptInLock_absent (cs : ForwardCache) (id : Bytes)
    (hp : mapGet cs.receiptInfo id = none) :
    cs.scheduleReceiptInLock id
      = addWorkerInLock
          { cs with
            chans := cs.chans + 1,
            tasks := cs.tasks ++ [.receipt ⟨id, cs.chans⟩],
            receiptInfo := cs.receiptInfo ++ [(id, ⟨id, cs.chans⟩)] } := by
  unfold scheduleReceiptInLock
  rw [hp]
  simp only [mapSet_of_absent _ _ _ hp]


theorem filter_height_split {β : Type} (m : List (Int × β)) (h : Int) :
    (m.filter fun kv => decide (h ≤ kv.1)).length
      = (m.filter fun kv => decide (h + 1 ≤ kv.1)).length
        + (m.filter fun kv => decide (kv.1 = h)).length := by
  induction m with
  | nil => rfl
  | cons x xs ih =>
    by_cases h1 : h + 1 ≤ x.1
    · have h2 : h ≤ x.1 := by omega
      have h3 : ¬ x.1 = h := by omega
      simp [List.filter_cons, h1, h2, h3, ih]
      omega
    · by_cases h3 : x.1 = h
      · have h2 : h ≤ x.1 := by omega
        simp [List.filter_cons, h1, h2, h3, ih]
        omega
      · have h2 : ¬ h ≤ x.1 := by omega
        simp [List.filter_cons, h1, h2, h3, ih]

theorem filter_key_pos {β : Type} (m : List (Int × β)) (h : Int) (hm : h ∈ m.map Prod.fst) :
    0 < (m.filter fun kv => decide (kv.1 = h)).length := by
  obtain ⟨kv, hkv, hk⟩ := List.mem_map.mp hm
  apply List.length_pos_of_mem (a := kv)
  exact List.mem_filter.mpr ⟨hkv, by simpa using hk⟩

/-- One iteration of the height loop uses up one unit of the budget. -/
theorem heightBudget_step (cs : ForwardCache) (h : Int)
    (hc : (cs.blockInfo.length : Int) < cs.config.MaxBlocks) :
    (cs.scheduleBlockInLock h).heightBudget (h + 1) + 1 ≤ cs.heightBudget h := by
  cases hp : mapGet cs.blockInfo h with
  | some t =>
    rw [scheduleBlockInLock_present cs h t hp]
    unfold heightBudget
    have hm : h ∈ cs.blockInfo.map Prod.fst := by
      by_contra hn
      rw [← mapGet_eq_none] at hn
      rw [hn] at hp; cases hp
    have h1 := filter_height_split cs.blockInfo h
    have h2 := filter_key_pos cs.blockInfo h hm
    omega
  | none =>
    rw [scheduleBlockInLock_absent cs h hp]
    obtain ⟨a1, -, a3, -, -⟩ := addWorkerInLock_fields
      { cs with
        chans := cs.chans + 1,
        tasks := cs.tasks ++ [.block ⟨h, cs.chans⟩],
        blockInfo := cs.blockInfo ++ [(h, ⟨h, cs.chans⟩)] }
    unfold heightBudget
    rw [a1, a3]
    have h1 := filter_height_split cs.blockInfo h
    simp only [List.length_append, List.length_singleton, List.filter_append, List.filter_cons,
      List.filter_nil, Nat.cast_add, Nat.cast_one]
    have h3 : ¬ h + 1 ≤ h := by omega
    simp only [h3, decide_False, Bool.false_eq_true, if_false, List.length_nil, add_zero]
    omega


/-- What holds of a cache and is kept by the block schedule helper holds after
the height loop. -/
theorem heightLoop_preserves (Q : ForwardCache → Prop)
    (hQ : ∀ (cs : ForwardCache) (h : Int), Q cs → Q (cs.scheduleBlockInLock h)) :
    ∀ (fuel : Nat) (h : Int) (cs cs' : ForwardCache),
      heightLoop fuel h cs = some cs' → Q cs → Q cs' := by
  intro fuel
  induction fuel with
  | zero =>
    intro h cs cs' hl hq
    unfold heightLoop at hl
    split at hl
    · cases hl
    · cases hl; exact hq
  | succ n ih =>
    intro h cs cs' hl hq
    unfold heightLoop at hl
    split at hl
    · exact ih _ _ _ hl (hQ cs h hq)
    · cases hl; exact hq

theorem scheduleReceipts_preserves (Q : ForwardCache → Prop)
    (hQ : ∀ (cs : ForwardCache) (id : Bytes), Q cs → Q (cs.scheduleReceiptInLock id)) :
    ∀ (ids : List Bytes) (cs : ForwardCache), Q cs → Q (scheduleReceipts ids cs) := by
  intro ids
  induction ids with
  | nil => intro cs hq; exact hq
  | cons id rest ih =>
    intro cs hq
    exact ih _ (hQ cs id hq)

/-- What holds of a cache and is kept by the two schedule helpers holds after
`scheduleFollowings`. -/
theorem scheduleFollowings_preserves (Q : ForwardCache → Prop)
    (hR : ∀ (cs : ForwardCache) (id : Bytes), Q cs → Q (cs.scheduleReceiptInLock id))
    (hB : ∀ (cs : ForwardCache) (h : Int), Q cs → Q (cs.scheduleBlockInLock h))
    (fuel : Nat) (cs cs' : ForwardCache) (b : Block)
    (hs : cs.scheduleFollowings fuel b = some cs') (hq : Q cs) : Q cs' :=
  heightLoop_preserves Q hB fuel _ _ cs' hs (scheduleReceipts_preserves Q hR _ cs hq)

/-- The height loop from `h`, when no height it visits leaves the range of
`int64` and the fuel covers the budget: it ends, the entries it adds come
after the old ones, their heights are the smallest heights from `h` on that
were not keys, in increasing order and as many as were missing to
`MaxBlocks`. -/
theorem heightLoop_spec : ∀ (fuel : Nat) (h : Int) (cs : ForwardCache),
    cs.heightBudget h ≤ fuel → -2 ^ 63 ≤ h → h + cs.heightBudget h < 2 ^ 63 →
    ∃ cs' added, heightLoop fuel h cs = some cs'
      ∧ cs'.blockInfo = cs.blockInfo ++ added
      ∧ cs.config.MaxBlocks ≤ cs'.blockInfo.length
      ∧ added.length = (cs.config.MaxBlocks - cs.blockInfo.length).toNat
      ∧ (added.map Prod.fst).Pairwise (fun x y => x < y)
      ∧ (∀ x ∈ added.map Prod.fst, h ≤ x ∧ x ∉ cs.heights)
      ∧ (∀ x, h ≤ x → x ∉ cs.heights → x ∉ added.map Prod.fst →
          ∀ y ∈ added.map Prod.fst, y < x)
      ∧ (∀ kv ∈ added, kv.2.height = kv.1) := by
  intro fuel
  induction fuel with
  | zero =>
    intro h cs hb h1 h2
    have hz : cs.heightBudget h = 0 := by omega
    have hc : ¬ (cs.blockInfo.length : Int) < cs.config.MaxBlocks := by
      unfold heightBudget at hz
      omega
    refine ⟨cs, [], ?_, by simp, by omega, ?_, by simp, by simp, by simp, by simp⟩
    · simp [heightLoop, hc]
    · simp only [List.length_nil]; omega
  | succ n ih =>
    intro h cs hb h1 h2
    by_cases hc : (cs.blockInfo.length : Int) < cs.config.MaxBlocks
    · have hstep := heightBudget_step cs h hc
      have hw : wrapInt64 (h + 1) = h + 1 := by
        unfold wrapInt64
        omega
      obtain ⟨cs', added, r1, r2, r3, r4, r5, r6, r7, r8⟩ :=
        ih (h + 1) (cs.scheduleBlockInLock h) (by omega) (by omega) (by omega)
      have hl : heightLoop (n + 1) h cs = some cs' := by
        rw [heightLoop, if_pos hc, hw]
        exact r1
      cases hp : mapGet cs.blockInfo h with
      | some t =>
        have hsame := scheduleBlockInLock_present cs h t hp
        rw [hsame] at r2 r3 r4 r6 r7
        have hm : h ∈ cs.heights := by
          by_contra hn
          unfold heights at hn
          rw [← mapGet_eq_none] at hn
          rw [hn] at hp; cases hp
        refine ⟨cs', added, hl, r2, r3, r4, r5, ?_, ?_, r8⟩
        · intro x hx
          obtain ⟨a, b⟩ := r6 x hx
          exact ⟨by omega, b⟩
        · intro x hx hn hna
          have hne : x ≠ h := fun e => hn (e ▸ hm)
          exact r7 x (by omega) hn hna
      | none =>
        have habs := scheduleBlockInLock_absent cs h hp
        obtain ⟨a1, -, a3, -, -⟩ := addWorkerInLock_fields
          { cs with
            chans := cs.chans + 1,
            tasks := cs.tasks ++ [.block ⟨h, cs.chans⟩],
            blockInfo := cs.blockInfo ++ [(h, ⟨h, cs.chans⟩)] }
        rw [← habs] at a1 a3
        have hk : (cs.scheduleBlockInLock h).heights = cs.heights ++ [h] := by
          unfold heights
          rw [a3]
          simp
        rw [a1] at r3 r4
        rw [a3] at r2 r4
        rw [hk] at r6 r7
        simp only at a1 r3 r4 r2
        refine ⟨cs', (h, ⟨h, cs.chans⟩) :: added, hl, ?_, r3, ?_, ?_, ?_, ?_, ?_⟩
        · rw [r2]; simp
        · have hlen : (cs.blockInfo ++ [(h, (⟨h, cs.chans⟩ : blockTask))]).length
              = cs.blockInfo.length + 1 := by simp
          rw [hlen] at r4
          rw [List.length_cons, r4]
          push_cast
          omega
        · simp only [List.map_cons, List.pairwise_cons]
          refine ⟨?_, r5⟩
          intro y hy
          have := (r6 y hy).1
          omega
        · intro x hx
          simp only [List.map_cons, List.mem_cons] at hx
          rcases hx with rfl | hx
          · refine ⟨le_refl _, ?_⟩
            unfold heights
            rw [← mapGet_eq_none]
            exact hp
          · obtain ⟨a, b⟩ := r6 x hx
            refine ⟨by omega, ?_⟩
            intro hmem
            exact b (List.mem_append_left _ hmem)
        · intro x hx hn hna y hy
          simp only [List.map_cons, List.mem_cons, not_or] at hna hy
          have hxh : h + 1 ≤ x := by
            have := hna.1
            omega
          rcases hy with rfl | hy
          · omega
          · apply r7 x hxh _ hna.2 y hy
            intro hmem
            rcases List.mem_append.mp hmem with hmem | hmem
            · exact hn hmem
            · simp only [List.mem_singleton] at hmem
              exact hna.1 hmem
        · intro kv hkv
          rcases List.mem_cons.mp hkv with rfl | hkv
          · rfl
          · exact r8 kv hkv
    · refine ⟨cs, [], ?_, by simp, by omega, ?_, by simp, by simp, by simp, by simp⟩
      · simp [heightLoop, hc]
      · simp only [List.length_nil]; omega


/-- The receipt loop of `scheduleFollowings`: it leaves `blockInfo` and the
configuration alone, adds entries after the old ones of `receiptInfo`, each
for an id of the list that was not a key, and makes every id of the list a
key. -/
theorem scheduleReceipts_spec : ∀ (ids : List Bytes) (cs : ForwardCache),
    (scheduleReceipts ids cs).blockInfo = cs.blockInfo
      ∧ (scheduleReceipts ids cs).config = cs.config
      ∧ (∃ added, (scheduleReceipts ids cs).receiptInfo = cs.receiptInfo ++ added
          ∧ ∀ kv ∈ added, kv.1 ∈ ids ∧ kv.1 ∉ cs.receiptIds ∧ kv.2.id = kv.1)
      ∧ ∀ id ∈ ids, id ∈ (scheduleReceipts ids cs).receiptIds := by
  intro ids
  induction ids with
  | nil =>
    intro cs
    exact ⟨rfl, rfl, ⟨[], by simp [scheduleReceipts], by simp⟩, by simp⟩
  | cons id rest ih =>
    intro cs
    obtain ⟨r1, r2, ⟨added, r3, r4⟩, r5⟩ := ih (cs.scheduleReceiptInLock id)
    simp only [scheduleReceipts]
    cases hp : mapGet cs.receiptInfo id with
    | some t =>
      have hsame := scheduleReceiptInLock_present cs id t hp
      rw [hsame] at r1 r2 r3 r4 r5
      have hm : id ∈ cs.receiptIds := by
        by_contra hn
        unfold receiptIds at hn
        rw [← mapGet_eq_none] at hn
        rw [hn] at hp; cases hp
      rw [hsame]
      refine ⟨r1, r2, ⟨added, r3, ?_⟩, ?_⟩
      · intro kv hkv
        obtain ⟨a, b, c⟩ := r4 kv hkv
        exact ⟨List.mem_cons_of_mem _ a, b, c⟩
      · intro x hx
        rcases List.mem_cons.mp hx with rfl | hx
        · unfold receiptIds
          rw [r3]
          simp only [List.map_append, List.mem_append]
          exact Or.inl hm
        · exact r5 x hx
    | none =>
      have habs := scheduleReceiptInLock_absent cs id hp
      obtain ⟨a1, -, a3, a4, -⟩ := addWorkerInLock_fields
        { cs with
          chans := cs.chans + 1,
          tasks := cs.tasks ++ [.receipt ⟨id, cs.chans⟩],
          receiptInfo := cs.receiptInfo ++ [(id, ⟨id, cs.chans⟩)] }
      rw [← habs] at a1 a3 a4
      simp only at a1 a3 a4
      have hk : (cs.scheduleReceiptInLock id).receiptIds = cs.receiptIds ++ [id] := by
        unfold receiptIds
        rw [a4]
        simp
      rw [a3] at r1
      rw [a1] at r2
      rw [a4] at r3
      rw [hk] at r4
      refine ⟨r1, r2, ⟨(id, ⟨id, cs.chans⟩) :: added, by rw [r3]; simp, ?_⟩, ?_⟩
      · intro kv hkv
        rcases List.mem_cons.mp hkv with rfl | hkv
        · refine ⟨List.mem_cons_self _ _, ?_, rfl⟩
          unfold receiptIds
          rw [← mapGet_eq_none]
          exact hp
        · obtain ⟨a, b, c⟩ := r4 kv hkv
          exact ⟨List.mem_cons_of_mem _ a, fun hmem => b (List.mem_append_left _ hmem), c⟩
      · intro x hx
        rcases List.mem_cons.mp hx with rfl | hx
        · unfold receiptIds
          rw [r3]
          simp
        · exact r5 x hx

theorem heightBudget_scheduleReceipts (ids : List Bytes) (cs : ForwardCache) (h : Int) :
    (scheduleReceipts ids cs).heightBudget h = cs.heightBudget h := by
  obtain ⟨r1, r2, -, -⟩ := scheduleReceipts_spec ids cs
  unfold heightBudget
  rw [r1, r2]

/-- The outcome of `scheduleFollowings` when the heights it visits stay in
the range of `int64` and the fuel covers the budget of the height loop. -/
theorem scheduleFollowings_spec (fuel : Nat) (cs : ForwardCache) (b : Block)
    (hfuel : cs.heightBudget (b.Height + 1) ≤ fuel) (hlo : -2 ^ 63 ≤ b.Height)
    (hhi : b.Height + 1 + cs.heightBudget (b.Height + 1) < 2 ^ 63) :
    ∃ cs' blocks receipts, cs.scheduleFollowings fuel b = some cs'
      ∧ cs'.blockInfo = cs.blockInfo ++ blocks
      ∧ cs'.receiptInfo = cs.receiptInfo ++ receipts
      ∧ cs'.config = cs.config
      ∧ (∀ id ∈ b.NormalTransactions, id ∈ cs'.receiptIds)
      ∧ cs.config.MaxBlocks ≤ cs'.blockInfo.length
      ∧ blocks.length = (cs.config.MaxBlocks - cs.blockInfo.length).toNat
      ∧ (blocks.map Prod.fst).Pairwise (fun x y => x < y)
      ∧ (∀ x ∈ blocks.map Prod.fst, b.Height < x ∧ x ∉ cs.heights)
      ∧ (∀ x, b.Height < x → x ∉ cs.heights → x ∉ blocks.map Prod.fst →
          ∀ y ∈ blocks.map Prod.fst, y < x) := by
  obtain ⟨s1, s2, ⟨receipts, s3, -⟩, s4⟩ := scheduleReceipts_spec b.NormalTransactions cs
  have hbud := heightBudget_scheduleReceipts b.NormalTransactions cs (b.Height + 1)
  have hw : wrapInt64 (b.Height + 1) = b.Height + 1 := by
    unfold wrapInt64
    omega
  obtain ⟨cs', blocks, r1, r2, r3, r4, r5, r6, r7, -⟩ :=
    heightLoop_spec fuel (b.Height + 1) (scheduleReceipts b.NormalTransactions cs)
      (by omega) (by omega) (by omega)
  have hcfg : cs'.config = cs.config := by
    have := heightLoop_preserves (fun c => c.config = cs.config)
      (fun c h hq => by
        cases hp : mapGet c.blockInfo h with
        | some t => rw [scheduleBlockInLock_present c h t hp]; exact hq
        | none =>
          rw [scheduleBlockInLock_absent c h hp]
          rw [(addWorkerInLock_fields _).1]
          exact hq)
      fuel _ _ cs' r1 s2
    exact this
  have hrec : cs'.receiptInfo = (scheduleReceipts b.NormalTransactions cs).receiptInfo := by
    have := heightLoop_preserves
      (fun c => c.receiptInfo = (scheduleReceipts b.NormalTransactions cs).receiptInfo)
      (fun c h hq => by
        cases hp : mapGet c.blockInfo h with
        | some t => rw [scheduleBlockInLock_present c h t hp]; exact hq
        | none =>
          rw [scheduleBlockInLock_absent c h hp]
          rw [(addWorkerInLock_fields _).2.2.2.1]
          exact hq)
      fuel _ _ cs' r1 rfl
    exact this
  have hheights : (scheduleReceipts b.NormalTransactions cs).heights = cs.heights := by
    unfold heights
    rw [s1]
  rw [s2] at r3 r4
  rw [s1] at r2 r4
  rw [hheights] at r6 r7
  refine ⟨cs', blocks, receipts, ?_, r2, by rw [hrec, s3], hcfg, ?_, r3, r4, r5, ?_, ?_⟩
  · unfold scheduleFollowings
    rw [hw]
    exact r1
  · intro id hid
    have := s4 id hid
    unfold receiptIds at this ⊢
    rw [hrec]
    exact this
  · intro x hx
    obtain ⟨a, c⟩ := r6 x hx
    exact ⟨by omega, c⟩
  · intro x hx hn hna
    exact r7 x (by omega) hn hna

end ForwardCache

namespace ForwardCache

/-! ### The retry loops -/

/-- The block loop when the store fails `i` times and then succeeds, within
the trials allowed. -/
theorem doGetBlockLoop_success (sfuel : Nat) (store : Nat → Except StoreError Block)
    (cs : ForwardCache) (b : Block) :
    ∀ (i n trial calls : Nat), i < n → trial + i < MaxTrials →
      (∀ j, j < i → ∃ e, store (calls + j) = .error e) → store (calls + i) = .ok b →
      doGetBlockLoop sfuel store n trial calls cs
        = (cs.scheduleFollowings sfuel b).map fun cs' => ⟨.ok b, calls + i + 1, cs'⟩ := by
  intro i
  induction i with
  | zero =>
    intro n trial calls hn _ _ hok
    obtain ⟨m, rfl⟩ : ∃ m, n = m + 1 := ⟨n - 1, by omega⟩
    simp only [Nat.add_zero] at hok
    simp only [doGetBlockLoop, hok, Nat.add_zero]
  | succ k ih =>
    intro n trial calls hn ht hfail hok
    obtain ⟨m, rfl⟩ : ∃ m, n = m + 1 := ⟨n - 1, by omega⟩
    obtain ⟨e, he⟩ := hfail 0 (by omega)
    simp only [Nat.add_zero] at he
    have hnot : ¬ trial + 1 ≥ MaxTrials := by omega
    simp only [doGetBlockLoop, he, hnot, if_false]
    rw [ih m (trial + 1) (calls + 1) (by omega) (by omega)
      (fun j hj => by
        have := hfail (j + 1) (by omega)
        rwa [show calls + (j + 1) = calls + 1 + j by omega] at this)
      (by rwa [show calls + (k + 1) = calls + 1 + k by omega] at hok)]
    have : calls + 1 + k + 1 = calls + (k + 1) + 1 := by omega
    rw [this]

/-- The block loop when the store fails until the trials are used up. -/
theorem doGetBlockLoop_failure (sfuel : Nat) (store : Nat → Except StoreError Block)
    (cs : ForwardCache) (e : StoreError) :
    ∀ (i n trial calls : Nat), i < n → trial + i + 1 = MaxTrials →
      (∀ j, j < i → ∃ e', store (calls + j) = .error e') → store (calls + i) = .error e →
      doGetBlockLoop sfuel store n trial calls cs = some ⟨.error e, calls + i + 1, cs⟩ := by
  intro i
  induction i with
  | zero =>
    intro n trial calls hn ht _ herr
    obtain ⟨m, rfl⟩ : ∃ m, n = m + 1 := ⟨n - 1, by omega⟩
    simp only [Nat.add_zero] at herr
    have hge : trial + 1 ≥ MaxTrials := by omega
    simp only [doGetBlockLoop, herr, hge, if_true, Nat.add_zero]
  | succ k ih =>
    intro n trial calls hn ht hfail herr
    obtain ⟨m, rfl⟩ : ∃ m, n = m + 1 := ⟨n - 1, by omega⟩
    obtain ⟨e', he⟩ := hfail 0 (by omega)
    simp only [Nat.add_zero] at he
    have hnot : ¬ trial + 1 ≥ MaxTrials := by omega
    simp only [doGetBlockLoop, he, hnot, if_false]
    rw [ih m (trial + 1) (calls + 1) (by omega) (by omega)
      (fun j hj => by
        have := hfail (j + 1) (by omega)
        rwa [show calls + (j + 1) = calls + 1 + j by omega] at this)
      (by rwa [show calls + (k + 1) = calls + 1 + k by omega] at herr)]
    have : calls + 1 + k + 1 = calls + (k + 1) + 1 := by omega
    rw [this]

/-- The block loop calls the store at most as often as trials are left. -/
theorem doGetBlockLoop_calls (sfuel : Nat) (store : Nat → Except StoreError Block)
    (cs : ForwardCache) :
    ∀ (n trial calls : Nat) (r : Fetched Block), trial < MaxTrials →
      doGetBlockLoop sfuel store n trial calls cs = some r →
      r.calls + trial ≤ calls + MaxTrials := by
  intro n
  induction n with
  | zero => intro trial calls r _ h; simp [doGetBlockLoop] at h
  | succ m ih =>
    intro trial calls r ht h
    unfold doGetBlockLoop at h
    cases hs : store calls with
    | ok b =>
      rw [hs] at h
      simp only [Option.map_eq_some'] at h
      obtain ⟨cs', -, rfl⟩ := h
      simp only
      omega
    | error e =>
      rw [hs] at h
      simp only at h
      by_cases hge : trial + 1 ≥ MaxTrials
      · rw [if_pos hge] at h
        cases h
        simp only
        omega
      · rw [if_neg hge] at h
        have := ih (trial + 1) (calls + 1) r (by omega) h
        omega

/-- The receipt loop when the store fails `i` times and then succeeds. -/
theorem doGetReceiptLoop_success (store : Nat → Except StoreError Receipt)
    (cs : ForwardCache) (rct : Receipt) :
    ∀ (i n trial calls : Nat), i < n → trial + i < MaxTrials →
      (∀ j, j < i → ∃ e, store (calls + j) = .error e) → store (calls + i) = .ok rct →
      doGetReceiptLoop store n trial calls cs = some ⟨.ok rct, calls + i + 1, cs⟩ := by
  intro i
  induction i with
  | zero =>
    intro n trial calls hn _ _ hok
    obtain ⟨m, rfl⟩ : ∃ m, n = m + 1 := ⟨n - 1, by omega⟩
    simp only [Nat.add_zero] at hok
    simp only [doGetReceiptLoop, hok, Nat.add_zero]
  | succ k ih =>
    intro n trial calls hn ht hfail hok
    obtain ⟨m, rfl⟩ : ∃ m, n = m + 1 := ⟨n - 1, by omega⟩
    obtain ⟨e, he⟩ := hfail 0 (by omega)
    simp only [Nat.add_zero] at he
    have hnot : ¬ trial + 1 ≥ MaxTrials := by omega
    simp only [doGetReceiptLoop, he, hnot, if_false]
    rw [ih m (trial + 1) (calls + 1) (by omega) (by omega)
      (fun j hj => by
        have := hfail (j + 1) (by omega)
        rwa [show calls + (j + 1) = calls + 1 + j by omega] at this)
      (by rwa [show calls + (k + 1) = calls + 1 + k by omega] at hok)]
    have : calls + 1 + k + 1 = calls + (k + 1) + 1 := by omega
    rw [this]

/-- The receipt loop when the store fails until the trials are used up. -/
theorem doGetReceiptLoop_failure (store : Nat → Except StoreError Receipt)
    (cs : ForwardCache) (e : StoreError) :
    ∀ (i n trial calls : Nat), i < n → trial + i + 1 = MaxTrials →
      (∀ j, j < i → ∃ e', store (calls + j) = .error e') → store (calls + i) = .error e →
      doGetReceiptLoop store n trial calls cs = some ⟨.error e, calls + i + 1, cs⟩ := by
  intro i
  induction i with
  | zero =>
    intro n trial calls hn ht _ herr
    obtain ⟨m, rfl⟩ : ∃ m, n = m + 1 := ⟨n - 1, by omega⟩
    simp only [Nat.add_zero] at herr
    have hge : trial + 1 ≥ MaxTrials := by omega
    simp only [doGetReceiptLoop, herr, hge, if_true, Nat.add_zero]
  | succ k ih =>
    intro n trial calls hn ht hfail herr
    obtain ⟨m, rfl⟩ : ∃ m, n = m + 1 := ⟨n - 1, by omega⟩
    obtain ⟨e', he⟩ := hfail 0 (by omega)
    simp only [Nat.add_zero] at he
    have hnot : ¬ trial + 1 ≥ MaxTrials := by omega
    simp only [doGetReceiptLoop, he, hnot, if_false]
    rw [ih m (trial + 1) (calls + 1) (by omega) (by omega)
      (fun j hj => by
        have := hfail (j + 1) (by omega)
        rwa [show calls + (j + 1) = calls + 1 + j by omega] at this)
      (by rwa [show calls + (k + 1) = calls + 1 + k by omega] at herr)]
    have : calls + 1 + k + 1 = calls + (k + 1) + 1 := by omega
    rw [this]

/-- The receipt loop ends within the trials that are left, and calls the
store at most that often. -/
theorem doGetReceiptLoop_returns (store : Nat → Except StoreError Receipt)
    (cs : ForwardCache) :
    ∀ (n trial calls : Nat), trial < MaxTrials → MaxTrials ≤ trial + n →
      ∃ r, doGetReceiptLoop store n trial calls cs = some r
        ∧ r.calls + trial ≤ calls + MaxTrials ∧ r.cache = cs := by
  intro n
  induction n with
  | zero => intro trial calls h1 h2; omega
  | succ m ih =>
    intro trial calls h1 h2
    unfold doGetReceiptLoop
    cases hs : store calls with
    | ok rct => exact ⟨_, rfl, by simp only; omega, rfl⟩
    | error e =>
      simp only
      by_cases hge : trial + 1 ≥ MaxTrials
      · rw [if_pos hge]
        exact ⟨_, rfl, by simp only; omega, rfl⟩
      · rw [if_neg hge]
        obtain ⟨r, a, b, c⟩ := ih (trial + 1) (calls + 1) (by omega) (by omega)
        exact ⟨r, a, by omega, c⟩

end ForwardCache

namespace ForwardCache

/-! ### Termination of the height loop -/

theorem wrapInt64_range (x : Int) : -2 ^ 63 ≤ wrapInt64 x ∧ wrapInt64 x < 2 ^ 63 := by
  unfold wrapInt64
  omega

/-- A filter splits into two filters that share no member and together have
its members. -/
theorem filter_length_split {α : Type} (p q r : α → Bool) :
    ∀ (m : List α), (∀ x ∈ m, (p x = true ↔ (q x = true ∨ r x = true))
        ∧ ¬ (q x = true ∧ r x = true)) →
      (m.filter p).length = (m.filter q).length + (m.filter r).length := by
  intro m
  induction m with
  | nil => intro _; rfl
  | cons x xs ih =>
    intro hm
    have hx := hm x (List.mem_cons_self _ _)
    have ih' := ih (fun y hy => hm y (List.mem_cons_of_mem _ hy))
    simp only [List.filter_cons]
    cases hq : q x <;> cases hr : r x <;> cases hp : p x <;>
      simp_all <;> omega

/-- One step of `h` moves every key but `h` itself one closer, and `h` itself
out of reach. -/
theorem filter_wrap_split {β : Type} (h : Int) (i : Nat) (h1 : -2 ^ 63 ≤ h) (h2 : h < 2 ^ 63)
    (hi : (i : Int) < 2 ^ 64) (m : List (Int × β))
    (hm : ∀ kv ∈ m, -2 ^ 63 ≤ kv.1 ∧ kv.1 < 2 ^ 63) :
    (m.filter fun kv => decide ((kv.1 - h) % 2 ^ 64 + (i : Int) < 2 ^ 64)).length
      = (m.filter fun kv =>
          decide ((kv.1 - wrapInt64 (h + 1)) % 2 ^ 64 + ((i + 1 : Nat) : Int) < 2 ^ 64)).length
        + (m.filter fun kv => decide (kv.1 = h)).length := by
  apply filter_length_split
  intro kv hkv
  obtain ⟨k1, k2⟩ := hm kv hkv
  simp only [decide_eq_true_eq]
  unfold wrapInt64
  push_cast
  constructor
  · constructor
    · intro ha
      by_cases heq : kv.1 = h
      · exact Or.inr heq
      · left; omega
    · intro hb
      rcases hb with hb | hb
      · omega
      · rw [hb]; simp; exact_mod_cast hi
  · intro hb
    obtain ⟨hb1, hb2⟩ := hb
    rw [hb2] at hb1
    omega

/-- One iteration of the height loop uses up one unit of the budget, also
when `h` wraps around. -/
theorem wrapBudget_step (cs : ForwardCache) (h : Int) (i : Nat)
    (hc : (cs.blockInfo.length : Int) < cs.config.MaxBlocks)
    (h1 : -2 ^ 63 ≤ h) (h2 : h < 2 ^ 63) (hi : (i : Int) < 2 ^ 64)
    (hk : ∀ kv ∈ cs.blockInfo, -2 ^ 63 ≤ kv.1 ∧ kv.1 < 2 ^ 63) :
    (cs.scheduleBlockInLock h).wrapBudget (wrapInt64 (h + 1)) (i + 1) + 1
      ≤ cs.wrapBudget h i := by
  have hsplit := filter_wrap_split h i h1 h2 hi cs.blockInfo hk
  cases hp : mapGet cs.blockInfo h with
  | some t =>
    rw [scheduleBlockInLock_present cs h t hp]
    unfold wrapBudget
    have hm : h ∈ cs.blockInfo.map Prod.fst := by
      by_contra hn
      rw [← mapGet_eq_none] at hn
      rw [hn] at hp; cases hp
    have hpos := filter_key_pos cs.blockInfo h hm
    omega
  | none =>
    rw [scheduleBlockInLock_absent cs h hp]
    obtain ⟨a1, -, a3, -, -⟩ := addWorkerInLock_fields
      { cs with
        chans := cs.chans + 1,
        tasks := cs.tasks ++ [.block ⟨h, cs.chans⟩],
        blockInfo := cs.blockInfo ++ [(h, ⟨h, cs.chans⟩)] }
    unfold wrapBudget
    rw [a1, a3]
    have hnew : ¬ (h - wrapInt64 (h + 1)) % 2 ^ 64 + ((i + 1 : Nat) : Int) < 2 ^ 64 := by
      unfold wrapInt64
      push_cast
      omega
    have hsingle : ([(h, (⟨h, cs.chans⟩ : blockTask))].filter fun kv =>
        decide ((kv.1 - wrapInt64 (h + 1)) % 2 ^ 64 + ((i + 1 : Nat) : Int) < 2 ^ 64)) = [] := by
      rw [List.filter_cons]
      simp only [hnew, decide_False, Bool.false_eq_true, if_false, List.filter_nil]
    dsimp only
    rw [List.filter_append, hsingle, List.append_nil, List.length_append, List.length_singleton]
    omega

/-- The keys of `blockInfo` stay `int64` values under the block schedule
helper called with one. -/
theorem int64Keys_scheduleBlockInLock (cs : ForwardCache) (h : Int)
    (h1 : -2 ^ 63 ≤ h) (h2 : h < 2 ^ 63)
    (hk : ∀ kv ∈ cs.blockInfo, -2 ^ 63 ≤ kv.1 ∧ kv.1 < 2 ^ 63) :
    ∀ kv ∈ (cs.scheduleBlockInLock h).blockInfo, -2 ^ 63 ≤ kv.1 ∧ kv.1 < 2 ^ 63 := by
  cases hp : mapGet cs.blockInfo h with
  | some t => rw [scheduleBlockInLock_present cs h t hp]; exact hk
  | none =>
    rw [scheduleBlockInLock_absent cs h hp, (addWorkerInLock_fields _).2.2.1]
    intro kv hkv
    rcases List.mem_append.mp hkv with hkv | hkv
    · exact hk kv hkv
    · simp only [List.mem_singleton] at hkv
      subst hkv
      exact ⟨h1, h2⟩

/-- The height loop ends within its budget, whatever the heights. -/
theorem heightLoop_terminates : ∀ (fuel : Nat) (h : Int) (cs : ForwardCache) (i : Nat),
    -2 ^ 63 ≤ h → h < 2 ^ 63 → (∀ kv ∈ cs.blockInfo, -2 ^ 63 ≤ kv.1 ∧ kv.1 < 2 ^ 63) →
    cs.wrapBudget h i ≤ fuel → (i : Int) + cs.wrapBudget h i ≤ 2 ^ 64 →
    ∃ cs', heightLoop fuel h cs = some cs' := by
  intro fuel
  induction fuel with
  | zero =>
    intro h cs i _ _ _ hb _
    have hc : ¬ (cs.blockInfo.length : Int) < cs.config.MaxBlocks := by
      unfold wrapBudget at hb
      omega
    exact ⟨cs, by simp [heightLoop, hc]⟩
  | succ n ih =>
    intro h cs i h1 h2 hk hb hi
    by_cases hc : (cs.blockInfo.length : Int) < cs.config.MaxBlocks
    · have hpos : 1 ≤ cs.wrapBudget h i := by
        unfold wrapBudget
        omega
      have hi' : (i : Int) < 2 ^ 64 := by omega
      have hstep := wrapBudget_step cs h i hc h1 h2 hi' hk
      obtain ⟨r1, r2⟩ := wrapInt64_range (h + 1)
      obtain ⟨cs', hcs⟩ := ih (wrapInt64 (h + 1)) (cs.scheduleBlockInLock h) (i + 1) r1 r2
        (int64Keys_scheduleBlockInLock cs h h1 h2 hk) (by omega) (by push_cast; omega)
      exact ⟨cs', by rw [heightLoop, if_pos hc]; exact hcs⟩
    · exact ⟨cs, by simp [heightLoop, hc]⟩

/-- The number of iterations of a height loop that ends: the least fuel with
which it ends, and with any more fuel it ends in the same state. -/
theorem heightLoop_exact : ∀ (fuel : Nat) (h : Int) (cs cs' : ForwardCache),
    heightLoop fuel h cs = some cs' →
    ∃ n, n ≤ fuel ∧ (∀ m, n ≤ m → heightLoop m h cs = some cs')
      ∧ (∀ m, m < n → heightLoop m h cs = none)
      ∧ ((cs.config.MaxBlocks : Int) ≤ cs.blockInfo.length → n = 0 ∧ cs' = cs) := by
  intro fuel
  induction fuel with
  | zero =>
    intro h cs cs' hl
    unfold heightLoop at hl
    split at hl
    · cases hl
    · rename_i hc
      cases hl
      refine ⟨0, le_refl _, ?_, fun m hm => absurd hm (Nat.not_lt_zero m), fun _ => ⟨rfl, rfl⟩⟩
      intro m _
      cases m with
      | zero => simp [heightLoop, hc]
      | succ k => simp [heightLoop, hc]
  | succ k ih =>
    intro h cs cs' hl
    unfold heightLoop at hl
    split at hl
    · rename_i hc
      obtain ⟨n, a, b, c, -⟩ := ih _ _ cs' hl
      refine ⟨n + 1, by omega, ?_, ?_, fun hge => absurd hc (by omega)⟩
      · intro m hm
        obtain ⟨j, rfl⟩ : ∃ j, m = j + 1 := ⟨m - 1, by omega⟩
        rw [heightLoop, if_pos hc]
        exact b j (by omega)
      · intro m hm
        cases m with
        | zero => simp [heightLoop, hc]
        | succ j =>
          rw [heightLoop, if_pos hc]
          exact c j (by omega)
    · rename_i hc
      cases hl
      refine ⟨0, Nat.zero_le _, ?_, fun m hm => absurd hm (Nat.not_lt_zero m),
        fun _ => ⟨rfl, rfl⟩⟩
      intro m _
      cases m with
      | zero => simp [heightLoop, hc]
      | succ j => simp [heightLoop, hc]

/-- With fuel for the largest number of iterations, `scheduleFollowings`
returns for every block. -/
theorem scheduleFollowings_returns (fuel : Nat) (cs : ForwardCache) (b : Block)
    (hkeys : ∀ kv ∈ cs.blockInfo, -2 ^ 63 ≤ kv.1 ∧ kv.1 < 2 ^ 63)
    (hmax : cs.config.MaxBlocks < 2 ^ 63) (hlen : (cs.blockInfo.length : Int) < 2 ^ 63)
    (hfuel : (cs.config.MaxBlocks - cs.blockInfo.length).toNat + cs.blockInfo.length ≤ fuel) :
    ∃ cs', cs.scheduleFollowings fuel b = some cs' := by
  obtain ⟨s1, s2, -, -⟩ := scheduleReceipts_spec b.NormalTransactions cs
  obtain ⟨r1, r2⟩ := wrapInt64_range (b.Height + 1)
  have hfl := List.length_filter_le
    (fun kv : Int × blockTask =>
      decide ((kv.1 - wrapInt64 (b.Height + 1)) % 2 ^ 64 + ((0 : Nat) : Int) < 2 ^ 64))
    cs.blockInfo
  have hwb : (scheduleReceipts b.NormalTransactions cs).wrapBudget (wrapInt64 (b.Height + 1)) 0
      ≤ (cs.config.MaxBlocks - cs.blockInfo.length).toNat + cs.blockInfo.length := by
    unfold wrapBudget
    rw [s1, s2]
    omega
  exact heightLoop_terminates fuel (wrapInt64 (b.Height + 1))
    (scheduleReceipts b.NormalTransactions cs) 0 r1 r2 (by rw [s1]; exact hkeys)
    (by omega) (by omega)

end ForwardCache

namespace ForwardCache

/-! ### Claims on the retry loops and the schedule helpers -/

/-- C21: `doGetBlockByHeight` and `doGetReceipt` call the store at most
`MaxTrials` = 5 times.  When the store fails `i < MaxTrials` times and then
succeeds, that success is returned after exactly `i + 1` calls (for a block,
after `scheduleFollowings` of it, which returns for every block when the fuel
covers `(MaxBlocks - len(blockInfo)) + len(blockInfo)` iterations of its
height loop, and with the smaller budget of the loop when its heights stay in
the range of `int64`); when it fails `MaxTrials` times, the error of the last
call is returned after `MaxTrials` calls, and the cache is as before. -/
theorem doGet_retry_bound (fuel : Nat) (hfuel : MaxTrials ≤ fuel)
    (blocks : Nat → Except StoreError Block) (receipts : Nat → Except StoreError Receipt)
    (height : Int) (id : Bytes) (cs : ForwardCache) :
    MaxTrials = 5
      ∧ (∀ r, cs.doGetBlockByHeight fuel blocks height = some r → r.calls ≤ MaxTrials)
      ∧ (∃ r, cs.doGetReceipt fuel receipts id = some r ∧ r.calls ≤ MaxTrials ∧ r.cache = cs)
      ∧ (∀ i b, i < MaxTrials → (∀ j, j < i → ∃ e, blocks j = .error e) → blocks i = .ok b →
          cs.doGetBlockByHeight fuel blocks height
              = ((cs.scheduleFollowings fuel b).map fun cs' => ⟨.ok b, i + 1, cs'⟩)
            ∧ (cs.heightBudget (b.Height + 1) ≤ fuel → -2 ^ 63 ≤ b.Height →
                b.Height + 1 + cs.heightBudget (b.Height + 1) < 2 ^ 63 →
                ∃ cs', cs.doGetBlockByHeight fuel blocks height = some ⟨.ok b, i + 1, cs'⟩)
            ∧ ((∀ kv ∈ cs.blockInfo, -2 ^ 63 ≤ kv.1 ∧ kv.1 < 2 ^ 63) →
                cs.config.MaxBlocks < 2 ^ 63 → (cs.blockInfo.length : Int) < 2 ^ 63 →
                (cs.config.MaxBlocks - cs.blockInfo.length).toNat + cs.blockInfo.length ≤ fuel →
                ∃ cs', cs.doGetBlockByHeight fuel blocks height = some ⟨.ok b, i + 1, cs'⟩))
      ∧ (∀ e, (∀ j, j < MaxTrials - 1 → ∃ e', blocks j = .error e') →
          blocks (MaxTrials - 1) = .error e →
          cs.doGetBlockByHeight fuel blocks height = some ⟨.error e, MaxTrials, cs⟩)
      ∧ (∀ i rct, i < MaxTrials → (∀ j, j < i → ∃ e, receipts j = .error e) →
          receipts i = .ok rct →
          cs.doGetReceipt fuel receipts id = some ⟨.ok rct, i + 1, cs⟩)
      ∧ (∀ e, (∀ j, j < MaxTrials - 1 → ∃ e', receipts j = .error e') →
          receipts (MaxTrials - 1) = .error e →
          cs.doGetReceipt fuel receipts id = some ⟨.error e, MaxTrials, cs⟩) := by
  have h5 : MaxTrials = 5 := rfl
  refine ⟨h5, ?_, ?_, ?_, ?_, ?_, ?_⟩
  · intro r hr
    have := doGetBlockLoop_calls fuel blocks cs fuel 0 0 r (by omega) hr
    omega
  · obtain ⟨r, a, b, c⟩ := doGetReceiptLoop_returns receipts cs fuel 0 0 (by omega) (by omega)
    exact ⟨r, a, by omega, c⟩
  · intro i b hi hfail hok
    have heq := doGetBlockLoop_success fuel blocks cs b i fuel 0 0 (by omega) (by omega)
      (fun j hj => by simpa using hfail j hj) (by simpa using hok)
    simp only [Nat.zero_add] at heq
    refine ⟨heq, ?_, ?_⟩
    · intro hb hlo hhi
      obtain ⟨cs', -, -, hs, -⟩ := scheduleFollowings_spec fuel cs b hb hlo hhi
      refine ⟨cs', ?_⟩
      unfold doGetBlockByHeight
      rw [heq, hs]
      rfl
    · intro hkeys hmax hlen hcover
      obtain ⟨cs', hs⟩ := scheduleFollowings_returns fuel cs b hkeys hmax hlen hcover
      refine ⟨cs', ?_⟩
      unfold doGetBlockByHeight
      rw [heq, hs]
      rfl
  · intro e hfail herr
    have heq := doGetBlockLoop_failure fuel blocks cs e (MaxTrials - 1) fuel 0 0 (by omega)
      (by omega) (fun j hj => by simpa using hfail j hj) (by simpa using herr)
    simpa [h5] using heq
  · intro i rct hi hfail hok
    have heq := doGetReceiptLoop_success receipts cs rct i fuel 0 0 (by omega) (by omega)
      (fun j hj => by simpa using hfail j hj) (by simpa using hok)
    simpa using heq
  · intro e hfail herr
    have heq := doGetReceiptLoop_failure receipts cs e (MaxTrials - 1) fuel 0 0 (by omega)
      (by omega) (fun j hj => by simpa using hfail j hj) (by simpa using herr)
    simpa [h5] using heq

/-- Witness of C21 on the default cache: a store that fails four times and
then returns block 100 is called five times and the block is returned; a
store that fails five times is called five times and its fifth error is
returned. -/
theorem doGet_retry_bound_witness :
    (((NewForwardCache none).doGetBlockByHeight 32 (flakyStore 4 block100) 100).map
        fun r => (r.result.toOption, r.calls)) = some (some block100, 5)
      ∧ (((NewForwardCache none).doGetReceipt 32 (flakyStore 5 ⟨[]⟩) [1]).map
        fun r => (r.result.toOption, r.calls)) = some (none, 5)
      ∧ (NewForwardCache none).doGetReceipt 32 (flakyStore 5 ⟨[]⟩) [1]
        = some ⟨.error ⟨4⟩, MaxTrials, NewForwardCache none⟩ :=
  ⟨by decide, by decide,
    (doGet_retry_bound 32 (by decide) (flakyStore 4 block100) (flakyStore 5 ⟨[]⟩) 100 [1]
      (NewForwardCache none)).2.2.2.2.2.2 ⟨4⟩
      (fun j hj => ⟨⟨j⟩, by
        have h5 : MaxTrials = 5 := rfl
        simp only [flakyStore]
        rw [if_pos (by omega)]⟩)
      rfl⟩

/-- C24: a schedule helper whose key is present changes nothing, and a second
call of a helper right after the first changes nothing. -/
theorem schedule_idempotent (cs : ForwardCache) (height : Int) (id : Bytes) :
    (∀ t, mapGet cs.blockInfo height = some t → cs.scheduleBlockInLock height = cs)
      ∧ (∀ t, mapGet cs.receiptInfo id = some t → cs.scheduleReceiptInLock id = cs)
      ∧ (cs.scheduleBlockInLock height).scheduleBlockInLock height
          = cs.scheduleBlockInLock height
      ∧ (cs.scheduleReceiptInLock id).scheduleReceiptInLock id
          = cs.scheduleReceiptInLock id := by
  refine ⟨fun t ht => scheduleBlockInLock_present cs height t ht,
    fun t ht => scheduleReceiptInLock_present cs id t ht, ?_, ?_⟩
  · cases hp : mapGet cs.blockInfo height with
    | some t => rw [scheduleBlockInLock_present cs height t hp,
        scheduleBlockInLock_present cs height t hp]
    | none =>
      apply scheduleBlockInLock_present _ height ⟨height, cs.chans⟩
      rw [scheduleBlockInLock_absent cs height hp, (addWorkerInLock_fields _).2.2.1]
      exact mapGet_append_self _ _ _ hp
  · cases hp : mapGet cs.receiptInfo id with
    | some t => rw [scheduleReceiptInLock_present cs id t hp,
        scheduleReceiptInLock_present cs id t hp]
    | none =>
      apply scheduleReceiptInLock_present _ id ⟨id, cs.chans⟩
      rw [scheduleReceiptInLock_absent cs id hp, (addWorkerInLock_fields _).2.2.2.1]
      exact mapGet_append_self _ _ _ hp

/-- C25: `scheduleFollowings(b)`, when the heights it visits stay in the
range of `int64` and the fuel covers the budget of the height loop, returns;
afterwards every normal-transaction id of `b` is a key of `receiptInfo`, the
old entries of both maps are retained, `len(blockInfo) >= MaxBlocks`, and the
heights added are, in increasing order, the `k` smallest heights above
`b.Height()` that were not keys, `k = max(0, MaxBlocks - len(blockInfo))` for
the length before the call. -/
theorem scheduleFollowings_adds (fuel : Nat) (cs : ForwardCache) (b : Block)
    (hfuel : cs.heightBudget (b.Height + 1) ≤ fuel) (hlo : -2 ^ 63 ≤ b.Height)
    (hhi : b.Height + 1 + cs.heightBudget (b.Height + 1) < 2 ^ 63) :
    ∃ cs' blocks receipts, cs.scheduleFollowings fuel b = some cs'
      ∧ cs'.blockInfo = cs.blockInfo ++ blocks
      ∧ cs'.receiptInfo = cs.receiptInfo ++ receipts
      ∧ (∀ id ∈ b.NormalTransactions, id ∈ cs'.receiptIds)
      ∧ cs'.config.MaxBlocks ≤ cs'.blockInfo.length
      ∧ (blocks.length : Int) = max 0 (cs.config.MaxBlocks - cs.blockInfo.length)
      ∧ (blocks.map Prod.fst).Pairwise (fun x y => x < y)
      ∧ (∀ x ∈ blocks.map Prod.fst, b.Height < x ∧ x ∉ cs.heights)
      ∧ (∀ x, b.Height < x → x ∉ cs.heights → x ∉ blocks.map Prod.fst →
          ∀ y ∈ blocks.map Prod.fst, y < x) := by
  obtain ⟨cs', blocks, receipts, r1, r2, r3, r4, r5, r6, r7, r8, r9, r10⟩ :=
    scheduleFollowings_spec fuel cs b hfuel hlo hhi
  refine ⟨cs', blocks, receipts, r1, r2, r3, r5, by rw [r4]; exact r6, ?_, r8, r9, r10⟩
  rw [r7]
  omega

/-- Witness of C25: the default cache and a block of height 100 with two
normal transactions. -/
theorem scheduleFollowings_adds_witness :
    (∃ cs' blocks receipts, (NewForwardCache none).scheduleFollowings 32 block100 = some cs'
      ∧ cs'.blockInfo = (NewForwardCache none).blockInfo ++ blocks
      ∧ cs'.receiptInfo = (NewForwardCache none).receiptInfo ++ receipts
      ∧ (∀ id ∈ block100.NormalTransactions, id ∈ cs'.receiptIds)
      ∧ cs'.config.MaxBlocks ≤ cs'.blockInfo.length
      ∧ (blocks.length : Int)
          = max 0 ((NewForwardCache none).config.MaxBlocks
              - (NewForwardCache none).blockInfo.length)
      ∧ (blocks.map Prod.fst).Pairwise (fun x y => x < y)
      ∧ (∀ x ∈ blocks.map Prod.fst, block100.Height < x ∧ x ∉ (NewForwardCache none).heights)
      ∧ (∀ x, block100.Height < x → x ∉ (NewForwardCache none).heights →
          x ∉ blocks.map Prod.fst → ∀ y ∈ blocks.map Prod.fst, y < x))
      ∧ ((NewForwardCache none).scheduleFollowings 32 block100).map
          (fun cs' => (cs'.heights, cs'.receiptIds))
        = some ((List.range 32).map (fun (k : Nat) => (101 + (k : Int))), [[1], [2]]) :=
  ⟨scheduleFollowings_adds 32 (NewForwardCache none) block100 (by decide) (by decide)
    (by decide), by decide⟩

/-- Counterexample to C25 without the range of the heights: after a block at
the largest `int64` height the default cache schedules the 32 smallest `int64`
heights, none of which is greater than the height of the block. -/
theorem scheduleFollowings_adds_counterexample :
    (NewForwardCache none).heights = []
      ∧ topBlock.Height = 9223372036854775807
      ∧ ((NewForwardCache none).scheduleFollowings 32 topBlock).map heights
          = some ((List.range 32).map fun (k : Nat) => (-9223372036854775808 + (k : Int)))
      ∧ ∀ x ∈ (List.range 32).map fun (k : Nat) => (-9223372036854775808 + (k : Int)),
          ¬ topBlock.Height < x := by
  decide

end ForwardCache

namespace ForwardCache

/-! ### The scenario of the prefetch -/

/-- More fuel does not change the outcome of the height loop. -/
theorem heightLoop_mono : ∀ (n k : Nat) (h : Int) (cs cs' : ForwardCache),
    heightLoop n h cs = some cs' → heightLoop (n + k) h cs = some cs' := by
  intro n
  induction n with
  | zero =>
    intro k h cs cs' hl
    unfold heightLoop at hl
    split at hl
    · cases hl
    · rename_i hc
      cases hl
      cases k with
      | zero => simp [heightLoop, hc]
      | succ k => simp [heightLoop, hc]
  | succ m ih =>
    intro k h cs cs' hl
    rw [show m + 1 + k = (m + k) + 1 by omega]
    unfold heightLoop at hl ⊢
    split at hl
    · rename_i hc
      rw [if_pos hc]
      exact ih k _ _ _ hl
    · rename_i hc
      rw [if_neg hc]
      exact hl

/-- The keys of `blockInfo` after the block schedule helper. -/
theorem heights_scheduleBlockInLock (cs : ForwardCache) (h : Int) :
    (cs.scheduleBlockInLock h).heights = (if h ∈ cs.heights then cs.heights else cs.heights ++ [h])
      ∧ (cs.scheduleBlockInLock h).config = cs.config := by
  cases hp : mapGet cs.blockInfo h with
  | some t =>
    have hm : h ∈ cs.heights := by
      by_contra hn
      unfold heights at hn
      rw [← mapGet_eq_none] at hn
      rw [hn] at hp; cases hp
    rw [scheduleBlockInLock_present cs h t hp, if_pos hm]
    exact ⟨rfl, rfl⟩
  | none =>
    have hm : h ∉ cs.heights := by
      unfold heights
      rw [← mapGet_eq_none]
      exact hp
    rw [scheduleBlockInLock_absent cs h hp, if_neg hm]
    unfold heights
    rw [(addWorkerInLock_fields _).2.2.1, (addWorkerInLock_fields _).1]
    simp

/-- The keys of `blockInfo` after the height loop depend on the keys before
it and on `MaxBlocks` only. -/
theorem heightLoop_heights_congr : ∀ (fuel : Nat) (h : Int) (c1 c2 : ForwardCache),
    c1.heights = c2.heights → c1.config.MaxBlocks = c2.config.MaxBlocks →
    (heightLoop fuel h c1).map heights = (heightLoop fuel h c2).map heights := by
  intro fuel
  induction fuel with
  | zero =>
    intro h c1 c2 hk hm
    have hlen : c1.blockInfo.length = c2.blockInfo.length := by
      have := congrArg List.length hk
      simpa [heights] using this
    unfold heightLoop
    rw [hlen, hm]
    split
    · rfl
    · simp [hk]
  | succ n ih =>
    intro h c1 c2 hk hm
    have hlen : c1.blockInfo.length = c2.blockInfo.length := by
      have := congrArg List.length hk
      simpa [heights] using this
    unfold heightLoop
    rw [hlen, hm]
    split
    · apply ih
      · rw [(heights_scheduleBlockInLock c1 h).1, (heights_scheduleBlockInLock c2 h).1, hk]
      · rw [(heights_scheduleBlockInLock c1 h).2, (heights_scheduleBlockInLock c2 h).2, hm]
    · simp [hk]

/-- Every entry of `blockInfo` is a task for its key, once this holds. -/
theorem blockInfo_keys_scheduleBlockInLock (cs : ForwardCache) (h : Int)
    (hq : ∀ kv ∈ cs.blockInfo, kv.2.height = kv.1) :
    ∀ kv ∈ (cs.scheduleBlockInLock h).blockInfo, kv.2.height = kv.1 := by
  cases hp : mapGet cs.blockInfo h with
  | some t => rw [scheduleBlockInLock_present cs h t hp]; exact hq
  | none =>
    rw [scheduleBlockInLock_absent cs h hp, (addWorkerInLock_fields _).2.2.1]
    intro kv hkv
    rcases List.mem_append.mp hkv with hkv | hkv
    · exact hq kv hkv
    · simp only [List.mem_singleton] at hkv
      subst hkv
      rfl

/-- A key of the map is found by the read. -/
theorem mapGet_of_mem {κ β : Type} [DecidableEq κ] (m : List (κ × β)) (k : κ)
    (h : k ∈ m.map Prod.fst) : ∃ v, mapGet m k = some v := by
  cases hg : mapGet m k with
  | some v => exact ⟨v, rfl⟩
  | none => exact absurd h ((mapGet_eq_none m k).mp hg)

/-- A deleted key is no key any more. -/
theorem mapDelete_not_mem {κ β : Type} [DecidableEq κ] (m : List (κ × β)) (k : κ) :
    k ∉ (mapDelete m k).map Prod.fst := by
  intro h
  obtain ⟨kv, hkv, hk⟩ := List.mem_map.mp h
  have := (List.mem_filter.mp hkv).2
  simp only [ne_eq, decide_not, Bool.not_eq_true', decide_eq_false_iff_not] at this
  exact this hk


/-- C26 (amended): on a fresh cache with the default configuration, a
`GetBlockByHeight(100)` whose store call succeeds within the trials misses,
fetches the block itself and leaves exactly the heights 101..132 scheduled
(`MaxBlocks` = 32 entries, block 100 itself is never an entry).  A following
`GetBlockByHeight(105)` finds the task of height 105, detaches it and makes no
store call: it returns what the channel of the task delivers. -/
theorem GetBlockByHeight_prefetch (fuel : Nat) (hfuel : 32 ≤ fuel) (b : Block)
    (hb : b.Height = 100) (store : Nat → Except StoreError Block) (i : Nat)
    (hi : i < MaxTrials) (hfail : ∀ j, j < i → ∃ e, store j = .error e)
    (hok : store i = .ok b) (recv : blockTask → Except StoreError Block) :
    ∃ cs', (NewForwardCache none).GetBlockByHeight fuel store recv 100
          = some ⟨.ok b, i + 1, cs'⟩
      ∧ cs'.heights = (List.range 32).map (fun (k : Nat) => (101 + (k : Int)))
      ∧ ∃ bt, (cs'.getBlockTask 105).2 = some bt
          ∧ bt.height = 105
          ∧ 105 ∉ (cs'.getBlockTask 105).1.heights
          ∧ ∀ (fuel2 : Nat) (store2 : Nat → Except StoreError Block)
              (recv2 : blockTask → Except StoreError Block),
              cs'.GetBlockByHeight fuel2 store2 recv2 105
                = match recv2 bt with
                  | .ok obj =>
                    ((cs'.getBlockTask 105).1.scheduleFollowings fuel2 obj).map
                      fun c => ⟨.ok obj, 0, c⟩
                  | .error e => some ⟨.error e, 0, (cs'.getBlockTask 105).1⟩ := by
  -- the miss and the fetch
  have hget : (NewForwardCache none).GetBlockByHeight fuel store recv 100
      = ((NewForwardCache none).scheduleFollowings fuel b).map
          fun cs' => ⟨.ok b, i + 1, cs'⟩ := by
    have heq := doGetBlockLoop_success fuel store (NewForwardCache none) b i fuel 0 0
      (by have h5 : MaxTrials = 5 := rfl; omega) (by omega)
      (fun j hj => by simpa using hfail j hj) (by simpa using hok)
    simp only [Nat.zero_add] at heq
    have hmiss : (NewForwardCache none).getBlockTask 100 = (NewForwardCache none, none) := rfl
    unfold GetBlockByHeight
    rw [hmiss]
    exact heq
  -- the heights scheduled
  obtain ⟨r1, r2, -, -⟩ := scheduleReceipts_spec b.NormalTransactions (NewForwardCache none)
  have hw : wrapInt64 (b.Height + 1) = 101 := by rw [hb]; decide
  have hfresh : ∃ x, heightLoop 32 101 (NewForwardCache none) = some x
      ∧ x.heights = (List.range 32).map (fun (k : Nat) => (101 + (k : Int))) := by
    have h1 : ((heightLoop 32 101 (NewForwardCache none)).map heights)
        = some ((List.range 32).map (fun (k : Nat) => (101 + (k : Int)))) := by decide
    cases hx : heightLoop 32 101 (NewForwardCache none) with
    | none => rw [hx] at h1; cases h1
    | some x =>
      rw [hx] at h1
      exact ⟨x, rfl, by simpa using h1⟩
  obtain ⟨x, hx1, hx2⟩ := hfresh
  have hx3 : heightLoop fuel 101 (NewForwardCache none) = some x := by
    have := heightLoop_mono 32 (fuel - 32) 101 _ _ hx1
    rwa [show 32 + (fuel - 32) = fuel by omega] at this
  have hcongr := heightLoop_heights_congr fuel 101
    (scheduleReceipts b.NormalTransactions (NewForwardCache none)) (NewForwardCache none)
    (by unfold heights; rw [r1]) (by rw [r2])
  rw [hx3] at hcongr
  cases hs : heightLoop fuel 101 (scheduleReceipts b.NormalTransactions (NewForwardCache none))
    with
  | none => rw [hs] at hcongr; cases hcongr
  | some cs' =>
    rw [hs] at hcongr
    have hheights : cs'.heights = (List.range 32).map (fun (k : Nat) => (101 + (k : Int))) := by
      have : cs'.heights = x.heights := by simpa using hcongr
      rw [this, hx2]
    have hsched : (NewForwardCache none).scheduleFollowings fuel b = some cs' := by
      unfold scheduleFollowings
      rw [hw]
      exact hs
    have hkeys : ∀ kv ∈ cs'.blockInfo, kv.2.height = kv.1 :=
      heightLoop_preserves (fun c => ∀ kv ∈ c.blockInfo, kv.2.height = kv.1)
        blockInfo_keys_scheduleBlockInLock fuel 101 _ cs' hs
        (by
          intro kv hkv
          have hnil : (scheduleReceipts b.NormalTransactions (NewForwardCache none)).blockInfo
              = [] := r1
          rw [hnil] at hkv
          cases hkv)
    have hmem : (105 : Int) ∈ cs'.blockInfo.map Prod.fst := by
      have : (105 : Int) ∈ cs'.heights := by rw [hheights]; decide
      exact this
    obtain ⟨bt, hbt⟩ := mapGet_of_mem cs'.blockInfo 105 hmem
    have hdet : cs'.getBlockTask 105
        = ({ cs' with blockInfo := mapDelete cs'.blockInfo 105 }, some bt) := by
      unfold getBlockTask
      rw [hbt]
    refine ⟨cs', by rw [hget, hsched]; rfl, hheights, bt, by rw [hdet], ?_, ?_, ?_⟩
    · exact hkeys (105, bt) (mapGet_mem _ _ _ hbt)
    · rw [hdet]
      exact mapDelete_not_mem cs'.blockInfo 105
    · intro fuel2 store2 recv2
      unfold GetBlockByHeight
      rw [hdet]

/-- Witness of C26: the store fails twice before it returns block 100. -/
theorem GetBlockByHeight_prefetch_witness :
    ∃ cs', (NewForwardCache none).GetBlockByHeight 32 (flakyStore 2 block100)
            (fun _ => .error ⟨0⟩) 100
          = some ⟨.ok block100, 2 + 1, cs'⟩
      ∧ cs'.heights = (List.range 32).map (fun (k : Nat) => (101 + (k : Int)))
      ∧ ∃ bt, (cs'.getBlockTask 105).2 = some bt
          ∧ bt.height = 105
          ∧ 105 ∉ (cs'.getBlockTask 105).1.heights
          ∧ ∀ (fuel2 : Nat) (store2 : Nat → Except StoreError Block)
              (recv2 : blockTask → Except StoreError Block),
              cs'.GetBlockByHeight fuel2 store2 recv2 105
                = match recv2 bt with
                  | .ok obj =>
                    ((cs'.getBlockTask 105).1.scheduleFollowings fuel2 obj).map
                      fun c => ⟨.ok obj, 0, c⟩
                  | .error e => some ⟨.error e, 0, (cs'.getBlockTask 105).1⟩ :=
  GetBlockByHeight_prefetch 32 (by decide) block100 rfl (flakyStore 2 block100) 2 (by decide)
    (fun j hj => ⟨⟨j⟩, by simp only [flakyStore]; rw [if_pos hj]⟩) rfl (fun _ => .error ⟨0⟩)

/-- Counterexample to C26 as stated: after the consumer has fetched block 100
on the fresh default cache, the scheduled heights are 101..132, with 132
among them, and not 101..131. -/
theorem GetBlockByHeight_prefetch_counterexample :
    ((NewForwardCache none).GetBlockByHeight 32 (flakyStore 0 block100)
        (fun _ => .error ⟨0⟩) 100).map (fun r => r.cache.heights)
      = some ((List.range 32).map (fun (k : Nat) => (101 + (k : Int))))
      ∧ ((NewForwardCache none).GetBlockByHeight 32 (flakyStore 0 block100)
        (fun _ => .error ⟨0⟩) 100).map (fun r => r.cache.heights)
      ≠ some ((List.range 31).map (fun (k : Nat) => (101 + (k : Int)))) := by
  constructor
  · decide
  · decide

end ForwardCache

namespace ForwardCache

/-! ### Workers and channels under the schedule helpers -/

theorem Grows.refl (cs : ForwardCache) : Grows cs cs :=
  ⟨rfl, le_refl _, by simp, fun h => h⟩

theorem Grows.trans {a b c : ForwardCache} (h1 : Grows a b) (h2 : Grows b c) : Grows a c := by
  obtain ⟨a1, a2, a3, a4⟩ := h1
  obtain ⟨b1, b2, b3, b4⟩ := h2
  refine ⟨by rw [b1, a1], by omega, by omega, ?_⟩
  intro h
  rw [a1] at b4
  exact b4 (a4 h)

theorem addWorkerInLock_grows (cs : ForwardCache) : Grows cs cs.addWorkerInLock := by
  unfold addWorkerInLock
  split
  · refine ⟨rfl, by simp, by simp, ?_⟩
    intro _
    simp only
    omega
  · exact Grows.refl cs

theorem scheduleBlockInLock_grows (cs : ForwardCache) (h : Int) :
    Grows cs (cs.scheduleBlockInLock h) := by
  cases hp : mapGet cs.blockInfo h with
  | some t => rw [scheduleBlockInLock_present cs h t hp]; exact Grows.refl cs
  | none =>
    rw [scheduleBlockInLock_absent cs h hp]
    exact addWorkerInLock_grows
      { cs with
        chans := cs.chans + 1,
        tasks := cs.tasks ++ [.block ⟨h, cs.chans⟩],
        blockInfo := cs.blockInfo ++ [(h, ⟨h, cs.chans⟩)] }

theorem scheduleReceiptInLock_grows (cs : ForwardCache) (id : Bytes) :
    Grows cs (cs.scheduleReceiptInLock id) := by
  cases hp : mapGet cs.receiptInfo id with
  | some t => rw [scheduleReceiptInLock_present cs id t hp]; exact Grows.refl cs
  | none =>
    rw [scheduleReceiptInLock_absent cs id hp]
    exact addWorkerInLock_grows
      { cs with
        chans := cs.chans + 1,
        tasks := cs.tasks ++ [.receipt ⟨id, cs.chans⟩],
        receiptInfo := cs.receiptInfo ++ [(id, ⟨id, cs.chans⟩)] }

/-- `scheduleFollowings` only adds workers, and not beyond `MaxWorkers`. -/
theorem scheduleFollowings_grows (fuel : Nat) (cs cs' : ForwardCache) (b : Block)
    (hs : cs.scheduleFollowings fuel b = some cs') : Grows cs cs' :=
  scheduleFollowings_preserves (fun c => Grows cs c)
    (fun c id hq => hq.trans (scheduleReceiptInLock_grows c id))
    (fun c h hq => hq.trans (scheduleBlockInLock_grows c h))
    fuel cs cs' b hs (Grows.refl cs)

/-- The cache after the block loop is the cache before it or the outcome of
one `scheduleFollowings`. -/
theorem doGetBlockLoop_cache (sfuel : Nat) (store : Nat → Except StoreError Block)
    (cs : ForwardCache) :
    ∀ (n trial calls : Nat) (r : Fetched Block),
      doGetBlockLoop sfuel store n trial calls cs = some r →
      r.cache = cs ∨ ∃ b, cs.scheduleFollowings sfuel b = some r.cache := by
  intro n
  induction n with
  | zero => intro trial calls r h; simp [doGetBlockLoop] at h
  | succ m ih =>
    intro trial calls r h
    unfold doGetBlockLoop at h
    cases hs : store calls with
    | ok b =>
      rw [hs] at h
      simp only [Option.map_eq_some'] at h
      obtain ⟨cs', hcs, rfl⟩ := h
      exact Or.inr ⟨b, hcs⟩
    | error e =>
      rw [hs] at h
      simp only at h
      by_cases hge : trial + 1 ≥ MaxTrials
      · rw [if_pos hge] at h
        cases h
        exact Or.inl rfl
      · rw [if_neg hge] at h
        exact ih (trial + 1) (calls + 1) r h

/-- The receipt loop leaves the cache as it is. -/
theorem doGetReceiptLoop_cache (store : Nat → Except StoreError Receipt)
    (cs : ForwardCache) :
    ∀ (n trial calls : Nat) (r : Fetched Receipt),
      doGetReceiptLoop store n trial calls cs = some r → r.cache = cs := by
  intro n
  induction n with
  | zero => intro trial calls r h; simp [doGetReceiptLoop] at h
  | succ m ih =>
    intro trial calls r h
    unfold doGetReceiptLoop at h
    cases hs : store calls with
    | ok b =>
      rw [hs] at h
      cases h
      rfl
    | error e =>
      rw [hs] at h
      simp only at h
      by_cases hge : trial + 1 ≥ MaxTrials
      · rw [if_pos hge] at h
        cases h
        rfl
      · rw [if_neg hge] at h
        exact ih (trial + 1) (calls + 1) r h

theorem doGetBlockByHeight_grows (fuel : Nat) (store : Nat → Except StoreError Block)
    (height : Int) (cs : ForwardCache) (r : Fetched Block)
    (h : cs.doGetBlockByHeight fuel store height = some r) : Grows cs r.cache := by
  rcases doGetBlockLoop_cache fuel store cs fuel 0 0 r h with h1 | ⟨b, h1⟩
  · rw [h1]; exact Grows.refl cs
  · exact scheduleFollowings_grows fuel cs r.cache b h1

/-- A schedule helper keeps the allocation discipline of channels. -/
theorem addWorkerInLock_fresh (cs : ForwardCache) (running : List task)
    (h : FreshChannels cs running) : FreshChannels cs.addWorkerInLock running := by
  obtain ⟨-, a2, -, -, a5⟩ := addWorkerInLock_fields cs
  unfold FreshChannels
  rw [a2, a5]
  exact h

theorem fresh_push (cs : ForwardCache) (running : List task) (t : task)
    (ht : t.chn = cs.chans) (h : FreshChannels cs running) :
    FreshChannels { cs with chans := cs.chans + 1, tasks := cs.tasks ++ [t] } running := by
  obtain ⟨h1, h2⟩ := h
  have hperm : ((cs.tasks ++ [t]) ++ running).Perm (t :: (cs.tasks ++ running)) := by
    rw [List.append_assoc]
    exact (List.perm_middle).trans (List.Perm.refl _)
  constructor
  · show (((cs.tasks ++ [t]) ++ running).map task.chn).Nodup
    rw [(hperm.map task.chn).nodup_iff]
    simp only [List.map_cons, List.nodup_cons]
    refine ⟨?_, h1⟩
    intro hmem
    obtain ⟨u, hu, hc⟩ := List.mem_map.mp hmem
    have := h2 u hu
    rw [hc, ht] at this
    exact Nat.lt_irrefl _ this
  · intro u hu
    show u.chn < cs.chans + 1
    have hu' : u ∈ t :: (cs.tasks ++ running) := hperm.mem_iff.mp hu
    rcases List.mem_cons.mp hu' with rfl | hu'
    · rw [ht]; exact Nat.lt_succ_self _
    · exact Nat.lt_succ_of_lt (h2 u hu')

theorem scheduleBlockInLock_fresh (running : List task) (cs : ForwardCache) (h : Int)
    (hf : FreshChannels cs running) : FreshChannels (cs.scheduleBlockInLock h) running := by
  cases hp : mapGet cs.blockInfo h with
  | some t => rw [scheduleBlockInLock_present cs h t hp]; exact hf
  | none =>
    rw [scheduleBlockInLock_absent cs h hp]
    apply addWorkerInLock_fresh
    exact fresh_push cs running (.block ⟨h, cs.chans⟩) rfl hf

theorem scheduleReceiptInLock_fresh (running : List task) (cs : ForwardCache) (id : Bytes)
    (hf : FreshChannels cs running) : FreshChannels (cs.scheduleReceiptInLock id) running := by
  cases hp : mapGet cs.receiptInfo id with
  | some t => rw [scheduleReceiptInLock_present cs id t hp]; exact hf
  | none =>
    rw [scheduleReceiptInLock_absent cs id hp]
    apply addWorkerInLock_fresh
    exact fresh_push cs running (.receipt ⟨id, cs.chans⟩) rfl hf

theorem scheduleFollowings_fresh (running : List task) (fuel : Nat) (cs cs' : ForwardCache)
    (b : Block) (hs : cs.scheduleFollowings fuel b = some cs')
    (hf : FreshChannels cs running) : FreshChannels cs' running :=
  scheduleFollowings_preserves (fun c => FreshChannels c running)
    (fun c id hq => scheduleReceiptInLock_fresh running c id hq)
    (fun c h hq => scheduleBlockInLock_fresh running c h hq)
    fuel cs cs' b hs hf

theorem doGetBlockByHeight_fresh (running : List task) (fuel : Nat)
    (store : Nat → Except StoreError Block) (height : Int) (cs : ForwardCache)
    (r : Fetched Block) (h : cs.doGetBlockByHeight fuel store height = some r)
    (hf : FreshChannels cs running) : FreshChannels r.cache running := by
  rcases doGetBlockLoop_cache fuel store cs fuel 0 0 r h with h1 | ⟨b, h1⟩
  · rw [h1]; exact hf
  · exact scheduleFollowings_fresh running fuel cs r.cache b h1 hf

/-- Fewer running tasks keep the discipline. -/
theorem FreshChannels.erase {cs : ForwardCache} {running : List task}
    (hf : FreshChannels cs running) (t : task) : FreshChannels cs (running.erase t) := by
  obtain ⟨h1, h2⟩ := hf
  have hsub : (cs.tasks ++ running.erase t).Sublist (cs.tasks ++ running) :=
    List.Sublist.append_left (List.erase_sublist t running) cs.tasks
  exact ⟨h1.sublist (hsub.map task.chn), fun u hu => h2 u (hsub.subset hu)⟩


theorem getBlockTask_fields (cs : ForwardCache) (h : Int) :
    (cs.getBlockTask h).1.workers = cs.workers
      ∧ (cs.getBlockTask h).1.config = cs.config
      ∧ (cs.getBlockTask h).1.tasks = cs.tasks
      ∧ (cs.getBlockTask h).1.chans = cs.chans
      ∧ (cs.getBlockTask h).1.spawned = cs.spawned := by
  unfold getBlockTask
  split <;> exact ⟨rfl, rfl, rfl, rfl, rfl⟩

theorem getReceiptTask_fields (cs : ForwardCache) (id : Bytes) :
    (cs.getReceiptTask id).1.workers = cs.workers
      ∧ (cs.getReceiptTask id).1.config = cs.config
      ∧ (cs.getReceiptTask id).1.tasks = cs.tasks
      ∧ (cs.getReceiptTask id).1.chans = cs.chans
      ∧ (cs.getReceiptTask id).1.spawned = cs.spawned := by
  unfold getReceiptTask
  split <;> exact ⟨rfl, rfl, rfl, rfl, rfl⟩

end ForwardCache

namespace CacheSystem

open ForwardCache

/-! ### The invariants of the step relation -/

theorem withCache_accounted (s : CacheSystem) (cs : ForwardCache) (ha : s.Accounted)
    (hg : Grows s.cache cs) :
    (s.withCache cs).cache = cs ∧ (s.withCache cs).running = s.running
      ∧ cs.workers = (((s.withCache cs).idle + s.running.length : Nat) : Int)
      ∧ cs.workers ≤ cs.config.MaxWorkers ∧ cs.config = s.cache.config := by
  obtain ⟨a1, a2⟩ := ha
  obtain ⟨g1, g2, g3, g4⟩ := hg
  refine ⟨rfl, rfl, ?_, ?_, g1⟩
  · simp only [withCache]
    rw [g3, a1]
    push_cast
    omega
  · rw [g1]
    exact g4 a2

/-- Every step keeps the worker counter equal to the number of live workers
and at most `MaxWorkers`, and leaves the configuration as it is. -/
theorem step_accounted (s s' : CacheSystem) (a : CacheAction) (hs : s.step a = some s')
    (ha : s.Accounted) : s'.Accounted ∧ s'.cache.config = s.cache.config := by
  have ha' := ha
  obtain ⟨a1, a2⟩ := ha'
  cases a with
  | getBlockTask height =>
    obtain ⟨f1, f2, -, -, -⟩ := getBlockTask_fields s.cache height
    simp only [step] at hs
    rcases hg : s.cache.getBlockTask height with ⟨cs, o⟩
    rw [hg] at hs f1 f2
    simp only at f1 f2
    cases o
    all_goals
      simp only [Option.some.injEq] at hs
      subst hs
      exact ⟨⟨f1.trans a1, by rw [f1, f2]; exact a2⟩, f2⟩
  | directBlock height store fuel =>
    simp only [step] at hs
    split at hs
    · simp only [Option.map_eq_some'] at hs
      obtain ⟨r, hr, rfl⟩ := hs
      obtain ⟨w1, w2, w3, w4, w5⟩ := withCache_accounted s r.cache ha
        (doGetBlockByHeight_grows fuel store height s.cache r hr)
      exact ⟨⟨w3, w4⟩, w5⟩
    · cases hs
  | receiveBlock bt fuel =>
    simp only [step] at hs
    split at hs
    · split at hs
      · simp only [Option.map_eq_some'] at hs
        obtain ⟨cs, hcs, rfl⟩ := hs
        obtain ⟨w1, w2, w3, w4, w5⟩ := withCache_accounted s cs ha
          (scheduleFollowings_grows fuel s.cache cs _ hcs)
        exact ⟨⟨w3, w4⟩, w5⟩
      · simp only [Option.some.injEq] at hs
        subst hs
        exact ⟨⟨a1, a2⟩, rfl⟩
      · cases hs
    · cases hs
  | getReceiptTask id =>
    obtain ⟨f1, f2, -, -, -⟩ := getReceiptTask_fields s.cache id
    simp only [step] at hs
    rcases hg : s.cache.getReceiptTask id with ⟨cs, o⟩
    rw [hg] at hs f1 f2
    simp only at f1 f2
    cases o
    all_goals
      simp only [Option.some.injEq] at hs
      subst hs
      exact ⟨⟨f1.trans a1, by rw [f1, f2]; exact a2⟩, f2⟩
  | directReceipt id store fuel =>
    simp only [step] at hs
    split at hs
    · simp only [Option.map_eq_some'] at hs
      obtain ⟨r, hr, rfl⟩ := hs
      have hc : r.cache = s.cache := doGetReceiptLoop_cache store s.cache fuel 0 0 r hr
      obtain ⟨w1, w2, w3, w4, w5⟩ := withCache_accounted s r.cache ha
        (by rw [hc]; exact Grows.refl _)
      exact ⟨⟨w3, w4⟩, w5⟩
    · cases hs
  | receiveReceipt rt =>
    simp only [step] at hs
    split at hs
    · split at hs
      · simp only [Option.some.injEq] at hs
        subst hs
        exact ⟨⟨a1, a2⟩, rfl⟩
      · cases hs
    · cases hs
  | fetchTask =>
    simp only [step] at hs
    cases hi : s.idle with
    | zero => rw [hi] at hs; cases hs
    | succ idle =>
      rw [hi] at hs
      simp only at hs
      cases ht : s.cache.tasks with
      | nil =>
        have hf : s.cache.fetchTask = ({ s.cache with workers := s.cache.workers - 1 }, none) := by
          simp [ForwardCache.fetchTask, ht]
        rw [hf] at hs
        simp only [Option.some.injEq] at hs
        subst hs
        simp only [Accounted]
        rw [hi] at a1
        push_cast at a1 ⊢
        exact ⟨⟨by omega, by omega⟩, trivial⟩
      | cons e rest =>
        have hf : s.cache.fetchTask = ({ s.cache with tasks := rest }, some e) := by
          simp [ForwardCache.fetchTask, ht]
        rw [hf] at hs
        simp only [Option.some.injEq] at hs
        subst hs
        simp only [Accounted, List.length_cons]
        rw [hi] at a1
        push_cast at a1 ⊢
        exact ⟨⟨by omega, a2⟩, trivial⟩
  | blockDone t store fuel =>
    simp only [step] at hs
    split at hs
    · rename_i hmem
      simp only [blockTask.Do, Option.map_map, Option.map_eq_some'] at hs
      obtain ⟨r, hr, rfl⟩ := hs
      obtain ⟨w1, w2, w3, w4, w5⟩ := withCache_accounted s r.cache ha
        (doGetBlockByHeight_grows fuel store t.height s.cache r hr)
      have hlen := List.length_erase_of_mem hmem
      have hpos := List.length_pos_of_mem hmem
      simp only [Accounted, Function.comp]
      refine ⟨⟨?_, w4⟩, w5⟩
      rw [w1, w3, hlen]
      push_cast
      omega
    · cases hs
  | receiptDone t store fuel =>
    simp only [step] at hs
    split at hs
    · rename_i hmem
      simp only [receiptTask.Do, Option.map_map, Option.map_eq_some'] at hs
      obtain ⟨r, hr, rfl⟩ := hs
      have hc : r.cache = s.cache := doGetReceiptLoop_cache store s.cache fuel 0 0 r hr
      obtain ⟨w1, w2, w3, w4, w5⟩ := withCache_accounted s r.cache ha
        (by rw [hc]; exact Grows.refl _)
      have hlen := List.length_erase_of_mem hmem
      have hpos := List.length_pos_of_mem hmem
      simp only [Accounted, Function.comp]
      refine ⟨⟨?_, w4⟩, w5⟩
      rw [w1, w3, hlen]
      push_cast
      omega
    · cases hs


/-- Every step keeps the allocation discipline of channels. -/
theorem step_fresh (s s' : CacheSystem) (a : CacheAction) (hs : s.step a = some s')
    (hf : FreshChannels s.cache s.running) : FreshChannels s'.cache s'.running := by
  cases a with
  | getBlockTask height =>
    obtain ⟨-, -, f3, f4, -⟩ := getBlockTask_fields s.cache height
    simp only [step] at hs
    rcases hg : s.cache.getBlockTask height with ⟨cs, o⟩
    rw [hg] at hs f3 f4
    simp only at f3 f4
    cases o
    all_goals
      simp only [Option.some.injEq] at hs
      subst hs
      unfold FreshChannels
      simp only [f3, f4]
      exact hf
  | directBlock height store fuel =>
    simp only [step] at hs
    split at hs
    · simp only [Option.map_eq_some'] at hs
      obtain ⟨r, hr, rfl⟩ := hs
      exact doGetBlockByHeight_fresh s.running fuel store height s.cache r hr hf
    · cases hs
  | receiveBlock bt fuel =>
    simp only [step] at hs
    split at hs
    · split at hs
      · simp only [Option.map_eq_some'] at hs
        obtain ⟨cs, hcs, rfl⟩ := hs
        exact scheduleFollowings_fresh s.running fuel s.cache cs _ hcs hf
      · simp only [Option.some.injEq] at hs
        subst hs
        exact hf
      · cases hs
    · cases hs
  | getReceiptTask id =>
    obtain ⟨-, -, f3, f4, -⟩ := getReceiptTask_fields s.cache id
    simp only [step] at hs
    rcases hg : s.cache.getReceiptTask id with ⟨cs, o⟩
    rw [hg] at hs f3 f4
    simp only at f3 f4
    cases o
    all_goals
      simp only [Option.some.injEq] at hs
      subst hs
      unfold FreshChannels
      simp only [f3, f4]
      exact hf
  | directReceipt id store fuel =>
    simp only [step] at hs
    split at hs
    · simp only [Option.map_eq_some'] at hs
      obtain ⟨r, hr, rfl⟩ := hs
      have hc : r.cache = s.cache := doGetReceiptLoop_cache store s.cache fuel 0 0 r hr
      show FreshChannels r.cache s.running
      rw [hc]
      exact hf
    · cases hs
  | receiveReceipt rt =>
    simp only [step] at hs
    split at hs
    · split at hs
      · simp only [Option.some.injEq] at hs
        subst hs
        exact hf
      · cases hs
    · cases hs
  | fetchTask =>
    simp only [step] at hs
    cases hi : s.idle with
    | zero => rw [hi] at hs; cases hs
    | succ idle =>
      rw [hi] at hs
      simp only at hs
      cases ht : s.cache.tasks with
      | nil =>
        have hfe : s.cache.fetchTask = ({ s.cache with workers := s.cache.workers - 1 }, none) := by
          simp [ForwardCache.fetchTask, ht]
        rw [hfe] at hs
        simp only [Option.some.injEq] at hs
        subst hs
        exact hf
      | cons e rest =>
        have hfe : s.cache.fetchTask = ({ s.cache with tasks := rest }, some e) := by
          simp [ForwardCache.fetchTask, ht]
        rw [hfe] at hs
        simp only [Option.some.injEq] at hs
        subst hs
        obtain ⟨h1, h2⟩ := hf
        rw [ht] at h1 h2
        have hperm : (rest ++ e :: s.running).Perm ((e :: rest) ++ s.running) :=
          List.perm_middle
        exact ⟨((hperm.map task.chn).nodup_iff).mpr h1, fun u hu => h2 u (hperm.mem_iff.mp hu)⟩
  | blockDone t store fuel =>
    simp only [step] at hs
    split at hs
    · simp only [blockTask.Do, Option.map_map, Option.map_eq_some'] at hs
      obtain ⟨r, hr, rfl⟩ := hs
      exact (doGetBlockByHeight_fresh s.running fuel store t.height s.cache r hr hf).erase _
    · cases hs
  | receiptDone t store fuel =>
    simp only [step] at hs
    split at hs
    · simp only [receiptTask.Do, Option.map_map, Option.map_eq_some'] at hs
      obtain ⟨r, hr, rfl⟩ := hs
      have hc : r.cache = s.cache := doGetReceiptLoop_cache store s.cache fuel 0 0 r hr
      have : FreshChannels r.cache s.running := by rw [hc]; exact hf
      exact this.erase _
    · cases hs

/-- What holds at the start of a run and is kept by every step holds at its
end. -/
theorem run_invariant (I : CacheSystem → Prop)
    (hstep : ∀ (s s' : CacheSystem) (a : CacheAction), s.step a = some s' → I s → I s') :
    ∀ (acts : List CacheAction) (s s' : CacheSystem), s.run acts = some s' → I s → I s' := by
  intro acts
  induction acts with
  | nil =>
    intro s s' hr hi
    simp only [run, Option.some.injEq] at hr
    subst hr
    exact hi
  | cons a rest ih =>
    intro s s' hr hi
    simp only [run] at hr
    cases hs : s.step a with
    | none => rw [hs] at hr; cases hr
    | some s1 =>
      rw [hs] at hr
      exact ih s1 s' hr (hstep s s1 a hs hi)

/-- A list without repetition all of whose members are the same has at most
one member. -/
theorem length_le_one_of_nodup_const {α : Type} (l : List α) (a : α) (hn : l.Nodup)
    (hc : ∀ x ∈ l, x = a) : l.length ≤ 1 := by
  match l, hn, hc with
  | [], _, _ => simp
  | [_], _, _ => simp
  | x :: y :: rest, hn, hc =>
    have hx := hc x (List.mem_cons_self _ _)
    have hy := hc y (List.mem_cons_of_mem _ (List.mem_cons_self _ _))
    have hne : x ≠ y := by
      have := (List.nodup_cons.mp hn).1
      intro h
      exact this (h ▸ List.mem_cons_self _ _)
    exact absurd (hx.trans hy.symm) hne

/-- C22: in every state reached from a new cache whose `MaxWorkers` is not
negative, by any steps of consumers and workers, the worker counter is the
number of live workers and lies between 0 and `MaxWorkers`; the configuration
is the one the cache was made with. -/
theorem workers_bounded (config : Option CacheConfig) (acts : List CacheAction)
    (s : CacheSystem) (hmax : 0 ≤ (NewForwardCache config).config.MaxWorkers)
    (hrun : (init config).run acts = some s) :
    0 ≤ s.cache.workers ∧ s.cache.workers ≤ s.cache.config.MaxWorkers
      ∧ s.cache.workers = ((s.idle + s.running.length : Nat) : Int)
      ∧ s.cache.config = (NewForwardCache config).config := by
  have h := run_invariant
    (fun t => t.Accounted ∧ t.cache.config = (NewForwardCache config).config)
    (fun t t' a ht hi => by
      obtain ⟨x, y⟩ := step_accounted t t' a ht hi.1
      exact ⟨x, y.trans hi.2⟩)
    acts (init config) s hrun ⟨⟨rfl, hmax⟩, rfl⟩
  obtain ⟨⟨h1, h2⟩, h3⟩ := h
  refine ⟨?_, h2, h1, h3⟩
  rw [h1]
  exact Int.ofNat_nonneg _

/-- Witness of C22: the run `twoWorkerTrace` of a cache with two workers and
a depth of three blocks ends with both workers running a task. -/
theorem workers_bounded_witness :
    ∃ s, (init (some ⟨2, 3, 0⟩)).run twoWorkerTrace = some s
      ∧ (0 ≤ s.cache.workers ∧ s.cache.workers ≤ s.cache.config.MaxWorkers
          ∧ s.cache.workers = ((s.idle + s.running.length : Nat) : Int)
          ∧ s.cache.config = (NewForwardCache (some ⟨2, 3, 0⟩)).config)
      ∧ (s.cache.workers, s.idle, s.running.length) = (2, 0, 2) := by
  have hev : ((init (some ⟨2, 3, 0⟩)).run twoWorkerTrace).map
      (fun s => (s.cache.workers, s.idle, s.running.length)) = some (2, 0, 2) := by decide
  cases hr : (init (some ⟨2, 3, 0⟩)).run twoWorkerTrace with
  | none => rw [hr] at hev; cases hev
  | some s =>
    rw [hr] at hev
    exact ⟨s, rfl, workers_bounded (some ⟨2, 3, 0⟩) twoWorkerTrace s (by decide) hr,
      by simpa using hev⟩

/-- Counterexample to C23 as stated: after the run `duplicateFetchTrace` of
the default cache two fetches of block 102 are queued at once, the task that
the consumer detached and the task that `scheduleFollowings` of block 101 made
because height 102 was no key of `blockInfo` any more. -/
theorem fetch_unique_counterexample :
    ((init none).run duplicateFetchTrace).map
        (fun s => (s.blockFetches 102,
          s.cache.tasks.filter fun t => decide (t = .block ⟨102, 1⟩ ∨ t = .block ⟨102, 32⟩)))
      = some (2, [.block ⟨102, 1⟩, .block ⟨102, 32⟩]) := by
  decide

/-- C23 (amended): in every state reached from a new cache by steps of
consumers and workers, for every height at most one fetch that is queued or
in flight belongs to a task still registered in `blockInfo`, and for every
receipt id at most one belongs to a task still registered in `receiptInfo`.
Tasks that a consumer has detached are not seen by the schedule helpers. -/
theorem registered_fetch_unique (config : Option CacheConfig) (acts : List CacheAction)
    (s : CacheSystem) (hrun : (init config).run acts = some s) (height : Int) (id : Bytes) :
    (s.registeredBlockFetches height).length ≤ 1
      ∧ (s.registeredReceiptFetches id).length ≤ 1 := by
  have hf : FreshChannels s.cache s.running :=
    run_invariant (fun t => FreshChannels t.cache t.running)
      (fun t t' a ht hi => step_fresh t t' a ht hi) acts (init config) s hrun
      ⟨by simp [init, NewForwardCache], by simp [init, NewForwardCache]⟩
  have hnd : (s.cache.tasks ++ s.running).Nodup := List.Nodup.of_map _ hf.1
  constructor
  · cases hg : mapGet s.cache.blockInfo height with
    | none =>
      have : s.registeredBlockFetches height = [] := by
        unfold registeredBlockFetches
        rw [List.filter_eq_nil_iff]
        intro t _
        cases t with
        | block bt => simp [hg]
        | receipt rt => simp
      rw [this]
      simp
    | some bt0 =>
      apply length_le_one_of_nodup_const _ (task.block bt0)
      · exact hnd.sublist (List.filter_sublist _)
      · intro t ht
        have := (List.mem_filter.mp ht).2
        cases t with
        | block bt =>
          simp only [hg, Option.some.injEq, decide_eq_true_eq] at this
          rw [this.2]
        | receipt rt => simp at this
  · cases hg : mapGet s.cache.receiptInfo id with
    | none =>
      have : s.registeredReceiptFetches id = [] := by
        unfold registeredReceiptFetches
        rw [List.filter_eq_nil_iff]
        intro t _
        cases t with
        | block bt => simp
        | receipt rt => simp [hg]
      rw [this]
      simp
    | some rt0 =>
      apply length_le_one_of_nodup_const _ (task.receipt rt0)
      · exact hnd.sublist (List.filter_sublist _)
      · intro t ht
        have := (List.mem_filter.mp ht).2
        cases t with
        | block bt => simp at this
        | receipt rt =>
          simp only [hg, Option.some.injEq, decide_eq_true_eq] at this
          rw [this.2]

/-- Witness of C23 (amended): after the run `duplicateFetchTrace` one of the
two queued fetches of block 102 is registered. -/
theorem registered_fetch_unique_witness :
    ∃ s, (init none).run duplicateFetchTrace = some s
      ∧ ((s.registeredBlockFetches 102).length ≤ 1
          ∧ (s.registeredReceiptFetches [1]).length ≤ 1)
      ∧ s.registeredBlockFetches 102 = [.block ⟨102, 32⟩] := by
  have hev : ((init none).run duplicateFetchTrace).map
      (fun s => s.registeredBlockFetches 102) = some [.block ⟨102, 32⟩] := by decide
  cases hr : (init none).run duplicateFetchTrace with
  | none => rw [hr] at hev; cases hev
  | some s =>
    rw [hr] at hev
    exact ⟨s, rfl, registered_fetch_unique none duplicateFetchTrace s hr 102 [1],
      by simpa using hev⟩

end CacheSystem

namespace TransactionPool

/-! ### The slice handed to the remover -/

theorem rejected_sublist (P : Primitives) (txdb : Bucket) (mem : Heap) :
    ∀ (l : List Ptr) (wc : WorldContext), (rejected P txdb mem l wc).Sublist l := by
  intro l
  induction l with
  | nil => intro wc; exact List.Sublist.slnil
  | cons e es ih =>
    intro wc
    unfold rejected
    split
    · exact (ih wc).cons₂ e
    · split
      · split
        · exact (ih _).cons e
        · exact (ih _).cons₂ e
      · exact (ih _).cons e

theorem accepted_sublist (P : Primitives) (txdb : Bucket) (mem : Heap) :
    ∀ (l : List Ptr) (wc : WorldContext), (accepted P txdb mem l wc).Sublist l := by
  intro l
  induction l with
  | nil => intro wc; exact List.Sublist.slnil
  | cons e es ih =>
    intro wc
    unfold accepted
    split
    · exact (ih wc).cons e
    · split
      · exact (ih _).cons e
      · exact (ih _).cons₂ e

theorem rejected_cons (P : Primitives) (txdb : Bucket) (mem : Heap) (e : Ptr)
    (es : List Ptr) (wc : WorldContext) :
    rejected P txdb mem (e :: es) wc
      = if txdb.Has ((mem e).value.ID P) then e :: rejected P txdb mem es wc
        else
          match (mem e).value.PreValidate P wc true with
          | (some err, wc') =>
            if NotEnoughBalanceError.Equals err then rejected P txdb mem es wc'
            else e :: rejected P txdb mem es wc'
          | (none, wc') => rejected P txdb mem es wc' := rfl

theorem accepted_cons (P : Primitives) (txdb : Bucket) (mem : Heap) (e : Ptr)
    (es : List Ptr) (wc : WorldContext) :
    accepted P txdb mem (e :: es) wc
      = if txdb.Has ((mem e).value.ID P) then accepted P txdb mem es wc
        else
          match (mem e).value.PreValidate P wc true with
          | (some _, wc') => accepted P txdb mem es wc'
          | (none, wc') => e :: accepted P txdb mem es wc' := rfl

/-- No element is both rejected and accepted. -/
theorem rejected_not_accepted (P : Primitives) (txdb : Bucket) (mem : Heap) :
    ∀ (l : List Ptr) (wc : WorldContext), l.Nodup →
      ∀ x ∈ rejected P txdb mem l wc, x ∉ accepted P txdb mem l wc := by
  intro l
  induction l with
  | nil => intro wc _ x hx; simp [rejected] at hx
  | cons e es ih =>
    intro wc hn x hx
    obtain ⟨he, hes⟩ := List.nodup_cons.mp hn
    have hacc : ∀ wc', e ∉ accepted P txdb mem es wc' :=
      fun wc' h => he ((accepted_sublist P txdb mem es wc').subset h)
    have hrej : ∀ wc', e ∉ rejected P txdb mem es wc' :=
      fun wc' h => he ((rejected_sublist P txdb mem es wc').subset h)
    rw [rejected_cons] at hx
    rw [accepted_cons]
    by_cases hdb : txdb.Has ((mem e).value.ID P) = true
    · rw [if_pos hdb] at hx ⊢
      rcases List.mem_cons.mp hx with rfl | hx
      · exact hacc wc
      · exact ih wc hes x hx
    · rw [if_neg hdb] at hx ⊢
      rcases hpv : (mem e).value.PreValidate P wc true with ⟨res, wc'⟩
      rw [hpv] at hx
      cases res with
      | some err =>
        simp only at hx ⊢
        by_cases hb : NotEnoughBalanceError.Equals err = true
        · rw [if_pos hb] at hx
          exact ih wc' hes x hx
        · rw [if_neg hb] at hx
          rcases List.mem_cons.mp hx with rfl | hx
          · exact hacc wc'
          · exact ih wc' hes x hx
      | none =>
        simp only at hx ⊢
        intro hmem
        rcases List.mem_cons.mp hmem with rfl | hmem
        · exact hrej wc' hx
        · exact ih wc' hes x hx hmem

/-- The validation loop computes the two slices the claim names. -/
theorem validateAll_slices (P : Primitives) (txdb : Bucket) (mem : Heap) :
    ∀ (l : List Ptr) (a : Validated), (∀ q, (a.mem q).value = (mem q).value) →
      (validateAll P txdb l a).invalid = a.invalid ++ rejected P txdb mem l a.wc
        ∧ (validateAll P txdb l a).validTxs
          = a.validTxs ++ (accepted P txdb mem l a.wc).map fun e => (mem e).value := by
  intro l
  induction l with
  | nil => intro a _; simp [validateAll, rejected, accepted]
  | cons e es ih =>
    intro a hv
    have hv' : ∀ q, ((validateElem P txdb e a).mem q).value = (mem q).value :=
      fun q => by rw [validateElem_value]; exact hv q
    obtain ⟨i1, i2⟩ := ih (validateElem P txdb e a) hv'
    simp only [validateAll]
    rw [i1, i2, rejected_cons, accepted_cons]
    rcases validateElem_cases P txdb e a with
      ⟨hdb, h⟩ | ⟨err, wc, hpv, hdb, ⟨hb, h⟩ | ⟨hb, h⟩⟩ | ⟨wc, hpv, hdb, h⟩
    · rw [hv e] at hdb
      rw [h]
      simp [hdb]
    · rw [hv e] at hdb hpv
      rw [h]
      simp [hdb, hpv, hb]
    · rw [hv e] at hdb hpv
      rw [h]
      simp [hdb, hpv, hb]
    · rw [hv e] at hdb hpv
      rw [h]
      simp [hdb, hpv, hv e]

/-- C27: the slice `Candidate` hands to the remover is the slice of the
selected elements that were found in `txdb` or whose `PreValidate` failed with
an error other than `NotEnoughBalance`, in selection order, followed by the
expired elements of the selection phase; the transactions returned are those
of the remaining selected elements whose `PreValidate` succeeded.  Under the
invariant of the id index no element occurs twice in the slice, and no element
of it has a transaction that is returned. -/
theorem Candidate_remove_slice (P : Primitives) (tp : TransactionPool) (wc : WorldContext)
    (maxBytes maxCount : Int) (hu : UniqueIds P tp.list) :
    (Candidate P tp wc maxBytes maxCount).remove
        = rejected P tp.txdb tp.list.mem (selectPhase P tp wc maxBytes maxCount).txs wc
          ++ (selectPhase P tp wc maxBytes maxCount).expired
      ∧ (Candidate P tp wc maxBytes maxCount).txs
        = (accepted P tp.txdb tp.list.mem (selectPhase P tp wc maxBytes maxCount).txs wc).map
            (fun e => (tp.list.mem e).value)
      ∧ (rejected P tp.txdb tp.list.mem (selectPhase P tp wc maxBytes maxCount).txs wc).Sublist
          (selectPhase P tp wc maxBytes maxCount).txs
      ∧ (Candidate P tp wc maxBytes maxCount).remove.Nodup
      ∧ ∀ e ∈ (Candidate P tp wc maxBytes maxCount).remove,
          (tp.list.mem e).value ∉ (Candidate P tp wc maxBytes maxCount).txs := by
  obtain ⟨s1, s2, s3, -, s5, s6, -, -⟩ := selectPhase_spec P tp wc maxBytes maxCount
  have hsub := rejected_sublist P tp.txdb tp.list.mem
    (selectPhase P tp wc maxBytes maxCount).txs wc
  have hasub := accepted_sublist P tp.txdb tp.list.mem
    (selectPhase P tp wc maxBytes maxCount).txs wc
  have hrem : (Candidate P tp wc maxBytes maxCount).remove
        = rejected P tp.txdb tp.list.mem (selectPhase P tp wc maxBytes maxCount).txs wc
          ++ (selectPhase P tp wc maxBytes maxCount).expired
      ∧ (Candidate P tp wc maxBytes maxCount).txs
        = (accepted P tp.txdb tp.list.mem (selectPhase P tp wc maxBytes maxCount).txs wc).map
            (fun e => (tp.list.mem e).value) := by
    by_cases hne : tp.list.Len = 0
    · have hnil : tp.list.nodes = [] := by simpa [transactionList.Len] using hne
      rw [hnil] at s2 s5
      rw [List.sublist_nil.mp s2, List.sublist_nil.mp s5]
      simp [Candidate, hne, rejected, accepted]
    · obtain ⟨c1, -, -, -, -, c6⟩ := Candidate_view P tp wc maxBytes maxCount hne
      obtain ⟨v1, v2⟩ := validateAll_slices P tp.txdb tp.list.mem
        (selectPhase P tp wc maxBytes maxCount).txs
        (validateInit (selectPhase P tp wc maxBytes maxCount) wc) s1
      rw [c1, c6, v1, v2]
      simp [validateInit]
  obtain ⟨h1, h2⟩ := hrem
  have hnodes := hu.nodup
  have hseln : (selectPhase P tp wc maxBytes maxCount).txs.Nodup := hnodes.sublist s2
  refine ⟨h1, h2, hsub, ?_, ?_⟩
  · rw [h1]
    refine List.Nodup.append (hseln.sublist hsub) (hnodes.sublist s5) ?_
    intro x hx1 hx2
    exact s6 x hx2 (s3 x (hsub.subset hx1))
  · intro e he hval
    rw [h2] at hval
    obtain ⟨e', he', hv⟩ := List.mem_map.mp hval
    have he'sel := hasub.subset he'
    have he'n : e' ∈ tp.list.nodes := s2.subset he'sel
    rw [h1] at he
    have hen : e ∈ tp.list.nodes := by
      rcases List.mem_append.mp he with h | h
      · exact s2.subset (hsub.subset h)
      · exact s5.subset h
    have heq : e' = e := by
      by_contra hne
      exact hu.ne_value he'n hen hne hv
    subst heq
    rcases List.mem_append.mp he with h | h
    · exact rejected_not_accepted P tp.txdb tp.list.mem _ wc hseln e' h he'
    · exact s6 e' h (s3 e' he'sel)

/-- Witness of C27: in `slicePool` at block time 70 s the entry found in the
bucket is handed over first, then the expired entry; the entry short of
balance stays, and the fourth transaction is returned. -/
theorem Candidate_remove_slice_witness :
    (Candidate samplePrimitives slicePool (sampleWorld 70000000 []) 0 0).remove
        = rejected samplePrimitives slicePool.txdb slicePool.list.mem
            (selectPhase samplePrimitives slicePool (sampleWorld 70000000 []) 0 0).txs
            (sampleWorld 70000000 [])
          ++ (selectPhase samplePrimitives slicePool (sampleWorld 70000000 []) 0 0).expired
      ∧ (Candidate samplePrimitives slicePool (sampleWorld 70000000 []) 0 0).remove = [1, 0]
      ∧ (selectPhase samplePrimitives slicePool (sampleWorld 70000000 []) 0 0).txs = [1, 2, 3]
      ∧ (Candidate samplePrimitives slicePool (sampleWorld 70000000 []) 0 0).txs
        = [(slicePool.list.mem 3).value] :=
  ⟨(Candidate_remove_slice samplePrimitives slicePool (sampleWorld 70000000 []) 0 0
      (by unfold UniqueIds; decide)).1, by decide, by decide, by decide⟩

end TransactionPool

/-! ### The scan with and without segment skipping -/

/-- Blooms of one width: a bloom that contains all of another contains every
id the other contains. -/
theorem TxBloom.contains_of_containsAllOf (a b : TxBloom) (id : Bytes)
    (hw : a.width = b.width) (h1 : a.ContainsAllOf b = true) (h2 : b.Contains id = true) :
    a.Contains id = true := by
  unfold TxBloom.Contains at h2 ⊢
  unfold TxBloom.ContainsAllOf at h1
  rw [List.all_eq_true] at h1 h2 ⊢
  intro i hi
  rw [hw] at hi
  have hb := h2 i hi
  apply h1 i
  simpa using hb

namespace TransactionPool

theorem setErr_bloom (mem : Heap) (e : Ptr) (err : TxError) (q : Ptr) :
    ((setErr mem e err) q).bloom = (mem q).bloom := by
  unfold setErr
  split
  · rename_i h; rw [h]
  · rfl

/-- The three ways the examination of one entry can go. -/
theorem filterEntry_cases (P : Primitives) (txdb : Bucket) (bloom : TxBloom) (e : Ptr)
    (st : Filtering) :
    (bloom.Contains ((st.mem e).value.ID P) = true ∧ filterEntry P txdb bloom e st = st)
      ∨ (bloom.Contains ((st.mem e).value.ID P) = false
          ∧ txdb.Has ((st.mem e).value.ID P) = true
          ∧ filterEntry P txdb bloom e st
            = { st with mem := setErr st.mem e .AlreadyProcessed,
                        invalids := st.invalids ++ [e] })
      ∨ (bloom.Contains ((st.mem e).value.ID P) = false
          ∧ txdb.Has ((st.mem e).value.ID P) = false
          ∧ filterEntry P txdb bloom e st = { st with txs := st.txs ++ [(st.mem e).value] }) := by
  unfold filterEntry
  dsimp only
  by_cases hb : bloom.Contains ((st.mem e).value.ID P) = true
  · left; exact ⟨hb, by simp [hb]⟩
  · have hb' : bloom.Contains ((st.mem e).value.ID P) = false := by simpa using hb
    by_cases hdb : txdb.Has ((st.mem e).value.ID P) = true
    · right; left; exact ⟨hb', hdb, by simp [hb', hdb]⟩
    · have hdb' : txdb.Has ((st.mem e).value.ID P) = false := by simpa using hdb
      right; right; exact ⟨hb', hdb', by simp [hb', hdb']⟩

/-- The examination of an entry changes no transaction and no segment
reference. -/
theorem filterEntry_frame (P : Primitives) (txdb : Bucket) (bloom : TxBloom) (e : Ptr)
    (st : Filtering) (q : Ptr) :
    ((filterEntry P txdb bloom e st).mem q).value = (st.mem q).value
      ∧ ((filterEntry P txdb bloom e st).mem q).bloom = (st.mem q).bloom := by
  rcases filterEntry_cases P txdb bloom e st with ⟨-, h⟩ | ⟨-, -, h⟩ | ⟨-, -, h⟩
  · rw [h]; exact ⟨rfl, rfl⟩
  · rw [h]; exact ⟨setErr_value _ _ _ _, setErr_bloom _ _ _ _⟩
  · rw [h]; exact ⟨rfl, rfl⟩

/-- The examination of an entry reads the heap and writes the heap and the two
slices only. -/
theorem filterEntry_congr (P : Primitives) (txdb : Bucket) (bloom : TxBloom) (e : Ptr)
    (st st' : Filtering) (hm : st.mem = st'.mem) (ht : st.txs = st'.txs)
    (hi : st.invalids = st'.invalids) :
    (filterEntry P txdb bloom e st).mem = (filterEntry P txdb bloom e st').mem
      ∧ (filterEntry P txdb bloom e st).txs = (filterEntry P txdb bloom e st').txs
      ∧ (filterEntry P txdb bloom e st).invalids = (filterEntry P txdb bloom e st').invalids := by
  unfold filterEntry
  dsimp only
  rw [hm, ht, hi]
  split
  · split
    · exact ⟨rfl, rfl, rfl⟩
    · exact ⟨rfl, rfl, rfl⟩
  · exact ⟨hm, ht, hi⟩

/-- The loop with the segment test computes what the plain scan computes, when
every entry of a segment whose bloom the peer bloom contains has its id in the
peer bloom. -/
theorem filterLoop_plain (P : Primitives) (txdb : Bucket) (l : transactionList)
    (bloom : TxBloom) (max : Int) :
    ∀ (nodes : List Ptr) (st st' : Filtering),
      st.mem = st'.mem → st.txs = st'.txs → st.invalids = st'.invalids →
      (∀ seg, st.skip = some seg → bloom.ContainsAllOf (l.segmentBloom seg) = true) →
      (∀ e ∈ nodes, bloom.ContainsAllOf (l.segmentBloom (st.mem e).bloom) = true →
          bloom.Contains ((st.mem e).value.ID P) = true) →
      (filterLoop P txdb l bloom max nodes st).mem = (plainLoop P txdb bloom max nodes st').mem
        ∧ (filterLoop P txdb l bloom max nodes st).txs
          = (plainLoop P txdb bloom max nodes st').txs
        ∧ (filterLoop P txdb l bloom max nodes st).invalids
          = (plainLoop P txdb bloom max nodes st').invalids := by
  intro nodes
  induction nodes with
  | nil => intro st st' hm ht hi _ _; exact ⟨hm, ht, hi⟩
  | cons e rest ih =>
    intro st st' hm ht hi hskip hinv
    have hrest : ∀ (s2 : Filtering), (∀ q, (s2.mem q).value = (st.mem q).value
        ∧ (s2.mem q).bloom = (st.mem q).bloom) →
        ∀ x ∈ rest, bloom.ContainsAllOf (l.segmentBloom (s2.mem x).bloom) = true →
          bloom.Contains ((s2.mem x).value.ID P) = true := by
      intro s2 hs2 x hx hc
      rw [(hs2 x).2] at hc
      rw [(hs2 x).1]
      exact hinv x (List.mem_cons_of_mem _ hx) hc
    have hsame : ∀ (s2 : Filtering), bloom.Contains ((st.mem e).value.ID P) = true →
        s2.mem = st'.mem → s2.txs = st'.txs → s2.invalids = st'.invalids →
        s2.mem = (filterEntry P txdb bloom e st').mem
          ∧ s2.txs = (filterEntry P txdb bloom e st').txs
          ∧ s2.invalids = (filterEntry P txdb bloom e st').invalids := by
      intro s2 hc a b c
      rcases filterEntry_cases P txdb bloom e st' with ⟨-, h⟩ | ⟨h, -, -⟩ | ⟨h, -, -⟩
      · rw [h]; exact ⟨a, b, c⟩
      · rw [← hm, hc] at h; cases h
      · rw [← hm, hc] at h; cases h
    unfold filterLoop plainLoop
    rw [← ht]
    by_cases hlt : (st.txs.length : Int) < max
    · rw [if_pos hlt, if_pos hlt]
      dsimp only
      by_cases hw : st.working ≠ some (st.mem e).bloom
      · rw [if_pos hw]
        by_cases hsk : some (st.mem e).bloom = st.skip
        · rw [if_pos hsk]
          have hc := hinv e (List.mem_cons_self _ _) (hskip _ hsk.symm)
          obtain ⟨a, b, c⟩ := hsame st hc hm ht hi
          exact ih st _ a b c hskip (hrest st (fun q => ⟨rfl, rfl⟩))
        · rw [if_neg hsk]
          by_cases hall : bloom.ContainsAllOf (l.segmentBloom (st.mem e).bloom) = true
          · rw [if_pos hall]
            have hc := hinv e (List.mem_cons_self _ _) hall
            obtain ⟨a, b, c⟩ := hsame { st with skip := some (st.mem e).bloom } hc hm ht hi
            refine ih _ _ a b c ?_ (hrest _ (fun q => ⟨rfl, rfl⟩))
            intro seg hseg
            simp only [Option.some.injEq] at hseg
            rw [← hseg]
            exact hall
          · rw [if_neg hall]
            obtain ⟨a, b, c⟩ := filterEntry_congr P txdb bloom e
              { st with working := some (st.mem e).bloom } st' hm ht hi
            refine ih _ _ a b c ?_ (hrest _ (fun q => filterEntry_frame P txdb bloom e _ q))
            intro seg hseg
            apply hskip seg
            rcases filterEntry_cases P txdb bloom e
                { st with working := some (st.mem e).bloom } with ⟨-, h⟩ | ⟨-, -, h⟩ | ⟨-, -, h⟩
              <;> (rw [h] at hseg; exact hseg)
      · rw [if_neg hw]
        obtain ⟨a, b, c⟩ := filterEntry_congr P txdb bloom e st st' hm ht hi
        refine ih _ _ a b c ?_ (hrest _ (fun q => filterEntry_frame P txdb bloom e _ q))
        intro seg hseg
        apply hskip seg
        rcases filterEntry_cases P txdb bloom e st with ⟨-, h⟩ | ⟨-, -, h⟩ | ⟨-, -, h⟩
          <;> (rw [h] at hseg; exact hseg)
    · rw [if_neg hlt, if_neg hlt]
      exact ⟨hm, ht, hi⟩

/-- The plain scan collects, after the transactions it has, the first
transactions of the entries whose id is in neither the bloom nor `txdb`, as
many as are missing to `max`. -/
theorem plainLoop_txs (P : Primitives) (txdb : Bucket) (bloom : TxBloom) (max : Int)
    (mem0 : Heap) :
    ∀ (nodes : List Ptr) (st : Filtering), (∀ q, (st.mem q).value = (mem0 q).value) →
      (plainLoop P txdb bloom max nodes st).txs
        = st.txs ++ ((nodes.map fun e => (mem0 e).value).filter fun tx =>
            !bloom.Contains (tx.ID P) && !txdb.Has (tx.ID P)).take
              (max.toNat - st.txs.length) := by
  intro nodes
  induction nodes with
  | nil => intro st _; simp [plainLoop]
  | cons e rest ih =>
    intro st hv
    unfold plainLoop
    by_cases hlt : (st.txs.length : Int) < max
    · rw [if_pos hlt]
      have hv' : ∀ q, ((filterEntry P txdb bloom e st).mem q).value = (mem0 q).value :=
        fun q => by rw [(filterEntry_frame P txdb bloom e st q).1]; exact hv q
      rw [ih _ hv']
      rcases filterEntry_cases P txdb bloom e st with ⟨hc, h⟩ | ⟨hc, hdb, h⟩ | ⟨hc, hdb, h⟩
      · rw [h]
        rw [hv e] at hc
        simp [List.filter_cons, hc]
      · rw [h]
        rw [hv e] at hc hdb
        simp [List.filter_cons, hc, hdb]
      · rw [h]
        rw [hv e] at hc hdb
        have hk : max.toNat - st.txs.length = (max.toNat - (st.txs.length + 1)) + 1 := by omega
        simp only [List.map_cons, List.filter_cons, hc, hdb, Bool.not_false, Bool.and_self,
          if_true, List.length_append, List.length_singleton]
        rw [hk, List.take_succ_cons, hv e]
        simp
    · rw [if_neg hlt]
      have hk : max.toNat - st.txs.length = 0 := by omega
      rw [hk]
      simp

/-- C28: under the invariant of the bloom chain, and when the peer bloom
contains every id contained in a segment bloom all of which it contains,
`FilterTransactions(bloom, max)` with `max >= 0` returns what the scan without
segment skipping returns, heap and invalid elements included: the first `max`
transactions, in list order, whose id is neither in the peer bloom nor in
`txdb`; so it returns at most `max` transactions. -/
theorem FilterTransactions_skip_refines (P : Primitives) (tp : TransactionPool)
    (bloom : TxBloom) (max : Int) (hmax : 0 ≤ max) (hinv : BloomInvariant P tp.list)
    (hmono : ∀ (seg : Ptr) (id : Bytes),
      bloom.ContainsAllOf (tp.list.segmentBloom seg) = true →
      (tp.list.segmentBloom seg).Contains id = true → bloom.Contains id = true) :
    ∃ r, tp.FilterTransactions P bloom max = some r
      ∧ r.txs = (plainLoop P tp.txdb bloom max tp.list.nodes
          ⟨tp.list.mem, [], [], none, none⟩).txs
      ∧ r.remove = (plainLoop P tp.txdb bloom max tp.list.nodes
          ⟨tp.list.mem, [], [], none, none⟩).invalids
      ∧ r.pool.list.mem = (plainLoop P tp.txdb bloom max tp.list.nodes
          ⟨tp.list.mem, [], [], none, none⟩).mem
      ∧ r.txs = firstMissing P tp bloom max
      ∧ (r.txs.length : Int) ≤ max := by
  obtain ⟨h1, h2, h3⟩ := filterLoop_plain P tp.txdb tp.list bloom max tp.list.nodes
    ⟨tp.list.mem, [], [], none, none⟩ ⟨tp.list.mem, [], [], none, none⟩ rfl rfl rfl
    (by intro seg hseg; cases hseg)
    (by
      intro e he hall
      exact hmono _ _ hall (hinv e he))
  have h4 := plainLoop_txs P tp.txdb bloom max tp.list.mem tp.list.nodes
    ⟨tp.list.mem, [], [], none, none⟩ (fun _ => rfl)
  simp only [List.nil_append, List.length_nil, Nat.sub_zero] at h4
  unfold FilterTransactions
  rw [if_neg (not_lt.mpr hmax)]
  refine ⟨_, rfl, h2, h3, h1, ?_, ?_⟩
  · show (filterLoop P tp.txdb tp.list bloom max tp.list.nodes
        ⟨tp.list.mem, [], [], none, none⟩).txs = firstMissing P tp bloom max
    rw [h2, h4]
    rfl
  · show (((filterLoop P tp.txdb tp.list bloom max tp.list.nodes
        ⟨tp.list.mem, [], [], none, none⟩).txs.length : Nat) : Int) ≤ max
    rw [h2, h4]
    have := List.length_take_le max.toNat
      ((tp.list.nodes.map fun e => (tp.list.mem e).value).filter fun tx =>
        !bloom.Contains (tx.ID P) && !tp.txdb.Has (tx.ID P))
    omega

/-- Witness of C28: `segmentedPool` has one segment per entry; the peer holds
the ids 1 and 3, so the first and the third segment are skipped; the entry of
id 4 is in the bucket and handed to the remover, the transaction of id 2 is
returned. -/
theorem FilterTransactions_skip_refines_witness :
    (∃ r, segmentedPool.FilterTransactions samplePrimitives peerBloom13 10 = some r
      ∧ r.txs = (plainLoop samplePrimitives segmentedPool.txdb peerBloom13 10
          segmentedPool.list.nodes ⟨segmentedPool.list.mem, [], [], none, none⟩).txs
      ∧ r.remove = (plainLoop samplePrimitives segmentedPool.txdb peerBloom13 10
          segmentedPool.list.nodes ⟨segmentedPool.list.mem, [], [], none, none⟩).invalids
      ∧ r.pool.list.mem = (plainLoop samplePrimitives segmentedPool.txdb peerBloom13 10
          segmentedPool.list.nodes ⟨segmentedPool.list.mem, [], [], none, none⟩).mem
      ∧ r.txs = firstMissing samplePrimitives segmentedPool peerBloom13 10
      ∧ (r.txs.length : Int) ≤ 10)
      ∧ (segmentedPool.FilterTransactions samplePrimitives peerBloom13 10).map
          (fun r => (r.txs.map fun tx => tx.ID samplePrimitives, r.remove))
        = some ([[2]], [3])
      ∧ (segmentedPool.list.nodes.map fun e =>
          peerBloom13.ContainsAllOf
            (segmentedPool.list.segmentBloom (segmentedPool.list.mem e).bloom))
        = [true, false, true, false] :=
  ⟨FilterTransactions_skip_refines samplePrimitives segmentedPool peerBloom13 10 (by decide)
      (by unfold BloomInvariant; decide)
      (fun seg id h1 h2 =>
        TxBloom.contains_of_containsAllOf peerBloom13 (segmentedPool.list.segmentBloom seg) id
          (match seg with
            | 0 => rfl
            | 1 => rfl
            | 2 => rfl
            | 3 => rfl
            | _ + 4 => rfl) h1 h2),
    by decide, by decide⟩

/-! ### The elements handed to the remover -/

/-- The examination of an entry records an error in every entry it puts into
`invalids`, and never clears an error. -/
theorem filterEntry_errs (P : Primitives) (txdb : Bucket) (bloom : TxBloom) (e : Ptr)
    (st : Filtering) (h : ∀ x ∈ st.invalids, (st.mem x).err ≠ none) :
    ∀ x ∈ (filterEntry P txdb bloom e st).invalids,
      ((filterEntry P txdb bloom e st).mem x).err ≠ none := by
  rcases filterEntry_cases P txdb bloom e st with ⟨-, hc⟩ | ⟨-, -, hc⟩ | ⟨-, -, hc⟩
  · rw [hc]; exact h
  · rw [hc]
    intro x hx
    simp only at hx ⊢
    by_cases hxe : x = e
    · subst hxe; simp [setErr_err_self]
    · rw [setErr_of_ne _ _ _ _ hxe]
      rcases List.mem_append.mp hx with hx | hx
      · exact h x hx
      · exact absurd (List.mem_singleton.mp hx) hxe
  · rw [hc]; exact h

theorem filterLoop_errs (P : Primitives) (txdb : Bucket) (l : transactionList)
    (bloom : TxBloom) (max : Int) :
    ∀ (nodes : List Ptr) (st : Filtering), (∀ x ∈ st.invalids, (st.mem x).err ≠ none) →
      ∀ x ∈ (filterLoop P txdb l bloom max nodes st).invalids,
        ((filterLoop P txdb l bloom max nodes st).mem x).err ≠ none := by
  intro nodes
  induction nodes with
  | nil => intro st h; exact h
  | cons e rest ih =>
    intro st h
    unfold filterLoop
    dsimp only
    repeat' split
    · exact ih st h
    · exact ih _ h
    · exact ih _ (filterEntry_errs P txdb bloom e _ h)
    · exact ih _ (filterEntry_errs P txdb bloom e st h)
    · exact h

end TransactionPool

namespace TransactionPool

/-! ### The calls of the pool -/

theorem removeOldLoop_keeps (P : Primitives) (bts : Int) :
    ∀ (l : List Ptr) (tp : TransactionPool),
      (removeOldLoop P bts l tp).size = tp.size
        ∧ (removeOldLoop P bts l tp).list.next = tp.list.next
        ∧ (∀ q, (tp.list.mem q).err ≠ none → ((removeOldLoop P bts l tp).list.mem q).err ≠ none)
        ∧ (removeOldLoop P bts l tp).list.nodes.length ≤ tp.list.nodes.length := by
  intro l
  induction l with
  | nil => intro tp; exact ⟨rfl, rfl, fun _ h => h, le_refl _⟩
  | cons iter rest ih =>
    intro tp
    unfold removeOldLoop
    dsimp only
    split
    · obtain ⟨a, b, c, d⟩ := ih
        { tp with
          list := { (tp.list.Remove iter).1 with
                    mem := setErrIfNil (tp.list.Remove iter).1.mem iter
                      (TxError.ExpiredTransaction
                        (wrapInt64 (bts - (tp.list.mem iter).value.Timestamp))) },
          events := tp.events ++
            [.OnTxDrop ((tp.list.mem iter).value.ID P)
                (((tp.list.mem iter).err).getD (TxError.ExpiredTransaction
                  (wrapInt64 (bts - (tp.list.mem iter).value.Timestamp)))),
              .OnDropTx ((tp.list.mem iter).value.Bytes P).length
                (decide ((tp.list.mem iter).ts ≠ 0))] }
      refine ⟨a, b, ?_, ?_⟩
      · intro q hq
        apply c
        show (setErrIfNil tp.list.mem iter _ q).err ≠ none
        rw [setErrIfNil_sticky _ _ _ _ hq]
        exact hq
      · refine le_trans d ?_
        show (tp.list.nodes.filter fun p => decide (p ≠ iter)).length ≤ tp.list.nodes.length
        exact List.length_filter_le _ _
    · exact ih tp

theorem RemoveTx_keeps (P : Primitives) (l : transactionList) (t : transactionV3) :
    (l.RemoveTx P t).1.mem = l.mem ∧ (l.RemoveTx P t).1.next = l.next
      ∧ (l.RemoveTx P t).1.nodes.length ≤ l.nodes.length := by
  unfold transactionList.RemoveTx
  split
  · refine ⟨rfl, rfl, ?_⟩
    show (l.nodes.filter _).length ≤ l.nodes.length
    exact List.length_filter_le _ _
  · exact ⟨rfl, rfl, le_refl _⟩

theorem removeListLoop_keeps (P : Primitives) (now : Int) :
    ∀ (items : List (Option transactionV3)) (st : Removal),
      (removeListLoop P now items st).pool.size = st.pool.size
        ∧ (removeListLoop P now items st).pool.list.next = st.pool.list.next
        ∧ (removeListLoop P now items st).pool.list.mem = st.pool.list.mem
        ∧ (removeListLoop P now items st).pool.list.nodes.length
            ≤ st.pool.list.nodes.length := by
  intro items
  induction items with
  | nil => intro st; exact ⟨rfl, rfl, rfl, le_refl _⟩
  | cons item rest ih =>
    intro st
    cases item with
    | none => simp only [removeListLoop]; exact ih st
    | some t =>
      obtain ⟨k1, k2, k3⟩ := RemoveTx_keeps P st.pool.list t
      simp only [removeListLoop]
      rcases hr : st.pool.list.RemoveTx P t with ⟨l, ok, ts⟩
      rw [hr] at k1 k2 k3
      simp only at k1 k2 k3
      cases ok with
      | true =>
        simp only
        obtain ⟨a, b, c, d⟩ := ih
          { pool := { st.pool with
                      list := l,
                      events := st.pool.events
                        ++ [.OnRemoveTx (t.Bytes P).length (decide (ts ≠ 0))] },
            duration := if ts ≠ 0 then wrapInt64 (st.duration + timeSub now ts) else st.duration,
            count := if ts ≠ 0 then st.count + 1 else st.count }
        exact ⟨a, b.trans k2, c.trans k1, le_trans d k3⟩
      | false =>
        simp only
        exact ih st

theorem removeTransactions_keeps (P : Primitives) :
    ∀ (l : List Ptr) (tp tp' : TransactionPool), removeTransactions P l tp = some tp' →
      tp'.size = tp.size ∧ tp'.list.next = tp.list.next ∧ tp'.list.mem = tp.list.mem
        ∧ tp'.list.nodes.length ≤ tp.list.nodes.length := by
  intro l
  induction l with
  | nil =>
    intro tp tp' h
    simp only [removeTransactions, Option.some.injEq] at h
    subst h
    exact ⟨rfl, rfl, rfl, le_refl _⟩
  | cons e es ih =>
    intro tp tp' h
    unfold removeTransactions at h
    split at h
    · dsimp only at h
      split at h
      · cases h
      · obtain ⟨a, b, c, d⟩ := ih _ tp' h
        refine ⟨a, b, c, le_trans d ?_⟩
        show (tp.list.nodes.filter fun p => decide (p ≠ e)).length ≤ tp.list.nodes.length
        exact List.length_filter_le _ _
    · exact ih tp tp' h

/-- The loop of `FilterTransactions` never clears an error. -/
theorem filterLoop_sticky (P : Primitives) (txdb : Bucket) (l : transactionList)
    (bloom : TxBloom) (max : Int) :
    ∀ (nodes : List Ptr) (st : Filtering) (q : Ptr), (st.mem q).err ≠ none →
      ((filterLoop P txdb l bloom max nodes st).mem q).err ≠ none := by
  have hentry : ∀ (e : Ptr) (st : Filtering) (q : Ptr), (st.mem q).err ≠ none →
      ((filterEntry P txdb bloom e st).mem q).err ≠ none := by
    intro e st q hq
    rcases filterEntry_cases P txdb bloom e st with ⟨-, hc⟩ | ⟨-, -, hc⟩ | ⟨-, -, hc⟩
    · rw [hc]; exact hq
    · rw [hc]
      by_cases hqe : q = e
      · subst hqe; simp [setErr_err_self]
      · simp only
        rw [setErr_of_ne _ _ _ _ hqe]
        exact hq
    · rw [hc]; exact hq
  intro nodes
  induction nodes with
  | nil => intro st q h; exact h
  | cons e rest ih =>
    intro st q h
    unfold filterLoop
    dsimp only
    repeat' split
    · exact ih st q h
    · exact ih _ q h
    · exact ih _ q (hentry e _ q h)
    · exact ih _ q (hentry e st q h)
    · exact h

/-- Every call keeps the capacity, the allocation pointer and the recorded
errors, and only `Add` below the capacity adds an entry. -/
theorem call_keeps (P : Primitives) (tp tp' : TransactionPool) (c : PoolCall)
    (h : tp.call P c = some tp') : Keeps tp tp' := by
  cases c with
  | Add now tx direct =>
    simp only [call, Option.some.injEq] at h
    subst h
    unfold Add
    cases tx with
    | none => exact ⟨rfl, le_refl _, fun _ _ h => h, Or.inl (le_refl _)⟩
    | some tx =>
      dsimp only
      by_cases hfull : tp.list.Len ≥ tp.size
      · rw [if_pos hfull]
        exact ⟨rfl, le_refl _, fun _ _ h => h, Or.inl (le_refl _)⟩
      · rw [if_neg hfull]
        unfold transactionList.Add
        by_cases hh : tp.list.HasTx P (tx.ID P) = true
        · simp only [hh, if_true]
          exact ⟨rfl, le_refl _, fun _ _ h => h, Or.inl (le_refl _)⟩
        · simp only [hh, if_false]
          refine ⟨rfl, Nat.le_succ _, ?_, Or.inr ⟨by omega, by simp⟩⟩
          intro q hq herr
          have hne : q ≠ tp.list.next := Nat.ne_of_lt hq
          simpa [hne] using herr
  | RemoveOldTXs bts =>
    simp only [call, Option.some.injEq] at h
    subst h
    obtain ⟨a, b, c, d⟩ := removeOldLoop_keeps P bts tp.list.nodes tp
    exact ⟨a, le_of_eq b.symm, fun q _ hq => c q hq, Or.inl d⟩
  | RemoveList now txs =>
    simp only [call, Option.some.injEq] at h
    subst h
    obtain ⟨a, b, c, d⟩ := removeListLoop_keeps P now txs.items ⟨tp, 0, 0⟩
    unfold RemoveList
    split
    · exact ⟨rfl, le_refl _, fun _ _ h => h, Or.inl (le_refl _)⟩
    · dsimp only
      split
      · exact ⟨a, le_of_eq b.symm, fun q _ hq => by rw [show _ = _ from c]; exact hq, Or.inl d⟩
      · exact ⟨a, le_of_eq b.symm, fun q _ hq => by rw [c]; exact hq, Or.inl d⟩
  | Candidate wc maxBytes maxCount =>
    simp only [call, Option.some.injEq] at h
    subst h
    by_cases hne : tp.list.Len = 0
    · simp only [Candidate, hne, if_true]
      exact ⟨rfl, le_refl _, fun _ _ h => h, Or.inl (le_refl _)⟩
    · obtain ⟨-, -, -, c4, c5, -⟩ := Candidate_view P tp wc maxBytes maxCount hne
      obtain ⟨-, -, -, -, -, -, -, s8⟩ := selectPhase_spec P tp wc maxBytes maxCount
      obtain ⟨-, -, -, -, v4, -⟩ := validateAll_spec P tp.txdb
        (selectPhase P tp wc maxBytes maxCount).txs
        (validateInit (selectPhase P tp wc maxBytes maxCount) wc)
      refine ⟨?_, ?_, ?_, Or.inl (by rw [c5])⟩
      · simp only [Candidate, hne, if_false]
      · simp only [Candidate, hne, if_false]
        exact le_refl _
      · intro q _ hq
        rw [c4]
        apply v4
        show ((selectPhase P tp wc maxBytes maxCount).mem q).err ≠ none
        rw [s8 q hq]
        exact hq
  | FilterTransactions bloom max =>
    simp only [call, Option.map_eq_some'] at h
    obtain ⟨r, hr, rfl⟩ := h
    unfold FilterTransactions at hr
    split at hr
    · cases hr
    · simp only [Option.some.injEq] at hr
      subst hr
      exact ⟨rfl, le_refl _,
        fun q _ hq => filterLoop_sticky P tp.txdb tp.list bloom max tp.list.nodes _ q hq,
        Or.inl (le_refl _)⟩
  | removeTransactions txs =>
    simp only [call] at h
    obtain ⟨a, b, c, d⟩ := removeTransactions_keeps P txs tp tp' h
    exact ⟨a, le_of_eq b.symm, fun q _ hq => by rw [c]; exact hq, Or.inl d⟩

/-- A sequence of calls keeps the capacity, the allocation pointer and the
recorded errors, and a pool within its capacity stays within it. -/
theorem calls_keeps (P : Primitives) :
    ∀ (cs : List PoolCall) (tp tp' : TransactionPool), calls P cs tp = some tp' →
      tp'.size = tp.size
        ∧ tp.list.next ≤ tp'.list.next
        ∧ (∀ q, q < tp.list.next → (tp.list.mem q).err ≠ none → (tp'.list.mem q).err ≠ none)
        ∧ (tp.list.Len ≤ tp.size → tp'.list.Len ≤ tp'.size) := by
  intro cs
  induction cs with
  | nil =>
    intro tp tp' h
    simp only [calls, Option.some.injEq] at h
    subst h
    exact ⟨rfl, le_refl _, fun _ _ h => h, fun h => h⟩
  | cons c rest ih =>
    intro tp tp' h
    simp only [calls] at h
    cases hc : tp.call P c with
    | none => rw [hc] at h; cases h
    | some tp1 =>
      rw [hc] at h
      obtain ⟨k1, k2, k3, k4⟩ := call_keeps P tp tp1 c hc
      obtain ⟨r1, r2, r3, r4⟩ := ih tp1 tp' h
      refine ⟨r1.trans k1, le_trans k2 r2, ?_, ?_⟩
      · intro q hq herr
        exact r3 q (lt_of_lt_of_le hq k2) (k3 q hq herr)
      · intro hle
        apply r4
        rw [k1]
        unfold transactionList.Len at hle ⊢
        rcases k4 with k4 | ⟨k4, k5⟩
        · have : (tp1.list.nodes.length : Int) ≤ tp.list.nodes.length := by exact_mod_cast k4
          omega
        · unfold transactionList.Len at k4
          rw [k5]
          push_cast
          omega

/-- C30: a pool made by `NewTransactionPool` with a size that is not negative
holds, after any sequence of `Add`, `RemoveOldTXs`, `RemoveList`, `Candidate`,
`FilterTransactions` and `removeTransactions` calls, at most `Size()` entries,
and `Size()` is the size it was made with. -/
theorem Used_le_Size (P : Primitives) (group : TransactionGroup) (size : Int) (txdb : Bucket)
    (target width : Nat) (cs : List PoolCall) (tp : TransactionPool) (hsize : 0 ≤ size)
    (hrun : calls P cs (NewTransactionPool group size txdb target width) = some tp) :
    tp.Used ≤ tp.Size ∧ tp.Size = size := by
  obtain ⟨k1, -, -, k4⟩ := calls_keeps P cs _ tp hrun
  exact ⟨k4 (by simpa [NewTransactionPool, transactionList.new, transactionList.Len] using hsize),
    k1⟩

/-- Witness of C30: `sampleCalls` on a pool of size 2. -/
theorem Used_le_Size_witness :
    ∃ tp, calls samplePrimitives sampleCalls
          (NewTransactionPool .TransactionGroupNormal 2 (sampleBucket [[2]]) 16 4096) = some tp
      ∧ (tp.Used ≤ tp.Size ∧ tp.Size = 2)
      ∧ tp.Used = 1 := by
  have hev : (calls samplePrimitives sampleCalls
      (NewTransactionPool .TransactionGroupNormal 2 (sampleBucket [[2]]) 16 4096)).map
      (fun tp => tp.Used) = some 1 := by decide
  cases hr : calls samplePrimitives sampleCalls
      (NewTransactionPool .TransactionGroupNormal 2 (sampleBucket [[2]]) 16 4096) with
  | none => rw [hr] at hev; cases hev
  | some tp =>
    rw [hr] at hev
    exact ⟨tp, rfl, Used_le_Size samplePrimitives _ 2 _ 16 4096 sampleCalls tp (by decide) hr,
      by simpa using hev⟩

end TransactionPool

namespace TransactionPool

/-! ### The remover after other calls -/

/-- The loop of `FilterTransactions` puts entries of the list into `invalids`
only. -/
theorem filterLoop_invalids_mem (P : Primitives) (txdb : Bucket) (l : transactionList)
    (bloom : TxBloom) (max : Int) :
    ∀ (nodes : List Ptr) (st : Filtering),
      ∀ x ∈ (filterLoop P txdb l bloom max nodes st).invalids, x ∈ st.invalids ∨ x ∈ nodes := by
  have hentry : ∀ (e : Ptr) (st : Filtering),
      ∀ x ∈ (filterEntry P txdb bloom e st).invalids, x ∈ st.invalids ∨ x = e := by
    intro e st x hx
    rcases filterEntry_cases P txdb bloom e st with ⟨-, hc⟩ | ⟨-, -, hc⟩ | ⟨-, -, hc⟩
    · rw [hc] at hx; exact Or.inl hx
    · rw [hc] at hx
      rcases List.mem_append.mp hx with h | h
      · exact Or.inl h
      · exact Or.inr (List.mem_singleton.mp h)
    · rw [hc] at hx; exact Or.inl hx
  intro nodes
  induction nodes with
  | nil => intro st x hx; exact Or.inl hx
  | cons e rest ih =>
    intro st x hx
    unfold filterLoop at hx
    dsimp only at hx
    have hlift : ∀ (s2 : Filtering), (∀ y ∈ s2.invalids, y ∈ st.invalids ∨ y = e) →
        x ∈ (filterLoop P txdb l bloom max rest s2).invalids →
        x ∈ st.invalids ∨ x ∈ e :: rest := by
      intro s2 hs2 hx2
      rcases ih s2 x hx2 with h | h
      · rcases hs2 x h with h | h
        · exact Or.inl h
        · exact Or.inr (h ▸ List.mem_cons_self _ _)
      · exact Or.inr (List.mem_cons_of_mem _ h)
    repeat' split at hx
    all_goals first
      | exact Or.inl hx
      | (refine hlift _ ?_ hx; intro y hy; exact Or.inl hy)
      | (refine hlift _ ?_ hx; intro y hy; have h2 := hentry e _ y hy; exact h2)

/-- C29: every element that `Candidate` or `FilterTransactions` hands to
`removeTransactions` has an error recorded in the heap they leave, so the
remover run on that slice does not reach its panic "No reason to drop the
tx"; and since no call of the pool clears an error of an allocated entry, it
does not reach it either when other calls are made before it gets the lock. -/
theorem remover_has_reason (P : Primitives) (tp : TransactionPool) (wc : WorldContext)
    (maxBytes maxCount : Int) (bloom : TxBloom) (max : Int) :
    (∀ e ∈ (Candidate P tp wc maxBytes maxCount).remove,
        ((Candidate P tp wc maxBytes maxCount).pool.list.mem e).err ≠ none)
      ∧ (∃ tp', removeTransactions P (Candidate P tp wc maxBytes maxCount).remove
          (Candidate P tp wc maxBytes maxCount).pool = some tp')
      ∧ (∀ r, tp.FilterTransactions P bloom max = some r →
          (∀ e ∈ r.remove, (r.pool.list.mem e).err ≠ none)
            ∧ ∃ tp', removeTransactions P r.remove r.pool = some tp')
      ∧ (tp.list.WF → ∀ (cs : List PoolCall) (tp2 : TransactionPool),
          calls P cs (Candidate P tp wc maxBytes maxCount).pool = some tp2 →
          ∃ tp3, removeTransactions P (Candidate P tp wc maxBytes maxCount).remove tp2
            = some tp3)
      ∧ (tp.list.WF → ∀ r, tp.FilterTransactions P bloom max = some r →
          ∀ (cs : List PoolCall) (tp2 : TransactionPool), calls P cs r.pool = some tp2 →
          ∃ tp3, removeTransactions P r.remove tp2 = some tp3) := by
  -- the slice of `Candidate`: errors recorded, entries of the list
  have hc : ∀ e ∈ (Candidate P tp wc maxBytes maxCount).remove,
      ((Candidate P tp wc maxBytes maxCount).pool.list.mem e).err ≠ none
        ∧ e ∈ tp.list.nodes
        ∧ (Candidate P tp wc maxBytes maxCount).pool.list.next = tp.list.next := by
    by_cases hne : tp.list.Len = 0
    · intro e he
      simp [Candidate, hne] at he
    · obtain ⟨-, -, -, c4, -, c6⟩ := Candidate_view P tp wc maxBytes maxCount hne
      obtain ⟨-, s2, -, -, s5, -, s7, -⟩ := selectPhase_spec P tp wc maxBytes maxCount
      obtain ⟨-, -, -, ⟨inv, v1, v2, v3⟩, v4, -⟩ := validateAll_spec P tp.txdb
        (selectPhase P tp wc maxBytes maxCount).txs
        (validateInit (selectPhase P tp wc maxBytes maxCount) wc)
      have hnext : (Candidate P tp wc maxBytes maxCount).pool.list.next = tp.list.next := by
        simp only [Candidate, hne, if_false]
      intro e he
      rw [c6] at he
      rw [c4]
      rcases List.mem_append.mp he with h | h
      · rw [v1] at h
        simp only [validateInit, List.nil_append] at h
        exact ⟨v3 e h, s2.subset (v2.subset h), hnext⟩
      · exact ⟨v4 e (s7 e h), s5.subset h, hnext⟩
  -- the slice of `FilterTransactions`
  have hf : ∀ r, tp.FilterTransactions P bloom max = some r →
      ∀ e ∈ r.remove, (r.pool.list.mem e).err ≠ none ∧ e ∈ tp.list.nodes
        ∧ r.pool.list.next = tp.list.next := by
    intro r hr
    unfold FilterTransactions at hr
    split at hr
    · cases hr
    · simp only [Option.some.injEq] at hr
      subst hr
      intro e he
      refine ⟨filterLoop_errs P tp.txdb tp.list bloom max tp.list.nodes _ (by simp) e he, ?_,
        rfl⟩
      rcases filterLoop_invalids_mem P tp.txdb tp.list bloom max tp.list.nodes _ e he with h | h
      · cases h
      · exact h
  -- the remover later on
  have hlater : ∀ (pool : TransactionPool) (remove : List Ptr),
      (∀ e ∈ remove, (pool.list.mem e).err ≠ none ∧ e ∈ tp.list.nodes
        ∧ pool.list.next = tp.list.next) →
      tp.list.WF → ∀ (cs : List PoolCall) (tp2 : TransactionPool),
      calls P cs pool = some tp2 → ∃ tp3, removeTransactions P remove tp2 = some tp3 := by
    intro pool remove h hwf cs tp2 hcs
    obtain ⟨-, -, k3, -⟩ := calls_keeps P cs pool tp2 hcs
    obtain ⟨tp3, h3, -⟩ := removeTransactions_spec P remove tp2
      (fun e he _ => by
        obtain ⟨a, b, c⟩ := h e he
        exact k3 e (by rw [c]; exact hwf e b) a)
    exact ⟨tp3, h3⟩
  refine ⟨fun e he => (hc e he).1, ?_, ?_, ?_, ?_⟩
  · obtain ⟨tp', h, -⟩ := removeTransactions_spec P _ (Candidate P tp wc maxBytes maxCount).pool
      (fun e he _ => (hc e he).1)
    exact ⟨tp', h⟩
  · intro r hr
    refine ⟨fun e he => (hf r hr e he).1, ?_⟩
    obtain ⟨tp', h, -⟩ := removeTransactions_spec P r.remove r.pool
      (fun e he _ => (hf r hr e he).1)
    exact ⟨tp', h⟩
  · intro hwf cs tp2 hcs
    exact hlater _ _ hc hwf cs tp2 hcs
  · intro hwf r hr cs tp2 hcs
    exact hlater _ _ (hf r hr) hwf cs tp2 hcs

end TransactionPool

namespace TransactionPool

/-! ### The byte total of `Candidate` -/

/-- One validation step keeps `txSize` equal to the total encoded size of the
transactions in `validTxs`. -/
theorem validateElem_size (P : Primitives) (txdb : Bucket) (e : Ptr) (a : Validated)
    (h : a.txSize = (a.validTxs.map fun tx => ((tx.Bytes P).length : Int)).sum) :
    (validateElem P txdb e a).txSize
      = ((validateElem P txdb e a).validTxs.map fun tx => ((tx.Bytes P).length : Int)).sum := by
  rcases validateElem_cases P txdb e a with
    ⟨-, hc⟩ | ⟨err, wc, -, -, ⟨-, hc⟩ | ⟨-, hc⟩⟩ | ⟨wc, -, -, hc⟩
  · rw [hc]; exact h
  · rw [hc]; exact h
  · rw [hc]; exact h
  · rw [hc]
    simp only [List.map_append, List.sum_append, List.map_cons, List.map_nil, List.sum_cons,
      List.sum_nil, add_zero]
    rw [h]

theorem validateAll_size (P : Primitives) (txdb : Bucket) :
    ∀ (l : List Ptr) (a : Validated),
      a.txSize = (a.validTxs.map fun tx => ((tx.Bytes P).length : Int)).sum →
      (validateAll P txdb l a).txSize
        = ((validateAll P txdb l a).validTxs.map fun tx => ((tx.Bytes P).length : Int)).sum := by
  intro l
  induction l with
  | nil => intro a h; exact h
  | cons e es ih =>
    intro a h
    simp only [validateAll]
    exact ih _ (validateElem_size P txdb e a h)

/-- C31: the byte total `Candidate` returns is the sum of `len(tx.Bytes())`
over the transactions it returns, which are those of the selected elements
that are not in `txdb` and pass `PreValidate`; it is counted anew in the
validation phase, so the selected elements that are dropped there do not
count.  For an empty pool the slice is empty and the total 0. -/
theorem Candidate_size_sum (P : Primitives) (tp : TransactionPool) (wc : WorldContext)
    (maxBytes maxCount : Int) :
    (Candidate P tp wc maxBytes maxCount).size
        = ((Candidate P tp wc maxBytes maxCount).txs.map
            fun tx => ((tx.Bytes P).length : Int)).sum
      ∧ (Candidate P tp wc maxBytes maxCount).txs
        = (accepted P tp.txdb tp.list.mem (selectPhase P tp wc maxBytes maxCount).txs wc).map
            (fun e => (tp.list.mem e).value)
      ∧ (Candidate P tp wc maxBytes maxCount).size
        = bytesSum P tp.list.mem
            (accepted P tp.txdb tp.list.mem (selectPhase P tp wc maxBytes maxCount).txs wc)
      ∧ (tp.list.Len = 0 →
          (Candidate P tp wc maxBytes maxCount).txs = []
            ∧ (Candidate P tp wc maxBytes maxCount).size = 0) := by
  obtain ⟨s1, s2, -, -, s5, -, -, -⟩ := selectPhase_spec P tp wc maxBytes maxCount
  have hempty : tp.list.Len = 0 →
      (Candidate P tp wc maxBytes maxCount).txs = []
        ∧ (Candidate P tp wc maxBytes maxCount).size = 0 := by
    intro h0
    simp [Candidate, h0]
  have hsum : (Candidate P tp wc maxBytes maxCount).size
      = ((Candidate P tp wc maxBytes maxCount).txs.map
          fun tx => ((tx.Bytes P).length : Int)).sum := by
    by_cases hne : tp.list.Len = 0
    · obtain ⟨a, b⟩ := hempty hne
      rw [a, b]
      rfl
    · obtain ⟨c1, c2, -, -, -, -⟩ := Candidate_view P tp wc maxBytes maxCount hne
      rw [c1, c2]
      exact validateAll_size P tp.txdb _ _ (by simp [validateInit])
  have htxs : (Candidate P tp wc maxBytes maxCount).txs
      = (accepted P tp.txdb tp.list.mem (selectPhase P tp wc maxBytes maxCount).txs wc).map
          (fun e => (tp.list.mem e).value) := by
    by_cases hne : tp.list.Len = 0
    · have hnil : tp.list.nodes = [] := by simpa [transactionList.Len] using hne
      rw [hnil] at s2
      rw [List.sublist_nil.mp s2, (hempty hne).1]
      simp [accepted]
    · obtain ⟨c1, -, -, -, -, -⟩ := Candidate_view P tp wc maxBytes maxCount hne
      obtain ⟨-, v2⟩ := validateAll_slices P tp.txdb tp.list.mem
        (selectPhase P tp wc maxBytes maxCount).txs
        (validateInit (selectPhase P tp wc maxBytes maxCount) wc) s1
      rw [c1, v2]
      simp [validateInit]
  refine ⟨hsum, htxs, ?_, hempty⟩
  rw [hsum, htxs, List.map_map]
  rfl

/-- Witness of C31: in `slicePool` three entries of 10 bytes are selected, one
transaction is returned, and the total is 10. -/
theorem Candidate_size_sum_witness :
    (Candidate samplePrimitives slicePool (sampleWorld 70000000 []) 0 0).size
        = ((Candidate samplePrimitives slicePool (sampleWorld 70000000 []) 0 0).txs.map
            fun tx => ((tx.Bytes samplePrimitives).length : Int)).sum
      ∧ (Candidate samplePrimitives slicePool (sampleWorld 70000000 []) 0 0).size = 10
      ∧ (selectPhase samplePrimitives slicePool (sampleWorld 70000000 []) 0 0).txSize = 30
      ∧ (Candidate samplePrimitives (samplePool 10 [] []) (sampleWorld 70000000 []) 0 0).size
        = 0 :=
  ⟨(Candidate_size_sum samplePrimitives slicePool (sampleWorld 70000000 []) 0 0).1,
    by decide, by decide, by decide⟩

end TransactionPool

/-! ### The memo of `TxHash` -/

/-- `calcHash` fails on data that cannot be parsed or serialized. -/
theorem calcHash_unhashable (P : Primitives) (d : transactionV3Data) (h : d.Unhashable P) :
    d.calcHash P = none := by
  obtain ⟨bs, hd, hlen, hfail⟩ := h
  unfold transactionV3Data.calcHash transactionV3Data.hashInput
  rw [hd]
  rcases hfail with hj | ⟨obj, hj, hs⟩
  · simp [hlen, hj]
  · simp [hlen, hj, hs]

/-- The value `TxHash()` returns is the value of the view without the memo
write, and the memo it leaves makes every later call return that value and
write nothing. -/
theorem TxHashMemo_spec (P : Primitives) (tx : transactionV3) :
    (tx.TxHashMemo P).2 = tx.TxHash P
      ∧ (tx.TxHashMemo P).1.txHash = some (tx.TxHash P)
      ∧ (tx.TxHashMemo P).1.data = tx.data
      ∧ (tx.TxHashMemo P).1.bytes = tx.bytes
      ∧ (tx.TxHashMemo P).1.TxHashMemo P = ((tx.TxHashMemo P).1, tx.TxHash P) := by
  unfold transactionV3.TxHashMemo transactionV3.TxHash
  cases hm : tx.txHash with
  | some h => simp [hm]
  | none =>
    cases hc : tx.data.calcHash P with
    | none => simp
    | some h => simp

/-- C33: for a transaction whose data is present, not empty, and cannot be
parsed or serialized, `calcHash` fails; the first `TxHash()` (and `ID()`) then
returns the empty byte string and stores it, as a value that is not `nil`, in
the memo.  Two such transactions have equal ids.  For every transaction a
repeated `TxHash()` returns the value of the first call and leaves the
transaction as the first call left it. -/
theorem TxHash_memo (P : Primitives) (tx1 tx2 tx : transactionV3)
    (h1 : tx1.data.Unhashable P) (h2 : tx2.data.Unhashable P)
    (m1 : tx1.txHash = none) (m2 : tx2.txHash = none) :
    tx1.data.calcHash P = none
      ∧ tx1.TxHashMemo P = ({ tx1 with txHash := some [] }, [])
      ∧ tx1.IDMemo P = ({ tx1 with txHash := some [] }, [])
      ∧ (tx1.TxHashMemo P).1.TxHashMemo P = ({ tx1 with txHash := some [] }, [])
      ∧ (tx1.TxHashMemo P).2 = (tx2.TxHashMemo P).2
      ∧ tx1.ID P = tx2.ID P
      ∧ (tx1.TxHashMemo P).1.ID P = (tx2.TxHashMemo P).1.ID P
      ∧ ((tx.TxHashMemo P).1.TxHashMemo P).2 = (tx.TxHashMemo P).2
      ∧ ((tx.TxHashMemo P).1.TxHashMemo P).1 = (tx.TxHashMemo P).1
      ∧ (tx.TxHashMemo P).2 = tx.TxHash P := by
  have c1 := calcHash_unhashable P tx1.data h1
  have c2 := calcHash_unhashable P tx2.data h2
  have e1 : tx1.TxHashMemo P = ({ tx1 with txHash := some [] }, []) := by
    simp [transactionV3.TxHashMemo, m1, c1]
  have e2 : tx2.TxHashMemo P = ({ tx2 with txHash := some [] }, []) := by
    simp [transactionV3.TxHashMemo, m2, c2]
  have i1 : tx1.ID P = [] := by
    simp [transactionV3.ID, transactionV3.TxHash, m1, c1]
  have i2 : tx2.ID P = [] := by
    simp [transactionV3.ID, transactionV3.TxHash, m2, c2]
  obtain ⟨t1, -, -, -, t5⟩ := TxHashMemo_spec P tx
  refine ⟨c1, e1, e1, ?_, by rw [e1, e2], by rw [i1, i2], ?_, ?_, ?_, t1⟩
  · rw [e1]
    rfl
  · rw [e1, e2]
    rfl
  · rw [t5, t1]
  · rw [t5]

/-- Witness of C33: two transactions that differ in sender and timestamp and
carry data that is not JSON have the empty id. -/
theorem TxHash_memo_witness :
    (brokenTx 7 100).data.calcHash strictPrimitives = none
      ∧ (brokenTx 7 100).ID strictPrimitives = (brokenTx 8 200).ID strictPrimitives
      ∧ (brokenTx 7 100).TxHashMemo strictPrimitives
        = ({ brokenTx 7 100 with txHash := some [] }, [])
      ∧ (brokenTx 7 100).data ≠ (brokenTx 8 200).data :=
  ⟨(TxHash_memo strictPrimitives (brokenTx 7 100) (brokenTx 8 200) (brokenTx 7 100)
      ⟨ascii "oops", rfl, by decide, Or.inl rfl⟩ ⟨ascii "oops", rfl, by decide, Or.inl rfl⟩
      rfl rfl).1,
    (TxHash_memo strictPrimitives (brokenTx 7 100) (brokenTx 8 200) (brokenTx 7 100)
      ⟨ascii "oops", rfl, by decide, Or.inl rfl⟩ ⟨ascii "oops", rfl, by decide, Or.inl rfl⟩
      rfl rfl).2.2.2.2.2.1,
    (TxHash_memo strictPrimitives (brokenTx 7 100) (brokenTx 8 200) (brokenTx 7 100)
      ⟨ascii "oops", rfl, by decide, Or.inl rfl⟩ ⟨ascii "oops", rfl, by decide, Or.inl rfl⟩
      rfl rfl).2.1,
    by decide⟩


namespace ForwardCache

/-! ### Claim on the iterations of the height loop -/

/-- C32: the height loop of `scheduleFollowings` ends for every block, every
`blockInfo` with `int64` keys and every `MaxBlocks`.  Its number of iterations
`n` is the least fuel with which `scheduleFollowings` returns.  Each iteration
either appends a new height to the keys or leaves the cache as it is because
the height is a key; `n` is at most `(MaxBlocks - len(blockInfo))` plus
`len(blockInfo)`, at most `(MaxBlocks - len(blockInfo))` plus the number of
keys above `b.Height()` when the heights visited stay below `2 ^ 63`, and zero
when `len(blockInfo) >= MaxBlocks`. -/
theorem heightLoop_iterations (cs : ForwardCache) (b : Block)
    (hkeys : ∀ kv ∈ cs.blockInfo, -2 ^ 63 ≤ kv.1 ∧ kv.1 < 2 ^ 63)
    (hmax : cs.config.MaxBlocks < 2 ^ 63) (hlen : (cs.blockInfo.length : Int) < 2 ^ 63) :
    ∃ n cs',
      (∀ fuel, n ≤ fuel → cs.scheduleFollowings fuel b = some cs')
        ∧ (∀ fuel, fuel < n → cs.scheduleFollowings fuel b = none)
        ∧ n ≤ (cs.config.MaxBlocks - cs.blockInfo.length).toNat + cs.blockInfo.length
        ∧ (-2 ^ 63 ≤ b.Height →
            b.Height + 1 + ((cs.config.MaxBlocks - cs.blockInfo.length).toNat
              + (cs.blockInfo.filter fun kv => decide (b.Height < kv.1)).length : Nat) < 2 ^ 63 →
            n ≤ (cs.config.MaxBlocks - cs.blockInfo.length).toNat
              + (cs.blockInfo.filter fun kv => decide (b.Height < kv.1)).length)
        ∧ (cs.config.MaxBlocks ≤ cs.blockInfo.length → n = 0)
        ∧ ∀ (c : ForwardCache) (h : Int),
            (h ∉ c.heights ∧ (c.scheduleBlockInLock h).heights = c.heights ++ [h])
              ∨ (h ∈ c.heights ∧ c.scheduleBlockInLock h = c) := by
  obtain ⟨s1, s2, -, -⟩ := scheduleReceipts_spec b.NormalTransactions cs
  obtain ⟨r1, r2⟩ := wrapInt64_range (b.Height + 1)
  have hfl := List.length_filter_le
    (fun kv : Int × blockTask =>
      decide ((kv.1 - wrapInt64 (b.Height + 1)) % 2 ^ 64 + ((0 : Nat) : Int) < 2 ^ 64))
    cs.blockInfo
  have hwb : (scheduleReceipts b.NormalTransactions cs).wrapBudget (wrapInt64 (b.Height + 1)) 0
      ≤ (cs.config.MaxBlocks - cs.blockInfo.length).toNat + cs.blockInfo.length := by
    unfold wrapBudget
    rw [s1, s2]
    omega
  obtain ⟨cs', hterm⟩ := heightLoop_terminates _ (wrapInt64 (b.Height + 1))
    (scheduleReceipts b.NormalTransactions cs) 0 r1 r2 (by rw [s1]; exact hkeys)
    (le_refl _) (by omega)
  obtain ⟨n, a1, a2, a3, a4⟩ := heightLoop_exact _ _ _ _ hterm
  have hfilter : (cs.blockInfo.filter fun kv => decide (b.Height < kv.1))
      = cs.blockInfo.filter fun kv => decide (b.Height + 1 ≤ kv.1) := by
    apply List.filter_congr
    intro kv _
    rw [decide_eq_decide]
    omega
  refine ⟨n, cs', fun fuel hf => a2 fuel hf, fun fuel hf => a3 fuel hf, by omega, ?_, ?_, ?_⟩
  · intro hlo hhi
    rw [hfilter] at hhi ⊢
    have hw : wrapInt64 (b.Height + 1) = b.Height + 1 := by
      unfold wrapInt64
      omega
    have hbud := heightBudget_scheduleReceipts b.NormalTransactions cs (b.Height + 1)
    have hB : cs.heightBudget (b.Height + 1)
        = (cs.config.MaxBlocks - cs.blockInfo.length).toNat
          + (cs.blockInfo.filter fun kv => decide (b.Height + 1 ≤ kv.1)).length := rfl
    obtain ⟨c2, -, hsome, -⟩ := heightLoop_spec (cs.heightBudget (b.Height + 1)) (b.Height + 1)
      (scheduleReceipts b.NormalTransactions cs) (by omega) (by omega) (by omega)
    rw [← hB]
    by_contra hn
    have hnone := a3 (cs.heightBudget (b.Height + 1)) (by omega)
    rw [hw, hsome] at hnone
    cases hnone
  · intro hge
    exact (a4 (by rw [s1, s2]; exact hge)).1
  · intro c h
    obtain ⟨e1, -⟩ := heights_scheduleBlockInLock c h
    by_cases hm : h ∈ c.heights
    · right
      refine ⟨hm, ?_⟩
      cases hp : mapGet c.blockInfo h with
      | some t => exact scheduleBlockInLock_present c h t hp
      | none =>
        exfalso
        rw [mapGet_eq_none] at hp
        exact hp hm
    · left
      rw [if_neg hm] at e1
      exact ⟨hm, e1⟩

/-- Witness of C32: in a cache with `MaxBlocks = 5` that holds the heights 102
and 104, the loop after a block of height 100 makes five iterations, three
that add 101, 103 and 105 and two that step past 102 and 104. -/
theorem heightLoop_iterations_witness :
    (∃ n cs',
      (∀ fuel, n ≤ fuel → gapCache.scheduleFollowings fuel block100 = some cs')
        ∧ (∀ fuel, fuel < n → gapCache.scheduleFollowings fuel block100 = none)
        ∧ n ≤ (gapCache.config.MaxBlocks - gapCache.blockInfo.length).toNat
            + gapCache.blockInfo.length
        ∧ (-2 ^ 63 ≤ block100.Height →
            block100.Height + 1 + ((gapCache.config.MaxBlocks - gapCache.blockInfo.length).toNat
              + (gapCache.blockInfo.filter fun kv => decide (block100.Height < kv.1)).length
                : Nat) < 2 ^ 63 →
            n ≤ (gapCache.config.MaxBlocks - gapCache.blockInfo.length).toNat
              + (gapCache.blockInfo.filter fun kv => decide (block100.Height < kv.1)).length)
        ∧ (gapCache.config.MaxBlocks ≤ gapCache.blockInfo.length → n = 0)
        ∧ ∀ (c : ForwardCache) (h : Int),
            (h ∉ c.heights ∧ (c.scheduleBlockInLock h).heights = c.heights ++ [h])
              ∨ (h ∈ c.heights ∧ c.scheduleBlockInLock h = c))
      ∧ gapCache.heights = [102, 104]
      ∧ gapCache.scheduleFollowings 4 block100 = none
      ∧ (gapCache.scheduleFollowings 5 block100).map heights
          = some [102, 104, 101, 103, 105] :=
  ⟨heightLoop_iterations gapCache block100 (by decide) (by decide) (by decide),
    by decide, by decide, by decide⟩

/-- Counterexample to the bound of C32 as stated: in a cache with
`MaxBlocks = 2` whose one key is the smallest `int64`, the loop after a block
at the largest `int64` height makes two iterations, one that steps past the
key and one that adds the next height, while `(MaxBlocks - len(blockInfo))`
plus the number of keys above `b.Height()` is 1. -/
theorem heightLoop_iterations_counterexample :
    wrapCache.heights = [-9223372036854775808]
      ∧ wrapCache.config.MaxBlocks = 2
      ∧ topBlock.Height = 9223372036854775807
      ∧ (wrapCache.config.MaxBlocks - wrapCache.blockInfo.length).toNat
          + (wrapCache.blockInfo.filter fun kv => decide (topBlock.Height < kv.1)).length = 1
      ∧ wrapCache.scheduleFollowings 1 topBlock = none
      ∧ (wrapCache.scheduleFollowings 2 topBlock).map heights
          = some [-9223372036854775808, -9223372036854775807] := by
  decide

end ForwardCache

end Goloop
